import Mathlib

/-!
# TLSF allocator (`tlsf.c`, `bits.c`): embedding and verified properties

The 32-bit target of the sources is modelled: `sizeof(void *) = sizeof(size_t) = 4`.

* Machine words are natural numbers below `2 ^ 32`; every `size_t` / pointer
  addition or subtraction that the code makes is reduced modulo `2 ^ 32` explicitly.
  The four words of a header at address `b` are the words of the memory at `b`,
  `b + 4`, `b + 8` and `b + 12`: a header is taken to end inside the address space.
* The control structure `tlsf_t` that sits at the base of the pool region is kept as a
  record; the words that follow it (block headers, area records, payloads) live in
  a word memory keyed by byte address.
* `int32_t` index variables (`fl`, `sl`) are integers.
* An access outside `sl_bitmap[REAL_FLI]` / `matrix[REAL_FLI][MAX_SLI]`, or a shift by
  an amount outside `0 .. 31`, has no defined behaviour in C: the operations return
  `none` there. The reads of the search `FIND_SUITABLE_BLOCK` are the exception: the
  search of `malloc_ex` leaves the arrays for every request above `0x3F000000`, stores
  nothing, and its reads are followed through the layout of `tlsf_t` as long as they
  stay inside the structure (the word read as `sl_bitmap[24]` is `matrix[0][0]`).
* `CntLeadZeros` and `CntTrailZeros` are `extern` in `bits.c`; they are parameters of
  the model (`Intrinsics`).
-/

namespace TLSF

/-! ## Constants of `tlsf.c` -/

/-- The size of a pointer and of `size_t` on the target. -/
def sizeof_ptr : Nat := 4

def BLOCK_ALIGN : Nat := sizeof_ptr * 2
def MAX_FLI : Nat := 30
def MAX_LOG2_SLI : Nat := 5
def MAX_SLI : Nat := 1 <<< MAX_LOG2_SLI
def FLI_OFFSET : Nat := 6
def SMALL_BLOCK : Nat := 128
def REAL_FLI : Nat := MAX_FLI - FLI_OFFSET
/-- The size of `free_ptr_t`: two pointers. -/
def MIN_BLOCK_SIZE : Nat := 2 * sizeof_ptr
/-- The size of `bhdr_t`: `prev_hdr`, `size` and the `free_ptr` union. -/
def sizeof_bhdr_t : Nat := sizeof_ptr + sizeof_ptr + MIN_BLOCK_SIZE
def BHDR_OVERHEAD : Nat := sizeof_bhdr_t - MIN_BLOCK_SIZE
def TLSF_SIGNATURE : Nat := 0x2A59FA59
def PTR_MASK : Nat := sizeof_ptr - 1
def BLOCK_SIZE : Nat := 0xFFFFFFFF - PTR_MASK
def MEM_ALIGN : Nat := BLOCK_ALIGN - 1
/-- The size of `area_info_t`: `end` and `next`. -/
def sizeof_area_info_t : Nat := 2 * sizeof_ptr
/-- The size of `tlsf_t`: signature, two counters, area head, `fl_bitmap`,
`sl_bitmap[REAL_FLI]` and `matrix[REAL_FLI][MAX_SLI]`. -/
def sizeof_tlsf_t : Nat := 4 + 4 + 4 + 4 + 4 + 4 * REAL_FLI + 4 * (REAL_FLI * MAX_SLI)

def BLOCK_STATE : Nat := 0x1
def PREV_STATE : Nat := 0x2
def FREE_BLOCK : Nat := 0x1
def USED_BLOCK : Nat := 0x0
def PREV_FREE : Nat := 0x2
def PREV_USED : Nat := 0x0

/-! ## 32-bit arithmetic -/

/-- Unsigned 32-bit addition. -/
def add32 (a b : Nat) : Nat := (a + b) % 2 ^ 32

/-- Unsigned 32-bit subtraction. -/
def sub32 (a b : Nat) : Nat := (a % 2 ^ 32 + (2 ^ 32 - b % 2 ^ 32)) % 2 ^ 32

/-- Bitwise complement of a 32-bit word. -/
def not32 (a : Nat) : Nat := 0xFFFFFFFF ^^^ (a % 2 ^ 32)

/-- Left shift of a 32-bit word. -/
def shl32 (a k : Nat) : Nat := (a <<< k) % 2 ^ 32

/-- The value of a 32-bit pattern read as `int32_t`. -/
def toInt32 (x : Nat) : Int := if x % 2 ^ 32 < 2 ^ 31 then (x % 2 ^ 32 : Nat) else (x % 2 ^ 32 : Nat) - 2 ^ 32

def GET_NEXT_BLOCK (addr r : Nat) : Nat := add32 addr r
def ROUNDUP_SIZE (r : Nat) : Nat := add32 r MEM_ALIGN &&& not32 MEM_ALIGN
def ROUNDDOWN_SIZE (r : Nat) : Nat := r &&& not32 MEM_ALIGN

/-! ## Bit scans (`bits.c`) -/

/-- The two `extern` routines of `bits.c`. -/
structure Intrinsics where
  CntLeadZeros : Nat → Nat
  CntTrailZeros : Nat → Nat

def BIT_WORD_SIZE : Nat := 31

def ffs (hw : Intrinsics) (word : Nat) : Nat := sub32 BIT_WORD_SIZE (hw.CntLeadZeros word)

def fls (hw : Intrinsics) (word : Nat) : Nat := sub32 BIT_WORD_SIZE (hw.CntTrailZeros word)

def ls_bit (hw : Intrinsics) (i : Nat) : Int := toInt32 (fls hw i)

def ms_bit (hw : Intrinsics) (i : Nat) : Int := toInt32 (ffs hw i)

def set_bit (nr : Nat) (w : Nat) : Nat := w ||| shl32 1 (nr &&& 0x1f)

def clear_bit (nr : Nat) (w : Nat) : Nat := w &&& not32 (shl32 1 (nr &&& 0x1f))

/-! ## Size to index mappings -/

/-- The function `MAPPING_SEARCH`: the rounded size and the pair `(fl, sl)`. A shift by a negative
amount is taken as a shift by zero; the row index is then negative and the
first array access that follows is outside the arrays. -/
def MAPPING_SEARCH (hw : Intrinsics) (r : Nat) : Nat × Int × Int :=
  if r < SMALL_BLOCK then (r, 0, ((r / (SMALL_BLOCK / MAX_SLI) : Nat) : Int))
  else
    let t : Nat := sub32 (shl32 1 (ms_bit hw r - MAX_LOG2_SLI).toNat) 1
    let r1 : Nat := add32 r t
    let fl : Int := ms_bit hw r1
    let sl : Int := toInt32 (sub32 (r1 >>> (fl - MAX_LOG2_SLI).toNat) MAX_SLI)
    (r1 &&& not32 t, fl - FLI_OFFSET, sl)

/-- The function `MAPPING_INSERT`: the pair `(fl, sl)` of a block size. -/
def MAPPING_INSERT (hw : Intrinsics) (r : Nat) : Int × Int :=
  if r < SMALL_BLOCK then (0, ((r / (SMALL_BLOCK / MAX_SLI) : Nat) : Int))
  else
    let fl : Int := ms_bit hw r
    let sl : Int := toInt32 (sub32 (r >>> (fl - MAX_LOG2_SLI).toNat) MAX_SLI)
    (fl - FLI_OFFSET, sl)

/-! ## State -/

/-- The control structure `tlsf_t`. -/
structure tlsf_t where
  tlsf_signature : Nat
  used_size : Nat
  max_size : Nat
  area_head : Nat
  fl_bitmap : Nat
  sl_bitmap : Nat → Nat
  matrix : Nat → Nat → Nat

/-- The memory seen by the allocator: the control structure of the pool, the
words behind it by byte address, and the file-level default pool pointer `mp`. -/
structure State where
  tlsf : tlsf_t
  mem : Nat → Nat
  mp : Nat

/-- A word store. -/
def store (m : Nat → Nat) (a v : Nat) : Nat → Nat := fun x => if x = a then v else m x

/-- The word `b->prev_hdr`. -/
def prev_hdr (m : Nat → Nat) (b : Nat) : Nat := m b
/-- The word `b->size`. -/
def size (m : Nat → Nat) (b : Nat) : Nat := m (b + 4)
/-- The word `b->ptr.free_ptr.prev`. -/
def fprev (m : Nat → Nat) (b : Nat) : Nat := m (b + 8)
/-- The word `b->ptr.free_ptr.next`. -/
def fnext (m : Nat → Nat) (b : Nat) : Nat := m (b + 12)
/-- The address `b->ptr.buffer`: a 32-bit pointer, `BHDR_OVERHEAD` bytes behind `b`. -/
def buffer (b : Nat) : Nat := add32 b BHDR_OVERHEAD

def set_prev_hdr (s : State) (b v : Nat) : State := { s with mem := store s.mem b v }
def set_size (s : State) (b v : Nat) : State := { s with mem := store s.mem (b + 4) v }
def set_fprev (s : State) (b v : Nat) : State := { s with mem := store s.mem (b + 8) v }
def set_fnext (s : State) (b v : Nat) : State := { s with mem := store s.mem (b + 12) v }

def set_matrix (s : State) (fl sl v : Nat) : State :=
  { s with tlsf := { s.tlsf with
      matrix := fun i j => if i = fl ∧ j = sl then v else s.tlsf.matrix i j } }

def set_sl_bitmap (s : State) (fl v : Nat) : State :=
  { s with tlsf := { s.tlsf with sl_bitmap := fun i => if i = fl then v else s.tlsf.sl_bitmap i } }

def set_fl_bitmap (s : State) (v : Nat) : State :=
  { s with tlsf := { s.tlsf with fl_bitmap := v } }

/-- The pair of array indices, when `fl` and `sl` lie inside `matrix[REAL_FLI][MAX_SLI]`. -/
def index (fl sl : Int) : Option (Nat × Nat) :=
  if 0 ≤ fl ∧ fl < REAL_FLI ∧ 0 ≤ sl ∧ sl < MAX_SLI then some (fl.toNat, sl.toNat) else none

/-! ## Free-list index -/

/-- The word at word index `w` of the structure `tlsf_t`: the five scalar fields, the
24 words of `sl_bitmap` and the 768 words of `matrix`, in this order and without
padding (every field has 4 bytes on the target); `none` outside the structure. -/
def tlsf_word (t : tlsf_t) (w : Int) : Option Nat :=
  if w = 0 then some t.tlsf_signature
  else if w = 1 then some t.used_size
  else if w = 2 then some t.max_size
  else if w = 3 then some t.area_head
  else if w = 4 then some t.fl_bitmap
  else if 5 ≤ w ∧ w < 5 + REAL_FLI then some (t.sl_bitmap (w - 5).toNat)
  else if 5 + REAL_FLI ≤ w ∧ w < 5 + REAL_FLI + REAL_FLI * MAX_SLI then
    some (t.matrix ((w - (5 + REAL_FLI)).toNat / MAX_SLI) ((w - (5 + REAL_FLI)).toNat % MAX_SLI))
  else none

/-- The word that a read of `sl_bitmap[fl]` yields: the word of the array, or for an
index outside the array the word that the layout of `tlsf_t` puts there. -/
def sl_bitmap_word (t : tlsf_t) (fl : Int) : Option Nat := tlsf_word t (5 + fl)

/-- The word that a read of `matrix[fl][sl]` yields: the head of the list, or for
indices outside the array the word that the layout of `tlsf_t` puts there. -/
def matrix_word (t : tlsf_t) (fl sl : Int) : Option Nat :=
  tlsf_word t (5 + REAL_FLI + MAX_SLI * fl + sl)

/-- The function `FIND_SUITABLE_BLOCK`: the block found (`0` for `NULL`) and the pair `(fl, sl)`
it leaves; `none` when a shift amount is outside `0 .. 31` or a read leaves the
structure. -/
def FIND_SUITABLE_BLOCK (hw : Intrinsics) (t : tlsf_t) (fl sl : Int) : Option (Nat × Int × Int) :=
  if 0 ≤ sl ∧ sl < 32 then
    (sl_bitmap_word t fl).bind fun w =>
      let tmp : Nat := w &&& shl32 0xFFFFFFFF sl.toNat
      if tmp ≠ 0 then
        let sl1 : Int := ls_bit hw tmp
        (matrix_word t fl sl1).map fun b => (b, fl, sl1)
      else if 0 ≤ fl + 1 ∧ fl + 1 < 32 then
        let fl1 : Int := ls_bit hw (t.fl_bitmap &&& shl32 0xFFFFFFFF (fl + 1).toNat)
        if fl1 > 0 then
          (sl_bitmap_word t fl1).bind fun w1 =>
            let sl1 : Int := ls_bit hw w1
            (matrix_word t fl1 sl1).map fun b => (b, fl1, sl1)
        else some (0, fl1, sl)
      else none
  else none

/-- The bit clearing shared by the two extract macros: the bit of the list is cleared
and, when the row became empty, the bit of the row. -/
def clear_bits (s : State) (fl sl : Nat) : State :=
  let s1 := set_sl_bitmap s fl (clear_bit sl (s.tlsf.sl_bitmap fl))
  if s1.tlsf.sl_bitmap fl = 0 then set_fl_bitmap s1 (clear_bit fl s1.tlsf.fl_bitmap) else s1

/-- The end shared by the two extract macros: `b->ptr.free_ptr.prev` and
`b->ptr.free_ptr.next` are set to null. -/
def clear_links (b : Nat) (s : State) : State :=
  set_fnext (set_fprev s b 0) b 0

/-- The middle of `EXTRACT_BLOCK_HDR`: the new head loses its predecessor, or, when
there is no new head, the bits are cleared. -/
def relink_head (s : State) (fl sl : Nat) : State :=
  if s.tlsf.matrix fl sl ≠ 0 then set_fprev s (s.tlsf.matrix fl sl) 0
  else clear_bits s fl sl

def EXTRACT_BLOCK_HDR (b : Nat) (s : State) (fl sl : Nat) : State :=
  clear_links b (relink_head (set_matrix s fl sl (fnext s.mem b)) fl sl)

/-- The first statement of `EXTRACT_BLOCK`: the successor of `b` in its list takes the
predecessor of `b`. -/
def unlink_next (b : Nat) (s : State) : State :=
  if fnext s.mem b ≠ 0 then set_fprev s (fnext s.mem b) (fprev s.mem b) else s

/-- The second statement of `EXTRACT_BLOCK`: the predecessor of `b` in its list takes
the successor of `b`. -/
def unlink_prev (b : Nat) (s : State) : State :=
  if fprev s.mem b ≠ 0 then set_fnext s (fprev s.mem b) (fnext s.mem b) else s

/-- The third statement of `EXTRACT_BLOCK`: when `b` is the head of `matrix[fl][sl]`
the head moves on, and the bits are cleared when the list became empty. -/
def unlink_head (b : Nat) (s : State) (fl sl : Nat) : State :=
  if s.tlsf.matrix fl sl = b then
    if (set_matrix s fl sl (fnext s.mem b)).tlsf.matrix fl sl = 0 then
      clear_bits (set_matrix s fl sl (fnext s.mem b)) fl sl
    else set_matrix s fl sl (fnext s.mem b)
  else s

def EXTRACT_BLOCK (b : Nat) (s : State) (fl sl : Nat) : State :=
  clear_links b (unlink_head b (unlink_prev b (unlink_next b s)) fl sl)

def INSERT_BLOCK (b : Nat) (s : State) (fl sl : Nat) : State :=
  let s1 := set_fprev s b 0
  let s2 := set_fnext s1 b (s1.tlsf.matrix fl sl)
  let s3 := if s2.tlsf.matrix fl sl ≠ 0 then set_fprev s2 (s2.tlsf.matrix fl sl) b else s2
  let s4 := set_matrix s3 fl sl b
  let s5 := set_sl_bitmap s4 fl (set_bit sl (s4.tlsf.sl_bitmap fl))
  set_fl_bitmap s5 (set_bit fl s5.tlsf.fl_bitmap)

/-! ## Statistics -/

def TLSF_ADD_SIZE (s : State) (b : Nat) : State :=
  let used := add32 s.tlsf.used_size (add32 (size s.mem b &&& BLOCK_SIZE) BHDR_OVERHEAD)
  let s1 : State := { s with tlsf := { s.tlsf with used_size := used } }
  if s1.tlsf.used_size > s1.tlsf.max_size then
    { s1 with tlsf := { s1.tlsf with max_size := s1.tlsf.used_size } }
  else s1

def TLSF_REMOVE_SIZE (s : State) (b : Nat) : State :=
  { s with tlsf := { s.tlsf with
      used_size := sub32 s.tlsf.used_size (add32 (size s.mem b &&& BLOCK_SIZE) BHDR_OVERHEAD) } }

/-! ## Area processing -/

/-- The function `process_area`: the state with the three headers written, and the
sentinel `ib`. -/
def process_area (area sz : Nat) (s : State) : Nat × State :=
  let ib := area
  let s1 := set_size s ib
    (if sizeof_area_info_t < MIN_BLOCK_SIZE then MIN_BLOCK_SIZE
     else ROUNDUP_SIZE sizeof_area_info_t ||| USED_BLOCK ||| PREV_USED)
  let b := GET_NEXT_BLOCK (buffer ib) (size s1.mem ib &&& BLOCK_SIZE)
  let s2 := set_size s1 b
    (ROUNDDOWN_SIZE (sub32 (sub32 sz (3 * BHDR_OVERHEAD)) (size s1.mem ib &&& BLOCK_SIZE))
      ||| USED_BLOCK ||| PREV_USED)
  let s3 := set_fnext s2 b 0
  let s4 := set_fprev s3 b 0
  let lb := GET_NEXT_BLOCK (buffer b) (size s4.mem b &&& BLOCK_SIZE)
  let s5 := set_prev_hdr s4 lb b
  let s6 := set_size s5 lb (0 ||| USED_BLOCK ||| PREV_FREE)
  let ai := buffer ib
  let s7 : State := { s6 with mem := store s6.mem (ai + 4) 0 }
  let s8 : State := { s7 with mem := store s7.mem ai lb }
  (ib, s8)

/-! ## Allocate and free -/

/-- The forward coalescing of `free_ex`: when the physical successor of `b` is free it
is unlinked from its list and its extent is added to `b`. -/
def free_fwd (hw : Intrinsics) (b : Nat) (s4 : State) : Option State :=
  let tmp_b := GET_NEXT_BLOCK (buffer b) (size s4.mem b &&& BLOCK_SIZE)
  if size s4.mem tmp_b &&& FREE_BLOCK ≠ 0 then
    let m := MAPPING_INSERT hw (size s4.mem tmp_b &&& BLOCK_SIZE)
    match index m.1 m.2 with
    | none => none
    | some ij =>
      let s5 := EXTRACT_BLOCK tmp_b s4 ij.1 ij.2
      some (set_size s5 b
        (add32 (size s5.mem b) (add32 (size s5.mem tmp_b &&& BLOCK_SIZE) BHDR_OVERHEAD)))
  else some s4

/-- The backward coalescing of `free_ex`: when `PREV_FREE` is set in `b`, the block
`b->prev_hdr` is unlinked, grows by the extent of `b`, and becomes `b`. -/
def free_bwd (hw : Intrinsics) (b : Nat) (s6 : State) : Option (Nat × State) :=
  if size s6.mem b &&& PREV_FREE ≠ 0 then
    let tmp_b := prev_hdr s6.mem b
    let m := MAPPING_INSERT hw (size s6.mem tmp_b &&& BLOCK_SIZE)
    match index m.1 m.2 with
    | none => none
    | some ij =>
      let s7 := EXTRACT_BLOCK tmp_b s6 ij.1 ij.2
      some (tmp_b, set_size s7 tmp_b
        (add32 (size s7.mem tmp_b) (add32 (size s7.mem b &&& BLOCK_SIZE) BHDR_OVERHEAD)))
  else some (b, s6)

/-- The end of `free_ex`: `b` is inserted in the list of its size, and its physical
successor records that its predecessor is free. -/
def free_insert (hw : Intrinsics) (b : Nat) (s8 : State) : Option State :=
  let m := MAPPING_INSERT hw (size s8.mem b &&& BLOCK_SIZE)
  match index m.1 m.2 with
  | none => none
  | some ij =>
    let s9 := INSERT_BLOCK b s8 ij.1 ij.2
    let tmp_b := GET_NEXT_BLOCK (buffer b) (size s9.mem b &&& BLOCK_SIZE)
    let s10 := set_size s9 tmp_b (size s9.mem tmp_b ||| PREV_FREE)
    some (set_prev_hdr s10 tmp_b b)

/-- The start of `free_ex`: the block is marked free, its extent leaves `used_size` and
its list links are cleared. -/
def free_mark (b : Nat) (s : State) : State :=
  let s1 := set_size s b (size s.mem b ||| FREE_BLOCK)
  let s2 := TLSF_REMOVE_SIZE s1 b
  let s3 := set_fprev s2 b 0
  set_fnext s3 b 0

/-- The function `free_ex`; `none` when an index leaves the arrays. -/
def free_ex (hw : Intrinsics) (ptr : Nat) (s : State) : Option State :=
  if ptr = 0 then some s
  else
    let b := sub32 ptr BHDR_OVERHEAD
    (free_fwd hw b (free_mark b s)).bind fun s6 =>
      (free_bwd hw b s6).bind fun r => free_insert hw r.1 r.2

/-- The split branch of `malloc_ex`, once the size `t` of the surplus and the address
`b2` of its header are computed: the surplus of `b` becomes the free block `b2`. -/
def malloc_split_at (hw : Intrinsics) (s1 : State) (b next_b sz t b2 : Nat) : Option State :=
  let s2 := set_size s1 b2 (t ||| FREE_BLOCK ||| PREV_USED)
  let s3 := set_prev_hdr s2 next_b b2
  let m := MAPPING_INSERT hw t
  match index m.1 m.2 with
  | none => none
  | some ij =>
    let s4 := INSERT_BLOCK b2 s3 ij.1 ij.2
    some (set_size s4 b (sz ||| (size s4.mem b &&& PREV_STATE)))

/-- The split branch of `malloc_ex`: `tmp_size -= BHDR_OVERHEAD`, and the block `b2` at
`GET_NEXT_BLOCK(b->ptr.buffer, size)` takes the surplus. -/
def malloc_split (hw : Intrinsics) (s1 : State) (b next_b sz tmp_size : Nat) : Option State :=
  malloc_split_at hw s1 b next_b sz (sub32 tmp_size BHDR_OVERHEAD)
    (GET_NEXT_BLOCK (buffer b) sz)

/-- The other branch of `malloc_ex`: the whole of `b` is handed out. -/
def malloc_whole (s1 : State) (b next_b : Nat) : State :=
  let s2 := set_size s1 next_b (size s1.mem next_b &&& not32 PREV_FREE)
  set_size s2 b (size s2.mem b &&& not32 FREE_BLOCK)

/-- The part of `malloc_ex` that follows a successful search: `b` is the block found
at `matrix[fl][sl]` and `sz` the rounded size. -/
def malloc_block (hw : Intrinsics) (sz b fl sl : Nat) (s : State) : Option State :=
  let s1 := EXTRACT_BLOCK_HDR b s fl sl
  let next_b := GET_NEXT_BLOCK (buffer b) (size s1.mem b &&& BLOCK_SIZE)
  let tmp_size := sub32 (size s1.mem b &&& BLOCK_SIZE) sz
  let r : Option State :=
    if tmp_size ≥ sizeof_bhdr_t then malloc_split hw s1 b next_b sz tmp_size
    else some (malloc_whole s1 b next_b)
  r.map fun s5 => TLSF_ADD_SIZE s5 b

/-- The part of `malloc_ex` that follows the search, `r` being the block the search
returned and the pair `(fl, sl)` it left: `NULL` is returned at once when the block is
null, before any store. -/
def malloc_found (hw : Intrinsics) (sz : Nat) (r : Nat × Int × Int) (s : State) :
    Option (Nat × State) :=
  if r.1 = 0 then some (0, s)
  else
    match index r.2.1 r.2.2 with
    | none => none
    | some ij => (malloc_block hw sz r.1 ij.1 ij.2 s).map fun s5 => (buffer r.1, s5)

/-- The function `malloc_ex`: the returned pointer (`0` for `NULL`) and the state; `none` when an
index leaves the arrays. -/
def malloc_ex (hw : Intrinsics) (sz : Nat) (s : State) : Option (Nat × State) :=
  let sz0 := if sz < MIN_BLOCK_SIZE then MIN_BLOCK_SIZE else ROUNDUP_SIZE sz
  let ms := MAPPING_SEARCH hw sz0
  match FIND_SUITABLE_BLOCK hw s.tlsf ms.2.1 ms.2.2 with
  | none => none
  | some r => malloc_found hw ms.1 r s

/-! ## Pool lifecycle -/

/-- The end of `init_memory_pool`, after the call of `free_ex`: the area is linked
into the pool, the statistics are initialised and the size of `b` is returned. -/
def init_finish (mem_pool_size ib b : Nat) (s3 : State) : Nat × State :=
  let s4 : State := { s3 with tlsf := { s3.tlsf with area_head := buffer ib } }
  let s5 : State := { s4 with tlsf := { s4.tlsf with
    used_size := sub32 mem_pool_size (size s4.mem b &&& BLOCK_SIZE) } }
  let s6 : State := { s5 with tlsf := { s5.tlsf with max_size := s5.tlsf.used_size } }
  (size s6.mem b &&& BLOCK_SIZE, s6)

/-- The path of `init_memory_pool` for a region that passed the checks and does not
carry the signature. -/
def init_fresh (hw : Intrinsics) (mem_pool_size mem_pool : Nat) (s : State) :
    Option (Nat × State) :=
  let s1 : State := { s with mp := mem_pool }
  let s2 : State := { s1 with tlsf := { s1.tlsf with tlsf_signature := TLSF_SIGNATURE } }
  let pa := process_area (GET_NEXT_BLOCK mem_pool (ROUNDUP_SIZE sizeof_tlsf_t))
    (ROUNDDOWN_SIZE (sub32 mem_pool_size sizeof_tlsf_t)) s2
  let ib := pa.1
  let b := GET_NEXT_BLOCK (buffer ib) (size pa.2.mem ib &&& BLOCK_SIZE)
  (free_ex hw (buffer b) pa.2).map (init_finish mem_pool_size ib b)

/-- The function `init_memory_pool`: the returned value and the state. -/
def init_memory_pool (hw : Intrinsics) (mem_pool_size mem_pool : Nat) (s : State) :
    Option (Nat × State) :=
  if mem_pool = 0 ∨ mem_pool_size = 0 ∨ mem_pool_size < sizeof_tlsf_t + BHDR_OVERHEAD * 8 then
    some (sub32 0 1, s)
  else if mem_pool &&& PTR_MASK ≠ 0 then
    some (sub32 0 1, s)
  else if s.tlsf.tlsf_signature = TLSF_SIGNATURE then
    let s1 : State := { s with mp := mem_pool }
    let b := GET_NEXT_BLOCK s1.mp (ROUNDUP_SIZE sizeof_tlsf_t)
    some (size s1.mem b &&& BLOCK_SIZE, s1)
  else init_fresh hw mem_pool_size mem_pool s

def get_used_size (s : State) : Nat := s.tlsf.used_size

def get_max_size (s : State) : Nat := s.tlsf.max_size

def destroy_memory_pool (s : State) : State :=
  { s with tlsf := { s.tlsf with tlsf_signature := 0 } }

/-- The variables carried round the `while (ptr)` loop of `add_new_area`. -/
structure AreaLoop where
  s : State
  ptr : Nat
  ptr_prev : Nat
  ib0 : Nat
  b0 : Nat
  lb0 : Nat

/-- The word `ai->end` of an area record. -/
def ai_end (m : Nat → Nat) (ai : Nat) : Nat := m ai
/-- The word `ai->next` of an area record. -/
def ai_next (m : Nat → Nat) (ai : Nat) : Nat := m (ai + 4)

/-- The unlinking of `ptr` from the area list, shared by the two merge branches. -/
def unlink_area (v : AreaLoop) : AreaLoop :=
  if v.s.tlsf.area_head = v.ptr then
    let s1 : State := { v.s with tlsf := { v.s.tlsf with area_head := ai_next v.s.mem v.ptr } }
    { v with s := s1, ptr := ai_next s1.mem v.ptr }
  else
    let s1 : State := { v.s with mem := store v.s.mem (v.ptr_prev + 4) (ai_next v.s.mem v.ptr) }
    { v with s := s1, ptr := ai_next s1.mem v.ptr }

/-- The `while (ptr)` loop of `add_new_area`, with a bound on the number of
iterations; `none` when the bound is reached. -/
def add_new_area_loop : Nat → AreaLoop → Option AreaLoop
  | 0, _ => none
  | fuel + 1, v =>
    if v.ptr = 0 then some v
    else
      let ptr := v.ptr
      let ib1 := sub32 ptr BHDR_OVERHEAD
      let b1 := GET_NEXT_BLOCK (buffer ib1) (size v.s.mem ib1 &&& BLOCK_SIZE)
      let lb1 := ai_end v.s.mem ptr
      if ib1 = add32 v.lb0 BHDR_OVERHEAD then
        let v1 := unlink_area v
        let s2 := set_size v1.s v1.b0
          (ROUNDDOWN_SIZE (add32 (add32 (size v1.s.mem v1.b0 &&& BLOCK_SIZE)
              (size v1.s.mem ib1 &&& BLOCK_SIZE)) (2 * BHDR_OVERHEAD)) ||| USED_BLOCK ||| PREV_USED)
        let s3 := set_prev_hdr s2 b1 v1.b0
        add_new_area_loop fuel { v1 with s := s3, lb0 := lb1 }
      else if buffer lb1 = v.ib0 then
        let v1 := unlink_area v
        let s2 := set_size v1.s lb1
          (ROUNDDOWN_SIZE (add32 (add32 (size v1.s.mem v1.b0 &&& BLOCK_SIZE)
              (size v1.s.mem v1.ib0 &&& BLOCK_SIZE)) (2 * BHDR_OVERHEAD)) ||| USED_BLOCK
            ||| (size v1.s.mem lb1 &&& PREV_STATE))
        let next_b := GET_NEXT_BLOCK (buffer lb1) (size s2.mem lb1 &&& BLOCK_SIZE)
        let s3 := set_prev_hdr s2 next_b lb1
        add_new_area_loop fuel { v1 with s := s3, b0 := lb1, ib0 := ib1 }
      else
        add_new_area_loop fuel { v with ptr_prev := ptr, ptr := ai_next v.s.mem ptr }

/-- The start of `add_new_area`: the area is cleared and formatted by `process_area`, and
the loop starts at the head of the area list. -/
def add_new_area_start (area area_size : Nat) (s : State) : AreaLoop :=
  let s1 : State := { s with mem := fun x => if area ≤ x ∧ x < area + area_size then 0 else s.mem x }
  let ptr := s1.tlsf.area_head
  let pa := process_area area area_size s1
  let ib0 := pa.1
  let b0 := GET_NEXT_BLOCK (buffer ib0) (size pa.2.mem ib0 &&& BLOCK_SIZE)
  let lb0 := GET_NEXT_BLOCK (buffer b0) (size pa.2.mem b0 &&& BLOCK_SIZE)
  { s := pa.2, ptr := ptr, ptr_prev := 0, ib0 := ib0, b0 := b0, lb0 := lb0 }

/-- The end of `add_new_area`, after the loop: the area record in the payload of `ib0`
becomes the head of the area list, the block `b0` is released with `free_ex`, and the
size of `b0` is returned. -/
def add_new_area_finish (hw : Intrinsics) (v : AreaLoop) : Option (Nat × State) :=
  let ai := buffer v.ib0
  let s2 : State := { v.s with mem := store v.s.mem (ai + 4) v.s.tlsf.area_head }
  let s3 : State := { s2 with mem := store s2.mem ai v.lb0 }
  let s4 : State := { s3 with tlsf := { s3.tlsf with area_head := ai } }
  (free_ex hw (buffer v.b0) s4).map fun s5 => (size s5.mem v.b0 &&& BLOCK_SIZE, s5)

/-- The function `add_new_area`, with a bound on the iterations of its loop: the
returned size and the state. -/
def add_new_area (hw : Intrinsics) (fuel : Nat) (area area_size : Nat) (s : State) :
    Option (Nat × State) :=
  (add_new_area_loop fuel (add_new_area_start area area_size s)).bind (add_new_area_finish hw)

end TLSF

namespace TLSF

/-! ## Auxiliary definitions -/

/-- The interface the allocator consumes from the bit scans: on a nonzero word `ms_bit`
is the position of the highest set bit and `ls_bit` the position of the lowest set
bit; on the zero word `ls_bit` reports no position (a value that is not positive). -/
structure ScanSpec (hw : Intrinsics) : Prop where
  ms : ∀ w k : Nat, k < 32 → 2 ^ k ≤ w → w < 2 ^ (k + 1) → ms_bit hw w = (k : Int)
  ls : ∀ w k : Nat, k < 32 → w < 2 ^ 32 → w.testBit k = true →
    (∀ j, j < k → w.testBit j = false) → ls_bit hw w = (k : Int)
  ls_zero : ls_bit hw 0 ≤ 0

/-- The position of the highest set bit among the low `n` bits of `w`. -/
def highBit : Nat → Nat → Nat
  | 0, _ => 0
  | n + 1, w => if w.testBit n then n else highBit n w

/-- The position of the lowest set bit among the low `n` bits of `w`. -/
def lowBit : Nat → Nat → Nat
  | 0, _ => 0
  | n + 1, w => if w % 2 = 1 then 0 else lowBit n (w / 2) + 1

/-- Modelled from the spec: `CntLeadZeros` and `CntTrailZeros` are `extern` in `bits.c`
and absent from the sources. The spec takes `ms_bit` / `ls_bit` as the intrinsics
`last_set_bit` / `first_set_bit` of a 32-bit word; these two routines are the ones
that make `ffs` and `fls` of `bits.c` such intrinsics, with the count 32 for the zero
word. -/
def specScan : Intrinsics where
  CntLeadZeros := fun w => if w % 2 ^ 32 = 0 then 32 else 31 - highBit 32 (w % 2 ^ 32)
  CntTrailZeros := fun w => if w % 2 ^ 32 = 0 then 32 else 31 - lowBit 32 (w % 2 ^ 32)

/-- The pair `(fl, sl)` of a size, as natural numbers. -/
def cls (r : Nat) : Nat × Nat :=
  if r < 128 then (0, r / 4) else (Nat.log2 r - 6, r / 2 ^ (Nat.log2 r - 5) - 32)

/-- The smallest size of the class `(i, j)`. -/
def clsLo (i j : Nat) : Nat := if i = 0 then 4 * j else 2 ^ (i + 6) + j * 2 ^ (i + 1)

/-- The rounded size and the class that `MAPPING_SEARCH` selects, as natural numbers. -/
def srch (r : Nat) : Nat × Nat × Nat :=
  if r < 128 then (r, 0, r / 4)
  else
    let p := 2 ^ (Nat.log2 r - 5)
    let r1 := r + (p - 1)
    (r1 / p * p, (cls r1).1, (cls r1).2)

/-- The largest request whose search class lies inside the index: `2 ^ 30 - 2 ^ 24`. -/
def MAX_REQUEST : Nat := 0x3F000000

/-- A region filled with zero bytes, and a null default pool pointer. -/
def zeroState : State :=
  { tlsf := { tlsf_signature := 0, used_size := 0, max_size := 0, area_head := 0, fl_bitmap := 0,
              sl_bitmap := fun _ => 0, matrix := fun _ _ => 0 },
    mem := fun _ => 0, mp := 0 }

/-- The address of the 64 KiB region of the scenarios. -/
def poolBase : Nat := 0x20000000

/-- The state after `init_memory_pool` on a zero-filled 64 KiB region. -/
def fresh64k : State :=
  match init_memory_pool specScan 65536 poolBase zeroState with
  | some r => r.2
  | none => zeroState

/-- A region that is zero-filled except for one set bit in `sl_bitmap[0]`. -/
def staleBitState : State :=
  { zeroState with tlsf := { zeroState.tlsf with sl_bitmap := fun i => if i = 0 then 1 else 0 } }

/-- The address of the 128 KiB region of the scenario with a stale list head. -/
def lowBase : Nat := 0x10000

/-- A region that is zero-filled except for the word of `matrix[10][30]`, which holds
the address `lowBase + 3204`. -/
def staleHeadState : State :=
  { zeroState with tlsf := { zeroState.tlsf with
      matrix := fun i j => if i = 10 ∧ j = 30 then lowBase + 3204 else 0 } }

/-- The state after `malloc_ex(100)` on the fresh 64 KiB pool. -/
def after100 : State :=
  match malloc_ex specScan 100 fresh64k with
  | some r => r.2
  | none => fresh64k

/-! ## Invariants -/

/-- The size of a block: its size field without the two state bits. -/
def bsz (m : Nat → Nat) (b : Nat) : Nat := size m b &&& BLOCK_SIZE

/-- The `FREE` bit of a block. -/
def isFree (m : Nat → Nat) (b : Nat) : Prop := size m b &&& FREE_BLOCK ≠ 0

/-- The `PREV_FREE` bit of a block. -/
def isPrevFree (m : Nat → Nat) (b : Nat) : Prop := size m b &&& PREV_FREE ≠ 0

/-- The address of the physical successor of a block. -/
def nxt (m : Nat → Nat) (b : Nat) : Nat := b + 8 + bsz m b

/-- Headers that are at least one header apart. -/
def Sep (F : Finset Nat) : Prop := ∀ x ∈ F, ∀ y ∈ F, x < y → x + 16 ≤ y

/-- The free-list index is coherent for the set `F` of linked blocks: every linked
block sits in the list of its size class, the links are mutual, every list head is
a linked block of that class without predecessor, and the two bitmap levels say
which lists and rows are non-empty. -/
structure IdxInv (t : tlsf_t) (m : Nat → Nat) (F : Finset Nat) : Prop where
  nz : ∀ x ∈ F, x ≠ 0
  cl : ∀ x ∈ F, bsz m x < 2 ^ 30
  hd : ∀ x ∈ F, fprev m x = 0 → t.matrix (cls (bsz m x)).1 (cls (bsz m x)).2 = x
  pv : ∀ x ∈ F, fprev m x ≠ 0 →
    fprev m x ∈ F ∧ cls (bsz m (fprev m x)) = cls (bsz m x) ∧ fnext m (fprev m x) = x
  nx : ∀ x ∈ F, fnext m x ≠ 0 →
    fnext m x ∈ F ∧ cls (bsz m (fnext m x)) = cls (bsz m x) ∧ fprev m (fnext m x) = x
  mx : ∀ i j, i < 24 → j < 32 → t.matrix i j ≠ 0 →
    t.matrix i j ∈ F ∧ cls (bsz m (t.matrix i j)) = (i, j) ∧ fprev m (t.matrix i j) = 0
  sb : ∀ i j, i < 24 → j < 32 → ((t.sl_bitmap i).testBit j = true ↔ t.matrix i j ≠ 0)
  sl : ∀ i, i < 24 → t.sl_bitmap i < 2 ^ 32
  fb : ∀ i, i < 24 → (t.fl_bitmap.testBit i = true ↔ t.sl_bitmap i ≠ 0)
  fl : t.fl_bitmap < 2 ^ 24

/-- The blocks `B` tile the area from the sentinel `ib` to the terminator `T`: each
block other than `T` is followed by a block of `B` with nothing of `B` in between,
sizes are multiples of 8 and at least 8, the boundary tags agree with the `FREE`
bits, and no two neighbours are both free. -/
structure PhysInv (m : Nat → Nat) (B : Finset Nat) (ib T : Nat) : Prop where
  ib_mem : ib ∈ B
  T_mem : T ∈ B
  ib_pos : 0 < ib
  ib_lt : ib < T
  T_top : T + 8 ≤ 2 ^ 32
  span : T < ib + 2 ^ 30 + 24
  rng : ∀ b ∈ B, ib ≤ b ∧ b ≤ T
  al : ∀ b ∈ B, b % 8 = ib % 8
  wd : ∀ b ∈ B, size m b < 2 ^ 32 ∧ bsz m b % 8 = 0
  nx : ∀ b ∈ B, b ≠ T → 8 ≤ bsz m b ∧ nxt m b ∈ B ∧ ∀ c ∈ B, b < c → nxt m b ≤ c
  tm : bsz m T = 0 ∧ ¬ isFree m T
  sn : bsz m ib = 8 ∧ ¬ isFree m ib ∧ ¬ isPrevFree m ib
  tag : ∀ b ∈ B, b ≠ T →
    (isPrevFree m (nxt m b) ↔ isFree m b) ∧ (isFree m b → prev_hdr m (nxt m b) = b)
  pd : ∀ b ∈ B, b ≠ ib → ∃ c ∈ B, c ≠ T ∧ nxt m c = b
  adj : ∀ b ∈ B, ¬ (isFree m b ∧ isPrevFree m b)

/-- No free list runs in a circle: the `prev` links descend along some rank. -/
def Acyc (m : Nat → Nat) (F : Finset Nat) : Prop :=
  ∃ rank : Nat → Nat, ∀ x ∈ F, fprev m x ≠ 0 → rank (fprev m x) < rank x

/-- The pool invariant, for the list `L` of payloads handed out and not yet freed. -/
structure Inv (s : State) (B F : Finset Nat) (ib T : Nat) (L : List Nat) : Prop where
  phys : PhysInv s.mem B ib T
  idx : IdxInv s.tlsf s.mem F
  acyc : Acyc s.mem F
  link : ∀ x, x ∈ F ↔ x ∈ B ∧ isFree s.mem x
  live : ∀ p, p ∈ L ↔ ∃ b ∈ B, b ≠ ib ∧ b ≠ T ∧ ¬ isFree s.mem b ∧ p = b + 8
  nodup : L.Nodup
  used : s.tlsf.used_size < 2 ^ 32

/-- What `free_ex` needs of the state `s` to release the block `b`: `b` is a used
block of a tiling `B` of a memory `m0`, and the headers of `s` are those of `m0`, except
that the `PREV_FREE` bit and the back pointer of the successor of `b` are free. -/
structure FreePre (m0 : Nat → Nat) (B F : Finset Nat) (ib T b : Nat) (s : State) : Prop where
  phys : PhysInv m0 B ib T
  idx : IdxInv s.tlsf s.mem F
  acyc : Acyc s.mem F
  link : ∀ x, x ∈ F ↔ x ∈ B ∧ isFree m0 x
  b_mem : b ∈ B
  b_ib : b ≠ ib
  b_T : b ≠ T
  b_used : ¬ isFree m0 b
  same : ∀ z ∈ B, z ≠ nxt m0 b → s.mem z = m0 z ∧ s.mem (z + 4) = m0 (z + 4)
  nn_word : size s.mem (nxt m0 b) < 2 ^ 32
  nn_sz : bsz s.mem (nxt m0 b) = bsz m0 (nxt m0 b)
  nn_free : isFree s.mem (nxt m0 b) ↔ isFree m0 (nxt m0 b)
  frame : ∀ a, (∀ z ∈ B, z ≠ ib → a ≠ z ∧ a ≠ z + 4 ∧ a ≠ z + 8 ∧ a ≠ z + 12) → s.mem a = m0 a

/-- An intermediate state of `free_ex` on the block `b`, against a memory `m0` in which
`b` is a used block of the tiling `B`: the blocks of `B` from `lo` up to `NN` (excluded)
have been gathered into the free block `lo`, which is not linked yet; `F` are the blocks
that were linked at the call. -/
structure Merging (m0 : Nat → Nat) (B F : Finset Nat) (ib b : Nat) (s : State)
    (lo NN : Nat) : Prop where
  idx : IdxInv s.tlsf s.mem (F.filter (fun x => x < lo ∨ NN ≤ x))
  acyc : Acyc s.mem (F.filter (fun x => x < lo ∨ NN ≤ x))
  lo_mem : lo ∈ B
  NN_mem : NN ∈ B
  lo_le : lo ≤ b
  b_lt : b < NN
  same : ∀ z ∈ B, z < lo ∨ NN < z → s.mem z = m0 z ∧ s.mem (z + 4) = m0 (z + 4)
  nn_word : size s.mem NN < 2 ^ 32
  nn_sz : bsz s.mem NN = bsz m0 NN
  nn_free : isFree s.mem NN ↔ isFree m0 NN
  word : size s.mem lo < 2 ^ 32
  sz : bsz s.mem lo = NN - lo - 8
  keep : bsz s.mem b = NN - b - 8
  free : isFree s.mem lo
  pfree : isPrevFree s.mem lo ↔ isPrevFree m0 lo
  phdr : prev_hdr s.mem lo = prev_hdr m0 lo
  inside : ∀ z ∈ B, lo ≤ z → z < NN → z = b ∨ isFree m0 z
  frame : ∀ a, (∀ z ∈ B, z ≠ ib → a ≠ z ∧ a ≠ z + 4 ∧ a ≠ z + 8 ∧ a ≠ z + 12) → s.mem a = m0 a

/-- What `free_ex` leaves when it releases the used block `b` of the tiling `B` of `m0`:
the blocks from `lo` up to `NN` (excluded) have become the single free block `lo`. -/
structure FreePost (m0 : Nat → Nat) (B F : Finset Nat) (ib T b : Nat) (s s' : State)
    (lo NN : Nat) : Prop where
  lo_mem : lo ∈ B
  NN_mem : NN ∈ B
  lo_le : lo ≤ b
  b_lt : b < NN
  phys : PhysInv s'.mem (B.filter (fun z => z ≤ lo ∨ NN ≤ z)) ib T
  idx : IdxInv s'.tlsf s'.mem (insert lo (F.filter (fun x => x < lo ∨ NN ≤ x)))
  acyc : Acyc s'.mem (insert lo (F.filter (fun x => x < lo ∨ NN ≤ x)))
  same : ∀ z ∈ B, z < lo ∨ NN ≤ z → (isFree s'.mem z ↔ isFree m0 z) ∧ bsz s'.mem z = bsz m0 z
  free : isFree s'.mem lo
  sz : bsz s'.mem lo = NN - lo - 8
  keep : bsz s'.mem b = NN - b - 8
  inside : ∀ z ∈ B, lo ≤ z → z < NN → z = b ∨ isFree m0 z
  hi : (¬ isFree m0 (nxt m0 b) ∧ NN = nxt m0 b) ∨
    (isFree m0 (nxt m0 b) ∧ NN = nxt m0 (nxt m0 b))
  low : (¬ isPrevFree m0 b ∧ lo = b) ∨
    (isPrevFree m0 b ∧ isFree m0 lo ∧ nxt m0 lo = b)
  nn_used : ¬ isFree m0 NN
  frame : ∀ a, (∀ z ∈ B, z ≠ ib → a ≠ z ∧ a ≠ z + 4 ∧ a ≠ z + 8 ∧ a ≠ z + 12) → s'.mem a = m0 a
  used : s'.tlsf.used_size = sub32 s.tlsf.used_size (add32 (bsz s.mem b) BHDR_OVERHEAD)
  max : s'.tlsf.max_size = s.tlsf.max_size
  area : s'.tlsf.area_head = s.tlsf.area_head
  sig : s'.tlsf.tlsf_signature = s.tlsf.tlsf_signature
  mp : s'.mp = s.mp

/-- What `malloc_ex` leaves when it hands out the linked free block `b` for the rounded
size `r`: either `b` is cut to `r` and the surplus becomes the linked free block
`b + 8 + r`, or the whole of `b` is handed out. -/
structure MallocPost (s s' : State) (B F : Finset Nat) (ib b r : Nat)
    (B' F' : Finset Nat) : Prop where
  b_mem : b ∈ F
  le : r ≤ bsz s.mem b
  shape : (r + 16 ≤ bsz s.mem b ∧ B' = insert (b + 8 + r) B ∧
      F' = insert (b + 8 + r) (F.erase b) ∧ bsz s'.mem b = r ∧ isFree s'.mem (b + 8 + r) ∧
      bsz s'.mem (b + 8 + r) = bsz s.mem b - r - 8) ∨
    (bsz s.mem b < r + 16 ∧ B' = B ∧ F' = F.erase b ∧ bsz s'.mem b = bsz s.mem b)
  used_b : ¬ isFree s'.mem b
  pf_b : ¬ isPrevFree s'.mem b
  same : ∀ z ∈ B, z ≠ b → (isFree s'.mem z ↔ isFree s.mem z) ∧ bsz s'.mem z = bsz s.mem z
  frame : ∀ a, a < ib + 16 → s'.mem a = s.mem a
  used : s'.tlsf.used_size =
    add32 s.tlsf.used_size (add32 (bsz s'.mem b) BHDR_OVERHEAD)
  max : s'.tlsf.max_size =
    if s'.tlsf.used_size > s.tlsf.max_size then s'.tlsf.used_size else s.tlsf.max_size
  area : s'.tlsf.area_head = s.tlsf.area_head
  sig : s'.tlsf.tlsf_signature = s.tlsf.tlsf_signature
  mp : s'.mp = s.mp

/-- The index part of a control structure holds no list head and no bitmap bit. -/
def Clean (t : tlsf_t) : Prop :=
  (∀ i j, i < REAL_FLI → j < MAX_SLI → t.matrix i j = 0) ∧
  (∀ i, i < REAL_FLI → t.sl_bitmap i = 0) ∧ t.fl_bitmap = 0

/-- A region that `init_memory_pool` accepts and formats, that lies inside the address
space, whose usable block is below `2 ^ 30` bytes, and whose control structure holds
no stale index. -/
structure InitOk (M mp : Nat) (s0 : State) : Prop where
  nonnull : mp ≠ 0
  aligned : mp &&& PTR_MASK = 0
  big : sizeof_tlsf_t + BHDR_OVERHEAD * 8 ≤ M
  fits : mp + M < 2 ^ 32
  small : M < 2 ^ 30 + 3220
  nosig : s0.tlsf.tlsf_signature ≠ TLSF_SIGNATURE
  clean : Clean s0.tlsf

/-- The states reached from such an `init_memory_pool` of the region `mp` of `M` bytes
by `malloc_ex` with requests of at most `MAX_REQUEST` bytes and `free_ex` of payloads
that are live, with the list of the live payloads. -/
inductive Reach (hw : Intrinsics) (M mp : Nat) : State → List Nat → Prop
  | init {r : Nat} {s0 s : State} : InitOk M mp s0 →
      init_memory_pool hw M mp s0 = some (r, s) → Reach hw M mp s []
  | malloc {n p : Nat} {s s' : State} {L : List Nat} : Reach hw M mp s L →
      n ≤ MAX_REQUEST → malloc_ex hw n s = some (p, s') →
      Reach hw M mp s' (if p = 0 then L else p :: L)
  | free {p : Nat} {s s' : State} {L : List Nat} : Reach hw M mp s L → p ∈ L →
      free_ex hw p s = some s' → Reach hw M mp s' (L.erase p)

/-- The sentinel header of the pool of the region `mp`. -/
def poolIb (mp : Nat) : Nat := GET_NEXT_BLOCK mp (ROUNDUP_SIZE sizeof_tlsf_t)

/-- The size of the usable block of a fresh pool on a region of `M` bytes: the area
without its three header overheads and the payload of the sentinel. -/
def poolS0 (M : Nat) : Nat :=
  ROUNDDOWN_SIZE (ROUNDDOWN_SIZE (M - sizeof_tlsf_t) - 3 * BHDR_OVERHEAD -
    ROUNDUP_SIZE sizeof_area_info_t)

/-- The terminator header of the pool of the region `mp` of `M` bytes. -/
def poolT (M mp : Nat) : Nat := poolIb mp + 3 * BHDR_OVERHEAD + poolS0 M

end TLSF

namespace TLSF

/-! ## Further auxiliary definitions -/

/-- Modelled from the spec: `CntLeadZeros` and `CntTrailZeros` are `extern` in `bits.c`
and absent from the sources. Here they are the counts their names say: the number of
zero bits above the highest set bit of a 32-bit word, and the number of zero bits below
its lowest set bit, 32 for the zero word. -/
def countScan : Intrinsics where
  CntLeadZeros := fun w => if w % 2 ^ 32 = 0 then 32 else 31 - highBit 32 (w % 2 ^ 32)
  CntTrailZeros := fun w => lowBit 32 (w % 2 ^ 32)

/-- The class `a` is lexicographically below the class `b`. -/
def clsBelow (a b : Int × Int) : Prop := a.1 < b.1 ∨ (a.1 = b.1 ∧ a.2 < b.2)

/-- The class `a` is `b` or lexicographically below it. -/
def clsUpTo (a b : Int × Int) : Prop := a.1 < b.1 ∨ (a.1 = b.1 ∧ a.2 ≤ b.2)

instance (a b : Int × Int) : Decidable (clsBelow a b) := by unfold clsBelow; infer_instance

instance (a b : Int × Int) : Decidable (clsUpTo a b) := by unfold clsUpTo; infer_instance

/-- The blocks met from `b` by `next_physical`, up to and including the first one at or
beyond the terminator `T`, in at most `fuel` steps. -/
def walk (m : Nat → Nat) (T : Nat) : Nat → Nat → List Nat
  | 0, _ => []
  | fuel + 1, b =>
    if T ≤ b then [b] else b :: walk m T fuel (GET_NEXT_BLOCK (buffer b) (bsz m b))

/-- The sum of `(size & BLOCK_SIZE) + BHDR_OVERHEAD` over a list of blocks. -/
def extent (m : Nat → Nat) (l : List Nat) : Nat :=
  (l.map fun b => bsz m b + BHDR_OVERHEAD).sum

/-- The block `x` is linked in the free list whose head is `h`: it is reached from `h`
by `ptr.free_ptr.next`. -/
inductive Linked (m : Nat → Nat) : Nat → Nat → Prop
  | head {h : Nat} : h ≠ 0 → Linked m h h
  | next {h x : Nat} : Linked m h x → fnext m x ≠ 0 → Linked m h (fnext m x)

/-- A call of a bit scan: `ms_bit(w)` or `ls_bit(w)`. -/
inductive ScanCall where
  | ms (w : Nat)
  | ls (w : Nat)
  deriving DecidableEq

/-- The scan calls of `MAPPING_SEARCH`, in call order. -/
def MAPPING_SEARCH_scans (hw : Intrinsics) (r : Nat) : List ScanCall :=
  if r < SMALL_BLOCK then []
  else
    let t : Nat := sub32 (shl32 1 (ms_bit hw r - MAX_LOG2_SLI).toNat) 1
    [ScanCall.ms r, ScanCall.ms (add32 r t)]

/-- The scan calls of `MAPPING_INSERT`. -/
def MAPPING_INSERT_scans (r : Nat) : List ScanCall :=
  if r < SMALL_BLOCK then [] else [ScanCall.ms r]

/-- The scan calls of `FIND_SUITABLE_BLOCK`, in call order. -/
def FIND_SUITABLE_BLOCK_scans (hw : Intrinsics) (t : tlsf_t) (fl sl : Int) : List ScanCall :=
  if 0 ≤ sl ∧ sl < 32 then
    match sl_bitmap_word t fl with
    | none => []
    | some w =>
      let tmp : Nat := w &&& shl32 0xFFFFFFFF sl.toNat
      if tmp ≠ 0 then [ScanCall.ls tmp]
      else if 0 ≤ fl + 1 ∧ fl + 1 < 32 then
        let w2 : Nat := t.fl_bitmap &&& shl32 0xFFFFFFFF (fl + 1).toNat
        let fl1 : Int := ls_bit hw w2
        if fl1 > 0 then
          match sl_bitmap_word t fl1 with
          | none => [ScanCall.ls w2]
          | some w1 => [ScanCall.ls w2, ScanCall.ls w1]
        else [ScanCall.ls w2]
      else []
  else []

/-- The scan calls of the part of `malloc_ex` that follows a successful search: the
`MAPPING_INSERT` of the surplus, when the block is split. -/
def malloc_block_scans (sz b fl sl : Nat) (s : State) : List ScanCall :=
  let s1 := EXTRACT_BLOCK_HDR b s fl sl
  let tmp_size := sub32 (size s1.mem b &&& BLOCK_SIZE) sz
  if tmp_size ≥ sizeof_bhdr_t then MAPPING_INSERT_scans (sub32 tmp_size BHDR_OVERHEAD) else []

/-- The scan calls of `malloc_ex` after the search returned `f`. -/
def malloc_found_scans (sz : Nat) (s : State) (f : Option (Nat × Int × Int)) : List ScanCall :=
  match f with
  | none => []
  | some r =>
    if r.1 = 0 then []
    else
      match index r.2.1 r.2.2 with
      | none => []
      | some ij => malloc_block_scans sz r.1 ij.1 ij.2 s

/-- The scan calls of `malloc_ex`, in call order. -/
def malloc_ex_scans (hw : Intrinsics) (sz : Nat) (s : State) : List ScanCall :=
  let sz0 := if sz < MIN_BLOCK_SIZE then MIN_BLOCK_SIZE else ROUNDUP_SIZE sz
  let ms := MAPPING_SEARCH hw sz0
  MAPPING_SEARCH_scans hw sz0 ++ (FIND_SUITABLE_BLOCK_scans hw s.tlsf ms.2.1 ms.2.2 ++
    malloc_found_scans ms.1 s (FIND_SUITABLE_BLOCK hw s.tlsf ms.2.1 ms.2.2))

/-- The scan calls of the forward coalescing of `free_ex`. -/
def free_fwd_scans (b : Nat) (s4 : State) : List ScanCall :=
  let tmp_b := GET_NEXT_BLOCK (buffer b) (size s4.mem b &&& BLOCK_SIZE)
  if size s4.mem tmp_b &&& FREE_BLOCK ≠ 0 then
    MAPPING_INSERT_scans (size s4.mem tmp_b &&& BLOCK_SIZE)
  else []

/-- The scan calls of the backward coalescing of `free_ex`. -/
def free_bwd_scans (b : Nat) (s6 : State) : List ScanCall :=
  if size s6.mem b &&& PREV_FREE ≠ 0 then
    MAPPING_INSERT_scans (size s6.mem (prev_hdr s6.mem b) &&& BLOCK_SIZE)
  else []

/-- The scan calls of `free_ex` after the forward coalescing returned `f`. -/
def free_rest_scans (hw : Intrinsics) (b : Nat) (f : Option State) : List ScanCall :=
  match f with
  | none => []
  | some s6 =>
    free_bwd_scans b s6 ++
      match free_bwd hw b s6 with
      | none => []
      | some r => MAPPING_INSERT_scans (size r.2.mem r.1 &&& BLOCK_SIZE)

/-- The scan calls of `free_ex`, in call order. -/
def free_ex_scans (hw : Intrinsics) (ptr : Nat) (s : State) : List ScanCall :=
  if ptr = 0 then []
  else
    let b := sub32 ptr BHDR_OVERHEAD
    free_fwd_scans b (free_mark b s) ++ free_rest_scans hw b (free_fwd hw b (free_mark b s))

end TLSF

namespace TLSF

/-- The payload address of a header whose overhead ends inside the address space. -/
theorem buffer_eq {b : Nat} (h : b + 8 < 2 ^ 32) : buffer b = b + 8 := by
  unfold buffer add32 BHDR_OVERHEAD sizeof_bhdr_t MIN_BLOCK_SIZE sizeof_ptr
  exact Nat.mod_eq_of_lt h

/-- A read of `sl_bitmap[i]` inside the array. -/
theorem sl_bitmap_word_in (t : tlsf_t) {i : Nat} (hi : i < 24) :
    sl_bitmap_word t (i : Int) = some (t.sl_bitmap i) := by
  unfold sl_bitmap_word tlsf_word
  have hR : ((REAL_FLI : Nat) : Int) = 24 := rfl
  rw [hR]
  rw [if_neg (by omega), if_neg (by omega), if_neg (by omega), if_neg (by omega),
    if_neg (by omega), if_pos (by omega)]
  have e : (5 + (i : Int) - 5).toNat = i := by omega
  rw [e]

/-- A read of `matrix[i][j]` inside the array. -/
theorem matrix_word_in (t : tlsf_t) {i j : Nat} (hi : i < 24) (hj : j < 32) :
    matrix_word t (i : Int) (j : Int) = some (t.matrix i j) := by
  unfold matrix_word tlsf_word
  have hR : ((REAL_FLI : Nat) : Int) = 24 := rfl
  have hS : ((MAX_SLI : Nat) : Int) = 32 := rfl
  have hS2 : MAX_SLI = 32 := rfl
  rw [hR, hS, hS2]
  rw [if_neg (by omega), if_neg (by omega), if_neg (by omega), if_neg (by omega),
    if_neg (by omega), if_neg (by omega), if_pos (by omega)]
  have e : (5 + 24 + 32 * (i : Int) + (j : Int) - (5 + 24)).toNat = 32 * i + j := by omega
  rw [e]
  have e1 : (32 * i + j) / 32 = i := by omega
  have e2 : (32 * i + j) % 32 = j := by omega
  rw [e1, e2]

theorem testBit_not32 (a i : Nat) : (not32 a).testBit i = (decide (i < 32) && !a.testBit i) := by
  unfold not32
  rw [Nat.testBit_xor, show (0xFFFFFFFF : Nat) = 2 ^ 32 - 1 by norm_num,
    Nat.testBit_two_pow_sub_one, Nat.testBit_mod_two_pow]
  by_cases h : i < 32 <;> simp [h]

theorem testBit_of_lt32 {x i : Nat} (hx : x < 2 ^ 32) (hi : 32 ≤ i) : x.testBit i = false :=
  Nat.testBit_lt_two_pow (lt_of_lt_of_le hx (Nat.pow_le_pow_right (by norm_num) hi))

/-- Clearing the low `k` bits of a 32-bit word rounds it down to a multiple of `2 ^ k`. -/
theorem and_not32_low (x k : Nat) (hx : x < 2 ^ 32) :
    x &&& not32 (2 ^ k - 1) = x / 2 ^ k * 2 ^ k := by
  rw [← Nat.shiftRight_eq_div_pow, ← Nat.shiftLeft_eq]
  apply Nat.eq_of_testBit_eq
  intro i
  rw [Nat.testBit_and, testBit_not32, Nat.testBit_two_pow_sub_one, Nat.testBit_shiftLeft,
    Nat.testBit_shiftRight]
  by_cases h1 : i < 32
  · by_cases h2 : i < k
    · simp [h1, h2]
    · have : k + (i - k) = i := by omega
      simp [h1, h2, this, Nat.le_of_not_lt h2]
  · have := testBit_of_lt32 hx (Nat.le_of_not_lt h1) (i := i)
    have h3 : x.testBit (k + (i - k)) = false := by
      apply testBit_of_lt32 hx; omega
    simp [h1, this, h3]

theorem and_BLOCK_SIZE (x : Nat) (hx : x < 2 ^ 32) : x &&& BLOCK_SIZE = x / 4 * 4 := by
  have := and_not32_low x 2 hx
  simpa [not32, BLOCK_SIZE, PTR_MASK, sizeof_ptr] using this

theorem ROUNDDOWN_SIZE_eq (x : Nat) (hx : x < 2 ^ 32) : ROUNDDOWN_SIZE x = x / 8 * 8 := by
  have := and_not32_low x 3 hx
  simpa [ROUNDDOWN_SIZE, MEM_ALIGN, BLOCK_ALIGN, sizeof_ptr] using this

theorem ROUNDUP_SIZE_eq (x : Nat) : ROUNDUP_SIZE x = (x + 7) % 2 ^ 32 / 8 * 8 := by
  have := and_not32_low ((x + 7) % 2 ^ 32) 3 (Nat.mod_lt _ (by norm_num))
  simpa [ROUNDUP_SIZE, add32, MEM_ALIGN, BLOCK_ALIGN, sizeof_ptr] using this

theorem and_one (x : Nat) : x &&& 1 = x % 2 := by
  simpa using Nat.and_pow_two_sub_one_eq_mod x 1

theorem and_two (x : Nat) : x &&& 2 = x / 2 % 2 * 2 := by
  apply Nat.eq_of_testBit_eq
  intro i
  have h2 : (2 : Nat) = 2 ^ 1 := by norm_num
  have e : x / 2 % 2 * 2 = ((x >>> 1) % 2 ^ 1) <<< 1 := by
    simp [Nat.shiftLeft_eq, Nat.shiftRight_eq_div_pow]
  rw [e, Nat.testBit_and, Nat.testBit_shiftLeft, Nat.testBit_mod_two_pow, Nat.testBit_shiftRight]
  conv_lhs => rw [h2, Nat.testBit_two_pow]
  by_cases h : i = 1
  · subst h; simp
  · by_cases h' : 1 ≤ i
    · have : ¬ (i - 1 < 1) := by omega
      simp [h, this, Ne.symm h]
    · simp [h, h', Ne.symm h]

theorem or_low (a b : Nat) (ha : a % 4 = 0) (hb : b < 4) : a ||| b = a + b := by
  have := Nat.mul_add_lt_is_or (i := 2) (b := b) (by simpa using hb) (a / 4)
  have e : 2 ^ 2 * (a / 4) = a := by omega
  rw [e] at this
  exact this.symm

end TLSF

namespace TLSF

theorem or_one (x : Nat) : x ||| 1 = x / 2 * 2 + 1 := by
  have h := Nat.mul_add_lt_is_or (i := 1) (b := 1) (by norm_num) (x / 2)
  rcases Nat.mod_two_eq_zero_or_one x with h0 | h1
  · have e : 2 ^ 1 * (x / 2) = x := by omega
    rw [e] at h; omega
  · have e : x = 2 ^ 1 * (x / 2) ||| 1 := by rw [← h]; omega
    conv_lhs => rw [e, Nat.or_assoc, Nat.or_self]
    omega

theorem or_two (x : Nat) : x ||| 2 = x / 4 * 4 + 2 + x % 2 := by
  apply Nat.eq_of_testBit_eq
  intro i
  have e : x / 4 * 4 + 2 + x % 2 = 2 ^ 2 * (x / 4) + (2 + x % 2) := by omega
  have e2 : 2 ^ 2 * (x / 4) + (2 + x % 2) = 2 ^ 2 * (x / 4) ||| (2 + x % 2) :=
    Nat.mul_add_lt_is_or (by omega) _
  have e3 : 2 + x % 2 = 2 ^ 1 * 1 ||| (x % 2) := by
    rw [← Nat.mul_add_lt_is_or (i := 1) (by simpa using Nat.mod_lt x (by norm_num : 0 < 2))]
  rw [e, e2, e3, Nat.testBit_or, Nat.testBit_or, Nat.testBit_or]
  have hx4 : (2 ^ 2 * (x / 4)).testBit i = (decide (2 ≤ i) && x.testBit i) := by
    rw [Nat.mul_comm, ← Nat.shiftLeft_eq, Nat.testBit_shiftLeft,
      show x / 4 = x >>> 2 by simp [Nat.shiftRight_eq_div_pow], Nat.testBit_shiftRight]
    by_cases h : 2 ≤ i
    · have : 2 + (i - 2) = i := by omega
      simp [h, this]
    · simp [h]
  have hx2 : (x % 2).testBit i = (decide (i < 1) && x.testBit i) := by
    simpa using Nat.testBit_mod_two_pow x 1 i
  have h2 : (2 : Nat).testBit i = decide (1 = i) := by
    have := @Nat.testBit_two_pow 1 i
    simpa using this
  rw [hx4, hx2, show (2 ^ 1 * 1 : Nat) = 2 by norm_num, h2]
  by_cases h : i = 1
  · subst h; simp
  · by_cases h' : 2 ≤ i
    · have : ¬ i < 1 := by omega
      simp [h', this, Ne.symm h]
    · have : i < 1 := by omega
      simp [h', this, Ne.symm h]

theorem and_not32_one (x : Nat) (hx : x < 2 ^ 32) : x &&& not32 1 = x / 2 * 2 := by
  simpa using and_not32_low x 1 hx

theorem and_not32_two (x : Nat) (hx : x < 2 ^ 32) : x &&& not32 2 = x / 4 * 4 + x % 2 := by
  apply Nat.eq_of_testBit_eq
  intro i
  have e : x / 4 * 4 + x % 2 = 2 ^ 2 * (x / 4) ||| (x % 2) := by
    rw [← Nat.mul_add_lt_is_or (i := 2) (by omega)]
    omega
  have hx4 : (2 ^ 2 * (x / 4)).testBit i = (decide (2 ≤ i) && x.testBit i) := by
    rw [Nat.mul_comm, ← Nat.shiftLeft_eq, Nat.testBit_shiftLeft,
      show x / 4 = x >>> 2 by simp [Nat.shiftRight_eq_div_pow], Nat.testBit_shiftRight]
    by_cases h : 2 ≤ i
    · have : 2 + (i - 2) = i := by omega
      simp [h, this]
    · simp [h]
  have hx2 : (x % 2).testBit i = (decide (i < 1) && x.testBit i) := by
    simpa using Nat.testBit_mod_two_pow x 1 i
  have h2 : (2 : Nat).testBit i = decide (1 = i) := by
    have := @Nat.testBit_two_pow 1 i
    simpa using this
  rw [e, Nat.testBit_or, hx4, hx2, Nat.testBit_and, testBit_not32, h2]
  by_cases h : i = 1
  · subst h; simp
  · by_cases h' : 2 ≤ i
    · have h3 : ¬ i < 1 := by omega
      by_cases h4 : i < 32
      · simp [h', h3, h4, Ne.symm h]
      · simp [h', h3, h4, Ne.symm h, testBit_of_lt32 hx (Nat.le_of_not_lt h4)]
    · have h3 : i < 1 := by omega
      have h4 : i < 32 := by omega
      simp [h', h3, h4, Ne.symm h]

/-! ### Bitmap words -/

theorem shl32_one (j : Nat) (hj : j < 32) : shl32 1 (j &&& 0x1f) = 2 ^ j := by
  have e : j &&& 0x1f = j := by
    have := Nat.and_pow_two_sub_one_eq_mod j 5
    simp at this; rw [this]; omega
  rw [e, shl32, Nat.shiftLeft_eq, Nat.one_mul]
  exact Nat.mod_eq_of_lt (Nat.pow_lt_pow_right (by norm_num) hj)

theorem testBit_set_bit (j w k : Nat) (hj : j < 32) :
    (set_bit j w).testBit k = (w.testBit k || decide (j = k)) := by
  rw [set_bit, shl32_one j hj, Nat.testBit_or, Nat.testBit_two_pow]

theorem set_bit_lt (j w : Nat) (hj : j < 32) (hw : w < 2 ^ 32) : set_bit j w < 2 ^ 32 := by
  rw [set_bit, shl32_one j hj]
  exact Nat.or_lt_two_pow hw (Nat.pow_lt_pow_right (by norm_num) hj)

theorem testBit_clear_bit (j w k : Nat) (hj : j < 32) (hw : w < 2 ^ 32) :
    (clear_bit j w).testBit k = (w.testBit k && !decide (j = k)) := by
  rw [clear_bit, shl32_one j hj, Nat.testBit_and, testBit_not32, Nat.testBit_two_pow]
  by_cases h : k < 32
  · simp [h]
  · simp [h, testBit_of_lt32 hw (Nat.le_of_not_lt h)]

theorem clear_bit_lt (j w : Nat) (hw : w < 2 ^ 32) : clear_bit j w < 2 ^ 32 :=
  lt_of_le_of_lt Nat.and_le_left hw

theorem testBit_shl32_ones (j k : Nat) :
    (shl32 0xFFFFFFFF j).testBit k = (decide (j ≤ k) && decide (k < 32)) := by
  rw [shl32, Nat.testBit_mod_two_pow, Nat.testBit_shiftLeft,
    show (0xFFFFFFFF : Nat) = 2 ^ 32 - 1 by norm_num, Nat.testBit_two_pow_sub_one]
  by_cases h1 : k < 32 <;> by_cases h2 : j ≤ k <;> simp [h1, h2]
  omega

theorem eq_zero_iff_testBit (w : Nat) : w = 0 ↔ ∀ k, w.testBit k = false := by
  constructor
  · rintro rfl k; simp
  · intro h
    apply Nat.eq_of_testBit_eq
    intro i; simp [h i]

/-- A nonzero 32-bit word has a lowest set bit. -/
theorem exists_lowest_bit (w : Nat) (hw : w ≠ 0) (hlt : w < 2 ^ 32) :
    ∃ k, k < 32 ∧ w.testBit k = true ∧ ∀ j, j < k → w.testBit j = false := by
  have hex : ∃ k, w.testBit k = true := Nat.ne_zero_implies_bit_true hw
  classical
  refine ⟨Nat.find hex, ?_, Nat.find_spec hex, ?_⟩
  · by_contra h
    have := testBit_of_lt32 hlt (Nat.le_of_not_lt h)
    rw [Nat.find_spec hex] at this
    exact Bool.noConfusion this
  · intro j hj
    have := Nat.find_min hex hj
    simpa using this

end TLSF

namespace TLSF

theorem highBit_eq (n w k : Nat) (hk : k < n) (hb : w.testBit k = true)
    (hhi : ∀ j, k < j → j < n → w.testBit j = false) : highBit n w = k := by
  induction n with
  | zero => omega
  | succ n ih =>
    unfold highBit
    by_cases h : k = n
    · subst h; simp [hb]
    · have hkn : k < n := by omega
      rw [if_neg (by rw [hhi n hkn (by omega)]; simp)]
      exact ih hkn (fun j h1 h2 => hhi j h1 (by omega))

theorem lowBit_eq (n : Nat) : ∀ (w k : Nat), k < n → w.testBit k = true →
    (∀ j, j < k → w.testBit j = false) → lowBit n w = k := by
  induction n with
  | zero => intro w k hk; omega
  | succ n ih =>
    intro w k hk hb hlo
    unfold lowBit
    cases k with
    | zero =>
      have : w % 2 = 1 := by
        have := hb; rw [Nat.testBit_to_div_mod] at this; simpa using this
      simp [this]
    | succ k =>
      have h0 := hlo 0 (by omega)
      have : ¬ w % 2 = 1 := by
        rw [Nat.testBit_to_div_mod] at h0; simpa using h0
      rw [if_neg this]
      have e : ∀ j, (w / 2).testBit j = w.testBit (j + 1) := by
        intro j
        rw [show w / 2 = w >>> 1 by simp [Nat.shiftRight_eq_div_pow], Nat.testBit_shiftRight,
          Nat.add_comm]
      rw [ih (w / 2) k (by omega) (by rw [e]; exact hb)
        (fun j hj => by rw [e]; exact hlo (j + 1) (by omega))]

theorem testBit_top {w k : Nat} (h1 : 2 ^ k ≤ w) (h2 : w < 2 ^ (k + 1)) : w.testBit k = true := by
  rw [Nat.testBit_to_div_mod]
  have : w / 2 ^ k = 1 := by
    apply Nat.div_eq_of_lt_le
    · simpa using h1
    · rw [pow_succ] at h2; omega
  simp [this]

theorem specScan_ok : ScanSpec specScan := by
  refine ⟨?_, ?_, ?_⟩
  · intro w k hk h1 h2
    have hw32 : w < 2 ^ 32 := lt_of_lt_of_le h2 (Nat.pow_le_pow_right (by norm_num) (by omega))
    have hpos : 0 < 2 ^ k := Nat.pow_pos (by norm_num)
    have hh : highBit 32 w = k := by
      apply highBit_eq 32 w k hk (testBit_top h1 h2)
      intro j hj _
      exact Nat.testBit_lt_two_pow (lt_of_lt_of_le h2 (Nat.pow_le_pow_right (by norm_num) hj))
    have hm : w % 2 ^ 32 = w := Nat.mod_eq_of_lt hw32
    have hne : ¬ w = 0 := by omega
    simp only [ms_bit, ffs, specScan, hm, hne, if_false, hh, sub32, toInt32, BIT_WORD_SIZE]
    have e : (31 % 2 ^ 32 + (2 ^ 32 - (31 - k) % 2 ^ 32)) % 2 ^ 32 = k := by omega
    rw [e]
    have : k % 2 ^ 32 = k := by omega
    rw [this, if_pos (by omega)]
  · intro w k hk hw hb hlo
    have hl : lowBit 32 w = k := lowBit_eq 32 w k hk hb hlo
    have hm : w % 2 ^ 32 = w := Nat.mod_eq_of_lt hw
    have hne : ¬ w = 0 := by
      rintro rfl; simp at hb
    simp only [ls_bit, fls, specScan, hm, hne, if_false, hl, sub32, toInt32, BIT_WORD_SIZE]
    have e : (31 % 2 ^ 32 + (2 ^ 32 - (31 - k) % 2 ^ 32)) % 2 ^ 32 = k := by omega
    rw [e]
    have : k % 2 ^ 32 = k := by omega
    rw [this, if_pos (by omega)]
  · decide

/-! ### The class of a size -/

theorem log2_bounds {r : Nat} (h : r ≠ 0) : 2 ^ Nat.log2 r ≤ r ∧ r < 2 ^ (Nat.log2 r + 1) :=
  ⟨Nat.log2_self_le h, Nat.lt_log2_self⟩

theorem log2_range {r : Nat} (h1 : 128 ≤ r) (h2 : r < 2 ^ 32) :
    7 ≤ Nat.log2 r ∧ Nat.log2 r < 32 := by
  have hne : r ≠ 0 := by omega
  constructor
  · by_contra hc
    have : Nat.log2 r < 7 := by omega
    rw [Nat.log2_lt hne] at this
    omega
  · rw [Nat.log2_lt hne]; exact h2

end TLSF

namespace TLSF

theorem index_natCast (i j : Nat) (hi : i < 24) (hj : j < 32) :
    index (i : Int) (j : Int) = some (i, j) := by
  unfold index
  rw [if_pos]
  · simp
  · simp [REAL_FLI, MAX_FLI, FLI_OFFSET, MAX_SLI, MAX_LOG2_SLI]; omega

theorem div_pow_bounds {r f : Nat} (hf : 5 ≤ f) (h1 : 2 ^ f ≤ r) (h2 : r < 2 ^ (f + 1)) :
    32 ≤ r / 2 ^ (f - 5) ∧ r / 2 ^ (f - 5) < 64 := by
  have hp : 0 < 2 ^ (f - 5) := Nat.pow_pos (by norm_num)
  have e1 : 2 ^ f = 32 * 2 ^ (f - 5) := by
    rw [show (32 : Nat) = 2 ^ 5 by norm_num, ← pow_add]; congr 1; omega
  have e2 : 2 ^ (f + 1) = 64 * 2 ^ (f - 5) := by
    rw [show (64 : Nat) = 2 ^ 6 by norm_num, ← pow_add]; congr 1; omega
  constructor
  · rw [Nat.le_div_iff_mul_le hp, ← e1]; exact h1
  · rw [Nat.div_lt_iff_lt_mul hp, ← e2]; exact h2

theorem MAPPING_INSERT_eq {hw : Intrinsics} (hs : ScanSpec hw) (r : Nat) (hr : r < 2 ^ 32) :
    MAPPING_INSERT hw r = ((((cls r).1 : Nat) : Int), (((cls r).2 : Nat) : Int)) := by
  unfold MAPPING_INSERT cls
  by_cases h : r < 128
  · simp [h, SMALL_BLOCK, MAX_SLI, MAX_LOG2_SLI]
  · have hne : r ≠ 0 := by omega
    obtain ⟨hb1, hb2⟩ := log2_bounds hne
    obtain ⟨hf1, hf2⟩ := log2_range (Nat.le_of_not_lt h) hr
    have hm := hs.ms r (Nat.log2 r) hf2 hb1 hb2
    obtain ⟨hq1, hq2⟩ := div_pow_bounds (by omega) hb1 hb2
    simp only [SMALL_BLOCK, h, if_false, hm, MAX_LOG2_SLI, FLI_OFFSET, MAX_SLI]
    have e1 : ((Nat.log2 r : Int) - ((5 : Nat) : Int)).toNat = Nat.log2 r - 5 := by omega
    rw [e1, Nat.shiftRight_eq_div_pow]
    have e2 : sub32 (r / 2 ^ (Nat.log2 r - 5)) (1 <<< 5) = r / 2 ^ (Nat.log2 r - 5) - 32 := by
      simp only [sub32]; norm_num; omega
    rw [e2]
    have e3 : toInt32 (r / 2 ^ (Nat.log2 r - 5) - 32) =
        ((r / 2 ^ (Nat.log2 r - 5) - 32 : Nat) : Int) := by
      unfold toInt32
      have : (r / 2 ^ (Nat.log2 r - 5) - 32) % 2 ^ 32 = r / 2 ^ (Nat.log2 r - 5) - 32 := by omega
      rw [this, if_pos (by omega)]
    rw [e3]
    have e4 : (Nat.log2 r : Int) - ((6 : Nat) : Int) = ((Nat.log2 r - 6 : Nat) : Int) := by omega
    rw [e4]

theorem cls_lt {r : Nat} (hr : r < 2 ^ 30) : (cls r).1 < 24 ∧ (cls r).2 < 32 := by
  unfold cls
  by_cases h : r < 128
  · simp [h]; omega
  · have hne : r ≠ 0 := by omega
    obtain ⟨hb1, hb2⟩ := log2_bounds hne
    obtain ⟨hf1, hf2⟩ := log2_range (Nat.le_of_not_lt h) (by omega)
    obtain ⟨hq1, hq2⟩ := div_pow_bounds (by omega) hb1 hb2
    have : Nat.log2 r < 30 := by rw [Nat.log2_lt hne]; exact hr
    simp only [h, if_false]
    omega

theorem index_MAPPING_INSERT {hw : Intrinsics} (hs : ScanSpec hw) (r : Nat) (hr : r < 2 ^ 30) :
    index (MAPPING_INSERT hw r).1 (MAPPING_INSERT hw r).2 = some (cls r) := by
  rw [MAPPING_INSERT_eq hs r (by omega)]
  exact index_natCast _ _ (cls_lt hr).1 (cls_lt hr).2

/-- The sizes of a class start at `clsLo`. -/
theorem clsLo_le (r : Nat) : clsLo (cls r).1 (cls r).2 ≤ r := by
  unfold cls clsLo
  by_cases h : r < 128
  · simp [h]; omega
  · have hne : r ≠ 0 := by omega
    obtain ⟨hb1, hb2⟩ := log2_bounds hne
    have hf1 : 7 ≤ Nat.log2 r := by
      by_contra hc
      have : Nat.log2 r < 7 := by omega
      rw [Nat.log2_lt hne] at this
      omega
    obtain ⟨hq1, hq2⟩ := div_pow_bounds (by omega) hb1 hb2
    simp only [h, if_false]
    rw [if_neg (by omega)]
    have e1 : Nat.log2 r - 6 + 6 = Nat.log2 r := by omega
    have e2 : Nat.log2 r - 6 + 1 = Nat.log2 r - 5 := by omega
    rw [e1, e2]
    have e3 : 2 ^ Nat.log2 r = 32 * 2 ^ (Nat.log2 r - 5) := by
      rw [show (32 : Nat) = 2 ^ 5 by norm_num, ← pow_add]; congr 1; omega
    have := Nat.div_mul_le_self r (2 ^ (Nat.log2 r - 5))
    have e4 : r / 2 ^ (Nat.log2 r - 5) = 32 + (r / 2 ^ (Nat.log2 r - 5) - 32) := by omega
    rw [e4, Nat.add_mul] at this
    rw [e3]
    exact this

theorem clsLo_mono {i1 j1 i2 j2 : Nat} (hj1 : j1 < 32)
    (h : i1 < i2 ∨ (i1 = i2 ∧ j1 ≤ j2)) : clsLo i1 j1 ≤ clsLo i2 j2 := by
  rcases h with h | ⟨rfl, h⟩
  · have hi2 : i2 ≠ 0 := by omega
    have h2 : 2 ^ (i1 + 7) ≤ 2 ^ (i2 + 6) := Nat.pow_le_pow_right (by norm_num) (by omega)
    have h3 : clsLo i1 j1 ≤ 2 ^ (i1 + 7) := by
      unfold clsLo
      by_cases h0 : i1 = 0
      · subst h0; simp; omega
      · rw [if_neg h0]
        have e6 : 2 ^ (i1 + 6) = 32 * 2 ^ (i1 + 1) := by
          rw [show (32 : Nat) = 2 ^ 5 by norm_num, ← pow_add]; congr 1; omega
        have e7 : 2 ^ (i1 + 7) = 64 * 2 ^ (i1 + 1) := by
          rw [show (64 : Nat) = 2 ^ 6 by norm_num, ← pow_add]; congr 1; omega
        rw [e6, e7, ← Nat.add_mul]
        exact Nat.mul_le_mul_right _ (by omega)
    have h4 : 2 ^ (i2 + 6) ≤ clsLo i2 j2 := by
      unfold clsLo; rw [if_neg hi2]; omega
    omega
  · unfold clsLo
    by_cases h0 : i1 = 0
    · simp [h0]; omega
    · rw [if_neg h0, if_neg h0]
      have := Nat.mul_le_mul_right (2 ^ (i1 + 1)) h
      omega

/-- Good fit on block sizes: a block whose class is at or above `(i, j)` is at
least as large as the smallest size of `(i, j)`. -/
theorem clsLo_le_of_cls_ge {s i j : Nat} (hj : j < 32)
    (h : i < (cls s).1 ∨ (i = (cls s).1 ∧ j ≤ (cls s).2)) : clsLo i j ≤ s :=
  le_trans (clsLo_mono hj h) (clsLo_le s)

end TLSF

namespace TLSF

theorem log2_unique {w k : Nat} (h1 : 2 ^ k ≤ w) (h2 : w < 2 ^ (k + 1)) : Nat.log2 w = k := by
  have hpos : 0 < 2 ^ k := Nat.pow_pos (by norm_num)
  have hne : w ≠ 0 := by omega
  have a : Nat.log2 w < k + 1 := (Nat.log2_lt hne).2 h2
  have b : ¬ Nat.log2 w < k := by
    rw [Nat.log2_lt hne]; omega
  omega

theorem srch_aux {r : Nat} (h128 : 128 ≤ r) (hr : r ≤ MAX_REQUEST) :
    ∃ f p, Nat.log2 r = f ∧ 2 ^ (f - 5) = p ∧ 7 ≤ f ∧ f ≤ 29 ∧ 4 ≤ p ∧ p ≤ 2 ^ 24 ∧
      2 ^ f = 32 * p ∧ 2 ^ (f + 1) = 64 * p ∧ 32 * p ≤ r ∧ r < 64 * p := by
  have hne : r ≠ 0 := by omega
  obtain ⟨hb1, hb2⟩ := log2_bounds hne
  have hf1 := (log2_range h128 (by unfold MAX_REQUEST at hr; omega)).1
  have hf2 : Nat.log2 r < 30 := by
    rw [Nat.log2_lt hne]; unfold MAX_REQUEST at hr; omega
  have e1 : 2 ^ Nat.log2 r = 32 * 2 ^ (Nat.log2 r - 5) := by
    rw [show (32 : Nat) = 2 ^ 5 by norm_num, ← pow_add]; congr 1; omega
  have e2 : 2 ^ (Nat.log2 r + 1) = 64 * 2 ^ (Nat.log2 r - 5) := by
    rw [show (64 : Nat) = 2 ^ 6 by norm_num, ← pow_add]; congr 1; omega
  have h4 : 2 ^ 2 ≤ 2 ^ (Nat.log2 r - 5) := Nat.pow_le_pow_right (by norm_num) (by omega)
  have h24 : 2 ^ (Nat.log2 r - 5) ≤ 2 ^ 24 := Nat.pow_le_pow_right (by norm_num) (by omega)
  refine ⟨_, _, rfl, rfl, hf1, by omega, by simpa using h4, h24, e1, e2, ?_, ?_⟩
  · rw [← e1]; exact hb1
  · rw [← e2]; exact hb2

theorem srch_spec {r : Nat} (h8 : 8 ≤ r) (hm : r % 8 = 0) (hr : r ≤ MAX_REQUEST) :
    r ≤ (srch r).1 ∧ (srch r).1 = clsLo (srch r).2.1 (srch r).2.2 ∧ (srch r).2.1 < 24 ∧
      (srch r).2.2 < 32 ∧ (srch r).1 % 8 = 0 ∧ (srch r).1 < 2 ^ 30 := by
  unfold srch
  by_cases h : r < 128
  · simp only [h, if_true, clsLo]
    refine ⟨le_refl _, by omega, by omega, by omega, hm, by omega⟩
  · simp only [h, if_false]
    obtain ⟨f, p, hf, hp, hf7, hf29, hp4, hp24, e32, e64, hlo, hhi⟩ :=
      srch_aux (Nat.le_of_not_lt h) hr
    rw [hf, hp]
    have hppos : 0 < p := by omega
    have hdm := Nat.div_add_mod (r + (p - 1)) p
    have hml := Nat.mod_lt (r + (p - 1)) hppos
    have hmc : p * ((r + (p - 1)) / p) = (r + (p - 1)) / p * p := Nat.mul_comm _ _
    have hle : r ≤ (r + (p - 1)) / p * p := by omega
    -- the rounded size is a multiple of 8
    have h8' : ((r + (p - 1)) / p * p) % 8 = 0 := by
      by_cases hk : f - 5 = 2
      · have : p = 4 := by rw [← hp, hk]; norm_num
        subst this; omega
      · have hk3 : 2 ^ 3 ∣ 2 ^ (f - 5) := Nat.pow_dvd_pow 2 (by omega)
        rw [hp] at hk3
        have : 8 ∣ (r + (p - 1)) / p * p := Dvd.dvd.mul_left (by simpa using hk3) _
        omega
    have hr30 : r ≤ 2 ^ 30 - 2 ^ 24 := by unfold MAX_REQUEST at hr; omega
    by_cases hB : r + (p - 1) < 64 * p
    · -- the class stays in row `f - 6`
      have hl : Nat.log2 (r + (p - 1)) = f :=
        log2_unique (by rw [e32]; omega) (by rw [e64]; omega)
      have hq : 32 ≤ (r + (p - 1)) / p ∧ (r + (p - 1)) / p < 64 := by
        constructor
        · rw [Nat.le_div_iff_mul_le hppos]; omega
        · rw [Nat.div_lt_iff_lt_mul hppos]; omega
      have hc : cls (r + (p - 1)) = (f - 6, (r + (p - 1)) / p - 32) := by
        unfold cls
        rw [if_neg (by omega), hl, hp]
      rw [hc]
      refine ⟨hle, ?_, by omega, by omega, h8', ?_⟩
      · unfold clsLo
        rw [if_neg (by omega), show f - 6 + 6 = f by omega, show f - 6 + 1 = f - 5 by omega, hp,
          e32]
        have e4 : (r + (p - 1)) / p = 32 + ((r + (p - 1)) / p - 32) := by omega
        conv_lhs => rw [e4, Nat.add_mul]
      · have : (r + (p - 1)) / p * p ≤ r + (p - 1) := Nat.div_mul_le_self _ _
        omega
    · -- the rounding reaches the next power of two
      have e128 : 2 ^ (f + 1 + 1) = 128 * p := by
        rw [pow_succ, e64]; omega
      have hl : Nat.log2 (r + (p - 1)) = f + 1 :=
        log2_unique (by rw [e64]; omega) (by rw [e128]; omega)
      have e2p : 2 ^ (f + 1 - 5) = 2 * p := by
        rw [show f + 1 - 5 = (f - 5) + 1 by omega, pow_succ, hp]; omega
      have hq : (r + (p - 1)) / p = 64 := by
        apply Nat.div_eq_of_lt_le <;> omega
      have hq2 : (r + (p - 1)) / (2 * p) = 32 := by
        apply Nat.div_eq_of_lt_le <;> omega
      have hc : cls (r + (p - 1)) = (f - 5, 0) := by
        unfold cls
        rw [if_neg (by omega), hl, e2p, hq2, show f + 1 - 6 = f - 5 by omega]
      rw [hc, hq]
      have hf28 : f ≤ 28 := by
        by_contra hc'
        have : f = 29 := by omega
        subst this
        have : p = 2 ^ 24 := by rw [← hp]
        omega
      refine ⟨by omega, ?_, by omega, by omega, by omega, ?_⟩
      · unfold clsLo
        rw [if_neg (by omega), show f - 5 + 6 = f + 1 by omega, e64]; omega
      · have : 2 ^ (f + 1) ≤ 2 ^ 29 := Nat.pow_le_pow_right (by norm_num) (by omega)
        omega

theorem MAPPING_SEARCH_eq {hw : Intrinsics} (hs : ScanSpec hw) (r : Nat) (hr : r ≤ MAX_REQUEST) :
    MAPPING_SEARCH hw r = ((srch r).1, (((srch r).2.1 : Nat) : Int), (((srch r).2.2 : Nat) : Int)) := by
  unfold MAPPING_SEARCH srch
  by_cases h : r < 128
  · simp [h, SMALL_BLOCK, MAX_SLI, MAX_LOG2_SLI]
  · obtain ⟨f, p, hf, hp, hf7, hf29, hp4, hp24, e32, e64, hlo, hhi⟩ :=
      srch_aux (Nat.le_of_not_lt h) hr
    have hne : r ≠ 0 := by omega
    have hm := hs.ms r f (by omega) (by rw [e32]; exact hlo) (by rw [e64]; exact hhi)
    simp only [SMALL_BLOCK, h, if_false, hm, MAX_LOG2_SLI, hf, hp]
    have e1 : ((f : Int) - ((5 : Nat) : Int)).toNat = f - 5 := by omega
    have et : sub32 (shl32 1 (f - 5)) 1 = p - 1 := by
      unfold sub32 shl32
      rw [Nat.shiftLeft_eq, Nat.one_mul, hp]
      omega
    have hr1 : r + (p - 1) < 2 ^ 30 := by unfold MAX_REQUEST at hr; omega
    have er1 : add32 r (p - 1) = r + (p - 1) := by
      unfold add32; omega
    rw [e1, et, er1]
    have hmi := MAPPING_INSERT_eq hs (r + (p - 1)) (by omega)
    unfold MAPPING_INSERT at hmi
    rw [if_neg (by simp only [SMALL_BLOCK]; omega)] at hmi
    simp only [MAX_LOG2_SLI, FLI_OFFSET, MAX_SLI, Prod.mk.injEq] at hmi
    have ea : (r + (p - 1)) &&& not32 (p - 1) = (r + (p - 1)) / p * p := by
      rw [← hp]; exact and_not32_low _ _ (by omega)
    rw [ea]
    simp only [FLI_OFFSET, MAX_SLI, Prod.mk.injEq, true_and]
    exact hmi

end TLSF

namespace TLSF

theorem fresh64k_init : init_memory_pool specScan 65536 poolBase zeroState = some (62312, fresh64k) := by
  rfl

end TLSF

namespace TLSF

theorem and_BLOCK_SIZE_le (x : Nat) : x &&& BLOCK_SIZE ≤ 0xFFFFFFFC := Nat.and_le_right

theorem and_PTR_MASK (x : Nat) : x &&& PTR_MASK = x % 4 := by
  simpa [PTR_MASK, sizeof_ptr] using Nat.and_pow_two_sub_one_eq_mod x 2

theorem init_memory_pool_rejected (hw : Intrinsics) (sz region : Nat) (s : State)
    (h : region = 0 ∨ sz < sizeof_tlsf_t + 8 * BHDR_OVERHEAD ∨ region % sizeof_ptr ≠ 0) :
    init_memory_pool hw sz region s = some (0xFFFFFFFF, s) := by
  unfold init_memory_pool
  by_cases h1 : region = 0 ∨ sz = 0 ∨ sz < sizeof_tlsf_t + BHDR_OVERHEAD * 8
  · rw [if_pos h1]; rfl
  · rw [if_neg h1]
    have h2 : region &&& PTR_MASK ≠ 0 := by
      rw [and_PTR_MASK]
      simp only [sizeof_ptr] at h
      rcases h with h | h | h
      · exact absurd (Or.inl h) h1
      · exact absurd (Or.inr (Or.inr (by rw [Nat.mul_comm]; exact h))) h1
      · exact h
    rw [if_pos h2]; rfl

theorem init_finish_fst (a ib b : Nat) (s3 : State) :
    (init_finish a ib b s3).1 = size s3.mem b &&& BLOCK_SIZE := rfl

theorem init_memory_pool_accepted_ne (hw : Intrinsics) (sz region : Nat) (s s' : State) (r : Nat)
    (h : ¬ (region = 0 ∨ sz < sizeof_tlsf_t + 8 * BHDR_OVERHEAD ∨ region % sizeof_ptr ≠ 0))
    (hr : init_memory_pool hw sz region s = some (r, s')) : r ≠ 0xFFFFFFFF := by
  unfold init_memory_pool at hr
  have h1 : ¬ (region = 0 ∨ sz = 0 ∨ sz < sizeof_tlsf_t + BHDR_OVERHEAD * 8) := by
    intro hc
    apply h
    rcases hc with hc | hc | hc
    · exact Or.inl hc
    · right; left; rw [hc]; decide
    · right; left; rw [Nat.mul_comm]; exact hc
  have h2 : ¬ region &&& PTR_MASK ≠ 0 := by
    rw [and_PTR_MASK]
    intro hc
    exact h (Or.inr (Or.inr hc))
  rw [if_neg h1, if_neg h2] at hr
  by_cases h3 : s.tlsf.tlsf_signature = TLSF_SIGNATURE
  · rw [if_pos h3] at hr
    simp only [Option.some.injEq, Prod.mk.injEq] at hr
    have := and_BLOCK_SIZE_le (size s.mem (GET_NEXT_BLOCK region (ROUNDUP_SIZE sizeof_tlsf_t)))
    omega
  · rw [if_neg h3] at hr
    unfold init_fresh at hr
    rw [Option.map_eq_some'] at hr
    obtain ⟨s3, _, hs3⟩ := hr
    have e := congrArg Prod.fst hs3
    rw [init_finish_fst] at e
    generalize size s3.mem _ = w at e
    have := and_BLOCK_SIZE_le w
    simp only at e
    omega

/-- C5. Init rejection: `init_memory_pool` returns `(size_t)-1 = 0xFFFFFFFF` and
leaves the state (region contents and `mp`) as it was whenever the region is null, the
size is below `sizeof(tlsf_t) + 8 * BHDR_OVERHEAD`, or the region is not aligned to a
word; and a call that is not rejected never returns `0xFFFFFFFF`. -/
theorem init_memory_pool_reject :
    (∀ (hw : Intrinsics) (sz region : Nat) (s : State),
      (region = 0 ∨ sz < sizeof_tlsf_t + 8 * BHDR_OVERHEAD ∨ region % sizeof_ptr ≠ 0) →
      init_memory_pool hw sz region s = some (0xFFFFFFFF, s)) ∧
    (∀ (hw : Intrinsics) (sz region : Nat) (s s' : State) (r : Nat),
      ¬ (region = 0 ∨ sz < sizeof_tlsf_t + 8 * BHDR_OVERHEAD ∨ region % sizeof_ptr ≠ 0) →
      init_memory_pool hw sz region s = some (r, s') → r ≠ 0xFFFFFFFF) :=
  ⟨init_memory_pool_rejected, init_memory_pool_accepted_ne⟩

theorem init_memory_pool_reject_witness :
    (poolBase = 0 ∨ 100 < sizeof_tlsf_t + 8 * BHDR_OVERHEAD ∨ poolBase % sizeof_ptr ≠ 0) ∧
    init_memory_pool specScan 100 poolBase zeroState = some (0xFFFFFFFF, zeroState) ∧
    (62312 : Nat) ≠ 0xFFFFFFFF :=
  ⟨by decide, init_memory_pool_reject.1 specScan 100 poolBase zeroState (by decide),
    init_memory_pool_reject.2 specScan 65536 poolBase zeroState fresh64k 62312 (by decide)
      fresh64k_init⟩

/-- C7. A second `init_memory_pool` on the initialised 64 KiB region returns 8, the
size field of the sentinel at `region + ROUNDUP_SIZE(sizeof(tlsf_t))`, while the
first call returned 62312, the size field of the block behind the sentinel; the
state is left as it was. -/
theorem reinit_returns_sentinel_size :
    init_memory_pool specScan 65536 poolBase zeroState = some (62312, fresh64k) ∧
    init_memory_pool specScan 65536 poolBase fresh64k = some (8, fresh64k) ∧
    size fresh64k.mem (poolBase + 3192) &&& BLOCK_SIZE = 8 ∧
    size fresh64k.mem (poolBase + 3192 + 16) &&& BLOCK_SIZE = 62312 :=
  ⟨rfl, rfl, rfl, rfl⟩

/-- C8. On a 64 KiB region whose bytes hold a set bit in `sl_bitmap[0]` (and no
signature), `init_memory_pool` returns 62312, whose class is `(9, 28)`, and leaves
`sl_bitmap[0] = 1`: the bitmaps are not zeroed. -/
theorem init_keeps_stale_bitmap :
    (init_memory_pool specScan 65536 poolBase staleBitState).map
        (fun r => (r.1, r.2.tlsf.sl_bitmap 0, r.2.tlsf.sl_bitmap 9, r.2.tlsf.fl_bitmap)) =
      some (62312, 1, 2 ^ 28, 2 ^ 9) ∧
    MAPPING_INSERT specScan 62312 = (9, 28) :=
  ⟨rfl, rfl⟩

/-- C9. On the freshly initialised 64 KiB pool (`used_size = max_size = 3224`),
`add_new_area` of the 16 KiB behind the region leaves `used_size = 4294954136`
(3224 - 16384 modulo `2 ^ 32`) and `max_size = 3224`: `max_size < used_size`. -/
theorem add_new_area_breaks_peak :
    (fresh64k.tlsf.used_size = 3224 ∧ fresh64k.tlsf.max_size = 3224) ∧
    (add_new_area specScan 8 (poolBase + 65536) 16384 fresh64k).map
        (fun r => (r.1, r.2.tlsf.used_size, r.2.tlsf.max_size)) =
      some (16376, 4294954136, 3224) :=
  ⟨⟨rfl, rfl⟩, rfl⟩

end TLSF

namespace TLSF

theorem store_eq (m : Nat → Nat) (a v : Nat) : store m a v a = v := by
  simp [store]

theorem store_ne {m : Nat → Nat} {a v x : Nat} (h : x ≠ a) : store m a v x = m x := by
  simp [store, h]

theorem Sep.far {F : Finset Nat} (hS : Sep F) {x y : Nat} (hx : x ∈ F) (hy : y ∈ F) :
    x = y ∨ x + 16 ≤ y ∨ y + 16 ≤ x := by
  rcases Nat.lt_trichotomy x y with h | h | h
  · exact Or.inr (Or.inl (hS x hx y hy h))
  · exact Or.inl h
  · exact Or.inr (Or.inr (hS y hy x hx h))

theorem Sep.mono {F G : Finset Nat} (hS : Sep F) (h : G ⊆ F) : Sep G :=
  fun x hx y hy hxy => hS x (h hx) y (h hy) hxy

/-! ### `INSERT_BLOCK` -/

theorem INSERT_BLOCK_mem (b : Nat) (s : State) (fl sl : Nat) :
    (INSERT_BLOCK b s fl sl).mem =
      if s.tlsf.matrix fl sl ≠ 0 then
        store (store (store s.mem (b + 8) 0) (b + 12) (s.tlsf.matrix fl sl))
          (s.tlsf.matrix fl sl + 8) b
      else store (store s.mem (b + 8) 0) (b + 12) (s.tlsf.matrix fl sl) := by
  unfold INSERT_BLOCK
  simp only [set_fprev, set_fnext, set_matrix, set_sl_bitmap, set_fl_bitmap]
  split_ifs <;> rfl

theorem INSERT_BLOCK_matrix (b : Nat) (s : State) (fl sl : Nat) :
    (INSERT_BLOCK b s fl sl).tlsf.matrix =
      fun i j => if i = fl ∧ j = sl then b else s.tlsf.matrix i j := by
  unfold INSERT_BLOCK
  simp only [set_fprev, set_fnext, set_matrix, set_sl_bitmap, set_fl_bitmap]
  split_ifs <;> rfl

theorem INSERT_BLOCK_sl_bitmap (b : Nat) (s : State) (fl sl : Nat) :
    (INSERT_BLOCK b s fl sl).tlsf.sl_bitmap =
      fun i => if i = fl then set_bit sl (s.tlsf.sl_bitmap fl) else s.tlsf.sl_bitmap i := by
  unfold INSERT_BLOCK
  simp only [set_fprev, set_fnext, set_matrix, set_sl_bitmap, set_fl_bitmap]
  split_ifs <;> rfl

theorem INSERT_BLOCK_fl_bitmap (b : Nat) (s : State) (fl sl : Nat) :
    (INSERT_BLOCK b s fl sl).tlsf.fl_bitmap = set_bit fl s.tlsf.fl_bitmap := by
  unfold INSERT_BLOCK
  simp only [set_fprev, set_fnext, set_matrix, set_sl_bitmap, set_fl_bitmap]
  split_ifs <;> rfl

theorem INSERT_BLOCK_rest (b : Nat) (s : State) (fl sl : Nat) :
    (INSERT_BLOCK b s fl sl).tlsf.used_size = s.tlsf.used_size ∧
    (INSERT_BLOCK b s fl sl).tlsf.max_size = s.tlsf.max_size ∧
    (INSERT_BLOCK b s fl sl).tlsf.area_head = s.tlsf.area_head ∧
    (INSERT_BLOCK b s fl sl).tlsf.tlsf_signature = s.tlsf.tlsf_signature ∧
    (INSERT_BLOCK b s fl sl).mp = s.mp := by
  unfold INSERT_BLOCK
  simp only [set_fprev, set_fnext, set_matrix, set_sl_bitmap, set_fl_bitmap]
  split_ifs <;> exact ⟨rfl, rfl, rfl, rfl, rfl⟩

end TLSF

namespace TLSF

/-- What `INSERT_BLOCK` does to the memory, for a new block `x` and the linked
blocks `F`. -/
theorem INSERT_BLOCK_reads {s : State} {F : Finset Nat} {x i j : Nat}
    (hI : IdxInv s.tlsf s.mem F) (hS : Sep (insert x F)) (hxF : x ∉ F) (hx0 : x ≠ 0)
    (hi : i < 24) (hj : j < 32) :
    (∀ a, (∀ y ∈ insert x F, a ≠ y + 8 ∧ a ≠ y + 12) → (INSERT_BLOCK x s i j).mem a = s.mem a) ∧
    (∀ y ∈ insert x F, fprev (INSERT_BLOCK x s i j).mem y =
      if y = x then 0 else if y = s.tlsf.matrix i j then x else fprev s.mem y) ∧
    (∀ y ∈ insert x F, fnext (INSERT_BLOCK x s i j).mem y =
      if y = x then s.tlsf.matrix i j else fnext s.mem y) := by
  have hxm : x ∈ insert x F := Finset.mem_insert_self x F
  have hne0 : ∀ y ∈ insert x F, y ≠ 0 := by
    intro y hy
    rcases Finset.mem_insert.1 hy with h | h
    · rw [h]; exact hx0
    · exact hI.nz y h
  rw [INSERT_BLOCK_mem]
  by_cases hh : s.tlsf.matrix i j = 0
  · rw [if_neg (by simpa using hh)]
    refine ⟨?_, ?_, ?_⟩
    · intro a ha
      have := ha x hxm
      rw [store_ne (by omega), store_ne (by omega)]
    · intro y hy
      have hy0 : y ≠ s.tlsf.matrix i j := by rw [hh]; exact hne0 y hy
      have := hS.far hy hxm
      unfold fprev
      by_cases hyx : y = x
      · subst hyx
        rw [if_pos rfl, store_ne (by omega), store_eq]
      · rw [if_neg hyx, if_neg hy0, store_ne (by omega), store_ne (by omega)]
    · intro y hy
      have := hS.far hy hxm
      unfold fnext
      by_cases hyx : y = x
      · subst hyx
        rw [if_pos rfl, store_eq]
      · rw [if_neg hyx, store_ne (by omega), store_ne (by omega)]
  · rw [if_pos hh]
    have hhF : s.tlsf.matrix i j ∈ F := (hI.mx i j hi hj hh).1
    have hhm : s.tlsf.matrix i j ∈ insert x F := Finset.mem_insert_of_mem hhF
    have hhx : s.tlsf.matrix i j ≠ x := fun h => hxF (h ▸ hhF)
    refine ⟨?_, ?_, ?_⟩
    · intro a ha
      have := ha x hxm
      have := ha _ hhm
      rw [store_ne (by omega), store_ne (by omega), store_ne (by omega)]
    · intro y hy
      have := hS.far hy hxm
      have := hS.far hy hhm
      have := hS.far hxm hhm
      unfold fprev
      by_cases hyx : y = x
      · subst hyx
        rw [if_pos rfl, store_ne (by omega), store_ne (by omega), store_eq]
      · rw [if_neg hyx]
        by_cases hyh : y = s.tlsf.matrix i j
        · rw [if_pos hyh, hyh, store_eq]
        · rw [if_neg hyh, store_ne (by omega), store_ne (by omega), store_ne (by omega)]
    · intro y hy
      have := hS.far hy hxm
      have := hS.far hy hhm
      unfold fnext
      by_cases hyx : y = x
      · subst hyx
        rw [if_pos rfl, store_ne (by omega), store_eq]
      · rw [if_neg hyx, store_ne (by omega), store_ne (by omega), store_ne (by omega)]

theorem sep_field_ne {F : Finset Nat} (hS : Sep F) {y z : Nat} (hy : y ∈ F) (hz : z ∈ F) :
    y + 4 ≠ z + 8 ∧ y + 4 ≠ z + 12 ∧ y ≠ z + 8 ∧ y ≠ z + 12 ∧ y + 8 ≠ z + 12 := by
  have := hS.far hy hz
  omega

/-- A store outside the link words of `F` leaves the sizes of `F` alone. -/
theorem bsz_frame {m m' : Nat → Nat} {x : Nat} (h : m' (x + 4) = m (x + 4)) :
    bsz m' x = bsz m x := by
  unfold bsz size; rw [h]

theorem IdxInv_insert {s : State} {F : Finset Nat} {x i j : Nat}
    (hI : IdxInv s.tlsf s.mem F) (hS : Sep (insert x F)) (hxF : x ∉ F) (hx0 : x ≠ 0)
    (hcl : bsz s.mem x < 2 ^ 30) (hc : cls (bsz s.mem x) = (i, j)) :
    IdxInv (INSERT_BLOCK x s i j).tlsf (INSERT_BLOCK x s i j).mem (insert x F) := by
  have hij := cls_lt hcl
  rw [hc] at hij
  obtain ⟨hi, hj⟩ := hij
  obtain ⟨hfr, hpv, hnx⟩ := INSERT_BLOCK_reads hI hS hxF hx0 hi hj
  have hxm : x ∈ insert x F := Finset.mem_insert_self x F
  have hneq : ∀ z ∈ F, z ≠ x := fun z hz h => hxF (h ▸ hz)
  have hsz : ∀ y ∈ insert x F, bsz (INSERT_BLOCK x s i j).mem y = bsz s.mem y := by
    intro y hy
    apply bsz_frame
    apply hfr
    intro z hz
    have := sep_field_ne hS hy hz
    omega
  have hmem : ∀ y, y ∈ insert x F → y ≠ x → y ∈ F := by
    intro y hy hyx
    rcases Finset.mem_insert.1 hy with h | h
    · exact absurd h hyx
    · exact h
  have hhead : s.tlsf.matrix i j ≠ 0 → s.tlsf.matrix i j ∈ F ∧
      cls (bsz s.mem (s.tlsf.matrix i j)) = (i, j) ∧ fprev s.mem (s.tlsf.matrix i j) = 0 :=
    hI.mx i j hi hj
  refine ⟨?_, ?_, ?_, ?_, ?_, ?_, ?_, ?_, ?_, ?_⟩
  · intro y hy
    rcases Finset.mem_insert.1 hy with h | h
    · rw [h]; exact hx0
    · exact hI.nz y h
  · intro y hy
    rw [hsz y hy]
    rcases Finset.mem_insert.1 hy with h | h
    · rw [h]; exact hcl
    · exact hI.cl y h
  · -- heads
    intro y hy hp
    rw [hpv y hy] at hp
    rw [hsz y hy, INSERT_BLOCK_matrix]
    by_cases hyx : y = x
    · subst hyx; rw [hc]; simp
    · rw [if_neg hyx] at hp
      have hyF := hmem y hy hyx
      by_cases hyh : y = s.tlsf.matrix i j
      · rw [if_pos hyh] at hp; exact absurd hp hx0
      · rw [if_neg hyh] at hp
        have := hI.hd y hyF hp
        dsimp only
        rw [if_neg]
        · exact this
        · rintro ⟨h1, h2⟩
          apply hyh
          rw [← this, h1, h2]
  · -- predecessors
    intro y hy hp
    rw [hpv y hy] at hp ⊢
    by_cases hyx : y = x
    · rw [if_pos hyx] at hp; exact absurd rfl hp
    · rw [if_neg hyx] at hp ⊢
      have hyF := hmem y hy hyx
      by_cases hyh : y = s.tlsf.matrix i j
      · rw [if_pos hyh]
        have hh0 : s.tlsf.matrix i j ≠ 0 := by rw [← hyh]; exact hI.nz y hyF
        refine ⟨hxm, ?_, ?_⟩
        · rw [hsz x hxm, hsz y hy, hc, hyh, (hhead hh0).2.1]
        · rw [hnx x hxm, if_pos rfl, hyh]
      · rw [if_neg hyh] at hp ⊢
        obtain ⟨h1, h2, h3⟩ := hI.pv y hyF hp
        have h1m : fprev s.mem y ∈ insert x F := Finset.mem_insert_of_mem h1
        refine ⟨h1m, ?_, ?_⟩
        · rw [hsz _ h1m, hsz y hy, h2]
        · rw [hnx _ h1m, if_neg (hneq _ h1), h3]
  · -- successors
    intro y hy hn
    rw [hnx y hy] at hn ⊢
    by_cases hyx : y = x
    · rw [if_pos hyx] at hn ⊢
      obtain ⟨h1, h2, h3⟩ := hhead hn
      have h1m : s.tlsf.matrix i j ∈ insert x F := Finset.mem_insert_of_mem h1
      refine ⟨h1m, ?_, ?_⟩
      · rw [hsz _ h1m, hsz y hy, h2, hyx, hc]
      · rw [hpv _ h1m, if_neg (hneq _ h1), if_pos rfl, hyx]
    · rw [if_neg hyx] at hn ⊢
      have hyF := hmem y hy hyx
      obtain ⟨h1, h2, h3⟩ := hI.nx y hyF hn
      have h1m : fnext s.mem y ∈ insert x F := Finset.mem_insert_of_mem h1
      refine ⟨h1m, ?_, ?_⟩
      · rw [hsz _ h1m, hsz y hy, h2]
      · rw [hpv _ h1m, if_neg (hneq _ h1)]
        rw [if_neg, h3]
        intro h
        -- the old head has no predecessor
        have hh0 : s.tlsf.matrix i j ≠ 0 := by rw [← h]; exact hI.nz _ h1
        have := (hhead hh0).2.2
        rw [← h, h3] at this
        exact hI.nz y hyF this
  · -- matrix
    intro i' j' hi' hj' hm
    rw [INSERT_BLOCK_matrix] at hm ⊢
    dsimp only at hm ⊢
    by_cases hij : i' = i ∧ j' = j
    · rw [if_pos hij]
      refine ⟨hxm, ?_, ?_⟩
      · rw [hsz x hxm, hc, hij.1, hij.2]
      · rw [hpv x hxm, if_pos rfl]
    · rw [if_neg hij] at hm ⊢
      obtain ⟨h1, h2, h3⟩ := hI.mx i' j' hi' hj' hm
      have h1m : s.tlsf.matrix i' j' ∈ insert x F := Finset.mem_insert_of_mem h1
      refine ⟨h1m, ?_, ?_⟩
      · rw [hsz _ h1m, h2]
      · rw [hpv _ h1m, if_neg (hneq _ h1), if_neg, h3]
        intro h
        have hh0 : s.tlsf.matrix i j ≠ 0 := by rw [← h]; exact hm
        have := (hhead hh0).2.1
        rw [← h, h2] at this
        apply hij
        simp only [Prod.mk.injEq] at this
        exact this
  · -- second-level bitmap
    intro i' j' hi' hj'
    rw [INSERT_BLOCK_sl_bitmap, INSERT_BLOCK_matrix]
    dsimp only
    by_cases hi2 : i' = i
    · subst hi2
      rw [if_pos rfl, testBit_set_bit _ _ _ hj]
      by_cases hj2 : j' = j
      · subst hj2; simp [hx0]
      · have : ¬ (i' = i' ∧ j' = j) := fun h => hj2 h.2
        rw [if_neg this]
        have := hI.sb i' j' hi' hj'
        simp [Ne.symm hj2, this]
    · have : ¬ (i' = i ∧ j' = j) := fun h => hi2 h.1
      rw [if_neg hi2, if_neg this]
      exact hI.sb i' j' hi' hj'
  · intro i' hi'
    rw [INSERT_BLOCK_sl_bitmap]
    dsimp only
    by_cases hi2 : i' = i
    · rw [if_pos hi2]; exact set_bit_lt _ _ hj (hI.sl i hi)
    · rw [if_neg hi2]; exact hI.sl i' hi'
  · -- first-level bitmap
    intro i' hi'
    rw [INSERT_BLOCK_fl_bitmap, INSERT_BLOCK_sl_bitmap, testBit_set_bit _ _ _ (by omega)]
    dsimp only
    by_cases hi2 : i' = i
    · subst hi2
      rw [if_pos rfl]
      have : set_bit j (s.tlsf.sl_bitmap i') ≠ 0 := by
        intro h0
        have := testBit_set_bit j (s.tlsf.sl_bitmap i') j hj
        rw [h0] at this
        simp at this
      simp [this]
    · rw [if_neg hi2]
      have := hI.fb i' hi'
      simp [Ne.symm hi2, this]
  · rw [INSERT_BLOCK_fl_bitmap, set_bit, shl32_one i (by omega)]
    exact Nat.or_lt_two_pow hI.fl (Nat.pow_lt_pow_right (by norm_num) hi)

end TLSF

namespace TLSF

/-! ### `EXTRACT_BLOCK` -/

theorem clear_bits_mem (s : State) (fl sl : Nat) : (clear_bits s fl sl).mem = s.mem := by
  unfold clear_bits
  simp only [set_sl_bitmap, set_fl_bitmap]
  split_ifs <;> rfl

theorem clear_bits_matrix (s : State) (fl sl : Nat) :
    (clear_bits s fl sl).tlsf.matrix = s.tlsf.matrix := by
  unfold clear_bits
  simp only [set_sl_bitmap, set_fl_bitmap]
  split_ifs <;> rfl

theorem clear_bits_sl_bitmap (s : State) (fl sl : Nat) :
    (clear_bits s fl sl).tlsf.sl_bitmap =
      fun i => if i = fl then clear_bit sl (s.tlsf.sl_bitmap fl) else s.tlsf.sl_bitmap i := by
  unfold clear_bits
  simp only [set_sl_bitmap, set_fl_bitmap]
  split_ifs <;> rfl

theorem clear_bits_fl_bitmap (s : State) (fl sl : Nat) :
    (clear_bits s fl sl).tlsf.fl_bitmap =
      if clear_bit sl (s.tlsf.sl_bitmap fl) = 0 then clear_bit fl s.tlsf.fl_bitmap
      else s.tlsf.fl_bitmap := by
  unfold clear_bits
  simp only [set_sl_bitmap, set_fl_bitmap, if_true]
  split_ifs <;> rfl

theorem clear_bits_rest (s : State) (fl sl : Nat) :
    (clear_bits s fl sl).tlsf.used_size = s.tlsf.used_size ∧
    (clear_bits s fl sl).tlsf.max_size = s.tlsf.max_size ∧
    (clear_bits s fl sl).tlsf.area_head = s.tlsf.area_head ∧
    (clear_bits s fl sl).tlsf.tlsf_signature = s.tlsf.tlsf_signature ∧
    (clear_bits s fl sl).mp = s.mp := by
  unfold clear_bits
  simp only [set_sl_bitmap, set_fl_bitmap]
  split_ifs <;> exact ⟨rfl, rfl, rfl, rfl, rfl⟩

theorem clear_links_mem (b : Nat) (s : State) :
    (clear_links b s).mem = store (store s.mem (b + 8) 0) (b + 12) 0 := rfl

theorem clear_links_tlsf (b : Nat) (s : State) : (clear_links b s).tlsf = s.tlsf := rfl

theorem clear_links_mp (b : Nat) (s : State) : (clear_links b s).mp = s.mp := rfl

theorem unlink_next_mem (b : Nat) (s : State) :
    (unlink_next b s).mem =
      if fnext s.mem b ≠ 0 then store s.mem (fnext s.mem b + 8) (fprev s.mem b) else s.mem := by
  unfold unlink_next; split_ifs <;> rfl

theorem unlink_next_tlsf (b : Nat) (s : State) : (unlink_next b s).tlsf = s.tlsf := by
  unfold unlink_next; split_ifs <;> rfl

theorem unlink_next_mp (b : Nat) (s : State) : (unlink_next b s).mp = s.mp := by
  unfold unlink_next; split_ifs <;> rfl

theorem unlink_prev_mem (b : Nat) (s : State) :
    (unlink_prev b s).mem =
      if fprev s.mem b ≠ 0 then store s.mem (fprev s.mem b + 12) (fnext s.mem b) else s.mem := by
  unfold unlink_prev; split_ifs <;> rfl

theorem unlink_prev_tlsf (b : Nat) (s : State) : (unlink_prev b s).tlsf = s.tlsf := by
  unfold unlink_prev; split_ifs <;> rfl

theorem unlink_prev_mp (b : Nat) (s : State) : (unlink_prev b s).mp = s.mp := by
  unfold unlink_prev; split_ifs <;> rfl

theorem unlink_head_mem (b : Nat) (s : State) (fl sl : Nat) :
    (unlink_head b s fl sl).mem = s.mem := by
  unfold unlink_head
  split_ifs
  · rw [clear_bits_mem]; rfl
  · rfl
  · rfl

theorem unlink_head_mp (b : Nat) (s : State) (fl sl : Nat) :
    (unlink_head b s fl sl).mp = s.mp := by
  unfold unlink_head
  split_ifs
  · rw [(clear_bits_rest _ _ _).2.2.2.2]; rfl
  · rfl
  · rfl

theorem unlink_head_matrix (b : Nat) (s : State) (fl sl : Nat) :
    (unlink_head b s fl sl).tlsf.matrix =
      if s.tlsf.matrix fl sl = b then
        fun i j => if i = fl ∧ j = sl then fnext s.mem b else s.tlsf.matrix i j
      else s.tlsf.matrix := by
  unfold unlink_head
  split_ifs
  · rw [clear_bits_matrix]; rfl
  · rfl
  · rfl

theorem set_matrix_self (s : State) (fl sl v : Nat) :
    (set_matrix s fl sl v).tlsf.matrix fl sl = v := by
  simp [set_matrix]

theorem unlink_head_sl_bitmap (b : Nat) (s : State) (fl sl : Nat) :
    (unlink_head b s fl sl).tlsf.sl_bitmap =
      if s.tlsf.matrix fl sl = b ∧ fnext s.mem b = 0 then
        fun i => if i = fl then clear_bit sl (s.tlsf.sl_bitmap fl) else s.tlsf.sl_bitmap i
      else s.tlsf.sl_bitmap := by
  unfold unlink_head
  rw [set_matrix_self]
  by_cases h1 : s.tlsf.matrix fl sl = b
  · by_cases h2 : fnext s.mem b = 0
    · rw [if_pos h1, if_pos h2, if_pos ⟨h1, h2⟩, clear_bits_sl_bitmap]; rfl
    · rw [if_pos h1, if_neg h2, if_neg (fun h => h2 h.2)]; rfl
  · rw [if_neg h1, if_neg (fun h => h1 h.1)]

theorem unlink_head_fl_bitmap (b : Nat) (s : State) (fl sl : Nat) :
    (unlink_head b s fl sl).tlsf.fl_bitmap =
      if s.tlsf.matrix fl sl = b ∧ fnext s.mem b = 0 ∧ clear_bit sl (s.tlsf.sl_bitmap fl) = 0 then
        clear_bit fl s.tlsf.fl_bitmap
      else s.tlsf.fl_bitmap := by
  unfold unlink_head
  rw [set_matrix_self]
  by_cases h1 : s.tlsf.matrix fl sl = b
  · by_cases h2 : fnext s.mem b = 0
    · rw [if_pos h1, if_pos h2, clear_bits_fl_bitmap]
      have e1 : (set_matrix s fl sl (fnext s.mem b)).tlsf.sl_bitmap = s.tlsf.sl_bitmap := rfl
      have e2 : (set_matrix s fl sl (fnext s.mem b)).tlsf.fl_bitmap = s.tlsf.fl_bitmap := rfl
      rw [e1, e2]
      by_cases h3 : clear_bit sl (s.tlsf.sl_bitmap fl) = 0
      · rw [if_pos h3, if_pos ⟨h1, h2, h3⟩]
      · rw [if_neg h3, if_neg (fun h => h3 h.2.2)]
    · rw [if_pos h1, if_neg h2, if_neg (fun h => h2 h.2.1)]; rfl
  · rw [if_neg h1, if_neg (fun h => h1 h.1)]

theorem unlink_head_rest (b : Nat) (s : State) (fl sl : Nat) :
    (unlink_head b s fl sl).tlsf.used_size = s.tlsf.used_size ∧
    (unlink_head b s fl sl).tlsf.max_size = s.tlsf.max_size ∧
    (unlink_head b s fl sl).tlsf.area_head = s.tlsf.area_head ∧
    (unlink_head b s fl sl).tlsf.tlsf_signature = s.tlsf.tlsf_signature := by
  unfold unlink_head
  split_ifs
  · obtain ⟨h1, h2, h3, h4, _⟩ := clear_bits_rest (set_matrix s fl sl (fnext s.mem b)) fl sl
    exact ⟨h1, h2, h3, h4⟩
  · exact ⟨rfl, rfl, rfl, rfl⟩
  · exact ⟨rfl, rfl, rfl, rfl⟩

/-- The memory after `EXTRACT_BLOCK` of a linked block `x`. -/
theorem EXTRACT_BLOCK_mem {s : State} {F : Finset Nat} {x : Nat} (fl sl : Nat)
    (hI : IdxInv s.tlsf s.mem F) (hS : Sep F) (hx : x ∈ F) :
    (EXTRACT_BLOCK x s fl sl).mem =
      store (store
        (if fprev s.mem x ≠ 0 then
          store (if fnext s.mem x ≠ 0 then store s.mem (fnext s.mem x + 8) (fprev s.mem x)
            else s.mem) (fprev s.mem x + 12) (fnext s.mem x)
         else (if fnext s.mem x ≠ 0 then store s.mem (fnext s.mem x + 8) (fprev s.mem x)
            else s.mem)) (x + 8) 0) (x + 12) 0 ∧
    fnext (unlink_prev x (unlink_next x s)).mem x = fnext s.mem x := by
  have h1 : fprev (unlink_next x s).mem x = fprev s.mem x := by
    rw [unlink_next_mem]
    unfold fprev
    split_ifs with h
    · by_cases e : x + 8 = fnext s.mem x + 8
      · rw [e, store_eq]
      · rw [store_ne e]
    · rfl
  have h2 : fnext (unlink_next x s).mem x = fnext s.mem x := by
    rw [unlink_next_mem]
    unfold fnext
    split_ifs with h
    · have := hS.far (hI.nx x hx h).1 hx
      unfold fnext at this
      rw [store_ne (by omega)]
    · rfl
  have h3 : fnext (unlink_prev x (unlink_next x s)).mem x = fnext s.mem x := by
    rw [unlink_prev_mem, h1, h2]
    by_cases hp : fprev s.mem x ≠ 0
    · rw [if_pos hp]
      by_cases e : x + 12 = fprev s.mem x + 12
      · unfold fnext; rw [e, store_eq]
      · unfold fnext; rw [store_ne e]; exact h2
    · rw [if_neg hp]; exact h2
  refine ⟨?_, h3⟩
  unfold EXTRACT_BLOCK
  rw [clear_links_mem, unlink_head_mem, unlink_prev_mem, h1, h2, unlink_next_mem]

end TLSF

namespace TLSF

theorem unlinked_read (m : Nat → Nat) (n p a : Nat) :
    (if p ≠ 0 then store (if n ≠ 0 then store m (n + 8) p else m) (p + 12) n
      else (if n ≠ 0 then store m (n + 8) p else m)) a =
    if p ≠ 0 ∧ a = p + 12 then n else if n ≠ 0 ∧ a = n + 8 then p else m a := by
  by_cases hp : p ≠ 0 <;> by_cases hn : n ≠ 0 <;> by_cases h1 : a = p + 12 <;>
    by_cases h2 : a = n + 8 <;> simp [store, hp, hn, h1, h2]

/-- What `EXTRACT_BLOCK` of a linked block `x` does to the memory and to the list
heads. -/
theorem EXTRACT_BLOCK_reads {s : State} {F : Finset Nat} {x : Nat} (fl sl : Nat)
    (hI : IdxInv s.tlsf s.mem F) (hS : Sep F) (hx : x ∈ F) :
    (∀ a, (∀ y ∈ F, a ≠ y + 8 ∧ a ≠ y + 12) → (EXTRACT_BLOCK x s fl sl).mem a = s.mem a) ∧
    (∀ y ∈ F, y ≠ x → fprev (EXTRACT_BLOCK x s fl sl).mem y =
      if y = fnext s.mem x then fprev s.mem x else fprev s.mem y) ∧
    (∀ y ∈ F, y ≠ x → fnext (EXTRACT_BLOCK x s fl sl).mem y =
      if y = fprev s.mem x then fnext s.mem x else fnext s.mem y) ∧
    (EXTRACT_BLOCK x s fl sl).tlsf.matrix =
      (if s.tlsf.matrix fl sl = x then
        fun i j => if i = fl ∧ j = sl then fnext s.mem x else s.tlsf.matrix i j
      else s.tlsf.matrix) ∧
    (EXTRACT_BLOCK x s fl sl).tlsf.sl_bitmap =
      (if s.tlsf.matrix fl sl = x ∧ fnext s.mem x = 0 then
        fun i => if i = fl then clear_bit sl (s.tlsf.sl_bitmap fl) else s.tlsf.sl_bitmap i
      else s.tlsf.sl_bitmap) ∧
    (EXTRACT_BLOCK x s fl sl).tlsf.fl_bitmap =
      (if s.tlsf.matrix fl sl = x ∧ fnext s.mem x = 0 ∧
          clear_bit sl (s.tlsf.sl_bitmap fl) = 0 then
        clear_bit fl s.tlsf.fl_bitmap
      else s.tlsf.fl_bitmap) := by
  obtain ⟨hmem, hfn⟩ := EXTRACT_BLOCK_mem fl sl hI hS hx
  have hpF : fprev s.mem x ≠ 0 → fprev s.mem x ∈ F := fun h => (hI.pv x hx h).1
  have hnF : fnext s.mem x ≠ 0 → fnext s.mem x ∈ F := fun h => (hI.nx x hx h).1
  have ht : (EXTRACT_BLOCK x s fl sl).tlsf =
      (unlink_head x (unlink_prev x (unlink_next x s)) fl sl).tlsf := rfl
  have ht2 : (unlink_prev x (unlink_next x s)).tlsf = s.tlsf := by
    rw [unlink_prev_tlsf, unlink_next_tlsf]
  refine ⟨?_, ?_, ?_, ?_, ?_, ?_⟩
  · intro a ha
    have hax := ha x hx
    rw [hmem, store_ne (by omega), store_ne (by omega), unlinked_read]
    rw [if_neg, if_neg]
    · rintro ⟨h1, h2⟩
      exact (ha _ (hnF h1)).1 h2
    · rintro ⟨h1, h2⟩
      exact (ha _ (hpF h1)).2 h2
  · intro y hy hyx
    have := hS.far hy hx
    show (EXTRACT_BLOCK x s fl sl).mem (y + 8) = _
    rw [hmem, store_ne (by omega), store_ne (by omega), unlinked_read]
    rw [if_neg]
    · by_cases hyn : y = fnext s.mem x
      · rw [if_pos hyn, if_pos]
        exact ⟨by rw [← hyn]; exact hI.nz y hy, by rw [hyn]⟩
      · rw [if_neg hyn, if_neg]
        · rfl
        · rintro ⟨_, h2⟩
          exact hyn (by omega)
    · rintro ⟨h1, h2⟩
      have := hS.far hy (hpF h1)
      omega
  · intro y hy hyx
    have := hS.far hy hx
    show (EXTRACT_BLOCK x s fl sl).mem (y + 12) = _
    rw [hmem, store_ne (by omega), store_ne (by omega), unlinked_read]
    by_cases hyp : y = fprev s.mem x
    · rw [if_pos hyp, if_pos]
      exact ⟨by rw [← hyp]; exact hI.nz y hy, by rw [hyp]⟩
    · rw [if_neg hyp, if_neg, if_neg]
      · rfl
      · rintro ⟨h1, h2⟩
        have := hS.far hy (hnF h1)
        omega
      · rintro ⟨_, h2⟩
        exact hyp (by omega)
  · rw [ht, unlink_head_matrix, ht2, hfn]
  · rw [ht, unlink_head_sl_bitmap, ht2, hfn]
  · rw [ht, unlink_head_fl_bitmap, ht2, hfn]

end TLSF

namespace TLSF

theorem clear_bit_zero (j : Nat) : clear_bit j 0 = 0 := by
  simp [clear_bit]

theorem IdxInv_extract {s : State} {F : Finset Nat} {x i j : Nat}
    (hI : IdxInv s.tlsf s.mem F) (hS : Sep F) (hx : x ∈ F)
    (hc : cls (bsz s.mem x) = (i, j)) :
    IdxInv (EXTRACT_BLOCK x s i j).tlsf (EXTRACT_BLOCK x s i j).mem (F.erase x) := by
  have hij := cls_lt (hI.cl x hx)
  rw [hc] at hij
  obtain ⟨hi, hj⟩ := hij
  obtain ⟨hfr, hpv, hnx, hmx, hsl, hfl⟩ := EXTRACT_BLOCK_reads i j hI hS hx
  have hsz : ∀ y ∈ F, bsz (EXTRACT_BLOCK x s i j).mem y = bsz s.mem y := by
    intro y hy
    apply bsz_frame
    apply hfr
    intro z hz
    have := sep_field_ne hS hy hz
    omega
  have hx0 : x ≠ 0 := hI.nz x hx
  have hme : ∀ y, y ∈ F.erase x → y ∈ F ∧ y ≠ x := fun y hy =>
    ⟨Finset.mem_of_mem_erase hy, Finset.ne_of_mem_erase hy⟩
  have hem : ∀ y, y ∈ F → y ≠ x → y ∈ F.erase x := fun y hy hyx =>
    Finset.mem_erase.2 ⟨hyx, hy⟩
  -- facts about the neighbours of `x` in its list
  have hN : fnext s.mem x ≠ 0 → fnext s.mem x ∈ F ∧
      cls (bsz s.mem (fnext s.mem x)) = (i, j) ∧ fprev s.mem (fnext s.mem x) = x := by
    intro h; have := hI.nx x hx h; rw [hc] at this; exact this
  have hP : fprev s.mem x ≠ 0 → fprev s.mem x ∈ F ∧
      cls (bsz s.mem (fprev s.mem x)) = (i, j) ∧ fnext s.mem (fprev s.mem x) = x := by
    intro h; have := hI.pv x hx h; rw [hc] at this; exact this
  have hH : fprev s.mem x = 0 → s.tlsf.matrix i j = x := by
    intro h; have := hI.hd x hx h; rw [hc] at this; exact this
  have hH2 : s.tlsf.matrix i j = x → fprev s.mem x = 0 := by
    intro h; have := (hI.mx i j hi hj (by rw [h]; exact hx0)).2.2; rw [h] at this; exact this
  refine ⟨?_, ?_, ?_, ?_, ?_, ?_, ?_, ?_, ?_, ?_⟩
  · intro y hy; exact hI.nz y (hme y hy).1
  · intro y hy; rw [hsz y (hme y hy).1]; exact hI.cl y (hme y hy).1
  · -- heads
    intro y hy hp
    obtain ⟨hyF, hyx⟩ := hme y hy
    rw [hpv y hyF hyx] at hp
    rw [hsz y hyF, hmx]
    by_cases hyn : y = fnext s.mem x
    · rw [if_pos hyn] at hp
      have hn0 : fnext s.mem x ≠ 0 := by rw [← hyn]; exact hI.nz y hyF
      rw [if_pos (hH hp), hyn, (hN hn0).2.1]
      simp
    · rw [if_neg hyn] at hp
      have := hI.hd y hyF hp
      by_cases hm : s.tlsf.matrix i j = x
      · rw [if_pos hm]
        rw [if_neg]
        · exact this
        · rintro ⟨h1, h2⟩
          apply hyx
          rw [← this, h1, h2, hm]
      · rw [if_neg hm]; exact this
  · -- predecessors
    intro y hy hp
    obtain ⟨hyF, hyx⟩ := hme y hy
    rw [hpv y hyF hyx] at hp ⊢
    by_cases hyn : y = fnext s.mem x
    · rw [if_pos hyn] at hp ⊢
      have hn0 : fnext s.mem x ≠ 0 := by rw [← hyn]; exact hI.nz y hyF
      obtain ⟨p1, p2, p3⟩ := hP hp
      obtain ⟨n1, n2, n3⟩ := hN hn0
      have hpx : fprev s.mem x ≠ x := by
        intro h
        rw [h] at p3
        exact hyx (by rw [hyn, p3])
      refine ⟨hem _ p1 hpx, ?_, ?_⟩
      · rw [hsz _ p1, hsz y hyF, p2, hyn, n2]
      · rw [hnx _ p1 hpx, if_pos rfl, hyn]
    · rw [if_neg hyn] at hp ⊢
      obtain ⟨q1, q2, q3⟩ := hI.pv y hyF hp
      have hqx : fprev s.mem y ≠ x := by
        intro h
        rw [h] at q3
        exact hyn q3.symm
      refine ⟨hem _ q1 hqx, ?_, ?_⟩
      · rw [hsz _ q1, hsz y hyF, q2]
      · rw [hnx _ q1 hqx, if_neg, q3]
        intro h
        have hp0 : fprev s.mem x ≠ 0 := by rw [← h]; exact hp
        have := (hP hp0).2.2
        rw [← h, q3] at this
        exact hyx this
  · -- successors
    intro y hy hn
    obtain ⟨hyF, hyx⟩ := hme y hy
    rw [hnx y hyF hyx] at hn ⊢
    by_cases hyp : y = fprev s.mem x
    · rw [if_pos hyp] at hn ⊢
      have hp0 : fprev s.mem x ≠ 0 := by rw [← hyp]; exact hI.nz y hyF
      obtain ⟨p1, p2, p3⟩ := hP hp0
      obtain ⟨n1, n2, n3⟩ := hN hn
      have hnx' : fnext s.mem x ≠ x := by
        intro h
        rw [h] at n3
        exact hyx (by rw [hyp, n3])
      refine ⟨hem _ n1 hnx', ?_, ?_⟩
      · rw [hsz _ n1, hsz y hyF, n2, hyp, p2]
      · rw [hpv _ n1 hnx', if_pos rfl, hyp]
    · rw [if_neg hyp] at hn ⊢
      obtain ⟨q1, q2, q3⟩ := hI.nx y hyF hn
      have hqx : fnext s.mem y ≠ x := by
        intro h
        rw [h] at q3
        exact hyp q3.symm
      refine ⟨hem _ q1 hqx, ?_, ?_⟩
      · rw [hsz _ q1, hsz y hyF, q2]
      · rw [hpv _ q1 hqx, if_neg, q3]
        intro h
        have hn0 : fnext s.mem x ≠ 0 := by rw [← h]; exact hn
        have := (hN hn0).2.2
        rw [← h, q3] at this
        exact hyx this
  · -- matrix
    intro i' j' hi' hj' hm
    rw [hmx] at hm ⊢
    have key : ∀ h', h' = s.tlsf.matrix i' j' → h' ≠ 0 → h' ≠ x →
        h' ∈ F.erase x ∧ cls (bsz (EXTRACT_BLOCK x s i j).mem h') = (i', j') ∧
        fprev (EXTRACT_BLOCK x s i j).mem h' = 0 := by
      intro h' e h0 hne
      obtain ⟨m1, m2, m3⟩ := hI.mx i' j' hi' hj' (by rw [← e]; exact h0)
      rw [← e] at m1 m2 m3
      refine ⟨hem _ m1 hne, by rw [hsz _ m1, m2], ?_⟩
      rw [hpv _ m1 hne, if_neg, m3]
      intro h
      have hn0 : fnext s.mem x ≠ 0 := by rw [← h]; exact h0
      have := (hN hn0).2.2
      rw [← h, m3] at this
      exact hx0 this.symm
    by_cases hmt : s.tlsf.matrix i j = x
    · rw [if_pos hmt] at hm ⊢
      by_cases hij : i' = i ∧ j' = j
      · rw [if_pos hij] at hm ⊢
        obtain ⟨n1, n2, n3⟩ := hN hm
        have hp0 := hH2 hmt
        have hnx' : fnext s.mem x ≠ x := by
          intro h
          rw [h] at n3
          exact hx0 (by rw [← n3, hp0])
        refine ⟨hem _ n1 hnx', ?_, ?_⟩
        · rw [hsz _ n1, n2, hij.1, hij.2]
        · rw [hpv _ n1 hnx', if_pos rfl, hp0]
      · rw [if_neg hij] at hm ⊢
        apply key _ rfl hm
        intro h
        have := (hI.mx i' j' hi' hj' hm).2.1
        rw [h, hc] at this
        apply hij
        simp only [Prod.mk.injEq] at this
        exact ⟨this.1.symm, this.2.symm⟩
    · rw [if_neg hmt] at hm ⊢
      apply key _ rfl hm
      intro h
      have := (hI.mx i' j' hi' hj' hm).2.1
      rw [h, hc] at this
      simp only [Prod.mk.injEq] at this
      apply hmt
      rw [this.1, this.2]; exact h
  · -- second-level bitmap
    intro i' j' hi' hj'
    rw [hsl, hmx]
    by_cases hmt : s.tlsf.matrix i j = x
    · by_cases hn0 : fnext s.mem x = 0
      · rw [if_pos ⟨hmt, hn0⟩, if_pos hmt]
        by_cases hi2 : i' = i
        · subst hi2
          rw [if_pos rfl, testBit_clear_bit _ _ _ hj (hI.sl i' hi')]
          by_cases hj2 : j' = j
          · subst hj2; simp [hn0]
          · have : ¬ (i' = i' ∧ j' = j) := fun h => hj2 h.2
            rw [if_neg this]
            have := hI.sb i' j' hi' hj'
            simp [Ne.symm hj2, this]
        · have : ¬ (i' = i ∧ j' = j) := fun h => hi2 h.1
          rw [if_neg hi2, if_neg this]
          exact hI.sb i' j' hi' hj'
      · rw [if_neg (fun h => hn0 h.2), if_pos hmt]
        by_cases hij : i' = i ∧ j' = j
        · rw [if_pos hij, hij.1, hij.2]
          have := hI.sb i j hi hj
          rw [hmt] at this
          simp [this, hx0, hn0]
        · rw [if_neg hij]; exact hI.sb i' j' hi' hj'
    · rw [if_neg (fun h => hmt h.1), if_neg hmt]
      exact hI.sb i' j' hi' hj'
  · intro i' hi'
    rw [hsl]
    split_ifs with h1
    · dsimp only
      split_ifs
      · exact clear_bit_lt _ _ (hI.sl i hi)
      · exact hI.sl i' hi'
    · exact hI.sl i' hi'
  · -- first-level bitmap
    intro i' hi'
    rw [hfl, hsl]
    by_cases h1 : s.tlsf.matrix i j = x ∧ fnext s.mem x = 0
    · rw [if_pos h1]
      by_cases h3 : clear_bit j (s.tlsf.sl_bitmap i) = 0
      · rw [if_pos ⟨h1.1, h1.2, h3⟩,
          testBit_clear_bit _ _ _ (by omega) (lt_of_lt_of_le hI.fl (by norm_num))]
        by_cases hi2 : i' = i
        · subst hi2; rw [if_pos rfl]; simp [h3]
        · rw [if_neg hi2]
          have := hI.fb i' hi'
          simp [Ne.symm hi2, this]
      · rw [if_neg (fun h => h3 h.2.2)]
        by_cases hi2 : i' = i
        · subst hi2; rw [if_pos rfl]
          have := hI.fb i' hi'
          have hne : s.tlsf.sl_bitmap i' ≠ 0 := by
            intro h0; rw [h0, clear_bit_zero] at h3; exact h3 rfl
          simp [this, hne, h3]
        · rw [if_neg hi2]; exact hI.fb i' hi'
    · rw [if_neg h1, if_neg (fun h => h1 ⟨h.1, h.2.1⟩)]
      exact hI.fb i' hi'
  · rw [hfl]
    split_ifs
    · exact lt_of_le_of_lt Nat.and_le_left hI.fl
    · exact hI.fl

end TLSF

namespace TLSF

/-- The index invariant reads the memory only in the sizes and link words of the
linked blocks, and the control structure only in the heads and bitmaps. -/
theorem IdxInv_frame {t t' : tlsf_t} {m m' : Nat → Nat} {F : Finset Nat}
    (hI : IdxInv t m F)
    (hsz : ∀ y ∈ F, bsz m' y = bsz m y)
    (hpv : ∀ y ∈ F, fprev m' y = fprev m y)
    (hnx : ∀ y ∈ F, fnext m' y = fnext m y)
    (hmx : t'.matrix = t.matrix) (hsl : t'.sl_bitmap = t.sl_bitmap)
    (hfl : t'.fl_bitmap = t.fl_bitmap) : IdxInv t' m' F := by
  refine ⟨hI.nz, ?_, ?_, ?_, ?_, ?_, ?_, ?_, ?_, ?_⟩
  · intro y hy; rw [hsz y hy]; exact hI.cl y hy
  · intro y hy hp
    rw [hpv y hy] at hp
    rw [hsz y hy, hmx]; exact hI.hd y hy hp
  · intro y hy hp
    rw [hpv y hy] at hp ⊢
    obtain ⟨h1, h2, h3⟩ := hI.pv y hy hp
    exact ⟨h1, by rw [hsz _ h1, hsz y hy, h2], by rw [hnx _ h1, h3]⟩
  · intro y hy hn
    rw [hnx y hy] at hn ⊢
    obtain ⟨h1, h2, h3⟩ := hI.nx y hy hn
    exact ⟨h1, by rw [hsz _ h1, hsz y hy, h2], by rw [hpv _ h1, h3]⟩
  · intro i j hi hj hm
    rw [hmx] at hm ⊢
    obtain ⟨h1, h2, h3⟩ := hI.mx i j hi hj hm
    exact ⟨h1, by rw [hsz _ h1, h2], by rw [hpv _ h1, h3]⟩
  · intro i j hi hj; rw [hsl, hmx]; exact hI.sb i j hi hj
  · intro i hi; rw [hsl]; exact hI.sl i hi
  · intro i hi; rw [hfl, hsl]; exact hI.fb i hi
  · rw [hfl]; exact hI.fl

/-- Removing the head of a list with `EXTRACT_BLOCK_HDR` is the same as removing it
with `EXTRACT_BLOCK`. -/
theorem EXTRACT_BLOCK_HDR_eq {s : State} {F : Finset Nat} {x i j : Nat}
    (hI : IdxInv s.tlsf s.mem F) (hS : Sep F) (hx : x ∈ F)
    (hm : s.tlsf.matrix i j = x) (hp : fprev s.mem x = 0) :
    EXTRACT_BLOCK_HDR x s i j = EXTRACT_BLOCK x s i j := by
  have hal : fnext s.mem x ≠ 0 → fnext s.mem x + 8 ≠ x + 12 := by
    intro h
    have := hS.far (hI.nx x hx h).1 hx
    omega
  unfold EXTRACT_BLOCK_HDR EXTRACT_BLOCK
  congr 1
  by_cases hn : fnext s.mem x = 0
  · have e1 : unlink_next x s = s := by unfold unlink_next; rw [if_neg (by simpa using hn)]
    have e2 : unlink_prev x s = s := by unfold unlink_prev; rw [if_neg (by simpa using hp)]
    rw [e1, e2]
    unfold unlink_head relink_head
    rw [set_matrix_self, if_pos hm, if_pos hn, if_neg (by simpa using hn)]
  · have e1 : unlink_next x s = set_fprev s (fnext s.mem x) 0 := by
      unfold unlink_next; rw [if_pos hn, hp]
    have hp1 : fprev (set_fprev s (fnext s.mem x) 0).mem x = 0 := by
      show store s.mem (fnext s.mem x + 8) 0 (x + 8) = 0
      by_cases e : x + 8 = fnext s.mem x + 8
      · rw [e, store_eq]
      · rw [store_ne e]; exact hp
    have e2 : unlink_prev x (set_fprev s (fnext s.mem x) 0) = set_fprev s (fnext s.mem x) 0 := by
      unfold unlink_prev; rw [if_neg (by simpa using hp1)]
    have hn1 : fnext (set_fprev s (fnext s.mem x) 0).mem x = fnext s.mem x := by
      show store s.mem (fnext s.mem x + 8) 0 (x + 12) = _
      rw [store_ne (fun e => hal hn e.symm)]; rfl
    rw [e1, e2]
    unfold unlink_head relink_head
    rw [set_matrix_self, set_matrix_self, if_pos hn, hn1]
    have e3 : (set_fprev s (fnext s.mem x) 0).tlsf.matrix i j = x := hm
    rw [if_pos e3, if_neg hn]
    rfl

/-! ### Header words -/

theorem bsz_eq {m : Nat → Nat} {b : Nat} (h : size m b < 2 ^ 32) :
    bsz m b = size m b / 4 * 4 := and_BLOCK_SIZE _ h

theorem isFree_iff (m : Nat → Nat) (b : Nat) : isFree m b ↔ size m b % 2 = 1 := by
  unfold isFree FREE_BLOCK
  rw [and_one]; omega

theorem isPrevFree_iff (m : Nat → Nat) (b : Nat) : isPrevFree m b ↔ size m b / 2 % 2 = 1 := by
  unfold isPrevFree PREV_FREE
  rw [and_two]; omega

end TLSF

namespace TLSF

theorem Acyc_frame {m m' : Nat → Nat} {F : Finset Nat} (hA : Acyc m F)
    (hpv : ∀ y ∈ F, fprev m' y = fprev m y) : Acyc m' F := by
  obtain ⟨rank, hr⟩ := hA
  refine ⟨rank, ?_⟩
  intro x hx h
  rw [hpv x hx] at h ⊢
  exact hr x hx h

theorem Acyc_insert {s : State} {F : Finset Nat} {x i j : Nat}
    (hI : IdxInv s.tlsf s.mem F) (hA : Acyc s.mem F) (hS : Sep (insert x F)) (hxF : x ∉ F)
    (hx0 : x ≠ 0) (hi : i < 24) (hj : j < 32) :
    Acyc (INSERT_BLOCK x s i j).mem (insert x F) := by
  obtain ⟨rank, hr⟩ := hA
  obtain ⟨-, hpv, -⟩ := INSERT_BLOCK_reads hI hS hxF hx0 hi hj
  refine ⟨fun y => if y = x then 0 else rank y + 1, ?_⟩
  intro y hy h
  rw [hpv y hy] at h ⊢
  by_cases hyx : y = x
  · rw [if_pos hyx] at h; exact absurd rfl h
  · rw [if_neg hyx] at h ⊢
    have hyF : y ∈ F := by
      rcases Finset.mem_insert.1 hy with h1 | h1
      · exact absurd h1 hyx
      · exact h1
    by_cases hym : y = s.tlsf.matrix i j
    · rw [if_pos hym]
      simp only [if_true, if_neg hyx]
      omega
    · rw [if_neg hym] at h ⊢
      have hp := (hI.pv y hyF h).1
      have hpx : fprev s.mem y ≠ x := fun e => hxF (e ▸ hp)
      simp only [if_neg hpx, if_neg hyx]
      have := hr y hyF h
      omega

theorem Acyc_extract {s : State} {F : Finset Nat} {x : Nat} (i j : Nat)
    (hI : IdxInv s.tlsf s.mem F) (hA : Acyc s.mem F) (hS : Sep F) (hx : x ∈ F) :
    Acyc (EXTRACT_BLOCK x s i j).mem (F.erase x) := by
  obtain ⟨rank, hr⟩ := hA
  obtain ⟨-, hpv, -⟩ := EXTRACT_BLOCK_reads i j hI hS hx
  refine ⟨rank, ?_⟩
  intro y hy h
  have hyF : y ∈ F := Finset.mem_of_mem_erase hy
  have hyx : y ≠ x := Finset.ne_of_mem_erase hy
  rw [hpv y hyF hyx] at h ⊢
  by_cases hyn : y = fnext s.mem x
  · rw [if_pos hyn] at h ⊢
    have hn0 : fnext s.mem x ≠ 0 := by rw [← hyn]; exact hI.nz y hyF
    have h1 := (hI.nx x hx hn0).2.2
    have h2 := hr x hx h
    have h3 := hr y hyF (by rw [hyn, h1]; exact hI.nz x hx)
    rw [hyn, h1] at h3
    rw [hyn]
    omega
  · rw [if_neg hyn] at h ⊢
    exact hr y hyF h

/-- Under the index invariant without circles, the list of the class of a linked block
is not empty. -/
theorem class_nonempty {t : tlsf_t} {m : Nat → Nat} {F : Finset Nat}
    (hI : IdxInv t m F) (hA : Acyc m F) {x : Nat} (hx : x ∈ F) :
    t.matrix (cls (bsz m x)).1 (cls (bsz m x)).2 ≠ 0 := by
  obtain ⟨rank, hr⟩ := hA
  have key : ∀ n x, x ∈ F → rank x = n →
      t.matrix (cls (bsz m x)).1 (cls (bsz m x)).2 ≠ 0 := by
    intro n
    induction n using Nat.strong_induction_on with
    | _ n ih =>
      intro x hx hn
      by_cases hp : fprev m x = 0
      · rw [hI.hd x hx hp]; exact hI.nz x hx
      · obtain ⟨h1, h2, -⟩ := hI.pv x hx hp
        have h3 := hr x hx hp
        have := ih (rank (fprev m x)) (by omega) (fprev m x) h1 rfl
        rw [h2] at this
        exact this
  exact key _ x hx rfl

/-- The list of a class is not empty exactly when a linked block has that class. -/
theorem matrix_ne_zero_iff {t : tlsf_t} {m : Nat → Nat} {F : Finset Nat}
    (hI : IdxInv t m F) (hA : Acyc m F) {i j : Nat} (hi : i < 24) (hj : j < 32) :
    t.matrix i j ≠ 0 ↔ ∃ x ∈ F, cls (bsz m x) = (i, j) := by
  constructor
  · intro h
    obtain ⟨h1, h2, -⟩ := hI.mx i j hi hj h
    exact ⟨_, h1, h2⟩
  · rintro ⟨x, hx, hc⟩
    have := class_nonempty hI hA hx
    rw [hc] at this
    exact this

/-- The two bitmap levels are a function of the classes of the linked blocks. -/
theorem bitmaps_determined {t t' : tlsf_t} {m m' : Nat → Nat} {F : Finset Nat}
    (hI : IdxInv t m F) (hA : Acyc m F) (hI' : IdxInv t' m' F) (hA' : Acyc m' F)
    (hsz : ∀ x ∈ F, bsz m' x = bsz m x) :
    t'.fl_bitmap = t.fl_bitmap ∧ ∀ i, i < 24 → t'.sl_bitmap i = t.sl_bitmap i := by
  have hsl : ∀ i, i < 24 → t'.sl_bitmap i = t.sl_bitmap i := by
    intro i hi
    apply Nat.eq_of_testBit_eq
    intro j
    by_cases hj : j < 32
    · have e1 := hI.sb i j hi hj
      have e2 := hI'.sb i j hi hj
      rw [matrix_ne_zero_iff hI hA hi hj] at e1
      rw [matrix_ne_zero_iff hI' hA' hi hj] at e2
      have e3 : (∃ x ∈ F, cls (bsz m' x) = (i, j)) ↔ (∃ x ∈ F, cls (bsz m x) = (i, j)) := by
        constructor
        · rintro ⟨x, hx, hc⟩; exact ⟨x, hx, by rw [← hsz x hx]; exact hc⟩
        · rintro ⟨x, hx, hc⟩; exact ⟨x, hx, by rw [hsz x hx]; exact hc⟩
      rw [e3] at e2
      rw [Bool.eq_iff_iff, e1, e2]
    · rw [testBit_of_lt32 (hI.sl i hi) (by omega), testBit_of_lt32 (hI'.sl i hi) (by omega)]
  refine ⟨?_, hsl⟩
  apply Nat.eq_of_testBit_eq
  intro i
  by_cases hi : i < 24
  · have e1 := hI.fb i hi
    have e2 := hI'.fb i hi
    rw [hsl i hi] at e2
    rw [Bool.eq_iff_iff, e1, e2]
  · have h1 : t.fl_bitmap < 2 ^ i :=
      lt_of_lt_of_le hI.fl (Nat.pow_le_pow_right (by norm_num) (by omega))
    have h2 : t'.fl_bitmap < 2 ^ i :=
      lt_of_lt_of_le hI'.fl (Nat.pow_le_pow_right (by norm_num) (by omega))
    rw [Nat.testBit_lt_two_pow h1, Nat.testBit_lt_two_pow h2]

end TLSF

namespace TLSF

/-- The four header facts of a block whose two header words are unchanged. -/
theorem hdr_same {m m' : Nat → Nat} {z : Nat} (h : m' z = m z ∧ m' (z + 4) = m (z + 4)) :
    size m' z = size m z ∧ bsz m' z = bsz m z ∧ nxt m' z = nxt m z ∧
    (isFree m' z ↔ isFree m z) ∧ (isPrevFree m' z ↔ isPrevFree m z) ∧
    prev_hdr m' z = prev_hdr m z := by
  obtain ⟨h1, h2⟩ := h
  unfold nxt bsz isFree isPrevFree size prev_hdr
  rw [h1, h2]
  exact ⟨rfl, rfl, rfl, Iff.rfl, Iff.rfl, rfl⟩

theorem PhysInv.sep {m : Nat → Nat} {B : Finset Nat} {ib T : Nat} (hP : PhysInv m B ib T) :
    Sep B := by
  intro x hx y hy hxy
  have hxT : x ≠ T := by have := (hP.rng y hy).2; omega
  obtain ⟨h1, _, h3⟩ := hP.nx x hx hxT
  have := h3 y hy hxy
  unfold nxt at this
  omega

/-- Coalescing: the blocks of `B` from `lo` up to `NN` (excluded) become the single
free block `lo`, and `NN` records that its predecessor is free. -/
theorem PhysInv_coalesce {m m' : Nat → Nat} {B : Finset Nat} {ib T lo NN : Nat}
    (hP : PhysInv m B ib T) (hlo : lo ∈ B) (hNN : NN ∈ B) (hlt : lo < NN) (hib : lo ≠ ib)
    (hpf : ¬ isPrevFree m lo) (hnf : ¬ isFree m NN)
    (hw_lo : size m' lo < 2 ^ 32) (hsz_lo : bsz m' lo = NN - lo - 8)
    (hfree_lo : isFree m' lo) (hpf_lo : ¬ isPrevFree m' lo)
    (hw_NN : size m' NN < 2 ^ 32) (hsz_NN : bsz m' NN = bsz m NN)
    (hfree_NN : isFree m' NN ↔ isFree m NN) (hpf_NN : isPrevFree m' NN)
    (hph_NN : prev_hdr m' NN = lo)
    (hfr : ∀ z ∈ B, z < lo ∨ NN < z → m' z = m z ∧ m' (z + 4) = m (z + 4)) :
    PhysInv m' (B.filter (fun z => z ≤ lo ∨ NN ≤ z)) ib T := by
  have hmem : ∀ z, z ∈ B.filter (fun z => z ≤ lo ∨ NN ≤ z) ↔ z ∈ B ∧ (z ≤ lo ∨ NN ≤ z) := by
    intro z; exact Finset.mem_filter
  have hloT : lo ≠ T := by have := (hP.rng NN hNN).2; omega
  obtain ⟨hlo8, hlon, hlot⟩ := hP.nx lo hlo hloT
  have hloNN : nxt m lo ≤ NN := hlot NN hNN hlt
  have hnxt_lo : nxt m' lo = NN := by
    unfold nxt at hloNN ⊢; rw [hsz_lo]; omega
  have hnxt_NN : nxt m' NN = nxt m NN := by unfold nxt; rw [hsz_NN]
  have hrl := hP.rng lo hlo
  have hrN := hP.rng NN hNN
  have hsame : ∀ z ∈ B, z < lo ∨ NN < z → size m' z = size m z ∧ bsz m' z = bsz m z ∧
      nxt m' z = nxt m z ∧ (isFree m' z ↔ isFree m z) ∧ (isPrevFree m' z ↔ isPrevFree m z) ∧
      prev_hdr m' z = prev_hdr m z := fun z hz h => hdr_same (hfr z hz h)
  have hgt : ∀ z ∈ B, z ≠ T → z < nxt m z := by
    intro z hz hzT; unfold nxt; omega
  refine ⟨?_, ?_, hP.ib_pos, hP.ib_lt, hP.T_top, hP.span, ?_, ?_, ?_, ?_, ?_, ?_, ?_, ?_, ?_⟩
  · rw [hmem]; exact ⟨hP.ib_mem, Or.inl hrl.1⟩
  · rw [hmem]; exact ⟨hP.T_mem, Or.inr hrN.2⟩
  · intro z hz; exact hP.rng z ((hmem z).1 hz).1
  · intro z hz; exact hP.al z ((hmem z).1 hz).1
  · -- words
    intro z hz
    obtain ⟨hzB, hz2⟩ := (hmem z).1 hz
    by_cases e1 : z = lo
    · subst e1
      refine ⟨hw_lo, ?_⟩
      rw [hsz_lo]
      have := hP.al z hlo
      have := hP.al NN hNN
      unfold nxt at hloNN
      omega
    · by_cases e2 : z = NN
      · subst e2; rw [hsz_NN]; exact ⟨hw_NN, (hP.wd z hNN).2⟩
      · obtain ⟨s1, s2, -⟩ := hsame z hzB (by omega)
        rw [s1, s2]; exact hP.wd z hzB
  · -- successors
    intro z hz hzT
    obtain ⟨hzB, hz2⟩ := (hmem z).1 hz
    obtain ⟨o1, o2, o3⟩ := hP.nx z hzB hzT
    by_cases e1 : z = lo
    · subst e1
      rw [hnxt_lo, hsz_lo]
      refine ⟨by unfold nxt at hloNN; omega, (hmem NN).2 ⟨hNN, Or.inr (le_refl _)⟩, ?_⟩
      intro c hc hzc
      have := ((hmem c).1 hc).2
      omega
    · by_cases e2 : z = NN
      · subst e2
        rw [hnxt_NN, hsz_NN]
        have := hgt z hNN hzT
        refine ⟨o1, (hmem _).2 ⟨o2, Or.inr (by omega)⟩, ?_⟩
        intro c hc hzc
        exact o3 c ((hmem c).1 hc).1 hzc
      · obtain ⟨s1, s2, s3, -⟩ := hsame z hzB (by omega)
        rw [s2, s3]
        refine ⟨o1, (hmem _).2 ⟨o2, ?_⟩, ?_⟩
        · rcases hz2 with h | h
          · have := o3 lo hlo (by omega); exact Or.inl this
          · have := hgt z hzB hzT; exact Or.inr (by omega)
        · intro c hc hzc
          exact o3 c ((hmem c).1 hc).1 hzc
  · -- terminator
    by_cases e2 : T = NN
    · rw [e2, hsz_NN, hfree_NN, ← e2]; exact hP.tm
    · obtain ⟨s1, s2, s3, s4, -⟩ := hsame T hP.T_mem (by omega)
      rw [s2, s4]; exact hP.tm
  · -- sentinel
    obtain ⟨s1, s2, s3, s4, s5, -⟩ := hsame ib hP.ib_mem (by omega)
    rw [s2, s4, s5]; exact hP.sn
  · -- boundary tags
    intro z hz hzT
    obtain ⟨hzB, hz2⟩ := (hmem z).1 hz
    obtain ⟨o1, o2, o3⟩ := hP.nx z hzB hzT
    obtain ⟨t1, t2⟩ := hP.tag z hzB hzT
    by_cases e1 : z = lo
    · subst e1
      rw [hnxt_lo]
      exact ⟨⟨fun _ => hfree_lo, fun _ => hpf_NN⟩, fun _ => hph_NN⟩
    · by_cases e2 : z = NN
      · subst e2
        rw [hnxt_NN, hfree_NN]
        have := hgt z hNN hzT
        obtain ⟨s1, s2, s3, s4, s5, s6⟩ := hsame _ o2 (by omega)
        rw [s5, s6]; exact ⟨t1, t2⟩
      · obtain ⟨s1, s2, s3, s4, s5, s6⟩ := hsame z hzB (by omega)
        rw [s3, s4]
        rcases hz2 with h | h
        · have hle := o3 lo hlo (by omega)
          by_cases e3 : nxt m z = lo
          · rw [e3] at t1 t2 ⊢
            have hnz : ¬ isFree m z := fun hf => hpf (t1.2 hf)
            exact ⟨⟨fun hh => absurd hh hpf_lo, fun hh => absurd hh hnz⟩,
              fun hh => absurd hh hnz⟩
          · obtain ⟨u1, u2, u3, u4, u5, u6⟩ := hsame _ o2 (by omega)
            rw [u5, u6]; exact ⟨t1, t2⟩
        · have := hgt z hzB hzT
          obtain ⟨u1, u2, u3, u4, u5, u6⟩ := hsame _ o2 (by omega)
          rw [u5, u6]; exact ⟨t1, t2⟩
  · -- predecessors
    intro z hz hzib
    obtain ⟨hzB, hz2⟩ := (hmem z).1 hz
    by_cases e2 : z = NN
    · exact ⟨lo, (hmem lo).2 ⟨hlo, Or.inl (le_refl _)⟩, hloT, by rw [hnxt_lo, e2]⟩
    · obtain ⟨c, hc, hcT, hcz⟩ := hP.pd z hzB hzib
      have hcn := hgt c hc hcT
      obtain ⟨o1, o2, o3⟩ := hP.nx c hc hcT
      rcases hz2 with h | h
      · have hcl : c < lo := by omega
        obtain ⟨s1, s2, s3, -⟩ := hsame c hc (Or.inl hcl)
        exact ⟨c, (hmem c).2 ⟨hc, Or.inl (by omega)⟩, hcT, by rw [s3, hcz]⟩
      · have hNz : NN < z := by omega
        by_cases e3 : c = NN
        · refine ⟨c, (hmem c).2 ⟨hc, Or.inr (by omega)⟩, hcT, ?_⟩
          rw [e3, hnxt_NN, ← e3, hcz]
        · have hcN : NN < c := by
            by_contra hcc
            have := o3 NN hNN (by omega)
            omega
          obtain ⟨s1, s2, s3, -⟩ := hsame c hc (Or.inr hcN)
          exact ⟨c, (hmem c).2 ⟨hc, Or.inr (by omega)⟩, hcT, by rw [s3, hcz]⟩
  · -- no two free neighbours
    intro z hz
    obtain ⟨hzB, hz2⟩ := (hmem z).1 hz
    by_cases e1 : z = lo
    · subst e1; exact fun h => hpf_lo h.2
    · by_cases e2 : z = NN
      · subst e2; rw [hfree_NN]; exact fun h => hnf h.1
      · obtain ⟨s1, s2, s3, s4, s5, s6⟩ := hsame z hzB (by omega)
        rw [s4, s5]; exact hP.adj z hzB

end TLSF

namespace TLSF

theorem PhysInv.free_ne {m : Nat → Nat} {B : Finset Nat} {ib T b : Nat}
    (hP : PhysInv m B ib T) (hf : isFree m b) : b ≠ T ∧ b ≠ ib := by
  constructor
  · rintro rfl; exact hP.tm.2 hf
  · rintro rfl; exact hP.sn.2.1 hf

theorem PhysInv.lt_nxt {m : Nat → Nat} {B : Finset Nat} {ib T b : Nat}
    (hP : PhysInv m B ib T) (hb : b ∈ B) (hbT : b ≠ T) : b + 16 ≤ nxt m b := by
  have := (hP.nx b hb hbT).1
  unfold nxt; omega

/-- The successor of a block determines the block. -/
theorem PhysInv.nxt_inj {m : Nat → Nat} {B : Finset Nat} {ib T b c : Nat}
    (hP : PhysInv m B ib T) (hb : b ∈ B) (hbT : b ≠ T) (hc : c ∈ B) (hcT : c ≠ T)
    (h : nxt m b = nxt m c) : b = c := by
  have h1 := hP.lt_nxt hb hbT
  have h2 := hP.lt_nxt hc hcT
  rcases Nat.lt_trichotomy b c with hlt | heq | hgt
  · have := (hP.nx b hb hbT).2.2 c hc hlt; omega
  · exact heq
  · have := (hP.nx c hc hcT).2.2 b hb hgt; omega

/-- Handing out a whole free block. -/
theorem PhysInv_whole {m m' : Nat → Nat} {B : Finset Nat} {ib T b : Nat}
    (hP : PhysInv m B ib T) (hb : b ∈ B) (hf : isFree m b)
    (hw_b : size m' b < 2 ^ 32) (hsz_b : bsz m' b = bsz m b) (hfree_b : ¬ isFree m' b)
    (hpf_b : isPrevFree m' b ↔ isPrevFree m b) (hph_b : prev_hdr m' b = prev_hdr m b)
    (hw_N : size m' (nxt m b) < 2 ^ 32) (hsz_N : bsz m' (nxt m b) = bsz m (nxt m b))
    (hfree_N : isFree m' (nxt m b) ↔ isFree m (nxt m b)) (hpf_N : ¬ isPrevFree m' (nxt m b))
    (hfr : ∀ z ∈ B, z ≠ b → z ≠ nxt m b → m' z = m z ∧ m' (z + 4) = m (z + 4)) :
    PhysInv m' B ib T := by
  obtain ⟨hbT, hbib⟩ := hP.free_ne hf
  obtain ⟨hb8, hNB, hbt⟩ := hP.nx b hb hbT
  have hbN := hP.lt_nxt hb hbT
  have hnxt_b : nxt m' b = nxt m b := by unfold nxt; rw [hsz_b]
  have hnxt_N : nxt m' (nxt m b) = nxt m (nxt m b) := by
    show nxt m b + 8 + bsz m' (nxt m b) = nxt m b + 8 + bsz m (nxt m b)
    rw [hsz_N]
  have hsame : ∀ z ∈ B, z ≠ b → z ≠ nxt m b → size m' z = size m z ∧ bsz m' z = bsz m z ∧
      nxt m' z = nxt m z ∧ (isFree m' z ↔ isFree m z) ∧ (isPrevFree m' z ↔ isPrevFree m z) ∧
      prev_hdr m' z = prev_hdr m z := fun z hz h1 h2 => hdr_same (hfr z hz h1 h2)
  -- the tiling facts of every block are those of the old memory
  have hall : ∀ z ∈ B, bsz m' z = bsz m z ∧ nxt m' z = nxt m z := by
    intro z hz
    by_cases e1 : z = b
    · subst e1; exact ⟨hsz_b, hnxt_b⟩
    · by_cases e2 : z = nxt m b
      · subst e2; exact ⟨hsz_N, hnxt_N⟩
      · obtain ⟨_, s2, s3, _⟩ := hsame z hz e1 e2
        exact ⟨s2, s3⟩
  have hfreeall : ∀ z ∈ B, z ≠ b → (isFree m' z ↔ isFree m z) := by
    intro z hz e1
    by_cases e2 : z = nxt m b
    · subst e2; exact hfree_N
    · exact (hsame z hz e1 e2).2.2.2.1
  have hpfall : ∀ z ∈ B, z ≠ nxt m b →
      (isPrevFree m' z ↔ isPrevFree m z) ∧ prev_hdr m' z = prev_hdr m z := by
    intro z hz e2
    by_cases e1 : z = b
    · subst e1; exact ⟨hpf_b, hph_b⟩
    · exact ⟨(hsame z hz e1 e2).2.2.2.2.1, (hsame z hz e1 e2).2.2.2.2.2⟩
  refine ⟨hP.ib_mem, hP.T_mem, hP.ib_pos, hP.ib_lt, hP.T_top, hP.span, hP.rng, hP.al,
    ?_, ?_, ?_, ?_, ?_, ?_, ?_⟩
  · intro z hz
    rw [(hall z hz).1]
    refine ⟨?_, (hP.wd z hz).2⟩
    by_cases e1 : z = b
    · subst e1; exact hw_b
    · by_cases e2 : z = nxt m b
      · subst e2; exact hw_N
      · rw [(hsame z hz e1 e2).1]; exact (hP.wd z hz).1
  · intro z hz hzT
    rw [(hall z hz).1, (hall z hz).2]; exact hP.nx z hz hzT
  · rw [(hall T hP.T_mem).1, hfreeall T hP.T_mem (Ne.symm hbT)]; exact hP.tm
  · have e2 : ib ≠ nxt m b := by have := (hP.rng b hb).1; omega
    rw [(hall ib hP.ib_mem).1, hfreeall ib hP.ib_mem (Ne.symm hbib),
      (hpfall ib hP.ib_mem e2).1]
    exact hP.sn
  · intro z hz hzT
    obtain ⟨t1, t2⟩ := hP.tag z hz hzT
    rw [(hall z hz).2]
    by_cases e1 : z = b
    · subst e1
      exact ⟨⟨fun h => absurd h hpf_N, fun h => absurd h hfree_b⟩, fun h => absurd h hfree_b⟩
    · have e3 : nxt m z ≠ nxt m b := fun h => e1 (hP.nxt_inj hz hzT hb hbT h)
      obtain ⟨u1, u2⟩ := hpfall _ (hP.nx z hz hzT).2.1 e3
      rw [u1, u2, hfreeall z hz e1]; exact ⟨t1, t2⟩
  · intro z hz hzib
    obtain ⟨c, hc, hcT, hcz⟩ := hP.pd z hz hzib
    exact ⟨c, hc, hcT, by rw [(hall c hc).2, hcz]⟩
  · intro z hz
    by_cases e1 : z = b
    · subst e1; exact fun h => hfree_b h.1
    · by_cases e2 : z = nxt m b
      · subst e2; exact fun h => hpf_N h.2
      · rw [hfreeall z hz e1, (hpfall z hz e2).1]; exact hP.adj z hz

end TLSF

namespace TLSF

/-- The facts of a block whose size word is unchanged. -/
theorem size_same {m m' : Nat → Nat} {z : Nat} (h : m' (z + 4) = m (z + 4)) :
    size m' z = size m z ∧ bsz m' z = bsz m z ∧ nxt m' z = nxt m z ∧
    (isFree m' z ↔ isFree m z) ∧ (isPrevFree m' z ↔ isPrevFree m z) := by
  unfold nxt bsz isFree isPrevFree size
  rw [h]
  exact ⟨rfl, rfl, rfl, Iff.rfl, Iff.rfl⟩

/-- Splitting a free block `b`: the first `r` bytes are handed out and the surplus
becomes the free block at `b + 8 + r`. -/
theorem PhysInv_split {m m' : Nat → Nat} {B : Finset Nat} {ib T b r : Nat}
    (hP : PhysInv m B ib T) (hb : b ∈ B) (hf : isFree m b)
    (hr8 : 8 ≤ r) (hrm : r % 8 = 0) (hrs : r + 16 ≤ bsz m b)
    (hw_b : size m' b < 2 ^ 32) (hsz_b : bsz m' b = r) (hfree_b : ¬ isFree m' b)
    (hpf_b : isPrevFree m' b ↔ isPrevFree m b) (hph_b : prev_hdr m' b = prev_hdr m b)
    (hw_2 : size m' (b + 8 + r) < 2 ^ 32) (hsz_2 : bsz m' (b + 8 + r) = bsz m b - r - 8)
    (hfree_2 : isFree m' (b + 8 + r)) (hpf_2 : ¬ isPrevFree m' (b + 8 + r))
    (hN_w : m' (nxt m b + 4) = m (nxt m b + 4)) (hN_ph : prev_hdr m' (nxt m b) = b + 8 + r)
    (hfr : ∀ z ∈ B, z ≠ b → z ≠ nxt m b → m' z = m z ∧ m' (z + 4) = m (z + 4)) :
    PhysInv m' (insert (b + 8 + r) B) ib T := by
  obtain ⟨hbT, hbib⟩ := hP.free_ne hf
  obtain ⟨hb8, hNB, hbt⟩ := hP.nx b hb hbT
  have hNdef : nxt m b = b + 8 + bsz m b := rfl
  have hnxt_b : nxt m' b = b + 8 + r := by unfold nxt; rw [hsz_b]
  have hnxt_2 : nxt m' (b + 8 + r) = nxt m b := by
    show b + 8 + r + 8 + bsz m' (b + 8 + r) = _
    rw [hsz_2, hNdef]; omega
  obtain ⟨n1, n2, n3, n4, n5⟩ := size_same hN_w
  have hmem : ∀ z, z ∈ insert (b + 8 + r) B ↔ z = b + 8 + r ∨ z ∈ B := fun z => Finset.mem_insert
  have h2B : b + 8 + r ∉ B := by
    intro h
    have := hbt _ h (by omega)
    omega
  have hne2 : ∀ z ∈ B, z ≠ b + 8 + r := fun z hz h => h2B (h ▸ hz)
  have hsame : ∀ z ∈ B, z ≠ b → z ≠ nxt m b → size m' z = size m z ∧ bsz m' z = bsz m z ∧
      nxt m' z = nxt m z ∧ (isFree m' z ↔ isFree m z) ∧ (isPrevFree m' z ↔ isPrevFree m z) ∧
      prev_hdr m' z = prev_hdr m z := fun z hz h1 h2 => hdr_same (hfr z hz h1 h2)
  -- old blocks other than `b` keep their size word
  have hold : ∀ z ∈ B, z ≠ b → size m' z = size m z ∧ bsz m' z = bsz m z ∧
      nxt m' z = nxt m z ∧ (isFree m' z ↔ isFree m z) ∧ (isPrevFree m' z ↔ isPrevFree m z) := by
    intro z hz e1
    by_cases e2 : z = nxt m b
    · rw [e2]; exact ⟨n1, n2, n3, n4, n5⟩
    · obtain ⟨s1, s2, s3, s4, s5, _⟩ := hsame z hz e1 e2
      exact ⟨s1, s2, s3, s4, s5⟩
  have hpfN : isPrevFree m (nxt m b) := (hP.tag b hb hbT).1.2 hf
  have hnpf : ¬ isPrevFree m b := fun h => hP.adj b hb ⟨hf, h⟩
  have hrb := hP.rng b hb
  have hrN := hP.rng _ hNB
  refine ⟨(hmem _).2 (Or.inr hP.ib_mem), (hmem _).2 (Or.inr hP.T_mem), hP.ib_pos, hP.ib_lt,
    hP.T_top, hP.span, ?_, ?_, ?_, ?_, ?_, ?_, ?_, ?_, ?_⟩
  · intro z hz
    rcases (hmem z).1 hz with h | h
    · rw [h]; omega
    · exact hP.rng z h
  · intro z hz
    rcases (hmem z).1 hz with h | h
    · rw [h]; have := hP.al b hb; omega
    · exact hP.al z h
  · intro z hz
    rcases (hmem z).1 hz with h | h
    · rw [h, hsz_2]
      refine ⟨hw_2, ?_⟩
      have := (hP.wd b hb).2
      omega
    · by_cases e1 : z = b
      · rw [e1, hsz_b]; exact ⟨hw_b, hrm⟩
      · obtain ⟨s1, s2, -⟩ := hold z h e1
        rw [s1, s2]; exact hP.wd z h
  · -- successors
    intro z hz hzT
    rcases (hmem z).1 hz with h | h
    · rw [h, hnxt_2, hsz_2]
      refine ⟨by omega, (hmem _).2 (Or.inr hNB), ?_⟩
      intro c hc hlt
      rcases (hmem c).1 hc with h' | h'
      · omega
      · exact hbt c h' (by omega)
    · by_cases e1 : z = b
      · rw [e1, hnxt_b, hsz_b]
        refine ⟨hr8, (hmem _).2 (Or.inl rfl), ?_⟩
        intro c hc hlt
        rcases (hmem c).1 hc with h' | h'
        · omega
        · have := hbt c h' hlt; omega
      · obtain ⟨s1, s2, s3, -⟩ := hold z h e1
        obtain ⟨o1, o2, o3⟩ := hP.nx z h hzT
        rw [s2, s3]
        refine ⟨o1, (hmem _).2 (Or.inr o2), ?_⟩
        intro c hc hlt
        rcases (hmem c).1 hc with h' | h'
        · -- the new block is not between `z` and its successor
          rcases Nat.lt_or_ge z b with hzb | hzb
          · have := o3 b hb hzb; omega
          · have := hbt z h (by omega); omega
        · exact o3 c h' hlt
  · -- terminator
    obtain ⟨s1, s2, s3, s4, s5⟩ := hold T hP.T_mem (Ne.symm hbT)
    rw [s2, s4]; exact hP.tm
  · obtain ⟨s1, s2, s3, s4, s5⟩ := hold ib hP.ib_mem (Ne.symm hbib)
    rw [s2, s4, s5]; exact hP.sn
  · -- boundary tags
    intro z hz hzT
    rcases (hmem z).1 hz with h | h
    · rw [h, hnxt_2]
      exact ⟨⟨fun _ => hfree_2, fun _ => n5.2 hpfN⟩, fun _ => hN_ph⟩
    · by_cases e1 : z = b
      · rw [e1, hnxt_b]
        exact ⟨⟨fun hh => absurd hh hpf_2, fun hh => absurd hh hfree_b⟩,
          fun hh => absurd hh hfree_b⟩
      · obtain ⟨s1, s2, s3, s4, s5⟩ := hold z h e1
        obtain ⟨o1, o2, o3⟩ := hP.nx z h hzT
        obtain ⟨t1, t2⟩ := hP.tag z h hzT
        rw [s3, s4]
        have e3 : nxt m z ≠ nxt m b := fun hh => e1 (hP.nxt_inj h hzT hb hbT hh)
        by_cases e4 : nxt m z = b
        · rw [e4] at t1 t2 ⊢
          rw [hpf_b, hph_b]; exact ⟨t1, t2⟩
        · obtain ⟨u1, u2, u3, u4, u5, u6⟩ := hsame _ o2 e4 e3
          rw [u5, u6]; exact ⟨t1, t2⟩
  · -- predecessors
    intro z hz hzib
    rcases (hmem z).1 hz with h | h
    · exact ⟨b, (hmem _).2 (Or.inr hb), hbT, by rw [hnxt_b, h]⟩
    · by_cases e2 : z = nxt m b
      · refine ⟨b + 8 + r, (hmem _).2 (Or.inl rfl), by omega, by rw [hnxt_2, e2]⟩
      · obtain ⟨c, hc, hcT, hcz⟩ := hP.pd z h hzib
        have ecb : c ≠ b := fun hh => e2 (by rw [← hcz, hh])
        exact ⟨c, (hmem _).2 (Or.inr hc), hcT, by rw [(hold c hc ecb).2.2.1, hcz]⟩
  · intro z hz
    rcases (hmem z).1 hz with h | h
    · rw [h]; exact fun hh => hpf_2 hh.2
    · by_cases e1 : z = b
      · rw [e1]; exact fun hh => hfree_b hh.1
      · obtain ⟨s1, s2, s3, s4, s5⟩ := hold z h e1
        rw [s4, s5]; exact hP.adj z h

end TLSF

namespace TLSF

theorem ls_bit_lowest {hw : Intrinsics} (hs : ScanSpec hw) {w : Nat} (hw0 : w ≠ 0)
    (hlt : w < 2 ^ 32) :
    ∃ k, k < 32 ∧ w.testBit k = true ∧ ls_bit hw w = (k : Int) := by
  obtain ⟨k, hk, hb, hmin⟩ := exists_lowest_bit w hw0 hlt
  exact ⟨k, hk, hb, hs.ls w k hk hlt hb hmin⟩

/-- The search of the index: when `FIND_SUITABLE_BLOCK` is called inside the arrays
it stays inside them, and a block it returns is the head of a list whose class is
at or above the class asked for. -/
theorem FIND_SUITABLE_BLOCK_spec {hw : Intrinsics} (hs : ScanSpec hw) {t : tlsf_t}
    {m : Nat → Nat} {F : Finset Nat} (hI : IdxInv t m F) {i j : Nat} (hi : i < 24)
    (hj : j < 32) :
    ∃ b fl sl, FIND_SUITABLE_BLOCK hw t (i : Int) (j : Int) = some (b, fl, sl) ∧
      (b ≠ 0 → ∃ i' j' : Nat, fl = (i' : Int) ∧ sl = (j' : Int) ∧ i' < 24 ∧ j' < 32 ∧
        t.matrix i' j' = b ∧ (i < i' ∨ (i = i' ∧ j ≤ j'))) := by
  unfold FIND_SUITABLE_BLOCK
  have hc : (0 : Int) ≤ (j : Int) ∧ (j : Int) < 32 := by omega
  rw [if_pos hc, sl_bitmap_word_in t hi, Option.some_bind]
  have e2 : ((j : Int)).toNat = j := by omega
  have e3 : ((i : Int) + 1).toNat = i + 1 := by omega
  simp only [e2, e3]
  by_cases htmp : t.sl_bitmap i &&& shl32 0xFFFFFFFF j ≠ 0
  · rw [if_pos htmp]
    have hlt : t.sl_bitmap i &&& shl32 0xFFFFFFFF j < 2 ^ 32 :=
      lt_of_le_of_lt Nat.and_le_left (hI.sl i hi)
    obtain ⟨k, hk, hb, hls⟩ := ls_bit_lowest hs htmp hlt
    rw [Nat.testBit_and, testBit_shl32_ones] at hb
    simp only [Bool.and_eq_true, decide_eq_true_eq] at hb
    rw [hls, matrix_word_in t hi hk, Option.map_some']
    exact ⟨_, _, _, rfl, fun _ => ⟨i, k, rfl, rfl, hi, hk, rfl, Or.inr ⟨rfl, hb.2.1⟩⟩⟩
  · rw [if_neg htmp]
    have hc1 : (0 : Int) ≤ (i : Int) + 1 ∧ (i : Int) + 1 < 32 := by omega
    rw [if_pos hc1]
    by_cases hw0 : t.fl_bitmap &&& shl32 0xFFFFFFFF (i + 1) = 0
    · rw [hw0]
      have := hs.ls_zero
      rw [if_neg (by omega)]
      exact ⟨_, _, _, rfl, fun h => absurd rfl h⟩
    · have hlt : t.fl_bitmap &&& shl32 0xFFFFFFFF (i + 1) < 2 ^ 32 :=
        lt_of_le_of_lt Nat.and_le_left (lt_of_lt_of_le hI.fl (by norm_num))
      obtain ⟨k, hk, hb, hls⟩ := ls_bit_lowest hs hw0 hlt
      rw [Nat.testBit_and, testBit_shl32_ones] at hb
      simp only [Bool.and_eq_true, decide_eq_true_eq] at hb
      have hk24 : k < 24 := by
        by_contra hc3
        have := Nat.testBit_lt_two_pow (lt_of_lt_of_le hI.fl
          (Nat.pow_le_pow_right (by norm_num) (Nat.le_of_not_lt hc3)))
        rw [hb.1] at this
        exact Bool.noConfusion this
      rw [hls]
      have hc2 : (k : Int) > 0 := by omega
      rw [if_pos hc2, sl_bitmap_word_in t hk24, Option.some_bind]
      have hsl0 : t.sl_bitmap k ≠ 0 := (hI.fb k hk24).1 hb.1
      obtain ⟨k2, hk2, hb2, hls2⟩ := ls_bit_lowest hs hsl0 (hI.sl k hk24)
      rw [hls2, matrix_word_in t hk24 hk2, Option.map_some']
      exact ⟨_, _, _, rfl, fun _ => ⟨k, k2, rfl, rfl, hk24, hk2, rfl, Or.inl (by omega)⟩⟩

end TLSF

namespace TLSF

theorem free_mark_mem (b : Nat) (s : State) :
    (free_mark b s).mem =
      store (store (store s.mem (b + 4) (size s.mem b ||| FREE_BLOCK)) (b + 8) 0) (b + 12) 0 :=
  rfl

theorem free_mark_tlsf (b : Nat) (s : State) :
    (free_mark b s).tlsf.matrix = s.tlsf.matrix ∧
    (free_mark b s).tlsf.sl_bitmap = s.tlsf.sl_bitmap ∧
    (free_mark b s).tlsf.fl_bitmap = s.tlsf.fl_bitmap ∧
    (free_mark b s).tlsf.max_size = s.tlsf.max_size ∧
    (free_mark b s).tlsf.area_head = s.tlsf.area_head ∧
    (free_mark b s).tlsf.tlsf_signature = s.tlsf.tlsf_signature ∧
    (free_mark b s).mp = s.mp ∧
    (free_mark b s).tlsf.used_size =
      sub32 s.tlsf.used_size (add32 (bsz s.mem b) BHDR_OVERHEAD) := by
  refine ⟨rfl, rfl, rfl, rfl, rfl, rfl, rfl, ?_⟩
  show sub32 s.tlsf.used_size
    (add32 (size (store s.mem (b + 4) (size s.mem b ||| FREE_BLOCK)) b &&& BLOCK_SIZE)
      BHDR_OVERHEAD) = _
  unfold bsz size
  rw [store_eq]
  have h1 : ((s.mem (b + 4) ||| FREE_BLOCK) &&& BLOCK_SIZE) = (s.mem (b + 4) &&& BLOCK_SIZE) := by
    apply Nat.eq_of_testBit_eq
    intro i
    simp only [Nat.testBit_and, Nat.testBit_or]
    by_cases hi : i = 0
    · subst hi; simp [FREE_BLOCK, BLOCK_SIZE, PTR_MASK, sizeof_ptr]
    · have : FREE_BLOCK.testBit i = false := by
        show Nat.testBit 1 i = false
        rw [Bool.eq_false_iff]
        intro h
        exact hi (Nat.testBit_one_eq_true_iff_self_eq_zero.1 h)
      rw [this, Bool.or_false]
  rw [h1]

/-- The words of a header after an or with the `FREE` bit. -/
theorem word_or_free {w : Nat} (hw : w < 2 ^ 32) :
    (w ||| FREE_BLOCK) < 2 ^ 32 ∧ (w ||| FREE_BLOCK) / 4 * 4 = w / 4 * 4 ∧
    (w ||| FREE_BLOCK) % 2 = 1 ∧ (w ||| FREE_BLOCK) / 2 % 2 = w / 2 % 2 := by
  have : w ||| FREE_BLOCK = w / 2 * 2 + 1 := or_one w
  rw [this]
  omega

/-- Blocks in the tiling other than `b` lie below `b` or from its successor on. -/
theorem PhysInv.apart {m : Nat → Nat} {B : Finset Nat} {ib T b z : Nat}
    (hP : PhysInv m B ib T) (hb : b ∈ B) (hbT : b ≠ T) (hz : z ∈ B) (hzb : z ≠ b) :
    z < b ∨ nxt m b ≤ z := by
  rcases Nat.lt_or_ge z b with h | h
  · exact Or.inl h
  · exact Or.inr ((hP.nx b hb hbT).2.2 z hz (by omega))

theorem free_mark_merging {m0 : Nat → Nat} {B F : Finset Nat} {ib T b : Nat} {s : State}
    (hC : FreePre m0 B F ib T b s) :
    Merging m0 B F ib b (free_mark b s) b (nxt m0 b) := by
  have hP := hC.phys
  have hS := hP.sep
  have hb := hC.b_mem
  have hFB : ∀ x ∈ F, x ∈ B ∧ x ≠ b := by
    intro x hx
    have := (hC.link x).1 hx
    exact ⟨this.1, fun e => hC.b_used (e ▸ this.2)⟩
  have hN := hP.nx b hb hC.b_T
  have hlt := hP.lt_nxt hb hC.b_T
  have hbN : b ≠ nxt m0 b := by omega
  have hsb := hC.same b hb hbN
  have hwb := (hP.wd b hb).1
  have hszb : size s.mem b = size m0 b := hsb.2
  have hfil : F.filter (fun x => x < b ∨ nxt m0 b ≤ x) = F := by
    apply Finset.filter_true_of_mem
    intro x hx
    exact hP.apart hb hC.b_T (hFB x hx).1 (hFB x hx).2
  -- reads of the marked memory
  have hrd : ∀ z ∈ B, z ≠ b →
      (free_mark b s).mem z = s.mem z ∧ (free_mark b s).mem (z + 4) = s.mem (z + 4) ∧
      (free_mark b s).mem (z + 8) = s.mem (z + 8) ∧
      (free_mark b s).mem (z + 12) = s.mem (z + 12) := by
    intro z hz hzb
    have := hS.far hz hb
    rw [free_mark_mem]
    refine ⟨?_, ?_, ?_, ?_⟩ <;>
    · rw [store_ne (by omega), store_ne (by omega), store_ne (by omega)]
  have hrb : (free_mark b s).mem b = s.mem b ∧
      (free_mark b s).mem (b + 4) = size s.mem b ||| FREE_BLOCK := by
    rw [free_mark_mem]
    refine ⟨?_, ?_⟩
    · rw [store_ne (by omega), store_ne (by omega), store_ne (by omega)]
    · rw [store_ne (by omega), store_ne (by omega), store_eq]
  obtain ⟨hmx, hsl, hfl, -⟩ := free_mark_tlsf b s
  have hwf := word_or_free (hszb ▸ hwb)
  have hsz' : size (free_mark b s).mem b = size s.mem b ||| FREE_BLOCK := hrb.2
  refine
    { idx := ?_, acyc := ?_, lo_mem := hb, NN_mem := hN.2.1, lo_le := le_refl _, b_lt := by omega,
      same := ?_, nn_word := ?_, nn_sz := ?_, nn_free := ?_, word := ?_, sz := ?_, free := ?_,
      pfree := ?_, phdr := ?_, inside := ?_, frame := ?_, keep := ?_ }
  · rw [hfil]
    refine IdxInv_frame hC.idx ?_ ?_ ?_ hmx hsl hfl
    · intro y hy
      exact bsz_frame (hrd y (hFB y hy).1 (hFB y hy).2).2.1
    · intro y hy
      exact (hrd y (hFB y hy).1 (hFB y hy).2).2.2.1
    · intro y hy
      exact (hrd y (hFB y hy).1 (hFB y hy).2).2.2.2
  · rw [hfil]
    refine Acyc_frame hC.acyc ?_
    intro y hy
    exact (hrd y (hFB y hy).1 (hFB y hy).2).2.2.1
  · intro z hz hzz
    have hzb : z ≠ b := by omega
    have hzN : z ≠ nxt m0 b := by omega
    have h1 := hrd z hz hzb
    have h2 := hC.same z hz hzN
    exact ⟨h1.1.trans h2.1, h1.2.1.trans h2.2⟩
  · have h1 := hrd _ hN.2.1 (Ne.symm hbN)
    show (free_mark b s).mem (nxt m0 b + 4) < 2 ^ 32
    rw [h1.2.1]; exact hC.nn_word
  · rw [bsz_frame (hrd _ hN.2.1 (Ne.symm hbN)).2.1]; exact hC.nn_sz
  · rw [(size_same (hrd _ hN.2.1 (Ne.symm hbN)).2.1).2.2.2.1]; exact hC.nn_free
  · rw [hsz']; exact hwf.1
  · rw [bsz_eq (by rw [hsz']; exact hwf.1), hsz', hwf.2.1, hszb, ← bsz_eq hwb]
    unfold nxt; omega
  · rw [bsz_eq (by rw [hsz']; exact hwf.1), hsz', hwf.2.1, hszb, ← bsz_eq hwb]
    unfold nxt; omega
  · rw [isFree_iff, hsz']; exact hwf.2.2.1
  · rw [isPrevFree_iff, isPrevFree_iff, hsz', hwf.2.2.2, hszb]
  · show (free_mark b s).mem b = m0 b
    rw [hrb.1]; exact hsb.1
  · intro z hz h1 h2
    left
    by_contra hzb
    have := hP.apart hb hC.b_T hz hzb
    omega
  · intro a ha
    have h := ha b hb hC.b_ib
    rw [free_mark_mem, store_ne (by clear * - h; omega), store_ne (by clear * - h; omega),
      store_ne (by clear * - h; omega)]
    exact hC.frame a ha

end TLSF

namespace TLSF

theorem EXTRACT_BLOCK_rest (x : Nat) (s : State) (fl sl : Nat) :
    (EXTRACT_BLOCK x s fl sl).tlsf.used_size = s.tlsf.used_size ∧
    (EXTRACT_BLOCK x s fl sl).tlsf.max_size = s.tlsf.max_size ∧
    (EXTRACT_BLOCK x s fl sl).tlsf.area_head = s.tlsf.area_head ∧
    (EXTRACT_BLOCK x s fl sl).tlsf.tlsf_signature = s.tlsf.tlsf_signature ∧
    (EXTRACT_BLOCK x s fl sl).mp = s.mp := by
  unfold EXTRACT_BLOCK
  rw [clear_links_tlsf, clear_links_mp, unlink_head_mp, unlink_prev_mp, unlink_next_mp]
  obtain ⟨h1, h2, h3, h4⟩ := unlink_head_rest x (unlink_prev x (unlink_next x s)) fl sl
  rw [h1, h2, h3, h4, unlink_prev_tlsf, unlink_next_tlsf]
  exact ⟨rfl, rfl, rfl, rfl, rfl⟩

theorem free_fwd_used {hw : Intrinsics} {b N : Nat} {s : State}
    (hN : GET_NEXT_BLOCK (buffer b) (size s.mem b &&& BLOCK_SIZE) = N)
    (h : ¬ isFree s.mem N) : free_fwd hw b s = some s := by
  unfold free_fwd
  dsimp only
  rw [hN]
  exact if_neg (not_not.2 (not_not.1 h))

theorem free_fwd_free {hw : Intrinsics} {b N : Nat} {s : State} {ij : Nat × Nat}
    (hN : GET_NEXT_BLOCK (buffer b) (size s.mem b &&& BLOCK_SIZE) = N)
    (h : isFree s.mem N)
    (hidx : index (MAPPING_INSERT hw (bsz s.mem N)).1 (MAPPING_INSERT hw (bsz s.mem N)).2
      = some ij) :
    free_fwd hw b s = some (set_size (EXTRACT_BLOCK N s ij.1 ij.2) b
      (add32 (size (EXTRACT_BLOCK N s ij.1 ij.2).mem b)
        (add32 (bsz (EXTRACT_BLOCK N s ij.1 ij.2).mem N) BHDR_OVERHEAD))) := by
  unfold free_fwd
  dsimp only
  rw [hN]
  have h' : size s.mem N &&& FREE_BLOCK ≠ 0 := h
  rw [if_pos h']
  unfold bsz at hidx
  rw [hidx]
  rfl

/-- The successor address computed by the code is the successor in the tiling. -/
theorem GET_NEXT_BLOCK_eq {b n N : Nat} (h : b + 8 + n = N) (hN : N < 2 ^ 32) :
    GET_NEXT_BLOCK (buffer b) n = N := by
  unfold GET_NEXT_BLOCK buffer add32 BHDR_OVERHEAD sizeof_bhdr_t MIN_BLOCK_SIZE sizeof_ptr
  norm_num
  omega

theorem word_add {w n : Nat} (h : w + n + 8 < 2 ^ 32) :
    add32 w (add32 n BHDR_OVERHEAD) = w + n + 8 := by
  unfold add32 BHDR_OVERHEAD sizeof_bhdr_t MIN_BLOCK_SIZE sizeof_ptr
  norm_num
  omega

end TLSF

namespace TLSF

/-- Reads of block fields after a store in the size word of another block. -/
theorem store_size_reads {B : Finset Nat} (hS : Sep B) {b y : Nat} (hb : b ∈ B) (hy : y ∈ B)
    (hyb : y ≠ b) (m : Nat → Nat) (W : Nat) :
    store m (b + 4) W y = m y ∧ store m (b + 4) W (y + 4) = m (y + 4) ∧
    store m (b + 4) W (y + 8) = m (y + 8) ∧ store m (b + 4) W (y + 12) = m (y + 12) := by
  have := hS.far hy hb
  refine ⟨?_, ?_, ?_, ?_⟩ <;> · rw [store_ne (by omega)]

theorem free_fwd_merging {hw : Intrinsics} (hs : ScanSpec hw) {m0 : Nat → Nat}
    {B F : Finset Nat} {ib T b N : Nat} {s0 s : State}
    (hC : FreePre m0 B F ib T b s0) (hNe : nxt m0 b = N) (hM : Merging m0 B F ib b s b N) :
    ∃ s6 NN, free_fwd hw b s = some s6 ∧ Merging m0 B F ib b s6 b NN ∧ ¬ isFree m0 NN ∧
      ((¬ isFree m0 N ∧ NN = N) ∨ (isFree m0 N ∧ NN = nxt m0 N)) ∧
      s6.tlsf.used_size = s.tlsf.used_size ∧ s6.tlsf.max_size = s.tlsf.max_size ∧
      s6.tlsf.area_head = s.tlsf.area_head ∧
      s6.tlsf.tlsf_signature = s.tlsf.tlsf_signature ∧ s6.mp = s.mp := by
  have hP := hC.phys
  have hS := hP.sep
  have hb := hC.b_mem
  have hNB : N ∈ B := hM.NN_mem
  have hNT := (hP.rng N hNB).2
  have hTt := hP.T_top
  have hbN := hP.lt_nxt hb hC.b_T
  rw [hNe] at hbN
  have hszb := hM.sz
  have hwb := hM.word
  have hbe := bsz_eq hwb
  have htmp : GET_NEXT_BLOCK (buffer b) (size s.mem b &&& BLOCK_SIZE) = N :=
    GET_NEXT_BLOCK_eq (by have h := hM.sz; unfold bsz at h; rw [h]; clear * - hbN; omega)
      (by clear * - hNT hTt; omega)
  by_cases hf : isFree m0 N
  swap
  · exact ⟨s, N, free_fwd_used htmp (by rw [hM.nn_free]; exact hf), hM, hf,
      Or.inl ⟨hf, rfl⟩, rfl, rfl, rfl, rfl, rfl⟩
  have hNT' : N ≠ T := (hP.free_ne hf).1
  have hNx := hP.nx N hNB hNT'
  have hlt2 := hP.lt_nxt hNB hNT'
  have hNNe : nxt m0 N = N + 8 + bsz m0 N := rfl
  have hNNT := (hP.rng _ hNx.2.1).2
  have hNF : N ∈ F := (hC.link N).2 ⟨hNB, hf⟩
  obtain ⟨Fc, hFcdef⟩ : ∃ Fc, Fc = F.filter (fun x => x < b ∨ N ≤ x) := ⟨_, rfl⟩
  have hIc : IdxInv s.tlsf s.mem Fc := hFcdef ▸ hM.idx
  have hAc : Acyc s.mem Fc := hFcdef ▸ hM.acyc
  have hmemFc : ∀ x, x ∈ Fc ↔ x ∈ F ∧ (x < b ∨ N ≤ x) := by
    intro x; rw [hFcdef, Finset.mem_filter]
  have hNFc : N ∈ Fc := (hmemFc N).2 ⟨hNF, Or.inr (le_refl _)⟩
  have hFcB : ∀ y ∈ Fc, y ∈ B ∧ y ≠ b := by
    intro y hy
    have h1 := ((hmemFc y).1 hy).1
    have := (hC.link y).1 h1
    exact ⟨this.1, fun e => hC.b_used (e ▸ this.2)⟩
  have hSc : Sep Fc := hS.mono (fun y hy => (hFcB y hy).1)
  have hcl := hIc.cl N hNFc
  have hidx := index_MAPPING_INSERT hs (bsz s.mem N) hcl
  have hev := free_fwd_free htmp (hM.nn_free.2 hf) hidx
  obtain ⟨i, hi⟩ : ∃ i, i = (cls (bsz s.mem N)).1 := ⟨_, rfl⟩
  obtain ⟨j, hj⟩ : ∃ j, j = (cls (bsz s.mem N)).2 := ⟨_, rfl⟩
  rw [← hi, ← hj] at hev
  have hc : cls (bsz s.mem N) = (i, j) := by rw [hi, hj]
  have hI5 := IdxInv_extract hIc hSc hNFc hc
  have hA5 := Acyc_extract i j hIc hAc hSc hNFc
  obtain ⟨hfr, -⟩ := EXTRACT_BLOCK_reads i j hIc hSc hNFc
  obtain ⟨r1, r2, r3, r4, r5⟩ := EXTRACT_BLOCK_rest N s i j
  obtain ⟨s5, hs5⟩ : ∃ s5, s5 = EXTRACT_BLOCK N s i j := ⟨_, rfl⟩
  rw [← hs5] at hev hI5 hA5 hfr r1 r2 r3 r4 r5
  have hdr5 : ∀ z ∈ B, s5.mem z = s.mem z ∧ s5.mem (z + 4) = s.mem (z + 4) := by
    intro z hz
    constructor <;>
    · apply hfr
      intro y hy
      have := sep_field_ne hS hz (hFcB y hy).1
      clear * - this
      omega
  have e1 : size s5.mem b = size s.mem b := (hdr5 b hb).2
  have e2 : bsz s5.mem N = bsz m0 N := (bsz_frame (hdr5 N hNB).2).trans hM.nn_sz
  have hn4 := (hP.wd N hNB).2
  obtain ⟨W, hWdef⟩ : ∃ W, W = add32 (size s5.mem b) (add32 (bsz s5.mem N) BHDR_OVERHEAD) :=
    ⟨_, rfl⟩
  rw [← hWdef] at hev
  have hW : W = size s.mem b + bsz m0 N + 8 := by
    rw [hWdef, e1, e2]; exact word_add (by clear * - hbe hszb hNNe hNNT hTt hbN; omega)
  have hmem6 : (set_size s5 b W).mem = store s5.mem (b + 4) W := rfl
  have hrd6 : ∀ y ∈ B, y ≠ b →
      (set_size s5 b W).mem y = s5.mem y ∧ (set_size s5 b W).mem (y + 4) = s5.mem (y + 4) ∧
      (set_size s5 b W).mem (y + 8) = s5.mem (y + 8) ∧
      (set_size s5 b W).mem (y + 12) = s5.mem (y + 12) := by
    intro y hy hyb
    rw [hmem6]
    exact store_size_reads hS hb hy hyb _ _
  have hsz6 : size (set_size s5 b W).mem b = W := by
    show store s5.mem (b + 4) W (b + 4) = W
    exact store_eq _ _ _
  have hfil : F.filter (fun x => x < b ∨ nxt m0 N ≤ x) = Fc.erase N := by
    ext x
    rw [Finset.mem_filter, Finset.mem_erase, hmemFc]
    constructor
    · rintro ⟨hx, h⟩
      exact ⟨by clear * - h hbN hlt2; omega, hx, by clear * - h hlt2; omega⟩
    · rintro ⟨hxN, hx, h⟩
      refine ⟨hx, ?_⟩
      have := hP.apart hNB hNT' ((hC.link x).1 hx).1 hxN
      clear * - this h hbN
      omega
  have hE : ∀ y ∈ Fc.erase N, y ∈ B ∧ y ≠ b := fun y hy => hFcB y (Finset.mem_of_mem_erase hy)
  have hfm := isFree_iff s.mem b
  have hpm := isPrevFree_iff s.mem b
  refine ⟨set_size s5 b W, nxt m0 N, hev, ?_, ?_, Or.inr ⟨hf, rfl⟩, r1, r2, r3, r4, r5⟩
  · refine
      { idx := ?_, acyc := ?_, lo_mem := hb, NN_mem := hNx.2.1, lo_le := le_refl _,
        b_lt := by clear * - hbN hlt2; omega, same := ?_, nn_word := ?_, nn_sz := ?_, nn_free := ?_, word := ?_,
        sz := ?_, free := ?_, pfree := ?_, phdr := ?_, inside := ?_, frame := ?_, keep := ?_ }
    · rw [hfil]
      refine IdxInv_frame hI5 ?_ ?_ ?_ rfl rfl rfl
      · intro y hy; exact bsz_frame (hrd6 y (hE y hy).1 (hE y hy).2).2.1
      · intro y hy; exact (hrd6 y (hE y hy).1 (hE y hy).2).2.2.1
      · intro y hy; exact (hrd6 y (hE y hy).1 (hE y hy).2).2.2.2
    · rw [hfil]
      refine Acyc_frame hA5 ?_
      intro y hy; exact (hrd6 y (hE y hy).1 (hE y hy).2).2.2.1
    · intro z hz hzz
      have h1 := hrd6 z hz (by clear * - hzz hbN hlt2; omega)
      have h2 := hdr5 z hz
      have h3 := hM.same z hz (by clear * - hzz hlt2; omega)
      exact ⟨h1.1.trans (h2.1.trans h3.1), h1.2.1.trans (h2.2.trans h3.2)⟩
    · have h1 := hrd6 _ hNx.2.1 (by clear * - hbN hlt2; omega)
      have h2 := hdr5 _ hNx.2.1
      have h3 := hM.same _ hNx.2.1 (Or.inr (by clear * - hlt2; omega))
      show (set_size s5 b W).mem (nxt m0 N + 4) < 2 ^ 32
      rw [h1.2.1, h2.2, h3.2]
      exact (hP.wd _ hNx.2.1).1
    · have h1 := hrd6 _ hNx.2.1 (by clear * - hbN hlt2; omega)
      have h2 := hdr5 _ hNx.2.1
      have h3 := hM.same _ hNx.2.1 (Or.inr (by clear * - hlt2; omega))
      exact bsz_frame (h1.2.1.trans (h2.2.trans h3.2))
    · have h1 := hrd6 _ hNx.2.1 (by clear * - hbN hlt2; omega)
      have h2 := hdr5 _ hNx.2.1
      have h3 := hM.same _ hNx.2.1 (Or.inr (by clear * - hlt2; omega))
      exact (size_same (h1.2.1.trans (h2.2.trans h3.2))).2.2.2.1
    · rw [hsz6, hW]; clear * - hbe hszb hNNe hNNT hTt hbN; omega
    · rw [bsz_eq (by rw [hsz6, hW]; clear * - hbe hszb hNNe hNNT hTt hbN; omega), hsz6, hW]
      clear * - hbe hszb hNNe hn4 hbN hlt2
      omega
    · rw [bsz_eq (by rw [hsz6, hW]; clear * - hbe hszb hNNe hNNT hTt hbN; omega), hsz6, hW]
      clear * - hbe hszb hNNe hn4 hbN hlt2
      omega
    · have := hM.free
      rw [isFree_iff] at this ⊢
      rw [hsz6, hW]; clear * - this hn4; omega
    · rw [← hM.pfree, isPrevFree_iff, isPrevFree_iff, hsz6, hW]
      have : (size s.mem b + bsz m0 N + 8) / 2 % 2 = size s.mem b / 2 % 2 := by
        clear * - hn4; omega
      rw [this]
    · show (set_size s5 b W).mem b = m0 b
      rw [hmem6, store_ne (by clear * -; omega), (hdr5 b hb).1]
      exact hM.phdr
    · intro z hz h1 h2
      by_cases hzb : z = b
      · exact Or.inl hzb
      · right
        have h3 := hP.apart hb hC.b_T hz hzb
        rw [hNe] at h3
        by_cases hzN : z = N
        · rw [hzN]; exact hf
        · have := hP.apart hNB hNT' hz hzN
          clear * - this h3 h1 h2
          omega
    · intro a ha
      have h := ha b hb hC.b_ib
      rw [hmem6, store_ne (by clear * - h; omega)]
      rw [hfr a]
      · exact hM.frame a ha
      · intro y hy
        have hyf := ((hC.link y).1 ((hmemFc y).1 hy).1).2
        have := ha y (hFcB y hy).1 (hP.free_ne hyf).2
        exact ⟨this.2.2.1, this.2.2.2⟩
  · intro h
    have h1 := (hP.tag N hNB hNT').1.2 hf
    exact hP.adj _ hNx.2.1 ⟨h, h1⟩

end TLSF

namespace TLSF

theorem free_bwd_used {hw : Intrinsics} {b : Nat} {s : State}
    (h : ¬ isPrevFree s.mem b) : free_bwd hw b s = some (b, s) := by
  unfold free_bwd
  exact if_neg (not_not.2 (not_not.1 h))

theorem free_bwd_free {hw : Intrinsics} {b P : Nat} {s : State} {ij : Nat × Nat}
    (h : isPrevFree s.mem b) (hP : prev_hdr s.mem b = P)
    (hidx : index (MAPPING_INSERT hw (bsz s.mem P)).1 (MAPPING_INSERT hw (bsz s.mem P)).2
      = some ij) :
    free_bwd hw b s = some (P, set_size (EXTRACT_BLOCK P s ij.1 ij.2) P
      (add32 (size (EXTRACT_BLOCK P s ij.1 ij.2).mem P)
        (add32 (bsz (EXTRACT_BLOCK P s ij.1 ij.2).mem b) BHDR_OVERHEAD))) := by
  unfold free_bwd
  dsimp only
  have h' : size s.mem b &&& PREV_FREE ≠ 0 := h
  rw [if_pos h', hP]
  unfold bsz at hidx
  rw [hidx]
  rfl

theorem free_bwd_merging {hw : Intrinsics} (hs : ScanSpec hw) {m0 : Nat → Nat}
    {B F : Finset Nat} {ib T b NN : Nat} {s0 s : State}
    (hC : FreePre m0 B F ib T b s0) (hM : Merging m0 B F ib b s b NN) :
    ∃ s8 lo, free_bwd hw b s = some (lo, s8) ∧ Merging m0 B F ib b s8 lo NN ∧
      ¬ isPrevFree m0 lo ∧ lo ≠ ib ∧
      ((¬ isPrevFree m0 b ∧ lo = b) ∨
        (isPrevFree m0 b ∧ isFree m0 lo ∧ nxt m0 lo = b ∧ lo ∈ B)) ∧
      s8.tlsf.used_size = s.tlsf.used_size ∧ s8.tlsf.max_size = s.tlsf.max_size ∧
      s8.tlsf.area_head = s.tlsf.area_head ∧
      s8.tlsf.tlsf_signature = s.tlsf.tlsf_signature ∧ s8.mp = s.mp := by
  have hP := hC.phys
  have hS := hP.sep
  have hb := hC.b_mem
  have hNNT := (hP.rng NN hM.NN_mem).2
  have hTt := hP.T_top
  have hbNN := hS b hb NN hM.NN_mem hM.b_lt
  have hszb := hM.sz
  have hwb := hM.word
  have hbe := bsz_eq hwb
  by_cases hf : isPrevFree m0 b
  swap
  · exact ⟨s, b, free_bwd_used (by rw [hM.pfree]; exact hf), hM, hf, hC.b_ib,
      Or.inl ⟨hf, rfl⟩, rfl, rfl, rfl, rfl, rfl⟩
  obtain ⟨c, hcB, hcT, hcn⟩ := hP.pd b hb hC.b_ib
  have htag := hP.tag c hcB hcT
  rw [hcn] at htag
  have hcf : isFree m0 c := htag.1.1 hf
  have hph : prev_hdr m0 b = c := htag.2 hcf
  have hcb := hP.lt_nxt hcB hcT
  rw [hcn] at hcb
  have hcne : nxt m0 c = c + 8 + bsz m0 c := rfl
  rw [hcn] at hcne
  have hcF : c ∈ F := (hC.link c).2 ⟨hcB, hcf⟩
  have hcpf : ¬ isPrevFree m0 c := fun h => hP.adj c hcB ⟨hcf, h⟩
  have hcib : c ≠ ib := (hP.free_ne hcf).2
  obtain ⟨Fc, hFcdef⟩ : ∃ Fc, Fc = F.filter (fun x => x < b ∨ NN ≤ x) := ⟨_, rfl⟩
  have hIc : IdxInv s.tlsf s.mem Fc := hFcdef ▸ hM.idx
  have hAc : Acyc s.mem Fc := hFcdef ▸ hM.acyc
  have hmemFc : ∀ x, x ∈ Fc ↔ x ∈ F ∧ (x < b ∨ NN ≤ x) := by
    intro x; rw [hFcdef, Finset.mem_filter]
  have hcFc : c ∈ Fc := (hmemFc c).2 ⟨hcF, Or.inl (by clear * - hcb; omega)⟩
  have hFcB : ∀ y ∈ Fc, y ∈ B := by
    intro y hy
    exact ((hC.link y).1 ((hmemFc y).1 hy).1).1
  have hSc : Sep Fc := hS.mono hFcB
  have hsc := hM.same c hcB (Or.inl (by clear * - hcb; omega))
  have hcw := (hP.wd c hcB).1
  have hce := bsz_eq hcw
  have hcl := hIc.cl c hcFc
  have hidx := index_MAPPING_INSERT hs (bsz s.mem c) hcl
  have hev := free_bwd_free ((hM.pfree).2 hf) (hM.phdr.trans hph) hidx
  obtain ⟨i, hi⟩ : ∃ i, i = (cls (bsz s.mem c)).1 := ⟨_, rfl⟩
  obtain ⟨j, hj⟩ : ∃ j, j = (cls (bsz s.mem c)).2 := ⟨_, rfl⟩
  rw [← hi, ← hj] at hev
  have hc : cls (bsz s.mem c) = (i, j) := by rw [hi, hj]
  have hI7 := IdxInv_extract hIc hSc hcFc hc
  have hA7 := Acyc_extract i j hIc hAc hSc hcFc
  obtain ⟨hfr, -⟩ := EXTRACT_BLOCK_reads i j hIc hSc hcFc
  obtain ⟨r1, r2, r3, r4, r5⟩ := EXTRACT_BLOCK_rest c s i j
  obtain ⟨s7, hs7⟩ : ∃ s7, s7 = EXTRACT_BLOCK c s i j := ⟨_, rfl⟩
  rw [← hs7] at hev hI7 hA7 hfr r1 r2 r3 r4 r5
  have hdr7 : ∀ z ∈ B, s7.mem z = s.mem z ∧ s7.mem (z + 4) = s.mem (z + 4) := by
    intro z hz
    constructor <;>
    · apply hfr
      intro y hy
      have := sep_field_ne hS hz (hFcB y hy)
      clear * - this
      omega
  have e1 : size s7.mem c = size m0 c := (hdr7 c hcB).2.trans hsc.2
  have e2 : bsz s7.mem b = bsz s.mem b := bsz_frame (hdr7 b hb).2
  obtain ⟨W, hWdef⟩ : ∃ W, W = add32 (size s7.mem c) (add32 (bsz s7.mem b) BHDR_OVERHEAD) :=
    ⟨_, rfl⟩
  rw [← hWdef] at hev
  have hW : W = size m0 c + bsz s.mem b + 8 := by
    rw [hWdef, e1, e2]
    exact word_add (by clear * - hbe hszb hce hcne hNNT hTt hbNN hcb; omega)
  have hmem8 : (set_size s7 c W).mem = store s7.mem (c + 4) W := rfl
  have hrd8 : ∀ y ∈ B, y ≠ c →
      (set_size s7 c W).mem y = s.mem y ∧ (set_size s7 c W).mem (y + 4) = s.mem (y + 4) ∧
      (set_size s7 c W).mem (y + 8) = s7.mem (y + 8) ∧
      (set_size s7 c W).mem (y + 12) = s7.mem (y + 12) := by
    intro y hy hyc
    rw [hmem8]
    obtain ⟨h1, h2, h3, h4⟩ := store_size_reads hS hcB hy hyc s7.mem W
    exact ⟨h1.trans (hdr7 y hy).1, h2.trans (hdr7 y hy).2, h3, h4⟩
  have hsz8 : size (set_size s7 c W).mem c = W := by
    show store s7.mem (c + 4) W (c + 4) = W
    exact store_eq _ _ _
  have hfil : F.filter (fun x => x < c ∨ NN ≤ x) = Fc.erase c := by
    ext x
    rw [Finset.mem_filter, Finset.mem_erase, hmemFc]
    constructor
    · rintro ⟨hx, h⟩
      exact ⟨by clear * - h hcb hbNN; omega, hx, by clear * - h hcb; omega⟩
    · rintro ⟨hxc, hx, h⟩
      refine ⟨hx, ?_⟩
      have := hP.apart hcB hcT ((hC.link x).1 hx).1 hxc
      rw [hcn] at this
      clear * - this h
      omega
  have hE : ∀ y ∈ Fc.erase c, y ∈ B ∧ y ≠ c := fun y hy =>
    ⟨hFcB y (Finset.mem_of_mem_erase hy), Finset.ne_of_mem_erase hy⟩
  have hNNc : NN ≠ c := by clear * - hcb hbNN; omega
  have hNN8 := (hrd8 NN hM.NN_mem hNNc).2.1
  have hfc := (isFree_iff m0 c).1 hcf
  refine ⟨set_size s7 c W, c, hev, ?_, hcpf, hcib, Or.inr ⟨hf, hcf, hcn, hcB⟩,
    r1, r2, r3, r4, r5⟩
  refine
    { idx := ?_, acyc := ?_, lo_mem := hcB, NN_mem := hM.NN_mem,
      lo_le := by clear * - hcb; omega,
      b_lt := hM.b_lt, same := ?_, nn_word := ?_, nn_sz := ?_, nn_free := ?_, word := ?_,
      sz := ?_, free := ?_, pfree := ?_, phdr := ?_, inside := ?_, frame := ?_, keep := ?_ }
  · rw [hfil]
    refine IdxInv_frame hI7 ?_ ?_ ?_ rfl rfl rfl
    · intro y hy
      apply bsz_frame
      rw [(hrd8 y (hE y hy).1 (hE y hy).2).2.1, (hdr7 y (hE y hy).1).2]
    · intro y hy; exact (hrd8 y (hE y hy).1 (hE y hy).2).2.2.1
    · intro y hy; exact (hrd8 y (hE y hy).1 (hE y hy).2).2.2.2
  · rw [hfil]
    refine Acyc_frame hA7 ?_
    intro y hy; exact (hrd8 y (hE y hy).1 (hE y hy).2).2.2.1
  · intro z hz hzz
    have h1 := hrd8 z hz (by clear * - hzz hcb hbNN; omega)
    have h3 := hM.same z hz (by clear * - hzz hcb; omega)
    exact ⟨h1.1.trans h3.1, h1.2.1.trans h3.2⟩
  · rw [(size_same hNN8).1]; exact hM.nn_word
  · rw [bsz_frame hNN8]; exact hM.nn_sz
  · rw [(size_same hNN8).2.2.2.1]; exact hM.nn_free
  · rw [hsz8, hW]; clear * - hbe hszb hce hcne hNNT hTt hbNN hcb; omega
  · rw [bsz_eq (by rw [hsz8, hW]; clear * - hbe hszb hce hcne hNNT hTt hbNN hcb; omega),
      hsz8, hW]
    clear * - hbe hszb hce hcne hbNN hcb
    omega
  · rw [bsz_frame (hrd8 b hb (by clear * - hcb; omega)).2.1]
    exact hszb
  · rw [isFree_iff, hsz8, hW]; clear * - hfc hbe; omega
  · rw [isPrevFree_iff, isPrevFree_iff, hsz8, hW]
    have : (size m0 c + bsz s.mem b + 8) / 2 % 2 = size m0 c / 2 % 2 := by
      clear * - hbe; omega
    rw [this]
  · show (set_size s7 c W).mem c = m0 c
    rw [hmem8, store_ne (by clear * -; omega), (hdr7 c hcB).1]
    exact hsc.1
  · intro z hz h1 h2
    by_cases hzc : z = c
    · right; rw [hzc]; exact hcf
    · have h3 := hP.apart hcB hcT hz hzc
      rw [hcn] at h3
      exact hM.inside z hz (by clear * - h3 h1; omega) h2
  · intro a ha
    have h := ha c hcB hcib
    rw [hmem8, store_ne (by clear * - h; omega)]
    rw [hfr a]
    · exact hM.frame a ha
    · intro y hy
      have hyf := ((hC.link y).1 ((hmemFc y).1 hy).1).2
      have := ha y (hFcB y hy) (hP.free_ne hyf).2
      exact ⟨this.2.2.1, this.2.2.2⟩

end TLSF

namespace TLSF

theorem free_insert_eval {hw : Intrinsics} {lo NN : Nat} {s : State} {ij : Nat × Nat}
    (hidx : index (MAPPING_INSERT hw (bsz s.mem lo)).1 (MAPPING_INSERT hw (bsz s.mem lo)).2
      = some ij)
    (hN : GET_NEXT_BLOCK (buffer lo) (size (INSERT_BLOCK lo s ij.1 ij.2).mem lo &&& BLOCK_SIZE)
      = NN) :
    free_insert hw lo s = some (set_prev_hdr (set_size (INSERT_BLOCK lo s ij.1 ij.2) NN
      (size (INSERT_BLOCK lo s ij.1 ij.2).mem NN ||| PREV_FREE)) NN lo) := by
  unfold free_insert
  dsimp only
  unfold bsz at hidx
  rw [hidx]
  dsimp only
  rw [hN]

/-- The words of a header after an or with the `PREV_FREE` bit. -/
theorem word_or_prev {w : Nat} (hw : w < 2 ^ 32) :
    (w ||| PREV_FREE) < 2 ^ 32 ∧ (w ||| PREV_FREE) / 4 * 4 = w / 4 * 4 ∧
    (w ||| PREV_FREE) % 2 = w % 2 ∧ (w ||| PREV_FREE) / 2 % 2 = 1 := by
  have : w ||| PREV_FREE = w / 4 * 4 + 2 + w % 2 := or_two w
  rw [this]
  omega

theorem free_insert_post {hw : Intrinsics} (hs : ScanSpec hw) {m0 : Nat → Nat}
    {B F : Finset Nat} {ib T b lo NN : Nat} {s0 s : State}
    (hC : FreePre m0 B F ib T b s0) (hM : Merging m0 B F ib b s lo NN)
    (hnf : ¬ isFree m0 NN) (hpf : ¬ isPrevFree m0 lo) (hlib : lo ≠ ib) :
    ∃ s', free_insert hw lo s = some s' ∧
      PhysInv s'.mem (B.filter (fun z => z ≤ lo ∨ NN ≤ z)) ib T ∧
      IdxInv s'.tlsf s'.mem (insert lo (F.filter (fun x => x < lo ∨ NN ≤ x))) ∧
      Acyc s'.mem (insert lo (F.filter (fun x => x < lo ∨ NN ≤ x))) ∧
      (∀ z ∈ B, z < lo ∨ NN ≤ z →
        (isFree s'.mem z ↔ isFree m0 z) ∧ bsz s'.mem z = bsz m0 z) ∧
      isFree s'.mem lo ∧ bsz s'.mem lo = NN - lo - 8 ∧ bsz s'.mem b = NN - b - 8 ∧
      (∀ a, (∀ z ∈ B, z ≠ ib → a ≠ z ∧ a ≠ z + 4 ∧ a ≠ z + 8 ∧ a ≠ z + 12) →
        s'.mem a = m0 a) ∧
      s'.tlsf.used_size = s.tlsf.used_size ∧ s'.tlsf.max_size = s.tlsf.max_size ∧
      s'.tlsf.area_head = s.tlsf.area_head ∧
      s'.tlsf.tlsf_signature = s.tlsf.tlsf_signature ∧ s'.mp = s.mp := by
  have hP := hC.phys
  have hS := hP.sep
  have hlo := hM.lo_mem
  have hNN := hM.NN_mem
  have hlt : lo < NN := lt_of_le_of_lt hM.lo_le hM.b_lt
  have hlt16 := hS lo hlo NN hNN hlt
  have hibl := hS ib hP.ib_mem lo hlo (lt_of_le_of_ne (hP.rng lo hlo).1 (Ne.symm hlib))
  have hNNT := (hP.rng NN hNN).2
  have hspan := hP.span
  have hTt := hP.T_top
  have hszl := hM.sz
  have hcl : bsz s.mem lo < 2 ^ 30 := by
    rw [hszl]; clear * - hlt16 hibl hNNT hspan; omega
  have hidx := index_MAPPING_INSERT hs _ hcl
  have hev := fun h => @free_insert_eval hw lo NN s _ hidx h
  obtain ⟨i, hi⟩ : ∃ i, i = (cls (bsz s.mem lo)).1 := ⟨_, rfl⟩
  obtain ⟨j, hj⟩ : ∃ j, j = (cls (bsz s.mem lo)).2 := ⟨_, rfl⟩
  rw [← hi, ← hj] at hev
  have hc : cls (bsz s.mem lo) = (i, j) := by rw [hi, hj]
  obtain ⟨Fc, hFcdef⟩ : ∃ Fc, Fc = F.filter (fun x => x < lo ∨ NN ≤ x) := ⟨_, rfl⟩
  have hIc : IdxInv s.tlsf s.mem Fc := hFcdef ▸ hM.idx
  have hAc : Acyc s.mem Fc := hFcdef ▸ hM.acyc
  rw [← hFcdef]
  have hmemFc : ∀ x, x ∈ Fc ↔ x ∈ F ∧ (x < lo ∨ NN ≤ x) := by
    intro x; rw [hFcdef, Finset.mem_filter]
  have hFcB : ∀ y ∈ Fc, y ∈ B ∧ isFree m0 y := fun y hy => (hC.link y).1 ((hmemFc y).1 hy).1
  have hloFc : lo ∉ Fc := by
    rw [hmemFc]; rintro ⟨-, h⟩; clear * - h hlt; omega
  have hiB : ∀ y ∈ insert lo Fc, y ∈ B ∧ y ≠ NN ∧ y ≠ ib := by
    intro y hy
    rcases Finset.mem_insert.1 hy with h | h
    · rw [h]; exact ⟨hlo, by clear * - hlt; omega, hlib⟩
    · have := hFcB y h
      exact ⟨this.1, fun e => hnf (e ▸ this.2), (hP.free_ne this.2).2⟩
  have hSi : Sep (insert lo Fc) := hS.mono (fun y hy => (hiB y hy).1)
  have hlo0 : lo ≠ 0 := by clear * - hibl; omega
  have hij := cls_lt hcl
  rw [hc] at hij
  have hI9 := IdxInv_insert hIc hSi hloFc hlo0 hcl hc
  have hA9 := Acyc_insert hIc hAc hSi hloFc hlo0 hij.1 hij.2
  obtain ⟨hfr, -, -⟩ := INSERT_BLOCK_reads hIc hSi hloFc hlo0 hij.1 hij.2
  obtain ⟨r1, r2, r3, r4, r5⟩ := INSERT_BLOCK_rest lo s i j
  obtain ⟨s9, hs9⟩ : ∃ s9, s9 = INSERT_BLOCK lo s i j := ⟨_, rfl⟩
  rw [← hs9] at hev hI9 hA9 hfr r1 r2 r3 r4 r5
  have hdr9 : ∀ z ∈ B, s9.mem z = s.mem z ∧ s9.mem (z + 4) = s.mem (z + 4) := by
    intro z hz
    constructor <;>
    · apply hfr
      intro y hy
      have := sep_field_ne hS hz (hiB y hy).1
      clear * - this
      omega
  have e9 : bsz s9.mem lo = NN - lo - 8 := (bsz_frame (hdr9 lo hlo).2).trans hszl
  have htmp : GET_NEXT_BLOCK (buffer lo) (size s9.mem lo &&& BLOCK_SIZE) = NN := by
    show GET_NEXT_BLOCK (buffer lo) (bsz s9.mem lo) = NN
    exact GET_NEXT_BLOCK_eq (by rw [e9]; clear * - hlt16; omega) (by clear * - hNNT hTt; omega)
  have hev' := hev htmp
  have hw9 : size s9.mem NN = size s.mem NN := (hdr9 NN hNN).2
  rw [hw9] at hev'
  obtain ⟨hW1, hW2, hW3, hW4⟩ := word_or_prev hM.nn_word
  obtain ⟨W, hWdef⟩ : ∃ W, W = size s.mem NN ||| PREV_FREE := ⟨_, rfl⟩
  rw [← hWdef] at hev' hW1 hW2 hW3 hW4
  have hmem : (set_prev_hdr (set_size s9 NN W) NN lo).mem =
      store (store s9.mem (NN + 4) W) NN lo := rfl
  have hrd : ∀ y ∈ B, y ≠ NN →
      (set_prev_hdr (set_size s9 NN W) NN lo).mem y = s9.mem y ∧
      (set_prev_hdr (set_size s9 NN W) NN lo).mem (y + 4) = s9.mem (y + 4) ∧
      (set_prev_hdr (set_size s9 NN W) NN lo).mem (y + 8) = s9.mem (y + 8) ∧
      (set_prev_hdr (set_size s9 NN W) NN lo).mem (y + 12) = s9.mem (y + 12) := by
    intro y hy hyN
    have := hS.far hy hNN
    rw [hmem]
    refine ⟨?_, ?_, ?_, ?_⟩ <;>
    · rw [store_ne (by clear * - this hyN; omega), store_ne (by clear * - this hyN; omega)]
  have hN1 : prev_hdr (set_prev_hdr (set_size s9 NN W) NN lo).mem NN = lo := by
    show (set_prev_hdr (set_size s9 NN W) NN lo).mem NN = lo
    rw [hmem, store_eq]
  have hN2 : size (set_prev_hdr (set_size s9 NN W) NN lo).mem NN = W := by
    show (set_prev_hdr (set_size s9 NN W) NN lo).mem (NN + 4) = W
    rw [hmem, store_ne (by clear * -; omega), store_eq]
  have hbN : bsz (set_prev_hdr (set_size s9 NN W) NN lo).mem NN = bsz m0 NN := by
    rw [bsz_eq (by rw [hN2]; exact hW1), hN2, hW2, ← bsz_eq hM.nn_word]
    exact hM.nn_sz
  have hfN : isFree (set_prev_hdr (set_size s9 NN W) NN lo).mem NN ↔ isFree m0 NN := by
    rw [← hM.nn_free, isFree_iff, isFree_iff, hN2, hW3]
  have hpN : isPrevFree (set_prev_hdr (set_size s9 NN W) NN lo).mem NN := by
    rw [isPrevFree_iff, hN2]; exact hW4
  have hlN : lo ≠ NN := by clear * - hlt; omega
  have elo : (set_prev_hdr (set_size s9 NN W) NN lo).mem (lo + 4) = s.mem (lo + 4) :=
    (hrd lo hlo hlN).2.1.trans (hdr9 lo hlo).2
  obtain ⟨l1, l2, -, l4, l5⟩ := size_same elo
  have hfar : ∀ z ∈ B, z < lo ∨ NN < z →
      (set_prev_hdr (set_size s9 NN W) NN lo).mem z = m0 z ∧
      (set_prev_hdr (set_size s9 NN W) NN lo).mem (z + 4) = m0 (z + 4) := by
    intro z hz hzz
    have h1 := hrd z hz (by clear * - hzz hlt; omega)
    have h2 := hdr9 z hz
    have h3 := hM.same z hz hzz
    exact ⟨h1.1.trans (h2.1.trans h3.1), h1.2.1.trans (h2.2.trans h3.2)⟩
  refine ⟨_, hev', ?_, ?_, ?_, ?_, ?_, ?_, ?_, ?_, r1, r2, r3, r4, r5⟩
  · exact PhysInv_coalesce hP hlo hNN hlt hlib hpf hnf (by rw [l1]; exact hM.word)
      (by rw [l2]; exact hszl) (l4.2 hM.free) (fun h => hpf (hM.pfree.1 (l5.1 h)))
      (by rw [hN2]; exact hW1) hbN hfN hpN hN1 hfar
  · refine IdxInv_frame hI9 ?_ ?_ ?_ rfl rfl rfl
    · intro y hy; exact bsz_frame (hrd y (hiB y hy).1 (hiB y hy).2.1).2.1
    · intro y hy; exact (hrd y (hiB y hy).1 (hiB y hy).2.1).2.2.1
    · intro y hy; exact (hrd y (hiB y hy).1 (hiB y hy).2.1).2.2.2
  · refine Acyc_frame hA9 ?_
    intro y hy; exact (hrd y (hiB y hy).1 (hiB y hy).2.1).2.2.1
  · intro z hz hzz
    by_cases hzN : z = NN
    · rw [hzN]; exact ⟨hfN, hbN⟩
    · have := hdr_same (hfar z hz (by clear * - hzz hzN; omega))
      exact ⟨this.2.2.2.1, this.2.1⟩
  · exact l4.2 hM.free
  · rw [l2]; exact hszl
  · rw [bsz_frame ((hrd b hC.b_mem (by have := hM.b_lt; clear * - this; omega)).2.1.trans
      (hdr9 b hC.b_mem).2)]
    exact hM.keep
  · intro a ha
    have h := ha NN hNN (by clear * - hibl hlt; omega)
    rw [hmem, store_ne (by clear * - h; omega), store_ne (by clear * - h; omega)]
    rw [hfr a]
    · exact hM.frame a ha
    · intro y hy
      have := ha y (hiB y hy).1 (hiB y hy).2.2
      exact ⟨this.2.2.1, this.2.2.2⟩

/-- The function `free_ex` on the payload of a used block of a tiling: it returns, and
the blocks around `b` that were free are gathered with `b` in one linked free block. -/
theorem free_ex_core {hw : Intrinsics} (hs : ScanSpec hw) {m0 : Nat → Nat}
    {B F : Finset Nat} {ib T b : Nat} {s : State} (hC : FreePre m0 B F ib T b s) :
    ∃ s' lo NN, free_ex hw (b + 8) s = some s' ∧ FreePost m0 B F ib T b s s' lo NN := by
  have hP := hC.phys
  have hbT := (hP.rng b hC.b_mem).2
  have hTt := hP.T_top
  have hM1 := free_mark_merging hC
  obtain ⟨u1, u2, u3, u4, u5, u6, u7, u8⟩ := free_mark_tlsf b s
  obtain ⟨s6, NN, hfwd, hM6, hnf, hhi, v1, v2, v3, v4, v5⟩ := free_fwd_merging hs hC rfl hM1
  obtain ⟨s8, lo, hbwd, hM8, hpf, hlib, hlow, w1, w2, w3, w4, w5⟩ :=
    free_bwd_merging hs hC hM6
  obtain ⟨s', hins, hph, hix, hac, hsame, hfree, hsz, hkeep, hframe, x1, x2, x3, x4, x5⟩ :=
    free_insert_post hs hC hM8 hnf hpf hlib
  have hsub : sub32 (b + 8) BHDR_OVERHEAD = b := by
    unfold sub32 BHDR_OVERHEAD sizeof_bhdr_t MIN_BLOCK_SIZE sizeof_ptr
    norm_num
    clear * - hbT hTt
    omega
  refine ⟨s', lo, NN, ?_, ?_⟩
  · unfold free_ex
    rw [if_neg (by clear * -; omega)]
    dsimp only
    rw [hsub, hfwd, Option.some_bind, hbwd, Option.some_bind]
    exact hins
  · exact
      { lo_mem := hM8.lo_mem, NN_mem := hM8.NN_mem, lo_le := hM8.lo_le, b_lt := hM8.b_lt,
        phys := hph, idx := hix, acyc := hac, same := hsame, free := hfree, sz := hsz,
        keep := hkeep,
        inside := hM8.inside, hi := hhi,
        low := hlow.imp id (fun h => ⟨h.1, h.2.1, h.2.2.1⟩),
        nn_used := hnf, frame := hframe,
        used := by rw [x1, w1, v1, u8],
        max := by rw [x2, w2, v2, u4],
        area := by rw [x3, w3, v3, u5],
        sig := by rw [x4, w4, v4, u6],
        mp := by rw [x5, w5, v5, u7] }

end TLSF

namespace TLSF

theorem sub32_lt (a b : Nat) : sub32 a b < 2 ^ 32 := by
  unfold sub32
  exact Nat.mod_lt _ (by norm_num)

theorem add32_lt (a b : Nat) : add32 a b < 2 ^ 32 := by
  unfold add32
  exact Nat.mod_lt _ (by norm_num)

/-- The precondition of `free_ex` holds for a live payload of a pool in its invariant. -/
theorem Inv.freePre {s : State} {B F : Finset Nat} {ib T b : Nat} {L : List Nat}
    (hI : Inv s B F ib T L) (hb : b ∈ B) (hbi : b ≠ ib) (hbT : b ≠ T)
    (hbu : ¬ isFree s.mem b) : FreePre s.mem B F ib T b s :=
  { phys := hI.phys, idx := hI.idx, acyc := hI.acyc, link := hI.link, b_mem := hb,
    b_ib := hbi, b_T := hbT, b_used := hbu, same := fun _ _ _ => ⟨rfl, rfl⟩,
    nn_word := (hI.phys.wd _ (hI.phys.nx b hb hbT).2.1).1, nn_sz := rfl, nn_free := Iff.rfl,
    frame := fun _ _ => rfl }

/-- The function `free_ex` keeps the pool invariant when it is given a live payload: it
returns, the payload leaves the live list, and the blocks between `lo` and `NN` are
replaced by the free block `lo`. -/
theorem free_ex_inv {hw : Intrinsics} (hs : ScanSpec hw) {s : State} {B F : Finset Nat}
    {ib T p : Nat} {L : List Nat} (hI : Inv s B F ib T L) (hp : p ∈ L) :
    ∃ s' lo NN b, p = b + 8 ∧ free_ex hw p s = some s' ∧
      FreePost s.mem B F ib T b s s' lo NN ∧
      Inv s' (B.filter (fun z => z ≤ lo ∨ NN ≤ z))
        (insert lo (F.filter (fun x => x < lo ∨ NN ≤ x))) ib T (L.erase p) := by
  obtain ⟨b, hb, hbi, hbT, hbu, hpb⟩ := (hI.live p).1 hp
  have hC := hI.freePre hb hbi hbT hbu
  obtain ⟨s', lo, NN, hev, hR⟩ := free_ex_core hs hC
  refine ⟨s', lo, NN, b, hpb, by rw [hpb]; exact hev, hR, ?_⟩
  have hlo_le := hR.lo_le
  have hb_lt := hR.b_lt
  refine
    { phys := hR.phys, idx := hR.idx, acyc := hR.acyc, link := ?_, live := ?_,
      nodup := hI.nodup.erase p, used := by rw [hR.used]; exact sub32_lt _ _ }
  · intro x
    rw [Finset.mem_insert, Finset.mem_filter, Finset.mem_filter]
    constructor
    · rintro (h | ⟨hx, h⟩)
      · rw [h]; exact ⟨⟨hR.lo_mem, Or.inl (le_refl _)⟩, hR.free⟩
      · have hx' := (hI.link x).1 hx
        exact ⟨⟨hx'.1, by clear * - h; omega⟩, (hR.same x hx'.1 h).1.2 hx'.2⟩
    · rintro ⟨⟨hx, h⟩, hf⟩
      by_cases hxl : x = lo
      · exact Or.inl hxl
      · right
        have h' : x < lo ∨ NN ≤ x := by clear * - h hxl; omega
        exact ⟨(hI.link x).2 ⟨hx, (hR.same x hx h').1.1 hf⟩, h'⟩
  · intro q
    rw [hI.nodup.mem_erase_iff, hI.live q]
    constructor
    · rintro ⟨hq, z, hz, hzi, hzT, hzu, hqz⟩
      have hzb : z ≠ b := by
        intro e; apply hq; rw [hqz, hpb, e]
      have h' : z < lo ∨ NN ≤ z := by
        by_contra hcon
        rcases hR.inside z hz (by clear * - hcon; omega) (by clear * - hcon; omega) with h | h
        · exact hzb h
        · exact hzu h
      refine ⟨z, Finset.mem_filter.2 ⟨hz, by clear * - h'; omega⟩, hzi, hzT, ?_, hqz⟩
      intro hf
      exact hzu ((hR.same z hz h').1.1 hf)
    · rintro ⟨z, hz, hzi, hzT, hzu, hqz⟩
      obtain ⟨hzB, h⟩ := Finset.mem_filter.1 hz
      have hzl : z ≠ lo := fun e => hzu (e ▸ hR.free)
      have h' : z < lo ∨ NN ≤ z := by clear * - h hzl; omega
      refine ⟨?_, z, hzB, hzi, hzT, fun hf => hzu ((hR.same z hzB h').1.2 hf), hqz⟩
      rw [hqz, hpb]
      clear * - h' hlo_le hb_lt
      omega

end TLSF

namespace TLSF

theorem malloc_split_eval {hw : Intrinsics} {s1 : State} {b N r d t b2 : Nat} {ij : Nat × Nat}
    (ht : sub32 d BHDR_OVERHEAD = t) (hb2 : GET_NEXT_BLOCK (buffer b) r = b2)
    (hidx : index (MAPPING_INSERT hw t).1 (MAPPING_INSERT hw t).2 = some ij) :
    malloc_split hw s1 b N r d = some (set_size
      (INSERT_BLOCK b2 (set_prev_hdr (set_size s1 b2 (t ||| FREE_BLOCK ||| PREV_USED)) N b2)
        ij.1 ij.2) b
      (r ||| (size (INSERT_BLOCK b2
        (set_prev_hdr (set_size s1 b2 (t ||| FREE_BLOCK ||| PREV_USED)) N b2)
        ij.1 ij.2).mem b &&& PREV_STATE))) := by
  unfold malloc_split
  rw [ht, hb2]
  unfold malloc_split_at
  dsimp only
  rw [hidx]

/-- The header of the remainder of a split lies a header away from every block. -/
theorem sep_insert_split {m : Nat → Nat} {B : Finset Nat} {ib T b r : Nat}
    (hP : PhysInv m B ib T) (hb : b ∈ B) (hbT : b ≠ T) (hr8 : 8 ≤ r)
    (hrs : r + 16 ≤ bsz m b) : Sep (insert (b + 8 + r) B) := by
  have hS := hP.sep
  have hN : nxt m b = b + 8 + bsz m b := rfl
  intro x hx y hy hxy
  rcases Finset.mem_insert.1 hx with h1 | h1 <;> rcases Finset.mem_insert.1 hy with h2 | h2
  · omega
  · have := (hP.nx b hb hbT).2.2 y h2 (by omega)
    omega
  · by_cases hxb : x = b
    · omega
    · rcases hP.apart hb hbT h1 hxb with h | h
      · have := hS x h1 b hb h
        omega
      · omega
  · exact hS x h1 y h2 hxy

/-- The word of the remainder of a split. -/
theorem word_rem {t : Nat} (ht : t % 8 = 0) (hlt : t < 2 ^ 32) :
    (t ||| FREE_BLOCK ||| PREV_USED) < 2 ^ 32 ∧ (t ||| FREE_BLOCK ||| PREV_USED) / 4 * 4 = t ∧
    (t ||| FREE_BLOCK ||| PREV_USED) % 2 = 1 ∧ (t ||| FREE_BLOCK ||| PREV_USED) / 2 % 2 = 0 := by
  unfold FREE_BLOCK PREV_USED
  rw [Nat.or_zero, or_one t]
  omega

/-- The word of the block handed out by a split. -/
theorem word_cut {r w : Nat} (hr : r % 8 = 0) (hlt : r < 2 ^ 31) :
    (r ||| (w &&& PREV_STATE)) < 2 ^ 32 ∧ (r ||| (w &&& PREV_STATE)) / 4 * 4 = r ∧
    (r ||| (w &&& PREV_STATE)) % 2 = 0 ∧ (r ||| (w &&& PREV_STATE)) / 2 % 2 = w / 2 % 2 := by
  unfold PREV_STATE
  rw [and_two w, or_low _ _ (by omega) (by omega)]
  omega

end TLSF

namespace TLSF

theorem sub32_eq {a b : Nat} (h : b ≤ a) (ha : a < 2 ^ 32) : sub32 a b = a - b := by
  unfold sub32
  rw [Nat.mod_eq_of_lt ha, Nat.mod_eq_of_lt (lt_of_le_of_lt h ha)]
  omega

/-- A free block is followed by a used block. -/
theorem PhysInv.next_used {m : Nat → Nat} {B : Finset Nat} {ib T b : Nat}
    (hP : PhysInv m B ib T) (hb : b ∈ B) (hf : isFree m b) : ¬ isFree m (nxt m b) := by
  have hbT := (hP.free_ne hf).1
  intro h
  exact hP.adj _ (hP.nx b hb hbT).2.1 ⟨h, (hP.tag b hb hbT).1.2 hf⟩

/-- Blocks other than the sentinel lie a header above it. -/
theorem PhysInv.above {m : Nat → Nat} {B : Finset Nat} {ib T b : Nat}
    (hP : PhysInv m B ib T) (hb : b ∈ B) (hbi : b ≠ ib) : ib + 16 ≤ b :=
  hP.sep ib hP.ib_mem b hb (lt_of_le_of_ne (hP.rng b hb).1 (Ne.symm hbi))

theorem malloc_split_post {hw : Intrinsics} (hs : ScanSpec hw) {m : Nat → Nat}
    {B F1 : Finset Nat} {ib T b r : Nat} {s1 : State}
    (hP : PhysInv m B ib T) (hb : b ∈ B) (hf : isFree m b) (hcl : bsz m b < 2 ^ 30)
    (hI1 : IdxInv s1.tlsf s1.mem F1) (hA1 : Acyc s1.mem F1)
    (hF1 : ∀ y ∈ F1, y ∈ B ∧ y ≠ b ∧ isFree m y)
    (hdr1 : ∀ z ∈ B, s1.mem z = m z ∧ s1.mem (z + 4) = m (z + 4))
    (hr8 : 8 ≤ r) (hrm : r % 8 = 0) (hrs : r + 16 ≤ bsz m b) :
    ∃ s5, malloc_split hw s1 b (nxt m b) r (bsz m b - r) = some s5 ∧
      PhysInv s5.mem (insert (b + 8 + r) B) ib T ∧
      IdxInv s5.tlsf s5.mem (insert (b + 8 + r) F1) ∧
      Acyc s5.mem (insert (b + 8 + r) F1) ∧
      bsz s5.mem b = r ∧ ¬ isFree s5.mem b ∧ ¬ isPrevFree s5.mem b ∧
      isFree s5.mem (b + 8 + r) ∧ bsz s5.mem (b + 8 + r) = bsz m b - r - 8 ∧
      (∀ z ∈ B, z ≠ b → (isFree s5.mem z ↔ isFree m z) ∧ bsz s5.mem z = bsz m z) ∧
      (∀ a, a < ib + 16 → s5.mem a = s1.mem a) ∧
      s5.tlsf.used_size = s1.tlsf.used_size ∧ s5.tlsf.max_size = s1.tlsf.max_size ∧
      s5.tlsf.area_head = s1.tlsf.area_head ∧
      s5.tlsf.tlsf_signature = s1.tlsf.tlsf_signature ∧ s5.mp = s1.mp := by
  have hS := hP.sep
  have hbT : b ≠ T := (hP.free_ne hf).1
  have hbib : b ≠ ib := (hP.free_ne hf).2
  have hNx := hP.nx b hb hbT
  have hNB := hNx.2.1
  have hNe : nxt m b = b + 8 + bsz m b := rfl
  have hNT := (hP.rng _ hNB).2
  have hTt := hP.T_top
  have hwb := hP.wd b hb
  have hNf := hP.next_used hb hf
  have hibb := hP.above hb hbib
  have hbpf : ¬ isPrevFree m b := fun h => hP.adj b hb ⟨hf, h⟩
  obtain ⟨N, hNdef⟩ : ∃ N, N = nxt m b := ⟨_, rfl⟩
  rw [← hNdef] at hNB hNe hNT hNf
  rw [← hNdef]
  obtain ⟨t, htdef⟩ : ∃ t, t = bsz m b - r - 8 := ⟨_, rfl⟩
  obtain ⟨b2, hb2def⟩ : ∃ b2, b2 = b + 8 + r := ⟨_, rfl⟩
  rw [← hb2def, ← htdef]
  have hb2N : b2 + 8 + t = N := by clear * - hb2def htdef hNe hrs; omega
  have ht8 : 8 ≤ t := by clear * - htdef hrs; omega
  have htm : t % 8 = 0 := by clear * - htdef hrs hrm hwb; omega
  have ht30 : t < 2 ^ 30 := by clear * - htdef hcl; omega
  have ht : sub32 (bsz m b - r) BHDR_OVERHEAD = t := by
    rw [htdef]
    exact sub32_eq (by clear * - hrs; show 8 ≤ _; omega) (by clear * - hcl; omega)
  have hb2e : GET_NEXT_BLOCK (buffer b) r = b2 :=
    GET_NEXT_BLOCK_eq hb2def.symm (by clear * - hb2N hNT hTt; omega)
  have hidx := index_MAPPING_INSERT hs t ht30
  have hev := @malloc_split_eval hw s1 b N r _ _ _ _ ht hb2e hidx
  obtain ⟨i, hi⟩ : ∃ i, i = (cls t).1 := ⟨_, rfl⟩
  obtain ⟨j, hj⟩ : ∃ j, j = (cls t).2 := ⟨_, rfl⟩
  rw [← hi, ← hj] at hev
  obtain ⟨hW1, hW2, hW3, hW4⟩ := word_rem htm (by clear * - ht30; omega)
  obtain ⟨W2, hW2def⟩ : ∃ W2, W2 = t ||| FREE_BLOCK ||| PREV_USED := ⟨_, rfl⟩
  rw [← hW2def] at hev hW1 hW2 hW3 hW4
  obtain ⟨s3, hs3⟩ : ∃ s3, s3 = set_prev_hdr (set_size s1 b2 W2) N b2 := ⟨_, rfl⟩
  rw [← hs3] at hev
  have hmem3 : s3.mem = store (store s1.mem (b2 + 4) W2) N b2 := by rw [hs3]; rfl
  have ht3 : s3.tlsf = s1.tlsf := by rw [hs3]; rfl
  have hmp3 : s3.mp = s1.mp := by rw [hs3]; rfl
  have hpos : ∀ y ∈ B, y ≠ b → y + 16 ≤ b ∨ N ≤ y := by
    intro y hy hyb
    rcases hP.apart hb hbT hy hyb with h | h
    · exact Or.inl (hS y hy b hb h)
    · right; rw [hNdef]; exact h
  have hrd3 : ∀ y ∈ B, y ≠ b → y ≠ N →
      s3.mem y = s1.mem y ∧ s3.mem (y + 4) = s1.mem (y + 4) ∧
      s3.mem (y + 8) = s1.mem (y + 8) ∧ s3.mem (y + 12) = s1.mem (y + 12) := by
    intro y hy hyb hyN
    have h1 := hpos y hy hyb
    have h2 := hS.far hy hNB
    rw [hmem3]
    refine ⟨?_, ?_, ?_, ?_⟩ <;>
    · rw [store_ne (by clear * - h1 h2 hyN hb2N hb2def; omega),
        store_ne (by clear * - h1 h2 hyN hb2N hb2def; omega)]
  have hrd3b : s3.mem b = s1.mem b ∧ s3.mem (b + 4) = s1.mem (b + 4) := by
    rw [hmem3]
    refine ⟨?_, ?_⟩ <;>
    · rw [store_ne (by clear * - hb2N hb2def; omega), store_ne (by clear * - hb2N hb2def; omega)]
  have hrd3N : s3.mem N = b2 ∧ s3.mem (N + 4) = s1.mem (N + 4) := by
    rw [hmem3]
    refine ⟨store_eq _ _ _, ?_⟩
    rw [store_ne (by clear * -; omega), store_ne (by clear * - hb2N; omega)]
  have hrd32 : s3.mem (b2 + 4) = W2 := by
    rw [hmem3, store_ne (by clear * - hb2N; omega), store_eq]
  have hF1' : ∀ y ∈ F1, y ∈ B ∧ y ≠ b ∧ y ≠ N ∧ y ≠ ib := by
    intro y hy
    obtain ⟨h1, h2, h3⟩ := hF1 y hy
    exact ⟨h1, h2, fun e => hNf (e ▸ h3), (hP.free_ne h3).2⟩
  have hI3 : IdxInv s3.tlsf s3.mem F1 := by
    refine IdxInv_frame hI1 ?_ ?_ ?_ (by rw [ht3]) (by rw [ht3]) (by rw [ht3])
    · intro y hy
      obtain ⟨h1, h2, h3, -⟩ := hF1' y hy
      exact bsz_frame (hrd3 y h1 h2 h3).2.1
    · intro y hy
      obtain ⟨h1, h2, h3, -⟩ := hF1' y hy
      exact (hrd3 y h1 h2 h3).2.2.1
    · intro y hy
      obtain ⟨h1, h2, h3, -⟩ := hF1' y hy
      exact (hrd3 y h1 h2 h3).2.2.2
  have hA3 : Acyc s3.mem F1 := by
    refine Acyc_frame hA1 ?_
    intro y hy
    obtain ⟨h1, h2, h3, -⟩ := hF1' y hy
    exact (hrd3 y h1 h2 h3).2.2.1
  have hSi : Sep (insert b2 B) := by
    rw [hb2def]; exact sep_insert_split hP hb hbT hr8 hrs
  have hsub : insert b2 F1 ⊆ insert b2 B :=
    Finset.insert_subset_insert _ (fun y hy => (hF1 y hy).1)
  have hSi1 : Sep (insert b2 F1) := hSi.mono hsub
  have hb2B : b2 ∉ B := by
    intro h
    have := hpos b2 h (by clear * - hb2def; omega)
    clear * - this hb2def hb2N
    omega
  have hb2F : b2 ∉ F1 := fun h => hb2B (hF1 b2 h).1
  have hb20 : b2 ≠ 0 := by clear * - hb2def; omega
  have hs32 : size s3.mem b2 = W2 := hrd32
  have hsz3 : bsz s3.mem b2 = t := by
    rw [bsz_eq (by rw [hs32]; exact hW1), hs32, hW2]
  have hc : cls (bsz s3.mem b2) = (i, j) := by rw [hsz3, hi, hj]
  have hcl3 : bsz s3.mem b2 < 2 ^ 30 := by rw [hsz3]; exact ht30
  have hij := cls_lt hcl3
  rw [hc] at hij
  have hI4 := IdxInv_insert hI3 hSi1 hb2F hb20 hcl3 hc
  have hA4 := Acyc_insert hI3 hA3 hSi1 hb2F hb20 hij.1 hij.2
  obtain ⟨hfr, -, -⟩ := INSERT_BLOCK_reads hI3 hSi1 hb2F hb20 hij.1 hij.2
  obtain ⟨r1, r2, r3, r4, r5⟩ := INSERT_BLOCK_rest b2 s3 i j
  obtain ⟨s4, hs4⟩ : ∃ s4, s4 = INSERT_BLOCK b2 s3 i j := ⟨_, rfl⟩
  rw [← hs4] at hev hI4 hA4 hfr r1 r2 r3 r4 r5
  have hdr4 : ∀ z ∈ insert b2 B, s4.mem z = s3.mem z ∧ s4.mem (z + 4) = s3.mem (z + 4) := by
    intro z hz
    constructor <;>
    · apply hfr
      intro y hy
      have := sep_field_ne hSi hz (hsub hy)
      clear * - this
      omega
  have hbI : b ∈ insert b2 B := Finset.mem_insert_of_mem hb
  have hNI : N ∈ insert b2 B := Finset.mem_insert_of_mem hNB
  have h2I : b2 ∈ insert b2 B := Finset.mem_insert_self _ _
  have hs4b : size s4.mem b = size m b :=
    (hdr4 b hbI).2.trans (hrd3b.2.trans (hdr1 b hb).2)
  rw [hs4b] at hev
  obtain ⟨hV1, hV2, hV3, hV4⟩ := word_cut (w := size m b) hrm (by clear * - hrs hcl; omega)
  obtain ⟨W5, hW5def⟩ : ∃ W5, W5 = r ||| (size m b &&& PREV_STATE) := ⟨_, rfl⟩
  rw [← hW5def] at hev hV1 hV2 hV3 hV4
  have hmem5 : (set_size s4 b W5).mem = store s4.mem (b + 4) W5 := rfl
  have hrd5 : ∀ y ∈ insert b2 B, y ≠ b →
      (set_size s4 b W5).mem y = s4.mem y ∧ (set_size s4 b W5).mem (y + 4) = s4.mem (y + 4) ∧
      (set_size s4 b W5).mem (y + 8) = s4.mem (y + 8) ∧
      (set_size s4 b W5).mem (y + 12) = s4.mem (y + 12) := by
    intro y hy hyb
    rw [hmem5]
    exact store_size_reads hSi hbI hy hyb _ _
  have h5b : size (set_size s4 b W5).mem b = W5 := by
    show store s4.mem (b + 4) W5 (b + 4) = W5
    exact store_eq _ _ _
  have h5p : (set_size s4 b W5).mem b = m b := by
    rw [hmem5, store_ne (by clear * -; omega), (hdr4 b hbI).1, hrd3b.1, (hdr1 b hb).1]
  have hb2b : b2 ≠ b := by clear * - hb2def; omega
  have hNb : N ≠ b := by clear * - hNe; omega
  have h52 : size (set_size s4 b W5).mem b2 = W2 :=
    (hrd5 b2 h2I hb2b).2.1.trans ((hdr4 b2 h2I).2.trans hrd32)
  have h5N : (set_size s4 b W5).mem (N + 4) = m (N + 4) :=
    (hrd5 N hNI hNb).2.1.trans ((hdr4 N hNI).2.trans (hrd3N.2.trans (hdr1 N hNB).2))
  have h5Np : prev_hdr (set_size s4 b W5).mem N = b2 :=
    (hrd5 N hNI hNb).1.trans ((hdr4 N hNI).1.trans hrd3N.1)
  have hfar : ∀ z ∈ B, z ≠ b → z ≠ N →
      (set_size s4 b W5).mem z = m z ∧ (set_size s4 b W5).mem (z + 4) = m (z + 4) := by
    intro z hz hzb hzN
    have h1 := hrd5 z (Finset.mem_insert_of_mem hz) hzb
    have h2 := hdr4 z (Finset.mem_insert_of_mem hz)
    have h3 := hrd3 z hz hzb hzN
    have h4 := hdr1 z hz
    exact ⟨h1.1.trans (h2.1.trans (h3.1.trans h4.1)),
      h1.2.1.trans (h2.2.trans (h3.2.1.trans h4.2))⟩
  have hpfm := isPrevFree_iff m b
  have hbsz5 : bsz (set_size s4 b W5).mem b = r := by
    rw [bsz_eq (by rw [h5b]; exact hV1), h5b, hV2]
  have hfree5 : ¬ isFree (set_size s4 b W5).mem b := by
    rw [isFree_iff, h5b, hV3]; exact Nat.zero_ne_one
  have hpf5 : isPrevFree (set_size s4 b W5).mem b ↔ isPrevFree m b := by
    rw [isPrevFree_iff, isPrevFree_iff, h5b, hV4]
  have hfree2 : isFree (set_size s4 b W5).mem b2 := by
    rw [isFree_iff, h52]; exact hW3
  have hbsz2 : bsz (set_size s4 b W5).mem b2 = t := by
    rw [bsz_eq (by rw [h52]; exact hW1), h52, hW2]
  have hpf2 : ¬ isPrevFree (set_size s4 b W5).mem b2 := by
    rw [isPrevFree_iff, h52, hW4]; exact Nat.zero_ne_one
  refine ⟨_, hev, ?_, ?_, ?_, hbsz5, hfree5, fun h => hbpf (hpf5.1 h), hfree2, hbsz2, ?_, ?_,
    r1.trans (by rw [ht3]), r2.trans (by rw [ht3]), r3.trans (by rw [ht3]),
    r4.trans (by rw [ht3]), r5.trans hmp3⟩
  · have hP5 := @PhysInv_split m (set_size s4 b W5).mem B ib T b r hP hb hf hr8 hrm hrs
      (by rw [h5b]; exact hV1) hbsz5 hfree5 hpf5 h5p
      (by rw [← hb2def, h52]; exact hW1) (by rw [← hb2def, hbsz2, htdef])
      (by rw [← hb2def]; exact hfree2) (by rw [← hb2def]; exact hpf2)
      (by rw [← hNdef]; exact h5N) (by rw [← hNdef, ← hb2def]; exact h5Np)
      (by rw [← hNdef]; exact hfar)
    rw [← hb2def] at hP5
    exact hP5
  · refine IdxInv_frame hI4 ?_ ?_ ?_ rfl rfl rfl
    · intro y hy
      have hyb : y ≠ b := by
        rcases Finset.mem_insert.1 hy with h | h
        · rw [h]; exact hb2b
        · exact (hF1 y h).2.1
      exact bsz_frame (hrd5 y (hsub hy) hyb).2.1
    · intro y hy
      have hyb : y ≠ b := by
        rcases Finset.mem_insert.1 hy with h | h
        · rw [h]; exact hb2b
        · exact (hF1 y h).2.1
      exact (hrd5 y (hsub hy) hyb).2.2.1
    · intro y hy
      have hyb : y ≠ b := by
        rcases Finset.mem_insert.1 hy with h | h
        · rw [h]; exact hb2b
        · exact (hF1 y h).2.1
      exact (hrd5 y (hsub hy) hyb).2.2.2
  · refine Acyc_frame hA4 ?_
    intro y hy
    have hyb : y ≠ b := by
      rcases Finset.mem_insert.1 hy with h | h
      · rw [h]; exact hb2b
      · exact (hF1 y h).2.1
    exact (hrd5 y (hsub hy) hyb).2.2.1
  · intro z hz hzb
    by_cases hzN : z = N
    · rw [hzN]
      have := size_same h5N
      exact ⟨this.2.2.2.1, this.2.1⟩
    · have := hdr_same (hfar z hz hzb hzN)
      exact ⟨this.2.2.2.1, this.2.1⟩
  · intro a ha
    rw [hmem5, store_ne (by clear * - ha hibb; omega)]
    rw [hfr a]
    · rw [hmem3, store_ne (by clear * - ha hibb hNe; omega),
        store_ne (by clear * - ha hibb hb2def; omega)]
    · intro y hy
      have hyi : ib + 16 ≤ y := by
        rcases Finset.mem_insert.1 hy with h | h
        · rw [h]; clear * - hibb hb2def; omega
        · exact hP.above (hF1' y h).1 (hF1' y h).2.2.2
      clear * - hyi ha
      omega

end TLSF

namespace TLSF

/-- The words of a header after the `FREE` bit is cleared. -/
theorem word_clear_free {w : Nat} (hw : w < 2 ^ 32) :
    (w &&& not32 FREE_BLOCK) < 2 ^ 32 ∧ (w &&& not32 FREE_BLOCK) / 4 * 4 = w / 4 * 4 ∧
    (w &&& not32 FREE_BLOCK) % 2 = 0 ∧ (w &&& not32 FREE_BLOCK) / 2 % 2 = w / 2 % 2 := by
  unfold FREE_BLOCK
  rw [and_not32_one w hw]
  omega

/-- The words of a header after the `PREV_FREE` bit is cleared. -/
theorem word_clear_prev {w : Nat} (hw : w < 2 ^ 32) :
    (w &&& not32 PREV_FREE) < 2 ^ 32 ∧ (w &&& not32 PREV_FREE) / 4 * 4 = w / 4 * 4 ∧
    (w &&& not32 PREV_FREE) % 2 = w % 2 ∧ (w &&& not32 PREV_FREE) / 2 % 2 = 0 := by
  unfold PREV_FREE
  rw [and_not32_two w hw]
  omega

theorem malloc_whole_post {m : Nat → Nat} {B F1 : Finset Nat} {ib T b : Nat} {s1 : State}
    (hP : PhysInv m B ib T) (hb : b ∈ B) (hf : isFree m b)
    (hI1 : IdxInv s1.tlsf s1.mem F1) (hA1 : Acyc s1.mem F1)
    (hF1 : ∀ y ∈ F1, y ∈ B ∧ y ≠ b ∧ isFree m y)
    (hdr1 : ∀ z ∈ B, s1.mem z = m z ∧ s1.mem (z + 4) = m (z + 4)) :
    PhysInv (malloc_whole s1 b (nxt m b)).mem B ib T ∧
    IdxInv (malloc_whole s1 b (nxt m b)).tlsf (malloc_whole s1 b (nxt m b)).mem F1 ∧
    Acyc (malloc_whole s1 b (nxt m b)).mem F1 ∧
    bsz (malloc_whole s1 b (nxt m b)).mem b = bsz m b ∧
    ¬ isFree (malloc_whole s1 b (nxt m b)).mem b ∧
    ¬ isPrevFree (malloc_whole s1 b (nxt m b)).mem b ∧
    (∀ z ∈ B, z ≠ b → (isFree (malloc_whole s1 b (nxt m b)).mem z ↔ isFree m z) ∧
      bsz (malloc_whole s1 b (nxt m b)).mem z = bsz m z) ∧
    (∀ a, a < ib + 16 → (malloc_whole s1 b (nxt m b)).mem a = s1.mem a) ∧
    (malloc_whole s1 b (nxt m b)).tlsf = s1.tlsf ∧ (malloc_whole s1 b (nxt m b)).mp = s1.mp := by
  have hS := hP.sep
  have hbT : b ≠ T := (hP.free_ne hf).1
  have hbib : b ≠ ib := (hP.free_ne hf).2
  have hNx := hP.nx b hb hbT
  have hNB := hNx.2.1
  have hNe : nxt m b = b + 8 + bsz m b := rfl
  have hwb := hP.wd b hb
  have hwN := hP.wd _ hNB
  have hNf := hP.next_used hb hf
  have hibb := hP.above hb hbib
  have hbpf : ¬ isPrevFree m b := fun h => hP.adj b hb ⟨hf, h⟩
  obtain ⟨N, hNdef⟩ : ∃ N, N = nxt m b := ⟨_, rfl⟩
  rw [← hNdef] at hNB hNe hNf hwN
  rw [← hNdef]
  have hNb : N ≠ b := by clear * - hNe; omega
  have hfarN := hS.far hNB hb
  obtain ⟨WN, hWNdef⟩ : ∃ WN, WN = size s1.mem N &&& not32 PREV_FREE := ⟨_, rfl⟩
  have hsN : size s1.mem N = size m N := (hdr1 N hNB).2
  obtain ⟨hN1, hN2, hN3, hN4⟩ := word_clear_prev hwN.1
  rw [← hsN, ← hWNdef] at hN1 hN2 hN3 hN4
  have hsb : size (set_size s1 N WN).mem b = size m b := by
    show store s1.mem (N + 4) WN (b + 4) = m (b + 4)
    rw [store_ne (by clear * - hNb; omega)]
    exact (hdr1 b hb).2
  obtain ⟨hb1, hb2, hb3, hb4⟩ := word_clear_free hwb.1
  obtain ⟨Wb, hWbdef⟩ : ∃ Wb, Wb = size m b &&& not32 FREE_BLOCK := ⟨_, rfl⟩
  rw [← hWbdef] at hb1 hb2 hb3 hb4
  have hdef : malloc_whole s1 b N = set_size (set_size s1 N WN) b Wb := by
    unfold malloc_whole
    dsimp only
    rw [← hWNdef, hsb, ← hWbdef]
  rw [hdef]
  have hmem : (set_size (set_size s1 N WN) b Wb).mem =
      store (store s1.mem (N + 4) WN) (b + 4) Wb := rfl
  have hrd : ∀ y ∈ B, y ≠ b → y ≠ N →
      (set_size (set_size s1 N WN) b Wb).mem y = s1.mem y ∧
      (set_size (set_size s1 N WN) b Wb).mem (y + 4) = s1.mem (y + 4) ∧
      (set_size (set_size s1 N WN) b Wb).mem (y + 8) = s1.mem (y + 8) ∧
      (set_size (set_size s1 N WN) b Wb).mem (y + 12) = s1.mem (y + 12) := by
    intro y hy hyb hyN
    have h1 := hS.far hy hb
    have h2 := hS.far hy hNB
    rw [hmem]
    refine ⟨?_, ?_, ?_, ?_⟩ <;>
    · rw [store_ne (by clear * - h1 h2 hyN hyb; omega),
        store_ne (by clear * - h1 h2 hyN hyb; omega)]
  have hbw : size (set_size (set_size s1 N WN) b Wb).mem b = Wb := by
    show (set_size (set_size s1 N WN) b Wb).mem (b + 4) = Wb
    rw [hmem, store_eq]
  have hbp : prev_hdr (set_size (set_size s1 N WN) b Wb).mem b = prev_hdr m b := by
    show (set_size (set_size s1 N WN) b Wb).mem b = m b
    rw [hmem, store_ne (by clear * -; omega), store_ne (by clear * - hfarN hNb; omega)]
    exact (hdr1 b hb).1
  have hNw : size (set_size (set_size s1 N WN) b Wb).mem N = WN := by
    show (set_size (set_size s1 N WN) b Wb).mem (N + 4) = WN
    rw [hmem, store_ne (by clear * - hNb; omega), store_eq]
  have hF1' : ∀ y ∈ F1, y ∈ B ∧ y ≠ b ∧ y ≠ N ∧ y ≠ ib := by
    intro y hy
    obtain ⟨h1, h2, h3⟩ := hF1 y hy
    exact ⟨h1, h2, fun e => hNf (e ▸ h3), (hP.free_ne h3).2⟩
  have hfar : ∀ z ∈ B, z ≠ b → z ≠ N →
      (set_size (set_size s1 N WN) b Wb).mem z = m z ∧
      (set_size (set_size s1 N WN) b Wb).mem (z + 4) = m (z + 4) := by
    intro z hz hzb hzN
    have h1 := hrd z hz hzb hzN
    have h2 := hdr1 z hz
    exact ⟨h1.1.trans h2.1, h1.2.1.trans h2.2⟩
  have hbsz : bsz (set_size (set_size s1 N WN) b Wb).mem b = bsz m b := by
    rw [bsz_eq (by rw [hbw]; exact hb1), hbw, hb2, ← bsz_eq hwb.1]
  have hfree : ¬ isFree (set_size (set_size s1 N WN) b Wb).mem b := by
    rw [isFree_iff, hbw, hb3]; exact Nat.zero_ne_one
  have hpf : isPrevFree (set_size (set_size s1 N WN) b Wb).mem b ↔ isPrevFree m b := by
    rw [isPrevFree_iff, isPrevFree_iff, hbw, hb4]
  have hNsz : bsz (set_size (set_size s1 N WN) b Wb).mem N = bsz m N := by
    rw [bsz_eq (by rw [hNw]; exact hN1), hNw, hN2, hsN, ← bsz_eq hwN.1]
  have hNfree : isFree (set_size (set_size s1 N WN) b Wb).mem N ↔ isFree m N := by
    rw [isFree_iff, isFree_iff, hNw, hN3, hsN]
  have hNpf : ¬ isPrevFree (set_size (set_size s1 N WN) b Wb).mem N := by
    rw [isPrevFree_iff, hNw, hN4]; exact Nat.zero_ne_one
  refine ⟨?_, ?_, ?_, hbsz, hfree, fun h => hbpf (hpf.1 h), ?_, ?_, rfl, rfl⟩
  · exact PhysInv_whole hP hb hf (by rw [hbw]; exact hb1) hbsz hfree hpf hbp
      (by rw [← hNdef, hNw]; exact hN1) (by rw [← hNdef]; exact hNsz)
      (by rw [← hNdef]; exact hNfree) (by rw [← hNdef]; exact hNpf)
      (by rw [← hNdef]; exact hfar)
  · refine IdxInv_frame hI1 ?_ ?_ ?_ rfl rfl rfl
    · intro y hy
      obtain ⟨h1, h2, h3, -⟩ := hF1' y hy
      exact bsz_frame (hrd y h1 h2 h3).2.1
    · intro y hy
      obtain ⟨h1, h2, h3, -⟩ := hF1' y hy
      exact (hrd y h1 h2 h3).2.2.1
    · intro y hy
      obtain ⟨h1, h2, h3, -⟩ := hF1' y hy
      exact (hrd y h1 h2 h3).2.2.2
  · refine Acyc_frame hA1 ?_
    intro y hy
    obtain ⟨h1, h2, h3, -⟩ := hF1' y hy
    exact (hrd y h1 h2 h3).2.2.1
  · intro z hz hzb
    by_cases hzN : z = N
    · rw [hzN]; exact ⟨hNfree, hNsz⟩
    · have := hdr_same (hfar z hz hzb hzN)
      exact ⟨this.2.2.2.1, this.2.1⟩
  · intro a ha
    rw [hmem, store_ne (by clear * - ha hibb; omega),
      store_ne (by clear * - ha hibb hNe; omega)]

end TLSF

namespace TLSF

theorem malloc_block_eval_split {hw : Intrinsics} {sz b fl sl N d : Nat} {s s1 s5 : State}
    (h1 : EXTRACT_BLOCK_HDR b s fl sl = s1)
    (hN : GET_NEXT_BLOCK (buffer b) (size s1.mem b &&& BLOCK_SIZE) = N)
    (hd : sub32 (size s1.mem b &&& BLOCK_SIZE) sz = d) (hge : d ≥ sizeof_bhdr_t)
    (hsp : malloc_split hw s1 b N sz d = some s5) :
    malloc_block hw sz b fl sl s = some (TLSF_ADD_SIZE s5 b) := by
  unfold malloc_block
  dsimp only
  rw [h1, hN, hd, if_pos hge, hsp]
  rfl

theorem malloc_block_eval_whole {hw : Intrinsics} {sz b fl sl N d : Nat} {s s1 : State}
    (h1 : EXTRACT_BLOCK_HDR b s fl sl = s1)
    (hN : GET_NEXT_BLOCK (buffer b) (size s1.mem b &&& BLOCK_SIZE) = N)
    (hd : sub32 (size s1.mem b &&& BLOCK_SIZE) sz = d) (hlt : ¬ d ≥ sizeof_bhdr_t) :
    malloc_block hw sz b fl sl s = some (TLSF_ADD_SIZE (malloc_whole s1 b N) b) := by
  unfold malloc_block
  dsimp only
  rw [h1, hN, hd, if_neg hlt]
  rfl

theorem malloc_ex_eval_null {hw : Intrinsics} {n : Nat} {s : State} {ms : Nat × Int × Int}
    {r : Nat × Int × Int}
    (hms : MAPPING_SEARCH hw (if n < MIN_BLOCK_SIZE then MIN_BLOCK_SIZE else ROUNDUP_SIZE n)
      = ms)
    (hf : FIND_SUITABLE_BLOCK hw s.tlsf ms.2.1 ms.2.2 = some r) (h0 : r.1 = 0) :
    malloc_ex hw n s = some (0, s) := by
  unfold malloc_ex
  dsimp only
  rw [hms, hf]
  dsimp only
  unfold malloc_found
  rw [if_pos h0]

theorem malloc_ex_eval_block {hw : Intrinsics} {n : Nat} {s s5 : State}
    {ms : Nat × Int × Int} {r : Nat × Int × Int} {ij : Nat × Nat}
    (hms : MAPPING_SEARCH hw (if n < MIN_BLOCK_SIZE then MIN_BLOCK_SIZE else ROUNDUP_SIZE n)
      = ms)
    (hf : FIND_SUITABLE_BLOCK hw s.tlsf ms.2.1 ms.2.2 = some r) (h0 : r.1 ≠ 0)
    (hidx : index r.2.1 r.2.2 = some ij)
    (hmb : malloc_block hw ms.1 r.1 ij.1 ij.2 s = some s5) :
    malloc_ex hw n s = some (buffer r.1, s5) := by
  unfold malloc_ex
  dsimp only
  rw [hms, hf]
  dsimp only
  unfold malloc_found
  rw [if_neg h0, hidx]
  dsimp only
  rw [hmb]
  rfl

theorem TLSF_ADD_SIZE_mem (s : State) (b : Nat) : (TLSF_ADD_SIZE s b).mem = s.mem := by
  unfold TLSF_ADD_SIZE
  dsimp only
  split_ifs <;> rfl

theorem TLSF_ADD_SIZE_rest (s : State) (b : Nat) :
    (TLSF_ADD_SIZE s b).tlsf.matrix = s.tlsf.matrix ∧
    (TLSF_ADD_SIZE s b).tlsf.sl_bitmap = s.tlsf.sl_bitmap ∧
    (TLSF_ADD_SIZE s b).tlsf.fl_bitmap = s.tlsf.fl_bitmap ∧
    (TLSF_ADD_SIZE s b).tlsf.area_head = s.tlsf.area_head ∧
    (TLSF_ADD_SIZE s b).tlsf.tlsf_signature = s.tlsf.tlsf_signature ∧
    (TLSF_ADD_SIZE s b).mp = s.mp ∧
    (TLSF_ADD_SIZE s b).tlsf.used_size =
      add32 s.tlsf.used_size (add32 (bsz s.mem b) BHDR_OVERHEAD) ∧
    (TLSF_ADD_SIZE s b).tlsf.max_size =
      if add32 s.tlsf.used_size (add32 (bsz s.mem b) BHDR_OVERHEAD) > s.tlsf.max_size then
        add32 s.tlsf.used_size (add32 (bsz s.mem b) BHDR_OVERHEAD)
      else s.tlsf.max_size := by
  unfold TLSF_ADD_SIZE bsz
  dsimp only
  split_ifs <;> exact ⟨rfl, rfl, rfl, rfl, rfl, rfl, rfl, rfl⟩

end TLSF

namespace TLSF

/-- The pool invariant after a linked free block `b` was handed out, `X` being the
blocks that were created. -/
theorem Inv_malloc {s s' : State} {B F X : Finset Nat} {ib T b : Nat} {L : List Nat}
    (hI : Inv s B F ib T L) (hbF : b ∈ F)
    (hP : PhysInv s'.mem (X ∪ B) ib T)
    (hI' : IdxInv s'.tlsf s'.mem (X ∪ F.erase b)) (hA' : Acyc s'.mem (X ∪ F.erase b))
    (hX : ∀ x ∈ X, isFree s'.mem x) (hub : ¬ isFree s'.mem b)
    (hsame : ∀ z ∈ B, z ≠ b → (isFree s'.mem z ↔ isFree s.mem z))
    (hused : s'.tlsf.used_size < 2 ^ 32) :
    Inv s' (X ∪ B) (X ∪ F.erase b) ib T ((b + 8) :: L) := by
  obtain ⟨hbB, hbf⟩ := (hI.link b).1 hbF
  obtain ⟨hbT, hbi⟩ := hI.phys.free_ne hbf
  refine
    { phys := hP, idx := hI', acyc := hA', link := ?_, live := ?_, nodup := ?_, used := hused }
  · intro x
    rw [Finset.mem_union, Finset.mem_union, Finset.mem_erase]
    constructor
    · rintro (h | ⟨hxb, hx⟩)
      · exact ⟨Or.inl h, hX x h⟩
      · have := (hI.link x).1 hx
        exact ⟨Or.inr this.1, (hsame x this.1 hxb).2 this.2⟩
    · rintro ⟨h | h, hf⟩
      · exact Or.inl h
      · by_cases hxb : x = b
        · exact absurd (hxb ▸ hf) hub
        · exact Or.inr ⟨hxb, (hI.link x).2 ⟨h, (hsame x h hxb).1 hf⟩⟩
  · intro q
    rw [List.mem_cons, hI.live q]
    constructor
    · rintro (h | ⟨z, hz, hzi, hzT, hzu, hq⟩)
      · exact ⟨b, Finset.mem_union_right _ hbB, hbi, hbT, hub, h⟩
      · have hzb : z ≠ b := fun e => hzu (e ▸ hbf)
        exact ⟨z, Finset.mem_union_right _ hz, hzi, hzT,
          fun hf => hzu ((hsame z hz hzb).1 hf), hq⟩
    · rintro ⟨z, hz, hzi, hzT, hzu, hq⟩
      rcases Finset.mem_union.1 hz with h | h
      · exact absurd (hX z h) hzu
      · by_cases hzb : z = b
        · left; rw [hq, hzb]
        · right
          exact ⟨z, h, hzi, hzT, fun hf => hzu ((hsame z h hzb).2 hf), hq⟩
  · rw [List.nodup_cons]
    refine ⟨?_, hI.nodup⟩
    intro h
    obtain ⟨z, hz, -, -, hzu, hq⟩ := (hI.live _).1 h
    have : z = b := by omega
    exact hzu (this ▸ hbf)

theorem malloc_block_post {hw : Intrinsics} (hs : ScanSpec hw) {s : State}
    {B F : Finset Nat} {ib T b i j r : Nat} {L : List Nat}
    (hI : Inv s B F ib T L) (hi : i < 24) (hj : j < 32) (hb0 : b ≠ 0)
    (hm : s.tlsf.matrix i j = b) (hr8 : 8 ≤ r) (hrm : r % 8 = 0) (hrb : r ≤ bsz s.mem b) :
    ∃ s' B' F', malloc_block hw r b i j s = some s' ∧ MallocPost s s' B F ib b r B' F' ∧
      Inv s' B' F' ib T ((b + 8) :: L) := by
  have hP := hI.phys
  have hS := hP.sep
  have hmx := hI.idx.mx i j hi hj (by rw [hm]; exact hb0)
  rw [hm] at hmx
  obtain ⟨hbF, hc, hp⟩ := hmx
  obtain ⟨hbB, hbf⟩ := (hI.link b).1 hbF
  obtain ⟨hbT, hbi⟩ := hP.free_ne hbf
  have hFB : ∀ y ∈ F, y ∈ B := fun y hy => ((hI.link y).1 hy).1
  have hSF : Sep F := hS.mono hFB
  have hcl := hI.idx.cl b hbF
  have hNx := hP.nx b hbB hbT
  have hNe : nxt s.mem b = b + 8 + bsz s.mem b := rfl
  have hNT := (hP.rng _ hNx.2.1).2
  have hTt := hP.T_top
  have h1 := EXTRACT_BLOCK_HDR_eq hI.idx hSF hbF hm hp
  have hI1 := IdxInv_extract hI.idx hSF hbF hc
  have hA1 := Acyc_extract i j hI.idx hI.acyc hSF hbF
  obtain ⟨hfr, -⟩ := EXTRACT_BLOCK_reads i j hI.idx hSF hbF
  obtain ⟨r1, r2, r3, r4, r5⟩ := EXTRACT_BLOCK_rest b s i j
  obtain ⟨s1, hs1⟩ : ∃ s1, s1 = EXTRACT_BLOCK b s i j := ⟨_, rfl⟩
  rw [← hs1] at h1 hI1 hA1 hfr r1 r2 r3 r4 r5
  have hdr1 : ∀ z ∈ B, s1.mem z = s.mem z ∧ s1.mem (z + 4) = s.mem (z + 4) := by
    intro z hz
    constructor <;>
    · apply hfr
      intro y hy
      have := sep_field_ne hS hz (hFB y hy)
      clear * - this
      omega
  have hF1 : ∀ y ∈ F.erase b, y ∈ B ∧ y ≠ b ∧ isFree s.mem y := by
    intro y hy
    have := (hI.link y).1 (Finset.mem_of_mem_erase hy)
    exact ⟨this.1, Finset.ne_of_mem_erase hy, this.2⟩
  have hfr1 : ∀ a, a < ib + 16 → s1.mem a = s.mem a := by
    intro a ha
    apply hfr
    intro y hy
    have h := (hI.link y).1 hy
    have := hP.above h.1 (hP.free_ne h.2).2
    clear * - this ha
    omega
  have e1 : bsz s1.mem b = bsz s.mem b := bsz_frame (hdr1 b hbB).2
  have hN : GET_NEXT_BLOCK (buffer b) (size s1.mem b &&& BLOCK_SIZE) = nxt s.mem b := by
    show GET_NEXT_BLOCK (buffer b) (bsz s1.mem b) = nxt s.mem b
    rw [e1]
    exact GET_NEXT_BLOCK_eq rfl (by clear * - hNT hTt; omega)
  have hd : sub32 (size s1.mem b &&& BLOCK_SIZE) r = bsz s.mem b - r := by
    show sub32 (bsz s1.mem b) r = bsz s.mem b - r
    rw [e1]
    exact sub32_eq hrb (by clear * - hcl; omega)
  by_cases hrs : r + 16 ≤ bsz s.mem b
  · obtain ⟨s5, hev, hP5, hI5, hA5, hb5, hf5, hpf5, hf2, hsz2, hsame, hfr5, u1, u2, u3, u4, u5⟩ :=
      malloc_split_post hs hP hbB hbf hcl hI1 hA1 hF1 hdr1 hr8 hrm hrs
    have hge : bsz s.mem b - r ≥ sizeof_bhdr_t := by
      show 16 ≤ _
      clear * - hrs; omega
    have hmb := malloc_block_eval_split h1 hN hd hge hev
    obtain ⟨t1, t2, t3, t4, t5, t6, t7, t8⟩ := TLSF_ADD_SIZE_rest s5 b
    have tm := TLSF_ADD_SIZE_mem s5 b
    obtain ⟨s', hs'⟩ : ∃ s', s' = TLSF_ADD_SIZE s5 b := ⟨_, rfl⟩
    rw [← hs'] at hmb t1 t2 t3 t4 t5 t6 t7 t8 tm
    rw [← tm] at hP5 hA5 hb5 hf5 hpf5 hf2 hsz2 hsame hfr5 t7 t8
    have hI' : IdxInv s'.tlsf s'.mem (insert (b + 8 + r) (F.erase b)) := by
      rw [tm]
      exact IdxInv_frame hI5 (fun _ _ => rfl) (fun _ _ => rfl) (fun _ _ => rfl) t1 t2 t3
    rw [u1, r1] at t7
    rw [u1, r1, u2, r2, ← t7] at t8
    refine ⟨s', insert (b + 8 + r) B, insert (b + 8 + r) (F.erase b), hmb, ?_, ?_⟩
    · exact
        { b_mem := hbF, le := hrb,
          shape := Or.inl ⟨hrs, rfl, rfl, hb5, hf2, hsz2⟩,
          used_b := hf5, pf_b := hpf5, same := hsame,
          frame := fun a ha => (hfr5 a ha).trans (hfr1 a ha),
          used := t7, max := t8, area := by rw [t4, u3, r3], sig := by rw [t5, u4, r4],
          mp := by rw [t6, u5, r5] }
    · rw [Finset.insert_eq, Finset.insert_eq] at *
      refine Inv_malloc hI hbF hP5 hI' hA5 ?_ hf5 (fun z hz hzb => (hsame z hz hzb).1)
        (by rw [t7]; exact add32_lt _ _)
      intro x hx
      rw [Finset.mem_singleton.1 hx]
      exact hf2
  · have hlt : ¬ bsz s.mem b - r ≥ sizeof_bhdr_t := by
      show ¬ 16 ≤ _
      clear * - hrs hrb; omega
    have hmb := @malloc_block_eval_whole hw _ _ _ _ _ _ _ _ h1 hN hd hlt
    obtain ⟨hP5, hI5, hA5, hb5, hf5, hpf5, hsame, hfr5, u1, u5⟩ :=
      malloc_whole_post hP hbB hbf hI1 hA1 hF1 hdr1
    obtain ⟨s5, hs5⟩ : ∃ s5, s5 = malloc_whole s1 b (nxt s.mem b) := ⟨_, rfl⟩
    rw [← hs5] at hmb hP5 hI5 hA5 hb5 hf5 hpf5 hsame hfr5 u1 u5
    obtain ⟨t1, t2, t3, t4, t5, t6, t7, t8⟩ := TLSF_ADD_SIZE_rest s5 b
    have tm := TLSF_ADD_SIZE_mem s5 b
    obtain ⟨s', hs'⟩ : ∃ s', s' = TLSF_ADD_SIZE s5 b := ⟨_, rfl⟩
    rw [← hs'] at hmb t1 t2 t3 t4 t5 t6 t7 t8 tm
    rw [← tm] at hP5 hA5 hb5 hf5 hpf5 hsame hfr5 t7 t8
    have hI' : IdxInv s'.tlsf s'.mem (F.erase b) := by
      rw [tm]
      exact IdxInv_frame hI5 (fun _ _ => rfl) (fun _ _ => rfl) (fun _ _ => rfl) t1 t2 t3
    rw [u1, r1] at t7
    rw [u1, r1, r2, ← t7] at t8
    refine ⟨s', B, F.erase b, hmb, ?_, ?_⟩
    · exact
        { b_mem := hbF, le := hrb,
          shape := Or.inr ⟨by clear * - hrs; omega, rfl, rfl, hb5⟩,
          used_b := hf5, pf_b := hpf5, same := hsame,
          frame := fun a ha => (hfr5 a ha).trans (hfr1 a ha),
          used := t7, max := t8, area := by rw [t4, u1, r3], sig := by rw [t5, u1, r4],
          mp := by rw [t6, u5, r5] }
    · have := Inv_malloc (X := ∅) hI hbF (by rw [Finset.empty_union]; exact hP5)
        (by rw [Finset.empty_union]; exact hI') (by rw [Finset.empty_union]; exact hA5)
        (fun x hx => absurd hx (Finset.not_mem_empty x)) hf5
        (fun z hz hzb => (hsame z hz hzb).1) (by rw [t7]; exact add32_lt _ _)
      rw [Finset.empty_union, Finset.empty_union] at this
      exact this

end TLSF

namespace TLSF

/-- The size that `malloc_ex` looks for, for a request inside the index. -/
theorem request_round {n : Nat} (hn : n ≤ MAX_REQUEST) :
    8 ≤ (if n < MIN_BLOCK_SIZE then MIN_BLOCK_SIZE else ROUNDUP_SIZE n) ∧
    (if n < MIN_BLOCK_SIZE then MIN_BLOCK_SIZE else ROUNDUP_SIZE n) % 8 = 0 ∧
    (if n < MIN_BLOCK_SIZE then MIN_BLOCK_SIZE else ROUNDUP_SIZE n) ≤ MAX_REQUEST ∧
    n ≤ (if n < MIN_BLOCK_SIZE then MIN_BLOCK_SIZE else ROUNDUP_SIZE n) := by
  have h8 : MIN_BLOCK_SIZE = 8 := rfl
  have hM : MAX_REQUEST = 1056964608 := rfl
  rw [h8]
  rw [hM] at hn ⊢
  by_cases h : n < 8
  · rw [if_pos h]; omega
  · rw [if_neg h, ROUNDUP_SIZE_eq]; omega

/-- The function `malloc_ex` keeps the pool invariant for a request inside the index: it
returns, and a non-null result is the payload of a block that was linked and free, is
now used, and holds at least the request. -/
theorem malloc_ex_inv {hw : Intrinsics} (hs : ScanSpec hw) {s : State} {B F : Finset Nat}
    {ib T n : Nat} {L : List Nat} (hI : Inv s B F ib T L) (hn : n ≤ MAX_REQUEST) :
    ∃ p s', malloc_ex hw n s = some (p, s') ∧ (p = 0 → s' = s) ∧
      (p ≠ 0 → ∃ b r B' F', p = b + 8 ∧ n ≤ r ∧ MallocPost s s' B F ib b r B' F' ∧
        Inv s' B' F' ib T (p :: L)) := by
  obtain ⟨q8, qm, qM, qn⟩ := request_round hn
  obtain ⟨z, hz⟩ : ∃ z, z = (if n < MIN_BLOCK_SIZE then MIN_BLOCK_SIZE else ROUNDUP_SIZE n) :=
    ⟨_, rfl⟩
  rw [← hz] at q8 qm qM qn
  have hms0 := MAPPING_SEARCH_eq hs z qM
  have hms : MAPPING_SEARCH hw
      (if n < MIN_BLOCK_SIZE then MIN_BLOCK_SIZE else ROUNDUP_SIZE n) =
      ((srch z).1, (((srch z).2.1 : Nat) : Int), (((srch z).2.2 : Nat) : Int)) := by
    rw [← hz]; exact hms0
  obtain ⟨k1, k2, k3, k4, k5, k6⟩ := srch_spec q8 qm qM
  obtain ⟨b, fl, sl, hf, hb⟩ := FIND_SUITABLE_BLOCK_spec hs hI.idx k3 k4
  by_cases h0 : b = 0
  · refine ⟨0, s, malloc_ex_eval_null hms hf h0, fun _ => rfl, fun h => absurd rfl h⟩
  · obtain ⟨i, j, hfl, hsl, hi, hj, hm, hord⟩ := hb h0
    have hidx : index fl sl = some (i, j) := by
      rw [hfl, hsl]; exact index_natCast i j hi hj
    have hmx := hI.idx.mx i j hi hj (by rw [hm]; exact h0)
    rw [hm] at hmx
    have hrb : (srch z).1 ≤ bsz s.mem b := by
      rw [k2]
      apply clsLo_le_of_cls_ge k4
      rw [hmx.2.1]
      exact hord
    obtain ⟨s', B', F', hmb, hMP, hI'⟩ :=
      malloc_block_post hs hI hi hj h0 hm (le_trans q8 k1) k5 hrb
    have hev := malloc_ex_eval_block hms hf h0 hidx hmb
    have hbB := (hI.link b).1 hmx.1
    have hbT : b ≠ T := fun e => hI.phys.tm.2 (e ▸ hbB.2)
    have hb8 : b + 8 < 2 ^ 32 := by
      have h1 := (hI.phys.rng b hbB.1).2
      have h2 := hI.phys.T_top
      clear * - h1 h2 hbT
      omega
    have eb : buffer (b, fl, sl).1 = b + 8 := buffer_eq hb8
    rw [eb] at hev
    refine ⟨b + 8, s', hev, fun h => absurd h (by omega), fun _ => ?_⟩
    exact ⟨b, (srch z).1, B', F', rfl, le_trans qn k1, hMP, hI'⟩

/-- In a state that satisfies the pool invariant every list head leaves room for a
header inside the address space. -/
theorem Inv.head_fits {s : State} {B F : Finset Nat} {ib T : Nat} {L : List Nat}
    (hI : Inv s B F ib T L) {i j : Nat} (hi : i < 24) (hj : j < 32) :
    s.tlsf.matrix i j + 16 ≤ 2 ^ 32 := by
  by_cases h0 : s.tlsf.matrix i j = 0
  · rw [h0]; norm_num
  · have hF := (hI.idx.mx i j hi hj h0).1
    have hbB := (hI.link _).1 hF
    have hbT : s.tlsf.matrix i j ≠ T := fun e => hI.phys.tm.2 (e ▸ hbB.2)
    have h1 := (hI.phys.rng _ hbB.1).2
    have h2 := hI.phys.T_top
    have h3 := hI.phys.al _ hbB.1
    have h4 := hI.phys.al T hI.phys.T_mem
    clear * - h1 h2 h3 h4 hbT
    omega

end TLSF

namespace TLSF

/-- The memory that `process_area` leaves: the three headers and the area record. -/
theorem process_area_eval {ib sz : Nat} {s : State} (h8 : sz % 8 = 0) (h32 : 32 ≤ sz)
    (h0 : 0 < ib) (hfit : ib + sz ≤ 2 ^ 32) :
    process_area ib sz s = (ib, { s with
      mem := (store (store (store (store (store (store (store (store s.mem
                (ib + 4) 8) (ib + 20) (sz - 32)) (ib + 28) 0) (ib + 24) 0)
                (ib + sz - 8) (ib + 16)) (ib + sz - 4) 2) (ib + 12) 0) (ib + 8) (ib + sz - 8)) }) := by
  have hV : (if sizeof_area_info_t < MIN_BLOCK_SIZE then MIN_BLOCK_SIZE
      else ROUNDUP_SIZE sizeof_area_info_t ||| USED_BLOCK ||| PREV_USED) = 8 := by decide
  have hV8 : (8 : Nat) &&& BLOCK_SIZE = 8 := by decide
  have hb : GET_NEXT_BLOCK (buffer ib) 8 = ib + 16 :=
    GET_NEXT_BLOCK_eq (show ib + 8 + 8 = ib + 16 from rfl) (by omega)
  have hS : ROUNDDOWN_SIZE (sub32 (sub32 sz (3 * BHDR_OVERHEAD)) 8) ||| USED_BLOCK ||| PREV_USED
      = sz - 32 := by
    have e1 : sub32 sz (3 * BHDR_OVERHEAD) = sz - 24 :=
      sub32_eq (by show 24 ≤ sz; omega) (by omega)
    have e2 : sub32 (sz - 24) 8 = sz - 32 := by
      rw [sub32_eq (by omega) (by omega)]; omega
    unfold USED_BLOCK PREV_USED
    rw [e1, e2, ROUNDDOWN_SIZE_eq _ (by omega), Nat.or_zero, Nat.or_zero]
    omega
  have hSb : (sz - 32) &&& BLOCK_SIZE = sz - 32 := by
    rw [and_BLOCK_SIZE _ (by omega)]; omega
  have hlb : GET_NEXT_BLOCK (buffer (ib + 16)) (sz - 32) = ib + sz - 8 :=
    GET_NEXT_BLOCK_eq (by omega) (by omega)
  have h2 : (0 : Nat) ||| USED_BLOCK ||| PREV_FREE = 2 := by decide
  unfold process_area
  dsimp only
  rw [hV]
  have r1 : size (set_size s ib 8).mem ib = 8 := store_eq _ _ _
  rw [r1, hV8, hb, hS]
  have r2 : size (set_fprev (set_fnext (set_size (set_size s ib 8) (ib + 16) (sz - 32))
      (ib + 16) 0) (ib + 16) 0).mem (ib + 16) = sz - 32 := by
    show store (store (store (store s.mem (ib + 4) 8) (ib + 16 + 4) (sz - 32)) (ib + 16 + 12) 0)
      (ib + 16 + 8) 0 (ib + 16 + 4) = sz - 32
    rw [store_ne (by omega), store_ne (by omega), store_eq]
  rw [r2, hSb, hlb, h2]
  have hbuf : buffer ib = ib + 8 := buffer_eq (by omega)
  rw [hbuf]
  have a1 : ib + 8 + 4 = ib + 12 := rfl
  have a2 : ib + sz - 8 + 4 = ib + sz - 4 := by omega
  rw [a1]
  unfold set_size set_fnext set_fprev set_prev_hdr
  dsimp only
  rw [a2]

end TLSF

namespace TLSF

/-- The header facts of a used block whose size word is a multiple of 8. -/
theorem used_word {m : Nat → Nat} {b w : Nat} (h : size m b = w) (hw : w % 8 = 0)
    (hlt : w < 2 ^ 32) :
    bsz m b = w ∧ ¬ isFree m b ∧ ¬ isPrevFree m b ∧ nxt m b = b + 8 + w := by
  have e : bsz m b = w := by rw [bsz_eq (by rw [h]; exact hlt), h]; omega
  refine ⟨e, ?_, ?_, ?_⟩
  · rw [isFree_iff, h]; omega
  · rw [isPrevFree_iff, h]; omega
  · unfold nxt; rw [e]

/-- A sentinel, one used block and a terminator tile an area. -/
theorem PhysInv_three {m : Nat → Nat} {ib S : Nat} (hib : 0 < ib) (hS8 : 8 ≤ S)
    (hSm : S % 8 = 0) (hS30 : S < 2 ^ 30) (hfit : ib + 32 + S ≤ 2 ^ 32)
    (h1 : size m ib = 8) (h2 : size m (ib + 16) = S) (h3 : size m (ib + 24 + S) = 0) :
    PhysInv m {ib, ib + 16, ib + 24 + S} ib (ib + 24 + S) := by
  obtain ⟨a1, a2, a3, a4⟩ := used_word h1 (by norm_num) (by norm_num)
  obtain ⟨b1, b2, b3, b4⟩ := used_word h2 hSm (by omega)
  obtain ⟨c1, c2, c3, c4⟩ := used_word h3 (by norm_num) (by norm_num)
  have hmem : ∀ x, x ∈ ({ib, ib + 16, ib + 24 + S} : Finset Nat) ↔
      x = ib ∨ x = ib + 16 ∨ x = ib + 24 + S := by
    intro x; simp only [Finset.mem_insert, Finset.mem_singleton]
  have e4 : ib + 16 + 8 + S = ib + 24 + S := by omega
  rw [e4] at b4
  have a4' : nxt m ib = ib + 16 := a4
  refine
    { ib_mem := (hmem _).2 (Or.inl rfl), T_mem := (hmem _).2 (Or.inr (Or.inr rfl)),
      ib_pos := hib, ib_lt := by omega, T_top := by omega, span := by omega,
      rng := ?_, al := ?_, wd := ?_, nx := ?_, tm := ⟨c1, c2⟩, sn := ⟨a1, a2, a3⟩,
      tag := ?_, pd := ?_, adj := ?_ }
  · intro b hb
    rcases (hmem b).1 hb with h | h | h <;> rw [h] <;> omega
  · intro b hb
    rcases (hmem b).1 hb with h | h | h <;> rw [h] <;> omega
  · intro b hb
    rcases (hmem b).1 hb with h | h | h <;> rw [h]
    · rw [h1, a1]; omega
    · rw [h2, b1]; omega
    · rw [h3, c1]; omega
  · intro b hb hbT
    rcases (hmem b).1 hb with h | h | h
    · rw [h, a1, a4']
      refine ⟨by omega, (hmem _).2 (Or.inr (Or.inl rfl)), ?_⟩
      intro c hc hlt
      rcases (hmem c).1 hc with h' | h' | h' <;> omega
    · rw [h, b1, b4]
      refine ⟨hS8, (hmem _).2 (Or.inr (Or.inr rfl)), ?_⟩
      intro c hc hlt
      rcases (hmem c).1 hc with h' | h' | h' <;> omega
    · exact absurd h hbT
  · intro b hb hbT
    rcases (hmem b).1 hb with h | h | h
    · rw [h, a4']
      exact ⟨⟨fun x => absurd x b3, fun x => absurd x a2⟩, fun x => absurd x a2⟩
    · rw [h, b4]
      exact ⟨⟨fun x => absurd x c3, fun x => absurd x b2⟩, fun x => absurd x b2⟩
    · exact absurd h hbT
  · intro b hb hbi
    rcases (hmem b).1 hb with h | h | h
    · exact absurd h hbi
    · exact ⟨ib, (hmem _).2 (Or.inl rfl), by omega, by rw [h, a4']⟩
    · exact ⟨ib + 16, (hmem _).2 (Or.inr (Or.inl rfl)), by omega, by rw [h, b4]⟩
  · intro b hb
    rcases (hmem b).1 hb with h | h | h <;> rw [h]
    · exact fun x => a2 x.1
    · exact fun x => b2 x.1
    · exact fun x => c2 x.1

end TLSF

namespace TLSF

theorem IdxInv_clean {t : tlsf_t} (h : Clean t) (m : Nat → Nat) : IdxInv t m ∅ := by
  obtain ⟨h1, h2, h3⟩ := h
  refine
    { nz := fun x hx => absurd hx (Finset.not_mem_empty x),
      cl := fun x hx => absurd hx (Finset.not_mem_empty x),
      hd := fun x hx => absurd hx (Finset.not_mem_empty x),
      pv := fun x hx => absurd hx (Finset.not_mem_empty x),
      nx := fun x hx => absurd hx (Finset.not_mem_empty x),
      mx := fun i j hi hj hne => absurd (h1 i j hi hj) hne,
      sb := ?_, sl := ?_, fb := ?_, fl := ?_ }
  · intro i j hi hj
    rw [h1 i j hi hj, h2 i hi]
    simp
  · intro i hi
    rw [h2 i hi]; norm_num
  · intro i hi
    rw [h3, h2 i hi]
    simp
  · rw [h3]; norm_num

/-- The state that `init_memory_pool` hands to `free_ex`, on a region it formats. -/
theorem init_fresh_eval {hw : Intrinsics} {M mp : Nat} {s0 : State} (h : InitOk M mp s0) :
    init_memory_pool hw M mp s0 =
      (free_ex hw (mp + 3192 + 16 + 8)
        { mem := (store (store (store (store (store (store (store (store s0.mem
            (mp + 3192 + 4) 8) (mp + 3192 + 20) ((M - 3188) / 8 * 8 - 32)) (mp + 3192 + 28) 0)
            (mp + 3192 + 24) 0) (mp + 3192 + (M - 3188) / 8 * 8 - 8) (mp + 3192 + 16))
            (mp + 3192 + (M - 3188) / 8 * 8 - 4) 2) (mp + 3192 + 12) 0) (mp + 3192 + 8)
            (mp + 3192 + (M - 3188) / 8 * 8 - 8)),
          tlsf := { s0.tlsf with tlsf_signature := TLSF_SIGNATURE },
          mp := mp }).map (init_finish M (mp + 3192) (mp + 3192 + 16)) := by
  have hmp4 : mp % 4 = 0 := by
    have := h.aligned; rwa [and_PTR_MASK] at this
  have hbig : 3252 ≤ M := h.big
  have hfits := h.fits
  have ht : sizeof_tlsf_t = 3188 := rfl
  have hA : GET_NEXT_BLOCK mp (ROUNDUP_SIZE sizeof_tlsf_t) = mp + 3192 := by
    have e : ROUNDUP_SIZE sizeof_tlsf_t = 3192 := by decide
    rw [e]
    unfold GET_NEXT_BLOCK add32
    exact Nat.mod_eq_of_lt (by omega)
  have hsz : ROUNDDOWN_SIZE (sub32 M sizeof_tlsf_t) = (M - 3188) / 8 * 8 := by
    rw [ht, sub32_eq (by omega) (by omega), ROUNDDOWN_SIZE_eq _ (by omega)]
  have hpa := fun s => @process_area_eval (mp + 3192) ((M - 3188) / 8 * 8) s
    (by omega) (by omega) (by omega) (by omega)
  have hV8 : (8 : Nat) &&& BLOCK_SIZE = 8 := by decide
  have hb : GET_NEXT_BLOCK (buffer (mp + 3192)) 8 = mp + 3192 + 16 :=
    GET_NEXT_BLOCK_eq (show mp + 3192 + 8 + 8 = mp + 3192 + 16 from rfl) (by omega)
  unfold init_memory_pool
  rw [if_neg (not_or.2 ⟨h.nonnull, not_or.2 ⟨by omega, by have := h.big; omega⟩⟩),
    if_neg (not_not.2 h.aligned), if_neg h.nosig]
  unfold init_fresh
  dsimp only
  rw [hA, hsz, hpa]
  dsimp only
  have r1 : size (store (store (store (store (store (store (store (store s0.mem
      (mp + 3192 + 4) 8) (mp + 3192 + 20) ((M - 3188) / 8 * 8 - 32)) (mp + 3192 + 28) 0)
      (mp + 3192 + 24) 0) (mp + 3192 + (M - 3188) / 8 * 8 - 8) (mp + 3192 + 16))
      (mp + 3192 + (M - 3188) / 8 * 8 - 4) 2) (mp + 3192 + 12) 0) (mp + 3192 + 8)
      (mp + 3192 + (M - 3188) / 8 * 8 - 8)) (mp + 3192) = 8 := by
    unfold size
    rw [store_ne (by omega), store_ne (by omega), store_ne (by omega), store_ne (by omega),
      store_ne (by omega), store_ne (by omega), store_ne (by omega), store_eq]
  rw [r1, hV8, hb]
  have hbf : buffer (mp + 3192 + 16) = mp + 3192 + 16 + 8 := buffer_eq (by omega)
  rw [hbf]

end TLSF

namespace TLSF

/-- The call of `free_ex` that ends the formatting of an area: the block between the
sentinel and the terminator becomes the only free block, linked in the index. -/
theorem area_free {hw : Intrinsics} (hs : ScanSpec hw) {sp : State} {ib S : Nat}
    (hib : 0 < ib) (hS8 : 8 ≤ S) (hSm : S % 8 = 0) (hS30 : S < 2 ^ 30)
    (hfit : ib + 32 + S ≤ 2 ^ 32)
    (h1 : size sp.mem ib = 8) (h2 : size sp.mem (ib + 16) = S)
    (h3 : size sp.mem (ib + 24 + S) = 2) (hc : Clean sp.tlsf) :
    ∃ s', free_ex hw (ib + 16 + 8) sp = some s' ∧
      PhysInv s'.mem {ib, ib + 16, ib + 24 + S} ib (ib + 24 + S) ∧
      IdxInv s'.tlsf s'.mem {ib + 16} ∧ Acyc s'.mem {ib + 16} ∧
      isFree s'.mem (ib + 16) ∧ bsz s'.mem (ib + 16) = S ∧
      ¬ isFree s'.mem ib ∧ ¬ isFree s'.mem (ib + 24 + S) ∧
      (∀ a, a < ib + 16 → s'.mem a = sp.mem a) ∧
      s'.tlsf.used_size = sub32 sp.tlsf.used_size (add32 S BHDR_OVERHEAD) ∧
      s'.tlsf.max_size = sp.tlsf.max_size ∧ s'.tlsf.area_head = sp.tlsf.area_head ∧
      s'.tlsf.tlsf_signature = sp.tlsf.tlsf_signature ∧ s'.mp = sp.mp := by
  obtain ⟨T, hT⟩ : ∃ T, T = ib + 24 + S := ⟨_, rfl⟩
  obtain ⟨m0, hm0⟩ : ∃ m0, m0 = store sp.mem (T + 4) 0 := ⟨_, rfl⟩
  have g1 : size m0 ib = 8 := by
    rw [hm0]; unfold size; rw [store_ne (by omega)]; exact h1
  have g2 : size m0 (ib + 16) = S := by
    rw [hm0]; unfold size; rw [store_ne (by omega)]; exact h2
  have g3 : size m0 (ib + 24 + S) = 0 := by
    rw [hm0, hT]; unfold size; rw [store_eq]
  have hP := PhysInv_three hib hS8 hSm hS30 hfit g1 g2 g3
  obtain ⟨a1, a2, a3, a4⟩ := used_word g1 (by norm_num) (by norm_num)
  obtain ⟨b1, b2, b3, b4⟩ := used_word g2 hSm (by omega)
  obtain ⟨c1, c2, c3, c4⟩ := used_word g3 (by norm_num) (by norm_num)
  have e4 : ib + 16 + 8 + S = T := by omega
  rw [e4] at b4
  rw [← hT] at hP g3 c1 c2 c3 h3 ⊢
  have hmem : ∀ x, x ∈ ({ib, ib + 16, T} : Finset Nat) ↔ x = ib ∨ x = ib + 16 ∨ x = T := by
    intro x; simp only [Finset.mem_insert, Finset.mem_singleton]
  have hsT : bsz sp.mem T = 0 ∧ ¬ isFree sp.mem T := by
    constructor
    · rw [bsz_eq (by rw [h3]; norm_num), h3]
    · rw [isFree_iff, h3]; norm_num
  have hC : FreePre m0 {ib, ib + 16, T} ∅ ib T (ib + 16) sp :=
    { phys := hP, idx := IdxInv_clean hc sp.mem,
      acyc := ⟨fun _ => 0, fun x hx => absurd hx (Finset.not_mem_empty x)⟩,
      link := by
        intro x
        constructor
        · intro hx; exact absurd hx (Finset.not_mem_empty x)
        · rintro ⟨hx, hf⟩
          rcases (hmem x).1 hx with h | h | h
          · exact absurd (h ▸ hf) a2
          · exact absurd (h ▸ hf) b2
          · exact absurd (h ▸ hf) c2,
      b_mem := (hmem _).2 (Or.inr (Or.inl rfl)), b_ib := by clear * -; omega, b_T := by clear * - hT hS8; omega,
      b_used := b2,
      same := by
        intro z hz hzN
        rw [b4] at hzN
        rw [hm0]
        rcases (hmem z).1 hz with h | h | h
        · rw [h, store_ne (by clear * - hT; omega), store_ne (by clear * - hT; omega)]
          exact ⟨rfl, rfl⟩
        · rw [h, store_ne (by clear * - hT; omega), store_ne (by clear * - hT; omega)]
          exact ⟨rfl, rfl⟩
        · exact absurd h hzN,
      nn_word := by rw [b4, h3]; norm_num,
      nn_sz := by rw [b4, c1]; exact hsT.1,
      nn_free := by rw [b4]; exact ⟨fun x => absurd x hsT.2, fun x => absurd x c2⟩,
      frame := by
        intro a ha
        have := ha T ((hmem _).2 (Or.inr (Or.inr rfl))) (by clear * - hT; omega)
        rw [hm0, store_ne (by clear * - this; omega)] }
  obtain ⟨s', lo, NN, hev, hR⟩ := free_ex_core hs hC
  have hlo : lo = ib + 16 := by
    rcases hR.low with h | h
    · exact h.2
    · exact absurd h.1 b3
  have hNN : NN = T := by
    rcases hR.hi with h | h
    · rw [h.2, b4]
    · rw [b4] at h; exact absurd h.1 c2
  have hph := hR.phys
  have hix := hR.idx
  have hac := hR.acyc
  rw [hlo, hNN] at hph hix hac
  have f1 : ({ib, ib + 16, T} : Finset Nat).filter (fun z => z ≤ ib + 16 ∨ T ≤ z) =
      {ib, ib + 16, T} := by
    apply Finset.filter_true_of_mem
    intro x hx
    rcases (hmem x).1 hx with h | h | h <;> (clear * - h hT; omega)
  have f2 : insert (ib + 16) ((∅ : Finset Nat).filter (fun x => x < ib + 16 ∨ T ≤ x)) =
      {ib + 16} := by
    rw [Finset.filter_empty]; rfl
  rw [f1] at hph
  rw [f2] at hix hac
  have hfree := hR.free
  have hsz := hR.sz
  rw [hlo] at hfree
  rw [hlo, hNN] at hsz
  have s1 := (hR.same ib ((hmem _).2 (Or.inl rfl)) (Or.inl (by clear * - hlo; omega))).1
  have s2 := (hR.same T ((hmem _).2 (Or.inr (Or.inr rfl))) (Or.inr (by clear * - hNN; omega))).1
  have hub : bsz sp.mem (ib + 16) = S := by
    rw [bsz_eq (by rw [h2]; clear * - hS30; omega), h2]; clear * - hSm; omega
  refine ⟨s', hev, hph, hix, hac, hfree, by rw [hsz]; clear * - hT; omega, fun x => a2 (s1.1 x),
    fun x => c2 (s2.1 x), ?_, by rw [hR.used, hub], hR.max, hR.area, hR.sig, hR.mp⟩
  intro a ha
  rw [hR.frame a]
  · rw [hm0, store_ne (by clear * - ha hT; omega)]
  · intro z hz hzi
    rcases (hmem z).1 hz with h | h | h
    · exact absurd h hzi
    · clear * - h ha; omega
    · clear * - h ha hT; omega

end TLSF

namespace TLSF

theorem store_at {m : Nat → Nat} {a v x : Nat} (h : x = a) : store m a v x = v := by
  rw [h, store_eq]

/-- The function `init_memory_pool` on a region that it formats: the value it returns,
the pool invariant with one free block between the sentinel and the terminator, the
statistics and the area record. -/
theorem init_memory_pool_inv {hw : Intrinsics} (hs : ScanSpec hw) {M mp : Nat} {s0 : State}
    (h : InitOk M mp s0) :
    ∃ s, init_memory_pool hw M mp s0 = some ((M - 3188) / 8 * 8 - 32, s) ∧
      Inv s {mp + 3192, mp + 3192 + 16, mp + 3192 + 24 + ((M - 3188) / 8 * 8 - 32)}
        {mp + 3192 + 16} (mp + 3192) (mp + 3192 + 24 + ((M - 3188) / 8 * 8 - 32)) [] ∧
      isFree s.mem (mp + 3192 + 16) ∧
      bsz s.mem (mp + 3192 + 16) = (M - 3188) / 8 * 8 - 32 ∧
      size s.mem (mp + 3192) = 8 ∧
      s.tlsf.used_size = M - ((M - 3188) / 8 * 8 - 32) ∧
      s.tlsf.max_size = M - ((M - 3188) / 8 * 8 - 32) ∧
      s.tlsf.area_head = mp + 3192 + 8 ∧
      s.mem (mp + 3192 + 8) = mp + 3192 + 24 + ((M - 3188) / 8 * 8 - 32) ∧
      s.mem (mp + 3192 + 12) = 0 ∧ s.mp = mp ∧
      s.tlsf.tlsf_signature = TLSF_SIGNATURE := by
  have hmp4 : mp % 4 = 0 := by
    have := h.aligned; rwa [and_PTR_MASK] at this
  have hbig : 3252 ≤ M := h.big
  have hfits := h.fits
  have hsmall := h.small
  rw [init_fresh_eval h]
  obtain ⟨ib, hib⟩ : ∃ ib, ib = mp + 3192 := ⟨_, rfl⟩
  obtain ⟨sz, hsz⟩ : ∃ sz, sz = (M - 3188) / 8 * 8 := ⟨_, rfl⟩
  rw [← hsz, ← hib]
  have k1 : sz % 8 = 0 := by clear * - hsz; omega
  have k2 : 64 ≤ sz := by clear * - hsz hbig; omega
  have k3 : ib + sz ≤ 2 ^ 32 := by clear * - hsz hib hfits hmp4 hbig; omega
  have k4 : sz < 2 ^ 30 + 32 := by clear * - hsz hsmall; omega
  have k5 : sz ≤ M := by clear * - hsz hbig; omega
  obtain ⟨S, hS⟩ : ∃ S, S = sz - 32 := ⟨_, rfl⟩
  rw [← hS]
  obtain ⟨sp, hsp⟩ : ∃ sp : State, sp =
      { mem := (store (store (store (store (store (store (store (store s0.mem
          (ib + 4) 8) (ib + 20) S) (ib + 28) 0) (ib + 24) 0) (ib + sz - 8) (ib + 16))
          (ib + sz - 4) 2) (ib + 12) 0) (ib + 8) (ib + sz - 8)),
        tlsf := { s0.tlsf with tlsf_signature := TLSF_SIGNATURE },
        mp := mp } := ⟨_, rfl⟩
  rw [← hsp]
  have hm : sp.mem = (store (store (store (store (store (store (store (store s0.mem
      (ib + 4) 8) (ib + 20) S) (ib + 28) 0) (ib + 24) 0) (ib + sz - 8) (ib + 16))
      (ib + sz - 4) 2) (ib + 12) 0) (ib + 8) (ib + sz - 8)) := by rw [hsp]
  have h1 : size sp.mem ib = 8 := by
    unfold size
    rw [hm, store_ne (by clear * - k2; omega), store_ne (by clear * - k2; omega),
      store_ne (by clear * - k2; omega), store_ne (by clear * - k2; omega),
      store_ne (by clear * - k2; omega), store_ne (by clear * - k2; omega),
      store_ne (by clear * - k2; omega), store_eq]
  have h2 : size sp.mem (ib + 16) = S := by
    unfold size
    rw [hm, store_ne (by clear * - k2; omega), store_ne (by clear * - k2; omega),
      store_ne (by clear * - k2; omega), store_ne (by clear * - k2; omega),
      store_ne (by clear * - k2; omega), store_ne (by clear * - k2; omega), store_eq]
  have h3 : size sp.mem (ib + 24 + S) = 2 := by
    unfold size
    rw [hm, store_ne (by clear * - k2 hS; omega), store_ne (by clear * - k2 hS; omega),
      store_at (by clear * - k2 hS; omega)]
  have h4 : sp.mem (ib + 8) = ib + 24 + S := by
    rw [hm, store_eq]; clear * - k2 hS; omega
  have h5 : sp.mem (ib + 12) = 0 := by
    rw [hm, store_ne (by clear * -; omega), store_eq]
  have hc : Clean sp.tlsf := by rw [hsp]; exact h.clean
  obtain ⟨s', hev, hph, hix, hac, hfree, hbsz, hfi, hfT, hfr, u1, u2, u3, u4, u5⟩ :=
    @area_free hw hs sp ib S (by clear * - hib; omega)
      (by clear * - hS k2; omega) (by clear * - hS k1 k2; omega)
      (by clear * - hS k4; omega) (by clear * - hS k2 k3; omega) h1 h2 h3 hc
  rw [hev, Option.map_some']
  have hret : init_finish M ib (ib + 16) s' = (S, (init_finish M ib (ib + 16) s').2) := by
    apply Prod.ext
    · exact hbsz
    · rfl
  rw [hret]
  have hbuf : buffer ib = ib + 8 := buffer_eq (by clear * - k2 k3; omega)
  refine ⟨_, rfl, ?_, hfree, hbsz, ?_, ?_, ?_, hbuf, ?_, ?_, u5.trans (by rw [hsp]),
    u4.trans (by rw [hsp])⟩
  · have hmem : ∀ x, x ∈ ({ib, ib + 16, ib + 24 + S} : Finset Nat) ↔
        x = ib ∨ x = ib + 16 ∨ x = ib + 24 + S := by
      intro x; simp only [Finset.mem_insert, Finset.mem_singleton]
    refine
      { phys := hph,
        idx := IdxInv_frame hix (fun _ _ => rfl) (fun _ _ => rfl) (fun _ _ => rfl) rfl rfl rfl,
        acyc := hac, link := ?_, live := ?_, nodup := List.nodup_nil,
        used := sub32_lt _ _ }
    · intro x
      rw [Finset.mem_singleton]
      constructor
      · intro hx; rw [hx]; exact ⟨(hmem _).2 (Or.inr (Or.inl rfl)), hfree⟩
      · rintro ⟨hx, hf⟩
        rcases (hmem x).1 hx with e | e | e
        · exact absurd (e ▸ hf) hfi
        · exact e
        · exact absurd (e ▸ hf) hfT
    · intro p
      constructor
      · intro hp; exact absurd hp (List.not_mem_nil p)
      · rintro ⟨z, hz, hzi, hzT, hzu, -⟩
        rcases (hmem z).1 hz with e | e | e
        · exact absurd e hzi
        · exact absurd (e ▸ hfree) hzu
        · exact absurd e hzT
  · show s'.mem (ib + 4) = 8
    rw [hfr _ (by clear * -; omega)]; exact h1
  · show sub32 M (bsz s'.mem (ib + 16)) = M - S
    rw [hbsz]
    exact sub32_eq (by clear * - hS k5; omega) (by clear * - hfits; omega)
  · show sub32 M (bsz s'.mem (ib + 16)) = M - S
    rw [hbsz]
    exact sub32_eq (by clear * - hS k5; omega) (by clear * - hfits; omega)
  · show s'.mem (ib + 8) = ib + 24 + S
    rw [hfr _ (by clear * -; omega)]; exact h4
  · show s'.mem (ib + 12) = 0
    rw [hfr _ (by clear * -; omega)]; exact h5

end TLSF

namespace TLSF

/-- The addresses and the size of a fresh pool, as numbers. -/
theorem pool_nums {M mp : Nat} (hM : M < 2 ^ 32) (hmp : mp + 3192 < 2 ^ 32) :
    poolIb mp = mp + 3192 ∧ poolS0 M = (M - 3188) / 8 * 8 - 32 ∧
    poolT M mp = mp + 3192 + 24 + ((M - 3188) / 8 * 8 - 32) := by
  have e1 : ROUNDUP_SIZE sizeof_tlsf_t = 3192 := by decide
  have e2 : ROUNDUP_SIZE sizeof_area_info_t = 8 := by decide
  have e3 : sizeof_tlsf_t = 3188 := rfl
  have e4 : 3 * BHDR_OVERHEAD = 24 := rfl
  have h1 : poolIb mp = mp + 3192 := by
    unfold poolIb GET_NEXT_BLOCK add32
    rw [e1]
    exact Nat.mod_eq_of_lt hmp
  have h2 : poolS0 M = (M - 3188) / 8 * 8 - 32 := by
    unfold poolS0
    have i1 : ROUNDDOWN_SIZE (M - 3188) = (M - 3188) / 8 * 8 :=
      ROUNDDOWN_SIZE_eq _ (by omega)
    rw [e2, e3, e4, i1, ROUNDDOWN_SIZE_eq _ (by omega)]
    omega
  refine ⟨h1, h2, ?_⟩
  unfold poolT
  rw [h1, h2, e4]

theorem InitOk.nums {M mp : Nat} {s0 : State} (h : InitOk M mp s0) :
    poolIb mp = mp + 3192 ∧ poolS0 M = (M - 3188) / 8 * 8 - 32 ∧
    poolT M mp = mp + 3192 + 24 + ((M - 3188) / 8 * 8 - 32) := by
  have h1 := h.fits
  have h2 : 3252 ≤ M := h.big
  exact pool_nums (by omega) (by omega)

/-- Every reachable state of a pool satisfies the pool invariant, between the sentinel
and the terminator that `init_memory_pool` laid out. -/
theorem reach_inv {hw : Intrinsics} (hs : ScanSpec hw) {M mp : Nat} {s : State}
    {L : List Nat} (hR : Reach hw M mp s L) :
    (∃ s0, InitOk M mp s0) ∧ ∃ B F, Inv s B F (poolIb mp) (poolT M mp) L := by
  induction hR with
  | init h hi =>
    obtain ⟨n1, -, n3⟩ := h.nums
    obtain ⟨s1, he, hInv, -⟩ := init_memory_pool_inv hs h
    rw [he] at hi
    have e : s1 = _ := (Prod.mk.inj (Option.some.inj hi)).2
    rw [← e, n1, n3]
    exact ⟨⟨_, h⟩, _, _, hInv⟩
  | malloc hR hn hm ih =>
    obtain ⟨h0, B, F, hI⟩ := ih
    obtain ⟨p1, s1, he, hz, hnz⟩ := malloc_ex_inv hs hI hn
    rw [he] at hm
    have e1 : p1 = _ := (Prod.mk.inj (Option.some.inj hm)).1
    have e2 : s1 = _ := (Prod.mk.inj (Option.some.inj hm)).2
    rw [← e1, ← e2]
    refine ⟨h0, ?_⟩
    by_cases hp : p1 = 0
    · rw [if_pos hp, hz hp]
      exact ⟨B, F, hI⟩
    · rw [if_neg hp]
      obtain ⟨b, r, B', F', -, -, -, hI'⟩ := hnz hp
      exact ⟨B', F', hI'⟩
  | free hR hp hf ih =>
    obtain ⟨h0, B, F, hI⟩ := ih
    obtain ⟨s1, lo, NN, b, -, he, -, hI'⟩ := free_ex_inv hs hI hp
    rw [he] at hf
    have e : s1 = _ := Option.some.inj hf
    rw [← e]
    exact ⟨h0, _, _, hI'⟩

end TLSF

namespace TLSF

/-- The zero-filled 64 KiB region at `poolBase` is one that `init_memory_pool` formats. -/
theorem initOk64k : InitOk 65536 poolBase zeroState :=
  { nonnull := by decide, aligned := by decide, big := by decide, fits := by decide,
    small := by decide, nosig := by decide,
    clean := ⟨fun _ _ _ _ => rfl, fun _ _ => rfl, rfl⟩ }

/-- The fresh 64 KiB pool is a reachable state, without live payload. -/
theorem reach64k : Reach specScan 65536 poolBase fresh64k [] :=
  Reach.init initOk64k fresh64k_init

/-- C1, as stated, fails: on the fresh 64 KiB pool `malloc_ex(0xFFFFFFFF)` returns the
payload `poolBase + 3216`, and the size field of its block is 0. -/
theorem malloc_ex_fit_overflow :
    ((init_memory_pool specScan 65536 poolBase zeroState).bind fun i =>
      (malloc_ex specScan 0xFFFFFFFF i.2).map fun r =>
        (r.1, size r.2.mem (sub32 r.1 BHDR_OVERHEAD) &&& BLOCK_SIZE)) =
      some (poolBase + 3216, 0) := by
  rfl

/-- C1, amended. Fit monotonicity: in every state reached from an `init_memory_pool` on
a region with a clean control structure, by requests of at most `MAX_REQUEST` bytes and
frees of live payloads, `malloc_ex(n)` with `n ≤ MAX_REQUEST` returns, and when the
payload it returns is not `NULL` the size field of the returned block
(`size & BLOCK_SIZE`) is at least `n`. -/
theorem malloc_ex_fit {hw : Intrinsics} (hs : ScanSpec hw) {M mp n : Nat} {s : State}
    {L : List Nat} (hR : Reach hw M mp s L) (hn : n ≤ MAX_REQUEST) :
    ∃ p s', malloc_ex hw n s = some (p, s') ∧
      (p ≠ 0 → n ≤ size s'.mem (sub32 p BHDR_OVERHEAD) &&& BLOCK_SIZE) := by
  obtain ⟨-, B, F, hI⟩ := reach_inv hs hR
  obtain ⟨p, s', he, -, hnz⟩ := malloc_ex_inv hs hI hn
  refine ⟨p, s', he, fun hp => ?_⟩
  obtain ⟨b, r, B', F', hpb, hnr, hMP, -⟩ := hnz hp
  obtain ⟨hbB, hbf⟩ := (hI.link b).1 hMP.b_mem
  have hbT := lt_of_le_of_ne (hI.phys.rng b hbB).2 (hI.phys.free_ne hbf).1
  have hTt := hI.phys.T_top
  have hsub : sub32 p BHDR_OVERHEAD = b := by
    rw [hpb]
    have := sub32_eq (a := b + 8) (b := 8) (by omega) (by omega)
    rw [Nat.add_sub_cancel] at this
    exact this
  rw [hsub]
  show n ≤ bsz s'.mem b
  have hle := hMP.le
  rcases hMP.shape with h | h
  · rw [h.2.2.2.1]; exact hnr
  · rw [h.2.2.2]; exact le_trans hnr hle

theorem malloc_ex_fit_witness :
    ∃ p s', malloc_ex specScan 100 fresh64k = some (p, s') ∧
      (p ≠ 0 → 100 ≤ size s'.mem (sub32 p BHDR_OVERHEAD) &&& BLOCK_SIZE) :=
  malloc_ex_fit specScan_ok reach64k (by decide)

end TLSF

namespace TLSF

theorem sub32_add32 {u x : Nat} (hu : u < 2 ^ 32) :
    sub32 (add32 u x) x = u := by
  unfold sub32 add32
  omega

/-- Allocation followed at once by the free of its result: the free blocks are the
ones of before, with their sizes, and `used_size` is the one of before. -/
theorem malloc_free_inv {hw : Intrinsics} (hs : ScanSpec hw) {s : State} {B F : Finset Nat}
    {ib T k : Nat} {L : List Nat} (hI : Inv s B F ib T L) (hk : k ≤ MAX_REQUEST) :
    ∃ p s', malloc_ex hw k s = some (p, s') ∧ (p = 0 → s' = s) ∧
      (p ≠ 0 → ∃ s'' B'', free_ex hw p s' = some s'' ∧ Inv s'' B'' F ib T L ∧
        (∀ x ∈ F, bsz s''.mem x = bsz s.mem x) ∧
        s''.tlsf.used_size = s.tlsf.used_size) := by
  obtain ⟨p, s', he, hz, hnz⟩ := malloc_ex_inv hs hI hk
  refine ⟨p, s', he, hz, fun hp => ?_⟩
  obtain ⟨b, r, B', F', hpb, -, hMP, hI'⟩ := hnz hp
  obtain ⟨s'', lo, NN, b', hpb', he', hFP, hI''⟩ := free_ex_inv hs hI' (List.mem_cons_self p L)
  have hbb : b' = b := by omega
  rw [hbb] at hFP
  have hP := hI.phys
  obtain ⟨hbB, hbf⟩ := (hI.link b).1 hMP.b_mem
  have hbT := (hP.free_ne hbf).1
  have hNx := hP.nx b hbB hbT
  have hNu := hP.next_used hbB hbf
  have hNe : nxt s.mem b = b + 8 + bsz s.mem b := rfl
  have hle := hMP.le
  have hlo : lo = b := by
    rcases hFP.low with h | h
    · exact h.2
    · exact absurd h.1 hMP.pf_b
  have hBB' : ∀ x ∈ B, x ∈ B' := by
    intro x hx
    rcases hMP.shape with h | h
    · rw [h.2.1]; exact Finset.mem_insert_of_mem hx
    · rw [h.2.1]; exact hx
  have hNN : NN = nxt s.mem b := by
    rcases hMP.shape with h | h
    · obtain ⟨h1, -, -, h4, h5, h6⟩ := h
      have e1 : nxt s'.mem b = b + 8 + r := by unfold nxt; rw [h4]
      have e2 : nxt s'.mem (b + 8 + r) = nxt s.mem b := by
        unfold nxt; rw [h6]; clear * - h1; omega
      rcases hFP.hi with g | g
      · rw [e1] at g; exact absurd h5 g.1
      · rw [g.2, e1, e2]
    · obtain ⟨-, -, -, h4⟩ := h
      have e1 : nxt s'.mem b = nxt s.mem b := by unfold nxt; rw [h4]
      have hNb : nxt s.mem b ≠ b := by clear * - hNe; omega
      rcases hFP.hi with g | g
      · rw [g.2, e1]
      · rw [e1] at g
        exact absurd ((hMP.same _ hNx.2.1 hNb).1.1 g.1) hNu
  have hFF : insert lo (F'.filter (fun x => x < lo ∨ NN ≤ x)) = F := by
    rw [hlo, hNN]
    ext x
    rw [Finset.mem_insert, Finset.mem_filter]
    constructor
    · rintro (h | ⟨h1, h2⟩)
      · rw [h]; exact hMP.b_mem
      · rcases hMP.shape with g | g
        · rw [g.2.2.1, Finset.mem_insert, Finset.mem_erase] at h1
          rcases h1 with h1 | h1
          · exfalso; clear * - h1 h2 g hNe; omega
          · exact h1.2
        · rw [g.2.2.1] at h1
          exact Finset.mem_of_mem_erase h1
    · intro hx
      by_cases hxb : x = b
      · exact Or.inl hxb
      · right
        have hxB := ((hI.link x).1 hx).1
        refine ⟨?_, hP.apart hbB hbT hxB hxb⟩
        rcases hMP.shape with g | g
        · rw [g.2.2.1]
          exact Finset.mem_insert_of_mem (Finset.mem_erase.2 ⟨hxb, hx⟩)
        · rw [g.2.2.1]
          exact Finset.mem_erase.2 ⟨hxb, hx⟩
  rw [hFF] at hI''
  have hL : (p :: L).erase p = L := List.erase_cons_head p L
  rw [hL] at hI''
  refine ⟨s'', _, he', hI'', ?_, ?_⟩
  · intro x hx
    by_cases hxb : x = b
    · rw [hxb]
      have := hFP.sz
      rw [hlo, hNN] at this
      rw [this]
      clear * - hNe
      omega
    · have hxB := ((hI.link x).1 hx).1
      have h1 := hP.apart hbB hbT hxB hxb
      have h2 := (hFP.same x (hBB' x hxB) (by rw [hlo, hNN]; clear * - h1; omega)).2
      rw [h2]
      exact (hMP.same x hxB hxb).2
  · rw [hFP.used, hMP.used]
    exact sub32_add32 hI.used

/-- The list heads of an index that links a single block depend on the size of that
block only. -/
theorem matrix_single {t t' : tlsf_t} {m m' : Nat → Nat} {b : Nat}
    (hI : IdxInv t m {b}) (hA : Acyc m {b}) (hI' : IdxInv t' m' {b}) (hA' : Acyc m' {b})
    (hsz : bsz m' b = bsz m b) {i j : Nat} (hi : i < 24) (hj : j < 32) :
    t'.matrix i j = t.matrix i j := by
  have hb : b ∈ ({b} : Finset Nat) := Finset.mem_singleton_self b
  have key : ∀ {t1 t2 : tlsf_t} {m1 m2 : Nat → Nat}, IdxInv t1 m1 {b} → Acyc m1 {b} →
      IdxInv t2 m2 {b} → bsz m2 b = bsz m1 b → t2.matrix i j ≠ 0 → t1.matrix i j = b := by
    intro t1 t2 m1 m2 h1 a1 h2 e hne
    obtain ⟨g1, g2, -⟩ := h2.mx i j hi hj hne
    rw [Finset.mem_singleton.1 g1, e] at g2
    have g3 := class_nonempty h1 a1 hb
    rw [g2] at g3
    exact Finset.mem_singleton.1 (h1.mx i j hi hj g3).1
  by_cases h0 : t.matrix i j = 0
  · by_cases h1 : t'.matrix i j = 0
    · rw [h0, h1]
    · have := key hI hA hI' hsz h1
      rw [h0] at this
      exact absurd this.symm (hI.nz b hb)
  · have e1 := key hI' hA' hI hsz.symm h0
    have h1 : t'.matrix i j ≠ 0 := by rw [e1]; exact hI.nz b hb
    have e2 := key hI hA hI' hsz h1
    rw [e1, e2]

/-- C3, as stated, fails: on the fresh 64 KiB pool `malloc_ex(0xFFFFFFFF)` returns the
payload `poolBase + 3216`, and after `free_ex` of it `sl_bitmap[0]` is 1 (it was 0)
and `fl_bitmap` is 513 (it was 512). -/
theorem malloc_free_overflow :
    ((init_memory_pool specScan 65536 poolBase zeroState).bind fun i =>
      (malloc_ex specScan 0xFFFFFFFF i.2).bind fun r =>
        (free_ex specScan r.1 r.2).map fun f =>
          (r.1, i.2.tlsf.sl_bitmap 0, f.tlsf.sl_bitmap 0, i.2.tlsf.fl_bitmap,
            f.tlsf.fl_bitmap)) =
      some (poolBase + 3216, 0, 1, 512, 513) := by
  rfl

/-- C3, amended. Pair idempotence: in every state reached from an `init_memory_pool` on
a region with a clean control structure, by requests of at most `MAX_REQUEST` bytes and
frees of live payloads, `malloc_ex(k)` with `k ≤ MAX_REQUEST` returns, and when its
result `p` is not `NULL`, `free_ex(p)` right after it returns and restores `used_size`,
`fl_bitmap` and every word of `sl_bitmap`. On a freshly initialised pool, with
`k = 100`, the heads of `matrix` are restored too. -/
theorem malloc_free_restores {hw : Intrinsics} (hs : ScanSpec hw) :
    (∀ (M mp k : Nat) (s : State) (L : List Nat), Reach hw M mp s L → k ≤ MAX_REQUEST →
      ∃ p s', malloc_ex hw k s = some (p, s') ∧
        (p ≠ 0 → ∃ s'', free_ex hw p s' = some s'' ∧
          s''.tlsf.used_size = s.tlsf.used_size ∧
          s''.tlsf.fl_bitmap = s.tlsf.fl_bitmap ∧
          ∀ i, i < REAL_FLI → s''.tlsf.sl_bitmap i = s.tlsf.sl_bitmap i)) ∧
    (∀ (M mp : Nat) (s0 : State), InitOk M mp s0 →
      ∃ r s p s' s'', init_memory_pool hw M mp s0 = some (r, s) ∧
        malloc_ex hw 100 s = some (p, s') ∧ free_ex hw p s' = some s'' ∧
        s''.tlsf.used_size = s.tlsf.used_size ∧
        s''.tlsf.fl_bitmap = s.tlsf.fl_bitmap ∧
        (∀ i, i < REAL_FLI → s''.tlsf.sl_bitmap i = s.tlsf.sl_bitmap i) ∧
        ∀ i j, i < REAL_FLI → j < MAX_SLI → s''.tlsf.matrix i j = s.tlsf.matrix i j) := by
  constructor
  · intro M mp k s L hR hk
    obtain ⟨-, B, F, hI⟩ := reach_inv hs hR
    obtain ⟨p, s', he, -, hnz⟩ := malloc_free_inv hs hI hk
    refine ⟨p, s', he, fun hp => ?_⟩
    obtain ⟨s'', B'', hf, hI'', hsz, hu⟩ := hnz hp
    obtain ⟨b1, b2⟩ := bitmaps_determined hI.idx hI.acyc hI''.idx hI''.acyc hsz
    exact ⟨s'', hf, hu, b1, b2⟩
  · intro M mp s0 h0
    obtain ⟨s, hi, hI, -⟩ := init_memory_pool_inv hs h0
    obtain ⟨p, s', he, hz, hnz⟩ := malloc_free_inv hs hI (show 100 ≤ MAX_REQUEST by decide)
    by_cases hp : p = 0
    · refine ⟨_, s, p, s', s', hi, he, ?_, ?_⟩
      · rw [hp]; rfl
      · rw [hz hp]
        exact ⟨rfl, rfl, fun _ _ => rfl, fun _ _ _ _ => rfl⟩
    · obtain ⟨s'', B'', hf, hI'', hsz, hu⟩ := hnz hp
      obtain ⟨b1, b2⟩ := bitmaps_determined hI.idx hI.acyc hI''.idx hI''.acyc hsz
      refine ⟨_, s, p, s', s'', hi, he, hf, hu, b1, b2, ?_⟩
      intro i j hi hj
      exact matrix_single hI.idx hI.acyc hI''.idx hI''.acyc
        (hsz _ (Finset.mem_singleton_self _)) hi hj

theorem malloc_free_restores_witness :
    ∃ p s', malloc_ex specScan 100 fresh64k = some (p, s') ∧
      (p ≠ 0 → ∃ s'', free_ex specScan p s' = some s'' ∧
        s''.tlsf.used_size = fresh64k.tlsf.used_size ∧
        s''.tlsf.fl_bitmap = fresh64k.tlsf.fl_bitmap ∧
        ∀ i, i < REAL_FLI → s''.tlsf.sl_bitmap i = fresh64k.tlsf.sl_bitmap i) :=
  (malloc_free_restores specScan_ok).1 65536 poolBase 100 fresh64k [] reach64k (by decide)

end TLSF

namespace TLSF

/-- In a tiling, a free block has no free physical neighbour. -/
theorem PhysInv.no_free_pair {m : Nat → Nat} {B : Finset Nat} {ib T x : Nat}
    (hP : PhysInv m B ib T) (hx : x ∈ B) (hf : isFree m x) :
    ¬ isFree m (nxt m x) ∧ ∀ c ∈ B, nxt m c = x → ¬ isFree m c := by
  refine ⟨hP.next_used hx hf, ?_⟩
  intro c hc hcx hcf
  have h1 := (hP.tag c hc (hP.free_ne hcf).1).1.2 hcf
  rw [hcx] at h1
  exact hP.adj x hx ⟨hf, h1⟩

/-- A pool without live payload holds one free block, from the sentinel to the
terminator. -/
theorem Inv.empty_live {s : State} {B F : Finset Nat} {ib T : Nat}
    (hI : Inv s B F ib T []) (hT : ib + 16 < T) :
    (∀ x ∈ B, isFree s.mem x ↔ x = ib + 16) ∧ bsz s.mem (ib + 16) = T - ib - 24 := by
  have hP := hI.phys
  have hibT : ib ≠ T := by omega
  obtain ⟨-, h1, h2⟩ := hP.nx ib hP.ib_mem hibT
  have e1 : nxt s.mem ib = ib + 16 := by unfold nxt; rw [hP.sn.1]
  rw [e1] at h1 h2
  have hfree : ∀ z ∈ B, z ≠ ib → z ≠ T → isFree s.mem z := by
    intro z hz hzi hzT
    by_contra hzu
    exact List.not_mem_nil _ ((hI.live (z + 8)).2 ⟨z, hz, hzi, hzT, hzu, rfl⟩)
  have hb1 : isFree s.mem (ib + 16) := hfree _ h1 (by omega) (by omega)
  have hb1T : ib + 16 ≠ T := by omega
  obtain ⟨-, h3, h4⟩ := hP.nx _ h1 hb1T
  have hNu := hP.next_used h1 hb1
  have hlt := hP.lt_nxt h1 hb1T
  have hN : nxt s.mem (ib + 16) = T := by
    by_contra hne
    exact hNu (hfree _ h3 (by omega) hne)
  have hNe : nxt s.mem (ib + 16) = ib + 16 + 8 + bsz s.mem (ib + 16) := rfl
  constructor
  · intro x hx
    constructor
    · intro hf
      obtain ⟨hxT, hxi⟩ := hP.free_ne hf
      by_contra hxb
      have g1 := h2 x hx (lt_of_le_of_ne (hP.rng x hx).1 (Ne.symm hxi))
      have g2 := h4 x hx (by omega)
      have g3 := (hP.rng x hx).2
      omega
    · intro h; rw [h]; exact hb1
  · omega

/-- The function `free_ex` on the null pointer or on a live payload keeps the pool
invariant. -/
theorem free_any {hw : Intrinsics} (hs : ScanSpec hw) {s : State} {B F : Finset Nat}
    {ib T p : Nat} {L : List Nat} (hI : Inv s B F ib T L) (hp : p = 0 ∨ p ∈ L) :
    ∃ s' B' F', free_ex hw p s = some s' ∧ Inv s' B' F' ib T (L.erase p) := by
  by_cases h0 : p = 0
  · refine ⟨s, B, F, ?_, ?_⟩
    · rw [h0]; rfl
    · have : p ∉ L := by
        intro h
        obtain ⟨z, -, -, -, -, hz⟩ := (hI.live p).1 h
        omega
      rw [List.erase_of_not_mem this]
      exact hI
  · have hm : p ∈ L := hp.resolve_left h0
    obtain ⟨s', lo, NN, b, -, he, -, hI'⟩ := free_ex_inv hs hI hm
    exact ⟨s', _, _, he, hI'⟩

/-- The function `malloc_ex` with a request inside the index keeps the pool invariant;
a payload it returns was not live. -/
theorem malloc_any {hw : Intrinsics} (hs : ScanSpec hw) {s : State} {B F : Finset Nat}
    {ib T n : Nat} {L : List Nat} (hI : Inv s B F ib T L) (hn : n ≤ MAX_REQUEST) :
    ∃ p s' B' F', malloc_ex hw n s = some (p, s') ∧
      Inv s' B' F' ib T (if p = 0 then L else p :: L) ∧ (p ≠ 0 → p ∉ L) := by
  obtain ⟨p, s', he, hz, hnz⟩ := malloc_ex_inv hs hI hn
  by_cases h0 : p = 0
  · refine ⟨p, s', B, F, he, ?_, fun h => absurd h0 h⟩
    rw [if_pos h0, hz h0]
    exact hI
  · obtain ⟨b, r, B', F', -, -, -, hI'⟩ := hnz h0
    refine ⟨p, s', B', F', he, ?_, fun _ => ?_⟩
    · rw [if_neg h0]; exact hI'
    · exact (List.nodup_cons.1 hI'.nodup).1

theorem after100_eq : malloc_ex specScan 100 fresh64k = some (poolBase + 3216, after100) := by
  rfl

/-- The state after `malloc_ex(100)` on the fresh 64 KiB pool is reachable, with the
payload it returned live. -/
theorem reach100 : Reach specScan 65536 poolBase after100 [poolBase + 3216] :=
  Reach.malloc reach64k (by decide) after100_eq

/-- C4, as stated, fails: on the fresh 64 KiB pool the calls `malloc_ex(0xFFFFFFFF)`,
`malloc_ex(8)`, `malloc_ex(0xFFFFFFFF)`, `malloc_ex(0xFFFFFFFF)` return four payloads,
`poolBase + 3216`, `poolBase + 3224`, `poolBase + 3240` and `poolBase + 3248`, all live.
After `free_ex` of the second, the first, the third and the fourth, the walk from the
sentinel meets the blocks `poolBase + 3232` and `poolBase + 3240` one after the other:
the first has the size word 3 (`FREE`, size 0), and its physical successor
`poolBase + 3240` has the size word 1 (`FREE` too). Every header that these calls read
or write lies between `poolBase + 3192` and the end of the region. -/
theorem free_ex_adjacent_overflow :
    ((init_memory_pool specScan 65536 poolBase zeroState).bind fun i =>
      (malloc_ex specScan 0xFFFFFFFF i.2).bind fun a =>
        (malloc_ex specScan 8 a.2).bind fun b =>
          (malloc_ex specScan 0xFFFFFFFF b.2).bind fun c =>
            (malloc_ex specScan 0xFFFFFFFF c.2).bind fun d =>
              (free_ex specScan b.1 d.2).bind fun s5 =>
                (free_ex specScan a.1 s5).bind fun s6 =>
                  (free_ex specScan c.1 s6).bind fun s7 =>
                    (free_ex specScan d.1 s7).map fun s8 =>
                      (a.1, b.1, c.1, d.1,
                        walk s8.mem (poolT 65536 poolBase) 5 (poolIb poolBase),
                        size s8.mem (poolBase + 3232), nxt s8.mem (poolBase + 3232),
                        size s8.mem (poolBase + 3240))) =
      some (poolBase + 3216, poolBase + 3224, poolBase + 3240, poolBase + 3248,
        [poolBase + 3192, poolBase + 3208, poolBase + 3216, poolBase + 3232, poolBase + 3240],
        3, poolBase + 3240, 1) := by
  rfl

/-- C4, amended. Coalescing totality: in every state reached from an `init_memory_pool`
on a region with a clean control structure, by requests of at most `MAX_REQUEST` bytes
and frees of live payloads, `free_ex` of a live payload returns and leaves the blocks
tiling the area from the sentinel to the terminator with no free block that has a free
physical successor or predecessor. From a fresh pool whose usable block has size `S0`,
`malloc_ex(S0 / 2)`, `malloc_ex(64)`, the free of the first and the free of the second
leave exactly one free block, of size `S0`. -/
theorem free_ex_coalesces {hw : Intrinsics} (hs : ScanSpec hw) :
    (∀ (M mp p : Nat) (s : State) (L : List Nat), Reach hw M mp s L → p ∈ L →
      ∃ s' B, free_ex hw p s = some s' ∧ PhysInv s'.mem B (poolIb mp) (poolT M mp) ∧
        ∀ x ∈ B, isFree s'.mem x →
          ¬ isFree s'.mem (nxt s'.mem x) ∧ ∀ c ∈ B, nxt s'.mem c = x → ¬ isFree s'.mem c) ∧
    (∀ (M mp : Nat) (s0 : State), InitOk M mp s0 →
      ∃ S0 s1 p1 s2 p2 s3 s4 s5, init_memory_pool hw M mp s0 = some (S0, s1) ∧
        malloc_ex hw (S0 / 2) s1 = some (p1, s2) ∧ malloc_ex hw 64 s2 = some (p2, s3) ∧
        free_ex hw p1 s3 = some s4 ∧ free_ex hw p2 s4 = some s5 ∧
        ∃ B, PhysInv s5.mem B (poolIb mp) (poolT M mp) ∧
          (∀ x ∈ B, isFree s5.mem x ↔ x = poolIb mp + 16) ∧
          bsz s5.mem (poolIb mp + 16) = S0) := by
  constructor
  · intro M mp p s L hR hp
    obtain ⟨-, B, F, hI⟩ := reach_inv hs hR
    obtain ⟨s', lo, NN, b, -, he, -, hI'⟩ := free_ex_inv hs hI hp
    exact ⟨s', _, he, hI'.phys, fun x hx hf => hI'.phys.no_free_pair hx hf⟩
  · intro M mp s0 h0
    obtain ⟨n1, n2, n3⟩ := h0.nums
    have hsmall := h0.small
    have hbig : 3252 ≤ M := h0.big
    obtain ⟨s1, hi, hI1, -⟩ := init_memory_pool_inv hs h0
    rw [← n2] at hi
    rw [← n3, ← n1] at hI1
    have hS : poolS0 M / 2 ≤ MAX_REQUEST := by
      rw [n2]
      show _ ≤ 1056964608
      clear * - hsmall
      omega
    obtain ⟨p1, s2, B2, F2, e1, hI2, hf1⟩ := malloc_any hs hI1 hS
    obtain ⟨p2, s3, B3, F3, e2, hI3, hf2⟩ :=
      malloc_any hs hI2 (show 64 ≤ MAX_REQUEST by decide)
    have hp1 : p1 = 0 ∨ p1 ∈ (if p2 = 0 then (if p1 = 0 then [] else [p1])
        else p2 :: (if p1 = 0 then [] else [p1])) := by
      by_cases a : p1 = 0
      · exact Or.inl a
      · right
        by_cases c : p2 = 0
        · rw [if_pos c, if_neg a]; exact List.mem_singleton_self p1
        · rw [if_neg c, if_neg a]; exact List.mem_cons_of_mem _ (List.mem_singleton_self p1)
    obtain ⟨s4, B4, F4, e3, hI4⟩ := free_any hs hI3 hp1
    have hL4 : (if p2 = 0 then (if p1 = 0 then [] else [p1])
        else p2 :: (if p1 = 0 then [] else [p1])).erase p1 = if p2 = 0 then [] else [p2] := by
      by_cases a : p1 = 0
      · by_cases c : p2 = 0
        · rw [if_pos c, if_pos a, if_pos c]; rfl
        · rw [if_neg c, if_pos a, if_neg c]
          exact List.erase_of_not_mem (by rw [List.mem_singleton, a]; exact fun h => c h.symm)
      · have hne : p2 ≠ 0 → p2 ≠ p1 := by
          intro c e
          apply hf2 c
          rw [if_neg a, e]
          exact List.mem_singleton_self p1
        by_cases c : p2 = 0
        · rw [if_pos c, if_neg a, if_pos c]
          exact List.erase_cons_head p1 []
        · rw [if_neg c, if_neg a, if_neg c]
          rw [List.erase_cons_tail (by simpa using hne c)]
          rw [List.erase_cons_head]
    rw [hL4] at hI4
    have hp2 : p2 = 0 ∨ p2 ∈ (if p2 = 0 then [] else [p2]) := by
      by_cases c : p2 = 0
      · exact Or.inl c
      · right; rw [if_neg c]; exact List.mem_singleton_self p2
    obtain ⟨s5, B5, F5, e4, hI5⟩ := free_any hs hI4 hp2
    have hL5 : (if p2 = 0 then [] else [p2]).erase p2 = [] := by
      by_cases c : p2 = 0
      · rw [if_pos c]; rfl
      · rw [if_neg c]; exact List.erase_cons_head p2 []
    rw [hL5] at hI5
    have hT : poolIb mp + 16 < poolT M mp := by
      rw [n1, n3]; clear * - hbig; omega
    obtain ⟨g1, g2⟩ := hI5.empty_live hT
    refine ⟨_, s1, p1, s2, p2, s3, s4, s5, hi, e1, e2, e3, e4, B5, hI5.phys, g1, ?_⟩
    rw [g2, n1, n2, n3]
    clear * - hbig
    omega

theorem free_ex_coalesces_witness :
    ∃ s' B, free_ex specScan (poolBase + 3216) after100 = some s' ∧
      PhysInv s'.mem B (poolIb poolBase) (poolT 65536 poolBase) ∧
      ∀ x ∈ B, isFree s'.mem x →
        ¬ isFree s'.mem (nxt s'.mem x) ∧ ∀ c ∈ B, nxt s'.mem c = x → ¬ isFree s'.mem c :=
  (free_ex_coalesces specScan_ok).1 65536 poolBase (poolBase + 3216) after100
    [poolBase + 3216] reach100 (List.mem_singleton_self _)

end TLSF

namespace TLSF

/-- C6, on the code. The region of `0x20000` bytes at `lowBase = 0x10000` passes the
checks of `init_memory_pool` and carries no signature; its bytes are zero except for the
word of `matrix[10][30]`, which holds `lowBase + 3204`. The claim gives
`S0 = ROUNDDOWN_SIZE(ROUNDDOWN_SIZE(M - sizeof(tlsf_t)) - 3 * BHDR_OVERHEAD - 8) = 127848`
and `used_size = M - S0 = 3224`. The call returns 68744 and leaves `used_size` and
`max_size` at 62328: `init_memory_pool` never clears the control structure, so
`INSERT_BLOCK` takes the stale word for the head of the list `(10, 30)` of the usable
block `b = lowBase + 3208 = 68744` and stores `b` in its `prev` link, at
`lowBase + 3204 + 8`, which is the size word of `b`. The sentinel keeps the size 8, and
the two words that `free_ex` then writes at `b + 8 + 68744` lie inside the region. On
the same region with every byte zero the call returns 127848 and leaves 3224. -/
theorem init_stale_head_result :
    (sizeof_tlsf_t + BHDR_OVERHEAD * 8 ≤ 0x20000 ∧ lowBase ≠ 0 ∧ lowBase &&& PTR_MASK = 0 ∧
      staleHeadState.tlsf.tlsf_signature ≠ TLSF_SIGNATURE) ∧
    MAPPING_INSERT specScan 127848 = (10, 30) ∧
    ROUNDDOWN_SIZE (ROUNDDOWN_SIZE (0x20000 - sizeof_tlsf_t) - 3 * BHDR_OVERHEAD - 8) = 127848 ∧
    0x20000 - 127848 = 3224 ∧
    (init_memory_pool specScan 0x20000 lowBase staleHeadState).map (fun r =>
      (r.1, r.2.tlsf.used_size, r.2.tlsf.max_size, size r.2.mem (poolIb lowBase),
        size r.2.mem (lowBase + 3208), r.2.tlsf.matrix 10 30,
        prev_hdr r.2.mem (lowBase + 3208 + 8 + 68744),
        size r.2.mem (lowBase + 3208 + 8 + 68744))) =
      some (68744, 62328, 62328, 8, 68744, 68744, 68744, 2) ∧
    lowBase + 3208 + 8 + 68744 + 8 ≤ lowBase + 0x20000 ∧
    (init_memory_pool specScan 0x20000 lowBase zeroState).map (fun r =>
      (r.1, r.2.tlsf.used_size, r.2.tlsf.max_size)) = some (127848, 3224, 3224) := by
  refine ⟨⟨by decide, by decide, by decide, by decide⟩, ?_, by decide, by decide, ?_,
    by decide, ?_⟩
  · rfl
  · rfl
  · rfl

/-- The result of `init_memory_pool` on a clean region: for every region of `M` bytes that
`init_memory_pool` accepts, that carries no signature, lies inside the address space,
has `M < 2 ^ 30 + 3220` and a clean control structure, `init_memory_pool` returns
`S0 = ROUNDDOWN_SIZE(ROUNDDOWN_SIZE(M - sizeof(tlsf_t)) - 3 * BHDR_OVERHEAD - sentinel)`,
`sentinel` being the size field of the sentinel, and leaves `used_size = M - S0` and
`max_size = used_size`; for `M = 65536` it returns 62312 and leaves 3224. -/
theorem init_memory_pool_fresh {hw : Intrinsics} (hs : ScanSpec hw) :
    (∀ (M mp : Nat) (s0 : State), InitOk M mp s0 →
      ∃ S0 s, init_memory_pool hw M mp s0 = some (S0, s) ∧
        S0 = ROUNDDOWN_SIZE (ROUNDDOWN_SIZE (M - sizeof_tlsf_t) - 3 * BHDR_OVERHEAD -
          (size s.mem (poolIb mp) &&& BLOCK_SIZE)) ∧
        s.tlsf.used_size = M - S0 ∧ s.tlsf.max_size = s.tlsf.used_size) ∧
    (init_memory_pool specScan 65536 poolBase zeroState = some (62312, fresh64k) ∧
      fresh64k.tlsf.used_size = 65536 - 62312 ∧ fresh64k.tlsf.max_size = 3224) := by
  refine ⟨?_, rfl, rfl, rfl⟩
  intro M mp s0 h0
  obtain ⟨n1, n2, -⟩ := h0.nums
  obtain ⟨s, hi, -, -, -, hsz, hu, hm, -⟩ := init_memory_pool_inv hs h0
  refine ⟨_, s, hi, ?_, hu, by rw [hm, hu]⟩
  have e8 : (8 : Nat) &&& BLOCK_SIZE = ROUNDUP_SIZE sizeof_area_info_t := by decide
  rw [n1, hsz, e8]
  exact n2.symm

theorem init_memory_pool_fresh_witness :
    ∃ S0 s, init_memory_pool specScan 65536 poolBase zeroState = some (S0, s) ∧
      S0 = ROUNDDOWN_SIZE (ROUNDDOWN_SIZE (65536 - sizeof_tlsf_t) - 3 * BHDR_OVERHEAD -
        (size s.mem (poolIb poolBase) &&& BLOCK_SIZE)) ∧
      s.tlsf.used_size = 65536 - S0 ∧ s.tlsf.max_size = s.tlsf.used_size :=
  (init_memory_pool_fresh specScan_ok).1 65536 poolBase zeroState initOk64k

end TLSF

namespace TLSF

/-! ## The bit scan and the two mappings -/

theorem lowBit_spec {w : Nat} (h0 : w ≠ 0) (h32 : w < 2 ^ 32) :
    lowBit 32 w < 32 ∧ w.testBit (lowBit 32 w) = true ∧
      ∀ j, j < lowBit 32 w → w.testBit j = false := by
  obtain ⟨k, hk, hb, hl⟩ := exists_lowest_bit w h0 h32
  rw [lowBit_eq 32 w k hk hb hl]
  exact ⟨hk, hb, hl⟩

/-- C12, on the code. With `CntTrailZeros` the number of trailing zero bits of the
word, `fls` of `bits.c` is `31 - CntTrailZeros(w)`: for every nonzero 32-bit word it is
the mirror image of the index of the least significant set bit, and never that index;
`ls_bit` returns the same value. -/
theorem fls_mirrors_lowest_bit (hw : Intrinsics) (w : Nat) (h0 : w ≠ 0) (h32 : w < 2 ^ 32)
    (hc : hw.CntTrailZeros w = lowBit 32 w) :
    w.testBit (lowBit 32 w) = true ∧ (∀ j, j < lowBit 32 w → w.testBit j = false) ∧
      fls hw w = 31 - lowBit 32 w ∧ fls hw w ≠ lowBit 32 w ∧
      ls_bit hw w = ((31 - lowBit 32 w : Nat) : Int) := by
  obtain ⟨hk, hb, hl⟩ := lowBit_spec h0 h32
  have e : fls hw w = 31 - lowBit 32 w := by
    unfold fls sub32 BIT_WORD_SIZE
    rw [hc]
    clear * - hk
    omega
  refine ⟨hb, hl, e, ?_, ?_⟩
  · rw [e]; clear * - hk; omega
  · unfold ls_bit toInt32
    rw [e, if_pos (by clear * - hk; omega)]
    congr 1
    clear * - hk
    omega

theorem fls_mirrors_lowest_bit_witness :
    (1 : Nat).testBit (lowBit 32 1) = true ∧ (∀ j, j < lowBit 32 1 → (1 : Nat).testBit j = false) ∧
      fls countScan 1 = 31 - lowBit 32 1 ∧ fls countScan 1 ≠ lowBit 32 1 ∧
      ls_bit countScan 1 = ((31 - lowBit 32 1 : Nat) : Int) :=
  fls_mirrors_lowest_bit countScan 1 (by decide) (by decide) rfl

/-- The sizes of a class end before the start of the class that follows it. -/
theorem cls_lt_next (r : Nat) : r < clsLo (cls r).1 ((cls r).2 + 1) := by
  unfold cls clsLo
  by_cases h : r < 128
  · simp [h]; omega
  · have hne : r ≠ 0 := by omega
    obtain ⟨hb1, hb2⟩ := log2_bounds hne
    have hf1 : 7 ≤ Nat.log2 r := by
      by_contra hc
      have : Nat.log2 r < 7 := by omega
      rw [Nat.log2_lt hne] at this
      omega
    obtain ⟨hq1, hq2⟩ := div_pow_bounds (by omega) hb1 hb2
    simp only [h, if_false]
    rw [if_neg (by omega)]
    have e1 : Nat.log2 r - 6 + 6 = Nat.log2 r := by omega
    have e2 : Nat.log2 r - 6 + 1 = Nat.log2 r - 5 := by omega
    rw [e1, e2]
    have e3 : 2 ^ Nat.log2 r = 32 * 2 ^ (Nat.log2 r - 5) := by
      rw [show (32 : Nat) = 2 ^ 5 by norm_num, ← pow_add]; congr 1; omega
    have hp : 0 < 2 ^ (Nat.log2 r - 5) := Nat.pow_pos (by norm_num)
    have h5 := Nat.lt_mul_div_succ r hp
    have e4 : 2 ^ (Nat.log2 r - 5) * (r / 2 ^ (Nat.log2 r - 5) + 1) =
        32 * 2 ^ (Nat.log2 r - 5) + (r / 2 ^ (Nat.log2 r - 5) - 32 + 1) * 2 ^ (Nat.log2 r - 5) := by
      rw [← Nat.add_mul, Nat.mul_comm]
      congr 1
      clear * - hq1
      omega
    rw [e3, ← e4]
    exact h5

theorem clsLo_succ_le {i1 j1 i2 j2 : Nat} (hj1 : j1 < 32)
    (h : i1 < i2 ∨ (i1 = i2 ∧ j1 < j2)) : clsLo i1 (j1 + 1) ≤ clsLo i2 j2 := by
  rcases h with h | ⟨rfl, h⟩
  · have hi2 : i2 ≠ 0 := by omega
    have h2 : 2 ^ (i1 + 7) ≤ 2 ^ (i2 + 6) := Nat.pow_le_pow_right (by norm_num) (by omega)
    have h3 : clsLo i1 (j1 + 1) ≤ 2 ^ (i1 + 7) := by
      unfold clsLo
      by_cases h0 : i1 = 0
      · subst h0; simp; omega
      · rw [if_neg h0]
        have e6 : 2 ^ (i1 + 6) = 32 * 2 ^ (i1 + 1) := by
          rw [show (32 : Nat) = 2 ^ 5 by norm_num, ← pow_add]; congr 1; omega
        have e7 : 2 ^ (i1 + 7) = 64 * 2 ^ (i1 + 1) := by
          rw [show (64 : Nat) = 2 ^ 6 by norm_num, ← pow_add]; congr 1; omega
        rw [e6, e7, ← Nat.add_mul]
        exact Nat.mul_le_mul_right _ (by omega)
    have h4 : 2 ^ (i2 + 6) ≤ clsLo i2 j2 := by
      unfold clsLo; rw [if_neg hi2]; omega
    omega
  · unfold clsLo
    by_cases h0 : i1 = 0
    · simp [h0]; omega
    · rw [if_neg h0, if_neg h0]
      have := Nat.mul_le_mul_right (2 ^ (i1 + 1)) (show j1 + 1 ≤ j2 from h)
      omega

/-- A size whose class is below the class of another size is the smaller one. -/
theorem cls_lt_of_below {s1 s2 : Nat} (h1 : s1 < 2 ^ 30)
    (h : (cls s1).1 < (cls s2).1 ∨ ((cls s1).1 = (cls s2).1 ∧ (cls s1).2 < (cls s2).2)) :
    s1 < s2 :=
  lt_of_lt_of_le (cls_lt_next s1) (le_trans (clsLo_succ_le (cls_lt h1).2 h) (clsLo_le s2))

theorem clsBelow_cast (a b c d : Nat) :
    clsBelow (((a : Nat) : Int), ((b : Nat) : Int)) (((c : Nat) : Int), ((d : Nat) : Int)) ↔
      (a < c ∨ (a = c ∧ b < d)) := by
  unfold clsBelow
  simp only [Nat.cast_lt, Nat.cast_inj]

theorem clsUpTo_cast (a b c d : Nat) :
    clsUpTo (((a : Nat) : Int), ((b : Nat) : Int)) (((c : Nat) : Int), ((d : Nat) : Int)) ↔
      (a < c ∨ (a = c ∧ b ≤ d)) := by
  unfold clsUpTo
  simp only [Nat.cast_lt, Nat.cast_inj, Nat.cast_le]

/-- C14. Size-class monotonicity: for block sizes `s1`, `s2` below `2 ^ 30`, if
`MAPPING_INSERT(s1)` is lexicographically below `MAPPING_INSERT(s2)` then `s1 < s2`,
and `s1 <= s2` puts the class of `s1` at or below the class of `s2`; the small row
ends with `127` in class `(0, 31)` and the first logarithmic row starts with `128` in
class `(1, 0)`. -/
theorem MAPPING_INSERT_monotone {hw : Intrinsics} (hs : ScanSpec hw) (s1 s2 : Nat)
    (h1 : s1 < 2 ^ 30) (h2 : s2 < 2 ^ 30) :
    (clsBelow (MAPPING_INSERT hw s1) (MAPPING_INSERT hw s2) → s1 < s2) ∧
      (s1 ≤ s2 → clsUpTo (MAPPING_INSERT hw s1) (MAPPING_INSERT hw s2)) ∧
      MAPPING_INSERT hw 127 = (0, 31) ∧ MAPPING_INSERT hw 128 = (1, 0) := by
  rw [MAPPING_INSERT_eq hs s1 (by omega), MAPPING_INSERT_eq hs s2 (by omega),
    clsBelow_cast, clsUpTo_cast]
  refine ⟨fun h => cls_lt_of_below h1 h, fun h => ?_, ?_, ?_⟩
  · by_contra hc
    have h3 : (cls s2).1 < (cls s1).1 ∨ ((cls s2).1 = (cls s1).1 ∧ (cls s2).2 < (cls s1).2) := by
      clear * - hc
      omega
    have := cls_lt_of_below h2 h3
    omega
  · rw [MAPPING_INSERT_eq hs 127 (by norm_num)]; rfl
  · rw [MAPPING_INSERT_eq hs 128 (by norm_num)]
    have : cls 128 = (1, 0) := by
      unfold cls
      rw [if_neg (by norm_num), log2_unique (show 2 ^ 7 ≤ 128 by norm_num) (by norm_num)]
      norm_num
    rw [this]; rfl

theorem MAPPING_INSERT_monotone_witness :
    clsBelow (MAPPING_INSERT specScan 127) (MAPPING_INSERT specScan 128) ∧
      (clsBelow (MAPPING_INSERT specScan 127) (MAPPING_INSERT specScan 128) → 127 < 128) ∧
      (127 ≤ 128 → clsUpTo (MAPPING_INSERT specScan 127) (MAPPING_INSERT specScan 128)) ∧
      MAPPING_INSERT specScan 127 = (0, 31) ∧ MAPPING_INSERT specScan 128 = (1, 0) :=
  ⟨by decide, MAPPING_INSERT_monotone specScan_ok 127 128 (by norm_num) (by norm_num)⟩

end TLSF

namespace TLSF

/-! ## The search mapping on every request below `2 ^ 30` -/

theorem srch_aux30 {r : Nat} (h128 : 128 ≤ r) (hr : r < 2 ^ 30) :
    ∃ f p, Nat.log2 r = f ∧ 2 ^ (f - 5) = p ∧ 7 ≤ f ∧ f ≤ 29 ∧ 4 ≤ p ∧ p ≤ 2 ^ 24 ∧
      2 ^ f = 32 * p ∧ 2 ^ (f + 1) = 64 * p ∧ 32 * p ≤ r ∧ r < 64 * p := by
  have hne : r ≠ 0 := by omega
  obtain ⟨hb1, hb2⟩ := log2_bounds hne
  have hf1 := (log2_range h128 (by omega)).1
  have hf2 : Nat.log2 r < 30 := by
    rw [Nat.log2_lt hne]; omega
  have e1 : 2 ^ Nat.log2 r = 32 * 2 ^ (Nat.log2 r - 5) := by
    rw [show (32 : Nat) = 2 ^ 5 by norm_num, ← pow_add]; congr 1; omega
  have e2 : 2 ^ (Nat.log2 r + 1) = 64 * 2 ^ (Nat.log2 r - 5) := by
    rw [show (64 : Nat) = 2 ^ 6 by norm_num, ← pow_add]; congr 1; omega
  have h4 : 2 ^ 2 ≤ 2 ^ (Nat.log2 r - 5) := Nat.pow_le_pow_right (by norm_num) (by omega)
  have h24 : 2 ^ (Nat.log2 r - 5) ≤ 2 ^ 24 := Nat.pow_le_pow_right (by norm_num) (by omega)
  refine ⟨_, _, rfl, rfl, hf1, by omega, by simpa using h4, h24, e1, e2, ?_, ?_⟩
  · rw [← e1]; exact hb1
  · rw [← e2]; exact hb2

/-- The rounded size of a request is the smallest size of the class selected for it,
and it is at least the request. -/
theorem srch_fit {r : Nat} (h128 : 128 ≤ r) (hr : r < 2 ^ 30) :
    r ≤ (srch r).1 ∧ (srch r).1 = clsLo (srch r).2.1 (srch r).2.2 ∧ (srch r).2.2 < 32 := by
  unfold srch
  simp only [show ¬ r < 128 by omega, if_false]
  obtain ⟨f, p, hf, hp, hf7, hf29, hp4, hp24, e32, e64, hlo, hhi⟩ := srch_aux30 h128 hr
  rw [hf, hp]
  have hppos : 0 < p := by omega
  have hdm := Nat.div_add_mod (r + (p - 1)) p
  have hml := Nat.mod_lt (r + (p - 1)) hppos
  have hmc : p * ((r + (p - 1)) / p) = (r + (p - 1)) / p * p := Nat.mul_comm _ _
  have hle : r ≤ (r + (p - 1)) / p * p := by omega
  by_cases hB : r + (p - 1) < 64 * p
  · have hl : Nat.log2 (r + (p - 1)) = f :=
      log2_unique (by rw [e32]; omega) (by rw [e64]; omega)
    have hq : 32 ≤ (r + (p - 1)) / p ∧ (r + (p - 1)) / p < 64 := by
      constructor
      · rw [Nat.le_div_iff_mul_le hppos]; omega
      · rw [Nat.div_lt_iff_lt_mul hppos]; omega
    have hc : cls (r + (p - 1)) = (f - 6, (r + (p - 1)) / p - 32) := by
      unfold cls
      rw [if_neg (by omega), hl, hp]
    rw [hc]
    refine ⟨hle, ?_, by omega⟩
    unfold clsLo
    rw [if_neg (by omega), show f - 6 + 6 = f by omega, show f - 6 + 1 = f - 5 by omega, hp,
      e32]
    have e4 : (r + (p - 1)) / p = 32 + ((r + (p - 1)) / p - 32) := by omega
    conv_lhs => rw [e4, Nat.add_mul]
  · have e128 : 2 ^ (f + 1 + 1) = 128 * p := by
      rw [pow_succ, e64]; omega
    have hl : Nat.log2 (r + (p - 1)) = f + 1 :=
      log2_unique (by rw [e64]; omega) (by rw [e128]; omega)
    have e2p : 2 ^ (f + 1 - 5) = 2 * p := by
      rw [show f + 1 - 5 = (f - 5) + 1 by omega, pow_succ, hp]; omega
    have hq : (r + (p - 1)) / p = 64 := by
      apply Nat.div_eq_of_lt_le <;> omega
    have hq2 : (r + (p - 1)) / (2 * p) = 32 := by
      apply Nat.div_eq_of_lt_le <;> omega
    have hc : cls (r + (p - 1)) = (f - 5, 0) := by
      unfold cls
      rw [if_neg (by omega), hl, e2p, hq2, show f + 1 - 6 = f - 5 by omega]
    rw [hc, hq]
    refine ⟨by omega, ?_, by omega⟩
    unfold clsLo
    rw [if_neg (by omega), show f - 5 + 6 = f + 1 by omega, e64]; omega

theorem MAPPING_SEARCH_eq30 {hw : Intrinsics} (hs : ScanSpec hw) (r : Nat) (hr : r < 2 ^ 30) :
    MAPPING_SEARCH hw r = ((srch r).1, (((srch r).2.1 : Nat) : Int), (((srch r).2.2 : Nat) : Int)) := by
  unfold MAPPING_SEARCH srch
  by_cases h : r < 128
  · simp [h, SMALL_BLOCK, MAX_SLI, MAX_LOG2_SLI]
  · obtain ⟨f, p, hf, hp, hf7, hf29, hp4, hp24, e32, e64, hlo, hhi⟩ :=
      srch_aux30 (Nat.le_of_not_lt h) hr
    have hne : r ≠ 0 := by omega
    have hm := hs.ms r f (by omega) (by rw [e32]; exact hlo) (by rw [e64]; exact hhi)
    simp only [SMALL_BLOCK, h, if_false, hm, MAX_LOG2_SLI, hf, hp]
    have e1 : ((f : Int) - ((5 : Nat) : Int)).toNat = f - 5 := by omega
    have et : sub32 (shl32 1 (f - 5)) 1 = p - 1 := by
      unfold sub32 shl32
      rw [Nat.shiftLeft_eq, Nat.one_mul, hp]
      omega
    have hr1 : r + (p - 1) < 2 ^ 31 := by omega
    have er1 : add32 r (p - 1) = r + (p - 1) := by
      unfold add32; omega
    rw [e1, et, er1]
    have hmi := MAPPING_INSERT_eq hs (r + (p - 1)) (by omega)
    unfold MAPPING_INSERT at hmi
    rw [if_neg (by simp only [SMALL_BLOCK]; omega)] at hmi
    simp only [MAX_LOG2_SLI, FLI_OFFSET, MAX_SLI, Prod.mk.injEq] at hmi
    have ea : (r + (p - 1)) &&& not32 (p - 1) = (r + (p - 1)) / p * p := by
      rw [← hp]; exact and_not32_low _ _ (by omega)
    rw [ea]
    simp only [FLI_OFFSET, MAX_SLI, Prod.mk.injEq, true_and]
    exact hmi

/-- C13. Good fit of the search mapping: for a request `r` with
`SMALL_BLOCK <= r < 2 ^ 30` and a block size `s < 2 ^ 30`, if `MAPPING_INSERT(s)` is
the class that `MAPPING_SEARCH(r)` selects, or a class lexicographically above it,
then `s >= r`; and the size that `MAPPING_SEARCH` writes back is `>= r`. -/
theorem MAPPING_SEARCH_good_fit {hw : Intrinsics} (hs : ScanSpec hw) (r s : Nat)
    (h1 : SMALL_BLOCK ≤ r) (h2 : r < 2 ^ 30) (h3 : s < 2 ^ 30) :
    (clsUpTo ((MAPPING_SEARCH hw r).2.1, (MAPPING_SEARCH hw r).2.2) (MAPPING_INSERT hw s) →
        r ≤ s) ∧
      r ≤ (MAPPING_SEARCH hw r).1 := by
  have h128 : 128 ≤ r := h1
  obtain ⟨a, b, c⟩ := srch_fit h128 h2
  rw [MAPPING_SEARCH_eq30 hs r h2, MAPPING_INSERT_eq hs s (by omega), clsUpTo_cast]
  refine ⟨fun h => ?_, a⟩
  have := clsLo_le_of_cls_ge c h
  omega

theorem MAPPING_SEARCH_good_fit_witness :
    clsUpTo ((MAPPING_SEARCH specScan 1000).2.1, (MAPPING_SEARCH specScan 1000).2.2)
        (MAPPING_INSERT specScan 1008) ∧ 1000 ≤ 1008 ∧
      1000 ≤ (MAPPING_SEARCH specScan 1000).1 :=
  ⟨by decide,
    (MAPPING_SEARCH_good_fit specScan_ok 1000 1008 (by decide) (by norm_num) (by norm_num)).1
      (by decide),
    (MAPPING_SEARCH_good_fit specScan_ok 1000 1008 (by decide) (by norm_num) (by norm_num)).2⟩

end TLSF

namespace TLSF

/-! ## The search of the index, case by case -/

theorem testBit_mask {w j c : Nat} :
    (w &&& shl32 0xFFFFFFFF j).testBit c = true ↔ w.testBit c = true ∧ j ≤ c ∧ c < 32 := by
  rw [Nat.testBit_and, testBit_shl32_ones]
  simp only [Bool.and_eq_true, decide_eq_true_eq]

theorem mask_eq_zero {w j : Nat} (h : w &&& shl32 0xFFFFFFFF j = 0) (c : Nat) (h1 : j ≤ c)
    (h2 : c < 32) : w.testBit c = false := by
  have := (eq_zero_iff_testBit _).1 h c
  by_contra hc
  have hc2 : w.testBit c = true := by simpa using hc
  rw [testBit_mask.2 ⟨hc2, h1, h2⟩] at this
  exact Bool.noConfusion this

/-- The three ways through `FIND_SUITABLE_BLOCK`: the row asked for has a list at or
after the column asked for, and the first such list is taken; or it has none and no
higher row has a list, and the result is null after a scan of the zero word; or the
first higher row that has a list is taken, with its first list. -/
theorem FIND_cases {hw : Intrinsics} (hs : ScanSpec hw) {t : tlsf_t}
    (hsl : ∀ i, i < 24 → t.sl_bitmap i < 2 ^ 32)
    (hfb : ∀ i, i < 24 → (t.fl_bitmap.testBit i = true ↔ t.sl_bitmap i ≠ 0))
    (hfl : t.fl_bitmap < 2 ^ 24) {i j : Nat} (hi : i < 24) (hj : j < 32) :
    (∃ k, k < 32 ∧ j ≤ k ∧ (t.sl_bitmap i).testBit k = true ∧
      (∀ c, j ≤ c → c < k → (t.sl_bitmap i).testBit c = false) ∧
      FIND_SUITABLE_BLOCK hw t (i : Int) (j : Int) = some (t.matrix i k, (i : Int), (k : Int)) ∧
      t.sl_bitmap i &&& shl32 0xFFFFFFFF j ≠ 0 ∧
      FIND_SUITABLE_BLOCK_scans hw t (i : Int) (j : Int) =
        [ScanCall.ls (t.sl_bitmap i &&& shl32 0xFFFFFFFF j)]) ∨
    ((∀ c, j ≤ c → c < 32 → (t.sl_bitmap i).testBit c = false) ∧
      (∀ a, i < a → a < 24 → t.fl_bitmap.testBit a = false) ∧
      (∃ fl1, FIND_SUITABLE_BLOCK hw t (i : Int) (j : Int) = some (0, fl1, (j : Int))) ∧
      FIND_SUITABLE_BLOCK_scans hw t (i : Int) (j : Int) = [ScanCall.ls 0]) ∨
    ((∀ c, j ≤ c → c < 32 → (t.sl_bitmap i).testBit c = false) ∧
      ∃ k k2, i < k ∧ k < 24 ∧ k2 < 32 ∧ t.fl_bitmap.testBit k = true ∧
        (∀ a, i < a → a < k → t.fl_bitmap.testBit a = false) ∧
        (t.sl_bitmap k).testBit k2 = true ∧
        (∀ c, c < k2 → (t.sl_bitmap k).testBit c = false) ∧
        FIND_SUITABLE_BLOCK hw t (i : Int) (j : Int) =
          some (t.matrix k k2, (k : Int), (k2 : Int)) ∧
        t.fl_bitmap &&& shl32 0xFFFFFFFF (i + 1) ≠ 0 ∧ t.sl_bitmap k ≠ 0 ∧
        FIND_SUITABLE_BLOCK_scans hw t (i : Int) (j : Int) =
          [ScanCall.ls (t.fl_bitmap &&& shl32 0xFFFFFFFF (i + 1)),
            ScanCall.ls (t.sl_bitmap k)]) := by
  unfold FIND_SUITABLE_BLOCK FIND_SUITABLE_BLOCK_scans
  have hc : (0 : Int) ≤ (j : Int) ∧ (j : Int) < 32 := by omega
  rw [if_pos hc, if_pos hc, sl_bitmap_word_in t hi, Option.some_bind]
  have e2 : ((j : Int)).toNat = j := by omega
  have e3 : ((i : Int) + 1).toNat = i + 1 := by omega
  simp only [e2, e3]
  have hc1 : (0 : Int) ≤ (i : Int) + 1 ∧ (i : Int) + 1 < 32 := by omega
  by_cases htmp : t.sl_bitmap i &&& shl32 0xFFFFFFFF j ≠ 0
  · left
    rw [if_pos htmp, if_pos htmp]
    have hlt : t.sl_bitmap i &&& shl32 0xFFFFFFFF j < 2 ^ 32 :=
      lt_of_le_of_lt Nat.and_le_left (hsl i hi)
    obtain ⟨k, hk, hb, hmin⟩ := exists_lowest_bit _ htmp hlt
    have hls := hs.ls _ k hk hlt hb hmin
    obtain ⟨hb1, hb2, -⟩ := testBit_mask.1 hb
    rw [hls, matrix_word_in t hi hk, Option.map_some']
    refine ⟨k, hk, hb2, hb1, fun c h1 h2 => ?_, rfl, htmp, rfl⟩
    have := hmin c h2
    by_contra hc3
    have hc4 : (t.sl_bitmap i).testBit c = true := by simpa using hc3
    rw [testBit_mask.2 ⟨hc4, h1, by omega⟩] at this
    exact Bool.noConfusion this
  · right
    rw [if_neg htmp, if_neg htmp, if_pos hc1, if_pos hc1]
    have htmp0 : t.sl_bitmap i &&& shl32 0xFFFFFFFF j = 0 := by
      by_contra h; exact htmp h
    have hrow := mask_eq_zero htmp0
    by_cases hw0 : t.fl_bitmap &&& shl32 0xFFFFFFFF (i + 1) = 0
    · left
      rw [hw0]
      have := hs.ls_zero
      rw [if_neg (by omega), if_neg (by omega)]
      exact ⟨hrow, fun a h1 h2 => mask_eq_zero hw0 a h1 (by omega), ⟨_, rfl⟩, rfl⟩
    · right
      have hlt : t.fl_bitmap &&& shl32 0xFFFFFFFF (i + 1) < 2 ^ 32 :=
        lt_of_le_of_lt Nat.and_le_left (lt_of_lt_of_le hfl (by norm_num))
      obtain ⟨k, hk, hb, hmin⟩ := exists_lowest_bit _ hw0 hlt
      have hls := hs.ls _ k hk hlt hb hmin
      obtain ⟨hb1, hb2, -⟩ := testBit_mask.1 hb
      have hk24 : k < 24 := by
        by_contra hc3
        have := Nat.testBit_lt_two_pow (lt_of_lt_of_le hfl
          (Nat.pow_le_pow_right (by norm_num) (Nat.le_of_not_lt hc3)))
        rw [hb1] at this
        exact Bool.noConfusion this
      rw [hls]
      have hc2 : (k : Int) > 0 := by omega
      rw [if_pos hc2, if_pos hc2, sl_bitmap_word_in t hk24, Option.some_bind]
      have hsl0 : t.sl_bitmap k ≠ 0 := (hfb k hk24).1 hb1
      obtain ⟨k2, hk2, hb3, hmin2⟩ := exists_lowest_bit _ hsl0 (hsl k hk24)
      have hls2 := hs.ls _ k2 hk2 (hsl k hk24) hb3 hmin2
      rw [hls2, matrix_word_in t hk24 hk2, Option.map_some']
      refine ⟨hrow, k, k2, by omega, hk24, hk2, hb1, fun a h1 h2 => ?_, hb3, hmin2, rfl, hw0,
        hsl0, rfl⟩
      have := hmin a h2
      by_contra hc5
      have hc6 : t.fl_bitmap.testBit a = true := by simpa using hc5
      rw [testBit_mask.2 ⟨hc6, by omega, by omega⟩] at this
      exact Bool.noConfusion this

/-- C15. `FIND_SUITABLE_BLOCK` selects the lowest adequate class: in an index state
where bit `j` of `sl_bitmap[i]` is set iff `matrix[i][j]` is non-null and bit `i` of
`fl_bitmap` is set iff there is a row `i` and `sl_bitmap[i]` is nonzero (the bitmaps
being 32-bit words), for every `(fl, sl)` with `fl < 24` and
`sl < 32` the function returns; the result is null iff no list `(fl', sl')` with
`fl' = fl` and `sl' >= sl`, or `fl' > fl`, is non-empty; and a non-null result is the
head of the lexicographically smallest such list, with `(fl, sl)` updated to it. -/
theorem FIND_SUITABLE_BLOCK_lowest {hw : Intrinsics} (hs : ScanSpec hw) (t : tlsf_t)
    (hsb : ∀ i j, i < 24 → j < 32 → ((t.sl_bitmap i).testBit j = true ↔ t.matrix i j ≠ 0))
    (hfb32 : ∀ i, i < 32 → (t.fl_bitmap.testBit i = true ↔ (i < 24 ∧ t.sl_bitmap i ≠ 0)))
    (hsl : ∀ i, i < 24 → t.sl_bitmap i < 2 ^ 32) (hflw : t.fl_bitmap < 2 ^ 32)
    (i j : Nat) (hi : i < 24) (hj : j < 32) :
    ∃ b fl sl, FIND_SUITABLE_BLOCK hw t (i : Int) (j : Int) = some (b, fl, sl) ∧
      (b = 0 ↔ ¬ ∃ a c, a < 24 ∧ c < 32 ∧ t.matrix a c ≠ 0 ∧ (i < a ∨ (i = a ∧ j ≤ c))) ∧
      (b ≠ 0 → ∃ i' j' : Nat, fl = (i' : Int) ∧ sl = (j' : Int) ∧ i' < 24 ∧ j' < 32 ∧
        t.matrix i' j' = b ∧ (i < i' ∨ (i = i' ∧ j ≤ j')) ∧
        ∀ a c, a < 24 → c < 32 → t.matrix a c ≠ 0 → (i < a ∨ (i = a ∧ j ≤ c)) →
          (i' < a ∨ (i' = a ∧ j' ≤ c))) := by
  have hfb : ∀ i, i < 24 → (t.fl_bitmap.testBit i = true ↔ t.sl_bitmap i ≠ 0) := by
    intro a ha
    rw [hfb32 a (by omega)]
    exact ⟨fun h => h.2, fun h => ⟨ha, h⟩⟩
  have hfl : t.fl_bitmap < 2 ^ 24 := by
    apply Nat.lt_pow_two_of_testBit
    intro a ha
    by_cases h32 : a < 32
    · by_contra hc
      have hc2 : t.fl_bitmap.testBit a = true := by simpa using hc
      have := ((hfb32 a h32).1 hc2).1
      omega
    · exact testBit_of_lt32 hflw (Nat.le_of_not_lt h32)
  have hrow0 : ∀ a, a < 24 → t.fl_bitmap.testBit a = false → ∀ c, c < 32 → t.matrix a c = 0 := by
    intro a ha h c hc
    by_contra hne
    have h1 := (hsb a c ha hc).2 hne
    have h2 : t.sl_bitmap a ≠ 0 := by
      intro h0; rw [h0] at h1; simp at h1
    rw [(hfb a ha).2 h2] at h
    exact Bool.noConfusion h
  have hcol0 : ∀ a c, a < 24 → c < 32 → (t.sl_bitmap a).testBit c = false → t.matrix a c = 0 := by
    intro a c ha hc h
    by_contra hne
    rw [(hsb a c ha hc).2 hne] at h
    exact Bool.noConfusion h
  rcases FIND_cases hs hsl hfb hfl hi hj with
    ⟨k, hk, hjk, hb, hmin, he, -, -⟩ | ⟨hrow, hfl0, ⟨fl1, he⟩, -⟩ |
    ⟨hrow, k, k2, hik, hk24, hk2, hb1, hminf, hb3, hmin2, he, -, -, -⟩
  · have hne : t.matrix i k ≠ 0 := (hsb i k hi hk).1 hb
    refine ⟨_, _, _, he, ⟨fun h => absurd h hne, fun h => ?_⟩, fun _ => ?_⟩
    · exact absurd ⟨i, k, hi, hk, hne, Or.inr ⟨rfl, hjk⟩⟩ h
    · refine ⟨i, k, rfl, rfl, hi, hk, rfl, Or.inr ⟨rfl, hjk⟩, fun a c ha hc hm hac => ?_⟩
      rcases hac with h | ⟨rfl, h⟩
      · exact Or.inl h
      · right
        refine ⟨rfl, ?_⟩
        by_contra hlt
        exact hm (hcol0 i c hi hc (hmin c h (by omega)))
  · refine ⟨_, _, _, he, ⟨fun _ => ?_, fun _ => rfl⟩, fun h => absurd rfl h⟩
    rintro ⟨a, c, ha, hc, hm, hac⟩
    rcases hac with h | ⟨rfl, h⟩
    · exact hm (hrow0 a ha (hfl0 a h ha) c hc)
    · exact hm (hcol0 i c hi hc (hrow c h hc))
  · have hne : t.matrix k k2 ≠ 0 := (hsb k k2 hk24 hk2).1 hb3
    refine ⟨_, _, _, he, ⟨fun h => absurd h hne, fun h => ?_⟩, fun _ => ?_⟩
    · exact absurd ⟨k, k2, hk24, hk2, hne, Or.inl hik⟩ h
    · refine ⟨k, k2, rfl, rfl, hk24, hk2, rfl, Or.inl hik, fun a c ha hc hm hac => ?_⟩
      rcases hac with h | ⟨rfl, h⟩
      · by_cases hka : k < a
        · exact Or.inl hka
        · by_cases hka2 : a < k
          · exact absurd (hrow0 a ha (hminf a h hka2) c hc) hm
          · have hak : k = a := by omega
            subst hak
            right
            refine ⟨rfl, ?_⟩
            by_contra hlt
            exact hm (hcol0 k c hk24 hc (hmin2 c (by omega)))
      · exact absurd (hcol0 i c hi hc (hrow c h hc)) hm

theorem FIND_SUITABLE_BLOCK_lowest_witness :
    ∃ b fl sl, FIND_SUITABLE_BLOCK specScan fresh64k.tlsf ((3 : Nat) : Int) ((5 : Nat) : Int) =
        some (b, fl, sl) ∧
      (b = 0 ↔ ¬ ∃ a c, a < 24 ∧ c < 32 ∧ fresh64k.tlsf.matrix a c ≠ 0 ∧
        (3 < a ∨ (3 = a ∧ 5 ≤ c))) ∧
      (b ≠ 0 → ∃ i' j' : Nat, fl = (i' : Int) ∧ sl = (j' : Int) ∧ i' < 24 ∧ j' < 32 ∧
        fresh64k.tlsf.matrix i' j' = b ∧ (3 < i' ∨ (3 = i' ∧ 5 ≤ j')) ∧
        ∀ a c, a < 24 → c < 32 → fresh64k.tlsf.matrix a c ≠ 0 → (3 < a ∨ (3 = a ∧ 5 ≤ c)) →
          (i' < a ∨ (i' = a ∧ j' ≤ c))) := by
  obtain ⟨-, B, F, hI⟩ := reach_inv specScan_ok reach64k
  have hfl := hI.idx.fl
  refine FIND_SUITABLE_BLOCK_lowest specScan_ok fresh64k.tlsf hI.idx.sb ?_ hI.idx.sl
    (lt_of_lt_of_le hfl (by norm_num)) 3 5 (by norm_num) (by norm_num)
  intro a ha
  by_cases h24 : a < 24
  · rw [hI.idx.fb a h24]
    exact ⟨fun h => ⟨h24, h⟩, fun h => h.2⟩
  · have h1 : fresh64k.tlsf.fl_bitmap.testBit a = false :=
      Nat.testBit_lt_two_pow (lt_of_lt_of_le hfl
        (Nat.pow_le_pow_right (by norm_num) (Nat.le_of_not_lt h24)))
    rw [h1]
    exact ⟨fun h => Bool.noConfusion h, fun h => absurd h.1 h24⟩

end TLSF

namespace TLSF

/-! ## The words that reach the bit scans -/

theorem MAPPING_INSERT_scans_ms (r : Nat) :
    ∀ c ∈ MAPPING_INSERT_scans r, ∃ w, c = ScanCall.ms w ∧ w ≠ 0 := by
  intro c hc
  unfold MAPPING_INSERT_scans at hc
  by_cases h : r < SMALL_BLOCK
  · rw [if_pos h] at hc; exact absurd hc (List.not_mem_nil c)
  · rw [if_neg h] at hc
    rw [List.mem_singleton] at hc
    refine ⟨r, hc, ?_⟩
    have : SMALL_BLOCK = 128 := rfl
    omega

theorem MAPPING_SEARCH_scans_ms {hw : Intrinsics} (hs : ScanSpec hw) {r : Nat}
    (hr : r ≤ MAX_REQUEST) :
    ∀ c ∈ MAPPING_SEARCH_scans hw r, ∃ w, c = ScanCall.ms w ∧ w ≠ 0 := by
  intro c hc
  unfold MAPPING_SEARCH_scans at hc
  have h128 : SMALL_BLOCK = 128 := rfl
  by_cases h : r < SMALL_BLOCK
  · rw [if_pos h] at hc; exact absurd hc (List.not_mem_nil c)
  · rw [if_neg h] at hc
    obtain ⟨f, p, hf, hp, hf7, hf29, hp4, hp24, e32, e64, hlo, hhi⟩ :=
      srch_aux (by omega) hr
    have hm := hs.ms r f (by omega) (by rw [e32]; exact hlo) (by rw [e64]; exact hhi)
    have e1 : ((f : Int) - ((5 : Nat) : Int)).toNat = f - 5 := by omega
    have et : sub32 (shl32 1 (f - 5)) 1 = p - 1 := by
      unfold sub32 shl32
      rw [Nat.shiftLeft_eq, Nat.one_mul, hp]
      omega
    have er1 : add32 r (p - 1) = r + (p - 1) := by
      unfold add32; unfold MAX_REQUEST at hr; omega
    simp only [hm, MAX_LOG2_SLI, e1, et, er1, List.mem_cons, List.mem_singleton,
      List.not_mem_nil, or_false] at hc
    rcases hc with hc | hc
    · exact ⟨r, hc, by omega⟩
    · exact ⟨_, hc, by omega⟩

theorem malloc_block_scans_ms (sz b fl sl : Nat) (s : State) :
    ∀ c ∈ malloc_block_scans sz b fl sl s, ∃ w, c = ScanCall.ms w ∧ w ≠ 0 := by
  intro c hc
  unfold malloc_block_scans at hc
  dsimp only at hc
  split at hc
  · exact MAPPING_INSERT_scans_ms _ c hc
  · exact absurd hc (List.not_mem_nil c)

theorem malloc_found_scans_ms (sz : Nat) (s : State) (f : Option (Nat × Int × Int)) :
    ∀ c ∈ malloc_found_scans sz s f, ∃ w, c = ScanCall.ms w ∧ w ≠ 0 := by
  intro c hc
  unfold malloc_found_scans at hc
  cases f with
  | none => exact absurd hc (List.not_mem_nil c)
  | some r =>
    dsimp only at hc
    by_cases h0 : r.1 = 0
    · rw [if_pos h0] at hc; exact absurd hc (List.not_mem_nil c)
    · rw [if_neg h0] at hc
      cases hi : index r.2.1 r.2.2 with
      | none => rw [hi] at hc; exact absurd hc (List.not_mem_nil c)
      | some ij =>
        rw [hi] at hc
        exact malloc_block_scans_ms _ _ _ _ _ c hc

theorem free_fwd_scans_ms (b : Nat) (s4 : State) :
    ∀ c ∈ free_fwd_scans b s4, ∃ w, c = ScanCall.ms w ∧ w ≠ 0 := by
  intro c h
  unfold free_fwd_scans at h
  dsimp only at h
  split at h
  · exact MAPPING_INSERT_scans_ms _ c h
  · exact absurd h (List.not_mem_nil c)

theorem free_rest_scans_ms (hw : Intrinsics) (b : Nat) (f : Option State) :
    ∀ c ∈ free_rest_scans hw b f, ∃ w, c = ScanCall.ms w ∧ w ≠ 0 := by
  intro c h
  unfold free_rest_scans at h
  cases f with
  | none => exact absurd h (List.not_mem_nil c)
  | some s6 =>
    dsimp only at h
    rcases List.mem_append.1 h with h | h
    · unfold free_bwd_scans at h
      split at h
      · exact MAPPING_INSERT_scans_ms _ c h
      · exact absurd h (List.not_mem_nil c)
    · cases hb : free_bwd hw b s6 with
      | none => rw [hb] at h; exact absurd h (List.not_mem_nil c)
      | some r =>
        rw [hb] at h
        exact MAPPING_INSERT_scans_ms _ c h

/-- Every scan call of `free_ex` is a call of `ms_bit` on a nonzero word. -/
theorem free_ex_scans_ms (hw : Intrinsics) (p : Nat) (s : State) :
    ∀ c ∈ free_ex_scans hw p s, ∃ w, c = ScanCall.ms w ∧ w ≠ 0 := by
  intro c hc
  obtain ⟨b, hb⟩ : ∃ b, b = sub32 p BHDR_OVERHEAD := ⟨_, rfl⟩
  have e : free_ex_scans hw p s = if p = 0 then [] else
      free_fwd_scans b (free_mark b s) ++ free_rest_scans hw b (free_fwd hw b (free_mark b s)) := by
    rw [hb]; rfl
  rw [e] at hc
  by_cases h0 : p = 0
  · rw [if_pos h0] at hc; exact absurd hc (List.not_mem_nil c)
  · rw [if_neg h0] at hc
    rcases List.mem_append.1 hc with h | h
    · exact free_fwd_scans_ms _ _ c h
    · exact free_rest_scans_ms _ _ _ c h

theorem malloc_ex_nonnull {hw : Intrinsics} {n p : Nat} {s s' : State} {ms : Nat × Int × Int}
    {r : Nat × Int × Int}
    (hms : MAPPING_SEARCH hw (if n < MIN_BLOCK_SIZE then MIN_BLOCK_SIZE else ROUNDUP_SIZE n)
      = ms)
    (hf : FIND_SUITABLE_BLOCK hw s.tlsf ms.2.1 ms.2.2 = some r) (h0 : r.1 ≠ 0)
    (hr : r.1 + 16 ≤ 2 ^ 32)
    (h : malloc_ex hw n s = some (p, s')) : p ≠ 0 := by
  unfold malloc_ex at h
  dsimp only at h
  rw [hms, hf] at h
  dsimp only at h
  unfold malloc_found at h
  rw [if_neg h0] at h
  cases hi : index r.2.1 r.2.2 with
  | none => rw [hi] at h; exact Option.noConfusion h
  | some ij =>
    rw [hi] at h
    dsimp only at h
    cases hm : malloc_block hw ms.1 r.1 ij.1 ij.2 s with
    | none => rw [hm] at h; exact Option.noConfusion h
    | some s5 =>
      rw [hm] at h
      simp only [Option.map_some', Option.some.injEq, Prod.mk.injEq, buffer, add32,
        BHDR_OVERHEAD, sizeof_bhdr_t, MIN_BLOCK_SIZE, sizeof_ptr] at h
      omega

/-- The scan calls of `malloc_ex` in a state that satisfies the pool invariant: every
`ms_bit` call receives a nonzero word; when the result is non-null every `ls_bit` call
does too; and when the result is null `ls_bit` was called on the zero word. -/
theorem malloc_ex_scans_spec {hw : Intrinsics} (hs : ScanSpec hw) {s : State}
    {B F : Finset Nat} {ib T n : Nat} {L : List Nat} (hI : Inv s B F ib T L)
    (hn : n ≤ MAX_REQUEST) :
    ∃ p s', malloc_ex hw n s = some (p, s') ∧
      (∀ w, ScanCall.ms w ∈ malloc_ex_scans hw n s → w ≠ 0) ∧
      (p ≠ 0 → ∀ w, ScanCall.ls w ∈ malloc_ex_scans hw n s → w ≠ 0) ∧
      (p = 0 → ScanCall.ls 0 ∈ malloc_ex_scans hw n s) := by
  obtain ⟨p, s', he, -, -⟩ := malloc_ex_inv hs hI hn
  obtain ⟨q8, qm, qM, qn⟩ := request_round hn
  obtain ⟨z, hz⟩ : ∃ z, z = (if n < MIN_BLOCK_SIZE then MIN_BLOCK_SIZE else ROUNDUP_SIZE n) :=
    ⟨_, rfl⟩
  rw [← hz] at q8 qm qM qn
  have hms0 := MAPPING_SEARCH_eq hs z qM
  have hms : MAPPING_SEARCH hw
      (if n < MIN_BLOCK_SIZE then MIN_BLOCK_SIZE else ROUNDUP_SIZE n) =
      ((srch z).1, (((srch z).2.1 : Nat) : Int), (((srch z).2.2 : Nat) : Int)) := by
    rw [← hz]; exact hms0
  obtain ⟨k1, k2, k3, k4, k5, k6⟩ := srch_spec q8 qm qM
  have hsc : malloc_ex_scans hw n s = MAPPING_SEARCH_scans hw z ++
      (FIND_SUITABLE_BLOCK_scans hw s.tlsf (((srch z).2.1 : Nat) : Int)
          (((srch z).2.2 : Nat) : Int) ++
        malloc_found_scans (srch z).1 s (FIND_SUITABLE_BLOCK hw s.tlsf
          (((srch z).2.1 : Nat) : Int) (((srch z).2.2 : Nat) : Int))) := by
    unfold malloc_ex_scans
    dsimp only
    rw [hms, ← hz]
  have hA := MAPPING_SEARCH_scans_ms hs qM
  have hC := malloc_found_scans_ms (srch z).1 s (FIND_SUITABLE_BLOCK hw s.tlsf
    (((srch z).2.1 : Nat) : Int) (((srch z).2.2 : Nat) : Int))
  have hls : ∀ w, ScanCall.ls w ∈ malloc_ex_scans hw n s →
      ScanCall.ls w ∈ FIND_SUITABLE_BLOCK_scans hw s.tlsf (((srch z).2.1 : Nat) : Int)
        (((srch z).2.2 : Nat) : Int) := by
    intro w hw1
    rw [hsc] at hw1
    rcases List.mem_append.1 hw1 with h | h
    · obtain ⟨w', e, -⟩ := hA _ h
      exact ScanCall.noConfusion e
    · rcases List.mem_append.1 h with h | h
      · exact h
      · obtain ⟨w', e, -⟩ := hC _ h
        exact ScanCall.noConfusion e
  have hmsz : ∀ w, ScanCall.ms w ∈ malloc_ex_scans hw n s →
      ScanCall.ms w ∈ FIND_SUITABLE_BLOCK_scans hw s.tlsf (((srch z).2.1 : Nat) : Int)
        (((srch z).2.2 : Nat) : Int) ∨ w ≠ 0 := by
    intro w hw1
    rw [hsc] at hw1
    rcases List.mem_append.1 hw1 with h | h
    · obtain ⟨w', e, h0⟩ := hA _ h
      right
      rw [ScanCall.ms.inj e]; exact h0
    · rcases List.mem_append.1 h with h | h
      · exact Or.inl h
      · obtain ⟨w', e, h0⟩ := hC _ h
        right
        rw [ScanCall.ms.inj e]; exact h0
  refine ⟨p, s', he, ?_⟩
  rcases FIND_cases hs hI.idx.sl hI.idx.fb hI.idx.fl k3 k4 with
    ⟨k, hk, hjk, hb, hmin, hf, hne, hscan⟩ | ⟨hrow, hfl0, ⟨fl1, hf⟩, hscan⟩ |
    ⟨hrow, k, k2, hik, hk24, hk2, hb1, hminf, hb3, hmin2, hf, hne1, hne2, hscan⟩
  · have hp : p ≠ 0 :=
      malloc_ex_nonnull hms hf ((hI.idx.sb _ k k3 hk).1 hb) (hI.head_fits k3 hk) he
    rw [hscan] at hls hmsz
    refine ⟨fun w h => ?_, fun _ w h => ?_, fun h => absurd h hp⟩
    · rcases hmsz w h with h1 | h1
      · rw [List.mem_singleton] at h1; exact ScanCall.noConfusion h1
      · exact h1
    · have := hls w h
      rw [List.mem_singleton] at this
      rw [ScanCall.ls.inj this]; exact hne
  · have hp : p = 0 := by
      have := malloc_ex_eval_null hms hf rfl
      rw [this] at he
      exact ((Prod.mk.inj (Option.some.inj he)).1).symm
    rw [hscan] at hmsz
    refine ⟨fun w h => ?_, fun h => absurd hp h, fun _ => ?_⟩
    · rcases hmsz w h with h1 | h1
      · rw [List.mem_singleton] at h1; exact ScanCall.noConfusion h1
      · exact h1
    · rw [hsc, hscan]
      exact List.mem_append_right _ (List.mem_append_left _ (List.mem_singleton_self _))
  · have hp : p ≠ 0 :=
      malloc_ex_nonnull hms hf ((hI.idx.sb k k2 hk24 hk2).1 hb3) (hI.head_fits hk24 hk2) he
    rw [hscan] at hls hmsz
    refine ⟨fun w h => ?_, fun _ w h => ?_, fun h => absurd h hp⟩
    · rcases hmsz w h with h1 | h1
      · simp only [List.mem_cons, List.mem_singleton, List.not_mem_nil, or_false] at h1
        rcases h1 with h1 | h1 <;> exact ScanCall.noConfusion h1
      · exact h1
    · have := hls w h
      simp only [List.mem_cons, List.mem_singleton, List.not_mem_nil, or_false] at this
      rcases this with h1 | h1
      · rw [ScanCall.ls.inj h1]; exact hne1
      · rw [ScanCall.ls.inj h1]; exact hne2

end TLSF

namespace TLSF

/-! ## The walk of an area and the members of a list -/

theorem walk_succ (m : Nat → Nat) (T fuel b : Nat) :
    walk m T (fuel + 1) b =
      if T ≤ b then [b] else b :: walk m T fuel (GET_NEXT_BLOCK (buffer b) (bsz m b)) := rfl

theorem extent_cons (m : Nat → Nat) (b : Nat) (l : List Nat) :
    extent m (b :: l) = bsz m b + 8 + extent m l := rfl

/-- In a tiled area the walk from a block reaches the terminator and stops there; it
meets exactly the blocks at or after its start, and their extents add up to the bytes
between the start and the end of the terminator header. -/
theorem walk_spec {m : Nat → Nat} {B : Finset Nat} {ib T : Nat} (hP : PhysInv m B ib T) :
    ∀ fuel b, b ∈ B → (T - b) / 16 + 1 ≤ fuel →
      (∃ l, walk m T fuel b = l ++ [T]) ∧ (∀ x, x ∈ walk m T fuel b ↔ x ∈ B ∧ b ≤ x) ∧
      extent m (walk m T fuel b) = T + 8 - b := by
  intro fuel
  induction fuel with
  | zero => intro b _ h; omega
  | succ fuel ih =>
    intro b hb hf
    rw [walk_succ]
    have hr := hP.rng b hb
    by_cases hT : T ≤ b
    · have e : b = T := by omega
      subst e
      rw [if_pos hT]
      refine ⟨⟨[], rfl⟩, fun x => ?_, ?_⟩
      · rw [List.mem_singleton]
        constructor
        · rintro rfl; exact ⟨hb, le_refl _⟩
        · rintro ⟨hx, hle⟩
          have := (hP.rng x hx).2
          omega
      · rw [extent_cons, hP.tm.1]
        show 0 + 8 + 0 = _
        omega
    · rw [if_neg hT]
      have hne : b ≠ T := by omega
      obtain ⟨h8, hn, hmin⟩ := hP.nx b hb hne
      have hnT := (hP.rng _ hn).2
      have hTt := hP.T_top
      have en : nxt m b = b + 8 + bsz m b := rfl
      have eg : GET_NEXT_BLOCK (buffer b) (bsz m b) = nxt m b :=
        GET_NEXT_BLOCK_eq rfl (by clear * - hnT hTt; omega)
      rw [eg]
      obtain ⟨⟨l, hl⟩, hmem, hext⟩ := ih (nxt m b) hn (by clear * - hf hnT en h8; omega)
      refine ⟨⟨b :: l, by rw [hl]; rfl⟩, fun x => ?_, ?_⟩
      · rw [List.mem_cons, hmem]
        constructor
        · rintro (rfl | ⟨hx, hle⟩)
          · exact ⟨hb, le_refl _⟩
          · exact ⟨hx, by clear * - hle en; omega⟩
        · rintro ⟨hx, hle⟩
          by_cases e : x = b
          · exact Or.inl e
          · exact Or.inr ⟨hx, hmin x hx (by clear * - hle e; omega)⟩
      · rw [extent_cons, hext]
        clear * - hnT en
        omega

theorem Linked.head_ne {m : Nat → Nat} {h x : Nat} (hl : Linked m h x) : h ≠ 0 := by
  induction hl with
  | head h0 => exact h0
  | next _ _ ih => exact ih

/-- A block linked in the list of a class is a member of the index, of that class. -/
theorem linked_sound {t : tlsf_t} {m : Nat → Nat} {F : Finset Nat} (hI : IdxInv t m F)
    {i j x : Nat} (hi : i < 24) (hj : j < 32) (hl : Linked m (t.matrix i j) x) :
    x ∈ F ∧ cls (bsz m x) = (i, j) := by
  have key : ∀ g y, Linked m g y → g = t.matrix i j → y ∈ F ∧ cls (bsz m y) = (i, j) := by
    intro g y hgy
    induction hgy with
    | head h0 =>
      intro hg
      rw [hg] at h0 ⊢
      obtain ⟨a, b, -⟩ := hI.mx i j hi hj h0
      exact ⟨a, b⟩
    | next _ hn ih =>
      intro hg
      obtain ⟨a, b⟩ := ih hg
      obtain ⟨c, d, -⟩ := hI.nx _ a hn
      exact ⟨c, d.trans b⟩
  exact key _ _ hl rfl

/-- A member of the index is linked in the list of its class. -/
theorem linked_complete {t : tlsf_t} {m : Nat → Nat} {F : Finset Nat} (hI : IdxInv t m F)
    (hA : Acyc m F) {x : Nat} (hx : x ∈ F) :
    Linked m (t.matrix (cls (bsz m x)).1 (cls (bsz m x)).2) x := by
  obtain ⟨rank, hr⟩ := hA
  obtain ⟨n, hn⟩ : ∃ n, n = rank x := ⟨_, rfl⟩
  induction n using Nat.strong_induction_on generalizing x with
  | _ n ih =>
    by_cases h0 : fprev m x = 0
    · have := hI.hd x hx h0
      rw [this]
      exact Linked.head (hI.nz x hx)
    · obtain ⟨a, b, c⟩ := hI.pv x hx h0
      have hlt := hr x hx h0
      have := ih (rank (fprev m x)) (by rw [hn]; exact hlt) a rfl
      rw [b] at this
      have h2 := Linked.next this (by rw [c]; exact hI.nz x hx)
      rw [c] at h2
      exact h2

theorem PhysInv.above_ib {m : Nat → Nat} {B : Finset Nat} {ib T z : Nat}
    (hP : PhysInv m B ib T) (hz : z ∈ B) (hne : z ≠ ib) : ib + 16 ≤ z := by
  have hlt : ib ≠ T := Nat.ne_of_lt hP.ib_lt
  obtain ⟨-, -, hmin⟩ := hP.nx ib hP.ib_mem hlt
  have h1 := (hP.rng z hz).1
  have h2 := hmin z hz (by omega)
  have e : nxt m ib = ib + 8 + bsz m ib := rfl
  rw [e, hP.sn.1] at h2
  omega

/-- The area list of a reachable state: the record in the payload of the sentinel,
whose `end` is the terminator and which has no successor. -/
theorem reach_area {hw : Intrinsics} (hs : ScanSpec hw) {M mp : Nat} {s : State}
    {L : List Nat} (hR : Reach hw M mp s L) :
    s.tlsf.area_head = poolIb mp + 8 ∧ s.mem (poolIb mp + 8) = poolT M mp ∧
      s.mem (poolIb mp + 12) = 0 := by
  induction hR with
  | init h hi =>
    obtain ⟨n1, -, n3⟩ := h.nums
    obtain ⟨s1, he, -, -, -, -, -, -, a1, a2, a3, -⟩ := init_memory_pool_inv hs h
    rw [he] at hi
    have e : s1 = _ := (Prod.mk.inj (Option.some.inj hi)).2
    rw [← e, n1, n3]
    exact ⟨a1, a2, a3⟩
  | malloc hR hn hm ih =>
    obtain ⟨-, B, F, hI⟩ := reach_inv hs hR
    obtain ⟨p1, s1, he, hz, hnz⟩ := malloc_ex_inv hs hI hn
    rw [he] at hm
    have e1 : p1 = _ := (Prod.mk.inj (Option.some.inj hm)).1
    have e2 : s1 = _ := (Prod.mk.inj (Option.some.inj hm)).2
    rw [← e2]
    by_cases hp : p1 = 0
    · rw [hz hp]; exact ih
    · obtain ⟨b, r, B', F', -, -, hMP, -⟩ := hnz hp
      rw [hMP.area, hMP.frame _ (by omega), hMP.frame _ (by omega)]
      exact ih
  | free hR hp hf ih =>
    obtain ⟨-, B, F, hI⟩ := reach_inv hs hR
    obtain ⟨s1, lo, NN, b, -, he, hFP, -⟩ := free_ex_inv hs hI hp
    rw [he] at hf
    have e : s1 = _ := Option.some.inj hf
    rw [← e]
    have hfar : ∀ a, a = poolIb mp + 8 ∨ a = poolIb mp + 12 → ∀ z ∈ B, z ≠ poolIb mp →
        a ≠ z ∧ a ≠ z + 4 ∧ a ≠ z + 8 ∧ a ≠ z + 12 := by
      intro a ha z hz hne
      have := hI.phys.above_ib hz hne
      clear * - this ha
      omega
    rw [hFP.area, hFP.frame _ (hfar _ (Or.inl rfl)), hFP.frame _ (hfar _ (Or.inr rfl))]
    exact ih

end TLSF

namespace TLSF

/-! ## Invariants of the reachable states -/

/-- C17, as stated, fails: on the fresh 64 KiB pool, after `malloc_ex(0xFFFFFFFF)` and
`free_ex` of its payload `poolBase + 3216`, the third block of the walk from the
sentinel is `poolBase + 3216`; its size word is 2, so its `FREE` bit is clear, and it
is the head of the list `matrix[9][28]`. -/
theorem free_list_ghost :
    ((init_memory_pool specScan 65536 poolBase zeroState).bind fun i =>
      (malloc_ex specScan 0xFFFFFFFF i.2).bind fun a =>
        (free_ex specScan a.1 a.2).map fun s2 =>
          (a.1, walk s2.mem (poolT 65536 poolBase) 3 (poolIb poolBase),
            size s2.mem (poolBase + 3216), s2.tlsf.matrix 9 28)) =
      some (poolBase + 3216, [poolBase + 3192, poolBase + 3208, poolBase + 3216], 2,
        poolBase + 3216) := by
  rfl

/-- C17, amended. Free-list membership: in every state reached from an
`init_memory_pool` on a region with a clean control structure, by requests of at most
`MAX_REQUEST` bytes and frees of live payloads, every block of the walk from the
sentinel to the terminator whose `FREE` bit is set is linked in the list
`matrix[fl][sl]` with `(fl, sl) = MAPPING_INSERT(size & BLOCK_SIZE)` and in no other
list, bit `sl` of `sl_bitmap[fl]` and bit `fl` of `fl_bitmap` are set; and every block
linked in a list is a block of the walk whose `FREE` bit is set. -/
theorem free_list_membership {hw : Intrinsics} (hs : ScanSpec hw) (M mp : Nat) (s : State)
    (L : List Nat) (hR : Reach hw M mp s L) (fuel : Nat)
    (hf : (poolT M mp - poolIb mp) / 16 + 1 ≤ fuel) :
    (∀ b ∈ walk s.mem (poolT M mp) fuel (poolIb mp), isFree s.mem b →
      ∃ i j, index (MAPPING_INSERT hw (bsz s.mem b)).1 (MAPPING_INSERT hw (bsz s.mem b)).2 =
          some (i, j) ∧
        Linked s.mem (s.tlsf.matrix i j) b ∧ (s.tlsf.sl_bitmap i).testBit j = true ∧
        s.tlsf.fl_bitmap.testBit i = true ∧
        ∀ i' j', i' < 24 → j' < 32 → Linked s.mem (s.tlsf.matrix i' j') b → i' = i ∧ j' = j) ∧
    (∀ i j x, i < 24 → j < 32 → Linked s.mem (s.tlsf.matrix i j) x →
      x ∈ walk s.mem (poolT M mp) fuel (poolIb mp) ∧ isFree s.mem x) := by
  obtain ⟨-, B, F, hI⟩ := reach_inv hs hR
  obtain ⟨-, hmem, -⟩ := walk_spec hI.phys fuel _ hI.phys.ib_mem hf
  constructor
  · intro b hb hfree
    have hbB := ((hmem b).1 hb).1
    have hbF := (hI.link b).2 ⟨hbB, hfree⟩
    have hcl := hI.idx.cl b hbF
    obtain ⟨c1, c2⟩ := cls_lt hcl
    have hl := linked_complete hI.idx hI.acyc hbF
    have hsb := (hI.idx.sb _ _ c1 c2).2 hl.head_ne
    have hfb := (hI.idx.fb _ c1).2 (by
      intro h0
      rw [h0] at hsb
      simp at hsb)
    refine ⟨(cls (bsz s.mem b)).1, (cls (bsz s.mem b)).2, index_MAPPING_INSERT hs _ hcl, hl,
      hsb, hfb, fun i' j' hi hj hl2 => ?_⟩
    have := (linked_sound hI.idx hi hj hl2).2
    rw [this]
    exact ⟨rfl, rfl⟩
  · intro i j x hi hj hl
    have hx := (linked_sound hI.idx hi hj hl).1
    obtain ⟨hxB, hxf⟩ := (hI.link x).1 hx
    exact ⟨(hmem x).2 ⟨hxB, (hI.phys.rng x hxB).1⟩, hxf⟩

theorem fuel64k : (poolT 65536 poolBase - poolIb poolBase) / 16 + 1 ≤ 4000 := by
  decide

theorem free_list_membership_witness :
    (∀ b ∈ walk after100.mem (poolT 65536 poolBase) 4000 (poolIb poolBase),
      isFree after100.mem b →
      ∃ i j, index (MAPPING_INSERT specScan (bsz after100.mem b)).1
          (MAPPING_INSERT specScan (bsz after100.mem b)).2 = some (i, j) ∧
        Linked after100.mem (after100.tlsf.matrix i j) b ∧
        (after100.tlsf.sl_bitmap i).testBit j = true ∧
        after100.tlsf.fl_bitmap.testBit i = true ∧
        ∀ i' j', i' < 24 → j' < 32 → Linked after100.mem (after100.tlsf.matrix i' j') b →
          i' = i ∧ j' = j) ∧
    (∀ i j x, i < 24 → j < 32 → Linked after100.mem (after100.tlsf.matrix i j) x →
      x ∈ walk after100.mem (poolT 65536 poolBase) 4000 (poolIb poolBase) ∧
        isFree after100.mem x) :=
  free_list_membership specScan_ok 65536 poolBase after100 [poolBase + 3216] reach100 4000
    fuel64k

/-- C18, as stated, fails: on the fresh 64 KiB pool, after `malloc_ex(0xFFFFFFFF)`,
`malloc_ex(8)` and `free_ex` of the second payload and then of the first, the block
`poolBase + 3232` is on the walk from the sentinel, its size word 62289 has the `FREE`
bit, its physical successor is the terminator `poolBase + 65528`, whose size word 2 has
`PREV_FREE`, and the `prev_hdr` of the terminator is `poolBase + 3216`, another
block. -/
theorem boundary_tag_stale :
    ((init_memory_pool specScan 65536 poolBase zeroState).bind fun i =>
      (malloc_ex specScan 0xFFFFFFFF i.2).bind fun a =>
        (malloc_ex specScan 8 a.2).bind fun b =>
          (free_ex specScan b.1 b.2).bind fun s3 =>
            (free_ex specScan a.1 s3).map fun s4 =>
              (a.1, b.1, walk s4.mem (poolT 65536 poolBase) 6 (poolIb poolBase),
                size s4.mem (poolBase + 3232),
                GET_NEXT_BLOCK (buffer (poolBase + 3232)) (bsz s4.mem (poolBase + 3232)),
                size s4.mem (poolBase + 65528), prev_hdr s4.mem (poolBase + 65528))) =
      some (poolBase + 3216, poolBase + 3224,
        [poolBase + 3192, poolBase + 3208, poolBase + 3216, poolBase + 3224, poolBase + 3232,
          poolBase + 65528],
        62289, poolBase + 65528, 2, poolBase + 3216) := by
  rfl

/-- C18, amended. Boundary-tag coherence: in every state reached from an
`init_memory_pool` on a region with a clean control structure, by requests of at most
`MAX_REQUEST` bytes and frees of live payloads, the walk from the sentinel ends at the
terminator, and for every block `B` of it other than the terminator the `PREV_FREE`
bit of `next_physical(B)` is set iff the `FREE` bit of `B` is set, and when it is set
`next_physical(B).prev_hdr` is `B`. -/
theorem boundary_tags {hw : Intrinsics} (hs : ScanSpec hw) (M mp : Nat) (s : State)
    (L : List Nat) (hR : Reach hw M mp s L) (fuel : Nat)
    (hf : (poolT M mp - poolIb mp) / 16 + 1 ≤ fuel) :
    (∃ l, walk s.mem (poolT M mp) fuel (poolIb mp) = l ++ [poolT M mp]) ∧
    ∀ b ∈ walk s.mem (poolT M mp) fuel (poolIb mp), b ≠ poolT M mp →
      (isPrevFree s.mem (GET_NEXT_BLOCK (buffer b) (bsz s.mem b)) ↔ isFree s.mem b) ∧
      (isFree s.mem b → prev_hdr s.mem (GET_NEXT_BLOCK (buffer b) (bsz s.mem b)) = b) := by
  obtain ⟨-, B, F, hI⟩ := reach_inv hs hR
  obtain ⟨hl, hmem, -⟩ := walk_spec hI.phys fuel _ hI.phys.ib_mem hf
  refine ⟨hl, fun b hb hne => ?_⟩
  have hbB := ((hmem b).1 hb).1
  obtain ⟨-, hn, -⟩ := hI.phys.nx b hbB hne
  have hnT := (hI.phys.rng _ hn).2
  have hTt := hI.phys.T_top
  have eg : GET_NEXT_BLOCK (buffer b) (bsz s.mem b) = nxt s.mem b :=
    GET_NEXT_BLOCK_eq rfl (by clear * - hnT hTt; omega)
  rw [eg]
  exact hI.phys.tag b hbB hne

theorem boundary_tags_witness :
    (∃ l, walk after100.mem (poolT 65536 poolBase) 4000 (poolIb poolBase) =
      l ++ [poolT 65536 poolBase]) ∧
    ∀ b ∈ walk after100.mem (poolT 65536 poolBase) 4000 (poolIb poolBase),
      b ≠ poolT 65536 poolBase →
      (isPrevFree after100.mem (GET_NEXT_BLOCK (buffer b) (bsz after100.mem b)) ↔
        isFree after100.mem b) ∧
      (isFree after100.mem b →
        prev_hdr after100.mem (GET_NEXT_BLOCK (buffer b) (bsz after100.mem b)) = b) :=
  boundary_tags specScan_ok 65536 poolBase after100 [poolBase + 3216] reach100 4000 fuel64k

/-- C19, as stated, fails: on the fresh 64 KiB pool, after `malloc_ex(0xFFFFFFFF)`
twice and `free_ex` of the second payload and then of the first, the walk from the
sentinel meets `poolBase + 3208` and `poolBase + 3216` and then steps to `1073748264`,
beyond the terminator `poolBase + 65528`; the extents of its blocks add up to
536874168, while the area has 62344 bytes, the sum on the fresh pool. -/
theorem walk_leaves_area :
    ((init_memory_pool specScan 65536 poolBase zeroState).bind fun i =>
      (malloc_ex specScan 0xFFFFFFFF i.2).bind fun a =>
        (malloc_ex specScan 0xFFFFFFFF a.2).bind fun b =>
          (free_ex specScan b.1 b.2).bind fun s3 =>
            (free_ex specScan a.1 s3).map fun s4 =>
              (a.1, b.1, walk s4.mem (poolT 65536 poolBase) 12 (poolIb poolBase),
                extent s4.mem (walk s4.mem (poolT 65536 poolBase) 12 (poolIb poolBase)),
                extent i.2.mem (walk i.2.mem (poolT 65536 poolBase) 12 (poolIb poolBase)),
                poolT 65536 poolBase)) =
      some (poolBase + 3216, poolBase + 3224,
        [poolBase + 3192, poolBase + 3208, poolBase + 3216, 1073748264], 536874168, 62344,
        poolBase + 65528) := by
  rfl

/-- C19, amended. Capacity conservation: in every state reached from an
`init_memory_pool` on a region with a clean control structure, by requests of at most
`MAX_REQUEST` bytes and frees of live payloads, the pool has one area, whose record
names the terminator as its end; the walk from the sentinel by `next_physical` ends
exactly at the terminator, and the sum of `(size & BLOCK_SIZE) + BHDR_OVERHEAD` over
its blocks is the capacity `ROUNDDOWN_SIZE(M - sizeof(tlsf_t))` of the area. -/
theorem capacity_conserved {hw : Intrinsics} (hs : ScanSpec hw) (M mp : Nat) (s : State)
    (L : List Nat) (hR : Reach hw M mp s L) (fuel : Nat)
    (hf : (poolT M mp - poolIb mp) / 16 + 1 ≤ fuel) :
    s.tlsf.area_head = buffer (poolIb mp) ∧ ai_end s.mem s.tlsf.area_head = poolT M mp ∧
      ai_next s.mem s.tlsf.area_head = 0 ∧
      (∃ l, walk s.mem (poolT M mp) fuel (poolIb mp) = l ++ [poolT M mp]) ∧
      extent s.mem (walk s.mem (poolT M mp) fuel (poolIb mp)) =
        ROUNDDOWN_SIZE (M - sizeof_tlsf_t) := by
  obtain ⟨⟨s0, h0⟩, B, F, hI⟩ := reach_inv hs hR
  obtain ⟨a1, a2, a3⟩ := reach_area hs hR
  obtain ⟨hl, -, hext⟩ := walk_spec hI.phys fuel _ hI.phys.ib_mem hf
  obtain ⟨n1, -, n3⟩ := h0.nums
  have hbig : 3252 ≤ M := h0.big
  have hfit := h0.fits
  have hbuf : buffer (poolIb mp) = poolIb mp + 8 := by
    apply buffer_eq
    have h1 := hI.phys.ib_lt
    have h2 := hI.phys.T_top
    clear * - h1 h2
    omega
  rw [hbuf]
  refine ⟨a1, ?_, ?_, hl, ?_⟩
  · unfold ai_end; rw [a1]; exact a2
  · unfold ai_next; rw [a1]; exact a3
  · rw [hext, n1, n3, show sizeof_tlsf_t = 3188 from rfl, ROUNDDOWN_SIZE_eq _ (by omega)]
    clear * - hbig
    omega

theorem capacity_conserved_witness :
    after100.tlsf.area_head = buffer (poolIb poolBase) ∧
      ai_end after100.mem after100.tlsf.area_head = poolT 65536 poolBase ∧
      ai_next after100.mem after100.tlsf.area_head = 0 ∧
      (∃ l, walk after100.mem (poolT 65536 poolBase) 4000 (poolIb poolBase) =
        l ++ [poolT 65536 poolBase]) ∧
      extent after100.mem (walk after100.mem (poolT 65536 poolBase) 4000 (poolIb poolBase)) =
        ROUNDDOWN_SIZE (65536 - sizeof_tlsf_t) :=
  capacity_conserved specScan_ok 65536 poolBase after100 [poolBase + 3216] reach100 4000
    fuel64k

/-- C20, as stated, fails: the terminator of the fresh 64 KiB pool is a block of size 0,
and `malloc_ex(0xFFFFFFFF)` on that pool hands out the block `poolBase + 3208`, whose
size is 0 too; `MIN_BLOCK_SIZE` is 8. -/
theorem block_size_zero :
    ((init_memory_pool specScan 65536 poolBase zeroState).bind fun i =>
      (malloc_ex specScan 0xFFFFFFFF i.2).map fun a =>
        (walk i.2.mem (poolT 65536 poolBase) 3 (poolIb poolBase),
          bsz i.2.mem (poolBase + 65528), a.1,
          walk a.2.mem (poolT 65536 poolBase) 4 (poolIb poolBase),
          bsz a.2.mem (poolBase + 3208), MIN_BLOCK_SIZE)) =
      some ([poolBase + 3192, poolBase + 3208, poolBase + 65528], 0, poolBase + 3216,
        [poolBase + 3192, poolBase + 3208, poolBase + 3216, poolBase + 65528], 0, 8) := by
  rfl

/-- C20, amended. Block size well-formedness: in every state reached from an
`init_memory_pool` on a region with a clean control structure, by requests of at most
`MAX_REQUEST` bytes and frees of live payloads, every block of the walk from the
sentinel other than the terminator has a size that is a multiple of `BLOCK_ALIGN` and
at least `MIN_BLOCK_SIZE`, and the terminator has size 0; `malloc_ex` of such a request
returns, the blocks of the walk of the new state have such sizes too, and the block
handed to the caller and its physical successor (the remainder, after a split) are
blocks of that walk, the first of at least the requested size. -/
theorem block_sizes_wellformed {hw : Intrinsics} (hs : ScanSpec hw) (M mp : Nat) (s : State)
    (L : List Nat) (hR : Reach hw M mp s L) (fuel : Nat)
    (hf : (poolT M mp - poolIb mp) / 16 + 1 ≤ fuel) :
    (∀ b ∈ walk s.mem (poolT M mp) fuel (poolIb mp),
      (b ≠ poolT M mp → bsz s.mem b % BLOCK_ALIGN = 0 ∧ MIN_BLOCK_SIZE ≤ bsz s.mem b) ∧
      (b = poolT M mp → bsz s.mem b = 0)) ∧
    (∀ n, n ≤ MAX_REQUEST → ∃ p s', malloc_ex hw n s = some (p, s') ∧
      (∀ b ∈ walk s'.mem (poolT M mp) fuel (poolIb mp), b ≠ poolT M mp →
        bsz s'.mem b % BLOCK_ALIGN = 0 ∧ MIN_BLOCK_SIZE ≤ bsz s'.mem b) ∧
      (p ≠ 0 → (p - BHDR_OVERHEAD) ∈ walk s'.mem (poolT M mp) fuel (poolIb mp) ∧
        p - BHDR_OVERHEAD ≠ poolT M mp ∧ n ≤ bsz s'.mem (p - BHDR_OVERHEAD) ∧
        GET_NEXT_BLOCK p (bsz s'.mem (p - BHDR_OVERHEAD)) ∈
          walk s'.mem (poolT M mp) fuel (poolIb mp))) := by
  obtain ⟨-, B, F, hI⟩ := reach_inv hs hR
  obtain ⟨-, hmem, -⟩ := walk_spec hI.phys fuel _ hI.phys.ib_mem hf
  constructor
  · intro b hb
    have hbB := ((hmem b).1 hb).1
    refine ⟨fun hne => ⟨(hI.phys.wd b hbB).2, (hI.phys.nx b hbB hne).1⟩, fun e => ?_⟩
    rw [e]; exact hI.phys.tm.1
  · intro n hn
    obtain ⟨p, s', he, hz, hnz⟩ := malloc_ex_inv hs hI hn
    have hall : ∀ b ∈ walk s'.mem (poolT M mp) fuel (poolIb mp), b ≠ poolT M mp →
        bsz s'.mem b % BLOCK_ALIGN = 0 ∧ MIN_BLOCK_SIZE ≤ bsz s'.mem b := by
      by_cases hp : p = 0
      · rw [hz hp]
        intro b hb hne
        have hbB := ((hmem b).1 hb).1
        exact ⟨(hI.phys.wd b hbB).2, (hI.phys.nx b hbB hne).1⟩
      · obtain ⟨b0, r, B', F', -, -, -, hI'⟩ := hnz hp
        obtain ⟨-, hmem', -⟩ := walk_spec hI'.phys fuel _ hI'.phys.ib_mem hf
        intro b hb hne
        have hbB := ((hmem' b).1 hb).1
        exact ⟨(hI'.phys.wd b hbB).2, (hI'.phys.nx b hbB hne).1⟩
    refine ⟨p, s', he, hall, fun hp => ?_⟩
    obtain ⟨b, r, B', F', e, hnr, hMP, hI'⟩ := hnz hp
    obtain ⟨-, hmem', -⟩ := walk_spec hI'.phys fuel _ hI'.phys.ib_mem hf
    have e8 : p - BHDR_OVERHEAD = b := by
      rw [e]
      show b + 8 - 8 = b
      omega
    rw [e8]
    have hbB := ((hI.link b).1 hMP.b_mem).1
    have hbB' : b ∈ B' := by
      rcases hMP.shape with ⟨-, eB, -⟩ | ⟨-, eB, -⟩
      · rw [eB]; exact Finset.mem_insert_of_mem hbB
      · rw [eB]; exact hbB
    have hbs : bsz s'.mem b = r ∨ (bsz s'.mem b = bsz s.mem b) := by
      rcases hMP.shape with ⟨-, -, -, e1, -⟩ | ⟨-, -, -, e1⟩
      · exact Or.inl e1
      · exact Or.inr e1
    have hle := hMP.le
    have hbT : b ≠ poolT M mp := by
      intro hT
      have := hI.phys.tm.2
      rw [← hT] at this
      exact this ((hI.link b).1 hMP.b_mem).2
    obtain ⟨-, hnB, -⟩ := hI'.phys.nx b hbB' hbT
    have hnT := (hI'.phys.rng _ hnB).2
    have hTt := hI'.phys.T_top
    have eg : GET_NEXT_BLOCK (b + 8) (bsz s'.mem b) = nxt s'.mem b := by
      unfold GET_NEXT_BLOCK add32
      exact Nat.mod_eq_of_lt (lt_of_le_of_lt hnT (by clear * - hTt; omega))
    refine ⟨(hmem' b).2 ⟨hbB', (hI'.phys.rng b hbB').1⟩, hbT, ?_, ?_⟩
    · clear * - hbs hle hnr
      omega
    · rw [e, eg]
      exact (hmem' _).2 ⟨hnB, (hI'.phys.rng _ hnB).1⟩

theorem block_sizes_wellformed_witness :
    (∀ b ∈ walk after100.mem (poolT 65536 poolBase) 4000 (poolIb poolBase),
      (b ≠ poolT 65536 poolBase →
        bsz after100.mem b % BLOCK_ALIGN = 0 ∧ MIN_BLOCK_SIZE ≤ bsz after100.mem b) ∧
      (b = poolT 65536 poolBase → bsz after100.mem b = 0)) ∧
    (∀ n, n ≤ MAX_REQUEST → ∃ p s', malloc_ex specScan n after100 = some (p, s') ∧
      (∀ b ∈ walk s'.mem (poolT 65536 poolBase) 4000 (poolIb poolBase),
        b ≠ poolT 65536 poolBase →
        bsz s'.mem b % BLOCK_ALIGN = 0 ∧ MIN_BLOCK_SIZE ≤ bsz s'.mem b) ∧
      (p ≠ 0 → (p - BHDR_OVERHEAD) ∈ walk s'.mem (poolT 65536 poolBase) 4000 (poolIb poolBase) ∧
        p - BHDR_OVERHEAD ≠ poolT 65536 poolBase ∧ n ≤ bsz s'.mem (p - BHDR_OVERHEAD) ∧
        GET_NEXT_BLOCK p (bsz s'.mem (p - BHDR_OVERHEAD)) ∈
          walk s'.mem (poolT 65536 poolBase) 4000 (poolIb poolBase))) :=
  block_sizes_wellformed specScan_ok 65536 poolBase after100 [poolBase + 3216] reach100 4000
    fuel64k

end TLSF

namespace TLSF

/-- C16, as stated, fails: on the fresh 64 KiB pool `malloc_ex(1000000)` finds no class
that can serve the request and returns `NULL`; on the way `ms_bit` is called on
1000000 and on 1016383, and `ls_bit` on the zero word `fl_bitmap & (~0 << 14)`. -/
theorem ls_bit_scans_zero :
    ((init_memory_pool specScan 65536 poolBase zeroState).bind fun i =>
      (malloc_ex specScan 1000000 i.2).map fun a =>
        (a.1, i.2.tlsf.fl_bitmap &&& shl32 0xFFFFFFFF 14,
          malloc_ex_scans specScan 1000000 i.2)) =
      some (0, 0, [ScanCall.ms 1000000, ScanCall.ms 1016383, ScanCall.ls 0]) := by
  rfl

/-- C16, amended. In every state reached from an `init_memory_pool` on a region with a
clean control structure, by requests of at most `MAX_REQUEST` bytes and frees of live
payloads: `malloc_ex` of such a request returns, every `ms_bit` call of it receives a
nonzero word, every `ls_bit` call of it receives a nonzero word when the result is
non-null, and when the result is `NULL` (no free class can serve the request) `ls_bit`
was called on the zero word; `free_ex` of a live payload returns, and every scan call
of it is an `ms_bit` call on a nonzero word. -/
theorem scans_nonzero {hw : Intrinsics} (hs : ScanSpec hw) (M mp : Nat) (s : State)
    (L : List Nat) (hR : Reach hw M mp s L) :
    (∀ n, n ≤ MAX_REQUEST → ∃ p s', malloc_ex hw n s = some (p, s') ∧
      (∀ w, ScanCall.ms w ∈ malloc_ex_scans hw n s → w ≠ 0) ∧
      (p ≠ 0 → ∀ w, ScanCall.ls w ∈ malloc_ex_scans hw n s → w ≠ 0) ∧
      (p = 0 → ScanCall.ls 0 ∈ malloc_ex_scans hw n s)) ∧
    (∀ p ∈ L, ∃ s', free_ex hw p s = some s' ∧
      ∀ c ∈ free_ex_scans hw p s, ∃ w, c = ScanCall.ms w ∧ w ≠ 0) := by
  obtain ⟨-, B, F, hI⟩ := reach_inv hs hR
  refine ⟨fun n hn => malloc_ex_scans_spec hs hI hn, fun p hp => ?_⟩
  obtain ⟨s', lo, NN, b, -, he, -, -⟩ := free_ex_inv hs hI hp
  exact ⟨s', he, free_ex_scans_ms hw p s⟩

theorem scans_nonzero_witness :
    (∀ n, n ≤ MAX_REQUEST → ∃ p s', malloc_ex specScan n after100 = some (p, s') ∧
      (∀ w, ScanCall.ms w ∈ malloc_ex_scans specScan n after100 → w ≠ 0) ∧
      (p ≠ 0 → ∀ w, ScanCall.ls w ∈ malloc_ex_scans specScan n after100 → w ≠ 0) ∧
      (p = 0 → ScanCall.ls 0 ∈ malloc_ex_scans specScan n after100)) ∧
    (∀ p ∈ [poolBase + 3216], ∃ s', free_ex specScan p after100 = some s' ∧
      ∀ c ∈ free_ex_scans specScan p after100, ∃ w, c = ScanCall.ms w ∧ w ≠ 0) :=
  scans_nonzero specScan_ok 65536 poolBase after100 [poolBase + 3216] reach100

end TLSF

namespace TLSF

/-! ## An area that grows at its end -/

/-- The terminator of a tiled area becomes a used block of size `w` and a new
terminator follows it: the blocks still tile the area, up to the new terminator. -/
theorem PhysInv_extend {m m' : Nat → Nat} {B : Finset Nat} {ib T T' w : Nat}
    (hP : PhysInv m B ib T) (hw8 : 8 ≤ w) (hwm : w % 8 = 0) (hT' : T' = T + 8 + w)
    (htop : T' + 8 ≤ 2 ^ 32) (hspan : T' < ib + 2 ^ 30 + 24)
    (hsame : ∀ z ∈ B, z ≠ T → m' z = m z ∧ m' (z + 4) = m (z + 4))
    (hTp : prev_hdr m' T = prev_hdr m T) (hTw : size m' T < 2 ^ 32) (hTs : bsz m' T = w)
    (hTf : ¬ isFree m' T) (hTpf : isPrevFree m' T ↔ isPrevFree m T)
    (hN : size m' T' = 0) :
    PhysInv m' (insert T' B) ib T' := by
  obtain ⟨c1, c2, c3, c4⟩ := used_word hN (by norm_num) (by norm_num)
  have hmem : ∀ x, x ∈ insert T' B ↔ x = T' ∨ x ∈ B := fun x => Finset.mem_insert
  have hTT : T < T' := by omega
  have hTB := hP.T_mem
  have hibT := hP.ib_lt
  have enT : nxt m' T = T' := by
    show T + 8 + bsz m' T = T'
    rw [hTs, hT']
  have hle : ∀ z ∈ B, z ≤ T := fun z hz => (hP.rng z hz).2
  have hnx : ∀ z ∈ B, z ≠ T → nxt m' z = nxt m z := fun z hz hzT =>
    (hdr_same (hsame z hz hzT)).2.2.1
  refine
    { ib_mem := (hmem _).2 (Or.inr hP.ib_mem), T_mem := (hmem _).2 (Or.inl rfl),
      ib_pos := hP.ib_pos, ib_lt := by omega, T_top := htop, span := hspan,
      rng := ?_, al := ?_, wd := ?_, nx := ?_, tm := ⟨c1, c2⟩, sn := ?_,
      tag := ?_, pd := ?_, adj := ?_ }
  · intro b hb
    rcases (hmem b).1 hb with h | h
    · rw [h]; omega
    · have := hP.rng b h; omega
  · intro b hb
    rcases (hmem b).1 hb with h | h
    · have := hP.al T hTB
      rw [h, hT']; omega
    · exact hP.al b h
  · intro b hb
    rcases (hmem b).1 hb with h | h
    · rw [h, hN, c1]; norm_num
    · by_cases hbT : b = T
      · rw [hbT, hTs]; exact ⟨hTw, hwm⟩
      · obtain ⟨e1, e2, -⟩ := hdr_same (hsame b h hbT)
        rw [e1, e2]; exact hP.wd b h
  · intro b hb hbT'
    rcases (hmem b).1 hb with h | h
    · exact absurd h hbT'
    · by_cases hbT : b = T
      · rw [hbT, hTs, enT]
        refine ⟨hw8, (hmem _).2 (Or.inl rfl), fun c hc hlt => ?_⟩
        rcases (hmem c).1 hc with h' | h'
        · rw [h']
        · have := hle c h'; omega
      · obtain ⟨-, e2, e3, -⟩ := hdr_same (hsame b h hbT)
        obtain ⟨n1, n2, n3⟩ := hP.nx b h hbT
        rw [e2, e3]
        refine ⟨n1, (hmem _).2 (Or.inr n2), fun c hc hlt => ?_⟩
        rcases (hmem c).1 hc with h' | h'
        · have := hle _ n2; omega
        · exact n3 c h' hlt
  · obtain ⟨-, e2, -, e4, e5, -⟩ := hdr_same (hsame ib hP.ib_mem (by omega))
    rw [e2, e4, e5]; exact hP.sn
  · intro b hb hbT'
    rcases (hmem b).1 hb with h | h
    · exact absurd h hbT'
    · by_cases hbT : b = T
      · rw [hbT, enT]
        exact ⟨⟨fun x => absurd x c3, fun x => absurd x hTf⟩, fun x => absurd x hTf⟩
      · obtain ⟨-, -, e3, e4, -⟩ := hdr_same (hsame b h hbT)
        obtain ⟨-, n2, -⟩ := hP.nx b h hbT
        obtain ⟨t1, t2⟩ := hP.tag b h hbT
        rw [e3, e4]
        by_cases hnT : nxt m b = T
        · rw [hnT] at t1 t2 ⊢
          rw [hTpf, hTp]
          exact ⟨t1, t2⟩
        · obtain ⟨-, -, -, -, e5, e6⟩ := hdr_same (hsame _ n2 hnT)
          rw [e5, e6]
          exact ⟨t1, t2⟩
  · intro b hb hbi
    rcases (hmem b).1 hb with h | h
    · exact ⟨T, (hmem _).2 (Or.inr hTB), by omega, by rw [h, enT]⟩
    · obtain ⟨c, hc, hcT, hcn⟩ := hP.pd b h hbi
      refine ⟨c, (hmem _).2 (Or.inr hc), by have := hle c hc; omega, ?_⟩
      rw [hnx c hc hcT]; exact hcn
  · intro b hb
    rcases (hmem b).1 hb with h | h
    · rw [h]; exact fun x => c2 x.1
    · by_cases hbT : b = T
      · rw [hbT]; exact fun x => hTf x.1
      · obtain ⟨-, -, -, e4, e5, -⟩ := hdr_same (hsame b h hbT)
        rw [e4, e5]; exact hP.adj b h

end TLSF

namespace TLSF

/-! ## `add_new_area` on an area that follows the pool -/

theorem add_new_area_loop_done (fuel : Nat) (v : AreaLoop) (h : v.ptr = 0) :
    add_new_area_loop (fuel + 1) v = some v := by
  rw [add_new_area_loop]
  exact if_pos h

/-- One turn of the loop of `add_new_area` on the area record `ptr`, the head of the
list, whose area ends right before the new area: the terminator `lb1` of that area
becomes a used block that spans the new area, and the record leaves the list. -/
theorem add_new_area_loop_high (fuel : Nat) (t : tlsf_t) (m : Nat → Nat)
    (p ptr pp ib0 b0 lb0 ib1 lb1 W NB : Nat)
    (hptr : ptr ≠ 0) (hib1 : sub32 ptr BHDR_OVERHEAD = ib1) (hend : m ptr = lb1)
    (hnot : ib1 ≠ add32 lb0 BHDR_OVERHEAD) (hadj : buffer lb1 = ib0)
    (hhead : t.area_head = ptr)
    (hW : ROUNDDOWN_SIZE (add32 (add32 (m (b0 + 4) &&& BLOCK_SIZE) (m (ib0 + 4) &&& BLOCK_SIZE))
      (2 * BHDR_OVERHEAD)) ||| USED_BLOCK ||| (m (lb1 + 4) &&& PREV_STATE) = W)
    (hNB : GET_NEXT_BLOCK (buffer lb1) (W &&& BLOCK_SIZE) = NB) :
    add_new_area_loop (fuel + 1)
        { s := { tlsf := t, mem := m, mp := p }, ptr := ptr, ptr_prev := pp, ib0 := ib0,
          b0 := b0, lb0 := lb0 } =
      add_new_area_loop fuel
        { s := { tlsf := { t with area_head := m (ptr + 4) },
                 mem := store (store m (lb1 + 4) W) NB lb1, mp := p },
          ptr := m (ptr + 4), ptr_prev := pp, ib0 := ib1, b0 := lb1, lb0 := lb0 } := by
  rw [add_new_area_loop]
  dsimp only
  rw [if_neg hptr, hib1]
  unfold ai_end
  rw [hend, if_neg hnot, if_pos hadj]
  unfold unlink_area
  dsimp only
  rw [if_pos hhead]
  unfold ai_next set_size set_prev_hdr size
  dsimp only
  rw [hW, store_eq, hNB]

/-- The state in which `add_new_area` calls `free_ex`, when the new area of `n` bytes
starts right after the terminator `T` of the only area of the pool: the old terminator
is a used block that spans the new area up to the new terminator `T + n`, and the
record of the old area names the new terminator as its end. -/
theorem add_new_area_eval {hw : Intrinsics} {s : State} {ib T n : Nat} (f : Nat)
    (hib : 0 < ib) (hibT : ib + 16 ≤ T) (hfit : T + 8 + n ≤ 2 ^ 32)
    (hn8 : n % 8 = 0) (hn32 : 32 ≤ n)
    (hhead : s.tlsf.area_head = ib + 8) (hend : s.mem (ib + 8) = T)
    (hnext : s.mem (ib + 12) = 0) (hsT : s.mem (T + 4) = 2) :
    ∃ m4 : Nat → Nat,
      (∀ a, a < T + 4 → a ≠ ib + 8 → a ≠ ib + 12 → m4 a = s.mem a) ∧
      m4 (ib + 8) = T + n ∧ m4 (ib + 12) = 0 ∧ m4 (T + 4) = n - 6 ∧
      m4 (T + n) = T ∧ m4 (T + n + 4) = 2 ∧
      add_new_area hw (f + 2) (T + 8) n s =
        (free_ex hw (T + 8)
          { tlsf := { s.tlsf with area_head := ib + 8 }, mem := m4, mp := s.mp }).map
          fun s5 => (size s5.mem T &&& BLOCK_SIZE, s5) := by
  obtain ⟨E, hE⟩ : ∃ E, E = T + 8 := ⟨_, rfl⟩
  obtain ⟨mz, hmz⟩ : ∃ mz : Nat → Nat,
      mz = fun x => if E ≤ x ∧ x < E + n then 0 else s.mem x := ⟨_, rfl⟩
  have hpa := @process_area_eval E n { s with mem := mz } hn8 hn32
    (by clear * - hE; omega) (by clear * - hE hfit; omega)
  obtain ⟨M8, hM8⟩ : ∃ M8, M8 = store (store (store (store (store (store (store (store mz
      (E + 4) 8) (E + 20) (n - 32)) (E + 28) 0) (E + 24) 0) (E + n - 8) (E + 16))
      (E + n - 4) 2) (E + 12) 0) (E + 8) (E + n - 8) := ⟨_, rfl⟩
  have hpa' : process_area E n { tlsf := s.tlsf, mem := mz, mp := s.mp } =
      (E, { tlsf := s.tlsf, mem := M8, mp := s.mp }) := by
    rw [hM8]; exact hpa
  have rlow : ∀ a, a < E → M8 a = s.mem a := by
    intro a ha
    rw [hM8, store_ne (by clear * - ha hn32; omega), store_ne (by clear * - ha hn32; omega),
      store_ne (by clear * - ha hn32; omega), store_ne (by clear * - ha hn32; omega),
      store_ne (by clear * - ha hn32; omega), store_ne (by clear * - ha hn32; omega),
      store_ne (by clear * - ha hn32; omega), store_ne (by clear * - ha hn32; omega), hmz]
    exact if_neg (by clear * - ha; omega)
  have r1 : M8 (E + 4) = 8 := by
    rw [hM8, store_ne (by clear * - hn32; omega), store_ne (by clear * - hn32; omega),
      store_ne (by clear * - hn32; omega), store_ne (by clear * - hn32; omega),
      store_ne (by clear * - hn32; omega), store_ne (by clear * - hn32; omega),
      store_ne (by clear * - hn32; omega), store_eq]
  have r2 : M8 (E + 16 + 4) = n - 32 := by
    rw [hM8, store_ne (by clear * - hn32; omega), store_ne (by clear * - hn32; omega),
      store_ne (by clear * - hn32; omega), store_ne (by clear * - hn32; omega),
      store_ne (by clear * - hn32; omega), store_ne (by clear * - hn32; omega), store_eq]
  have r3 : M8 (E + n - 4) = 2 := by
    rw [hM8, store_ne (by clear * - hn32; omega), store_ne (by clear * - hn32; omega),
      store_eq]
  have h8b : (8 : Nat) &&& BLOCK_SIZE = 8 := by decide
  have hnb : (n - 32) &&& BLOCK_SIZE = n - 32 := by
    rw [and_BLOCK_SIZE _ (by clear * - hfit; omega)]; clear * - hn8; omega
  have hb0 : GET_NEXT_BLOCK (buffer E) 8 = E + 16 :=
    GET_NEXT_BLOCK_eq rfl (by clear * - hE hfit hn32; omega)
  have hlb0 : GET_NEXT_BLOCK (buffer (E + 16)) (n - 32) = T + n :=
    GET_NEXT_BLOCK_eq (by clear * - hn32 hE; omega) (by clear * - hE hfit hn32; omega)
  have hstart : add_new_area_start E n s =
      { s := { tlsf := s.tlsf, mem := M8, mp := s.mp }, ptr := ib + 8, ptr_prev := 0, ib0 := E,
        b0 := E + 16, lb0 := T + n } := by
    unfold add_new_area_start
    dsimp only
    rw [← hmz, hpa']
    dsimp only
    unfold size
    rw [r1, h8b, hb0, r2, hnb, hlb0, hhead]
  -- the turn of the loop
  have e1 : sub32 (ib + 8) BHDR_OVERHEAD = ib := by
    show sub32 (ib + 8) 8 = ib
    rw [sub32_eq (by clear * -; omega) (by clear * - hibT hfit; omega)]
    clear * -; omega
  have e2 : M8 (ib + 8) = T := by
    rw [rlow _ (by clear * - hE hibT; omega)]; exact hend
  have e3 : ib ≠ add32 (T + n) BHDR_OVERHEAD := by
    show ib ≠ (T + n + 8) % 2 ^ 32
    by_cases h : T + n + 8 = 2 ^ 32
    · rw [h]
      norm_num
      clear * - hib; omega
    · rw [Nat.mod_eq_of_lt (by clear * - h hfit; omega)]
      clear * - hibT; omega
  have e4 : buffer T = E := by rw [hE]; exact buffer_eq (by clear * - hfit hn32; omega)
  have e5 : M8 (ib + 8 + 4) = 0 := by
    rw [rlow _ (by clear * - hE hibT; omega)]; exact hnext
  have e6 : M8 (T + 4) = 2 := by
    rw [rlow _ (by clear * - hE; omega)]; exact hsT
  have eW : ROUNDDOWN_SIZE (add32 (add32 (M8 (E + 16 + 4) &&& BLOCK_SIZE)
      (M8 (E + 4) &&& BLOCK_SIZE)) (2 * BHDR_OVERHEAD)) ||| USED_BLOCK |||
        (M8 (T + 4) &&& PREV_STATE) = n - 6 := by
    rw [r1, r2, e6, h8b, hnb]
    have a1 : add32 (add32 (n - 32) 8) (2 * BHDR_OVERHEAD) = n - 8 := by
      show (((n - 32) + 8) % 2 ^ 32 + 16) % 2 ^ 32 = n - 8
      clear * - hn32 hfit
      omega
    have a2 : (2 : Nat) &&& PREV_STATE = 2 := by decide
    rw [a1, a2, ROUNDDOWN_SIZE_eq _ (by clear * - hfit; omega)]
    unfold USED_BLOCK
    rw [Nat.or_zero, or_two]
    clear * - hn8 hn32
    omega
  have eN : GET_NEXT_BLOCK (buffer T) ((n - 6) &&& BLOCK_SIZE) = T + n := by
    rw [and_BLOCK_SIZE _ (by clear * - hfit; omega)]
    exact GET_NEXT_BLOCK_eq (by clear * - hn8 hn32; omega) (by clear * - hfit; omega)
  obtain ⟨m4, hm4⟩ : ∃ m4, m4 = store (store (store (store M8 (T + 4) (n - 6)) (T + n) T)
      (ib + 8 + 4) 0) (ib + 8) (T + n) := ⟨_, rfl⟩
  refine ⟨m4, ?_, ?_, ?_, ?_, ?_, ?_, ?_⟩
  · intro a h1 h2 h3
    rw [hm4, store_ne h2, store_ne h3, store_ne (by clear * - h1 hn32; omega),
      store_ne (by clear * - h1; omega)]
    exact rlow a (by clear * - h1 hE; omega)
  · rw [hm4, store_eq]
  · rw [hm4, store_ne (by clear * -; omega), store_eq]
  · rw [hm4, store_ne (by clear * - hibT; omega), store_ne (by clear * - hibT; omega),
      store_ne (by clear * - hn32; omega), store_eq]
  · rw [hm4, store_ne (by clear * - hibT; omega), store_ne (by clear * - hibT; omega),
      store_eq]
  · rw [hm4, store_ne (by clear * - hibT; omega), store_ne (by clear * - hibT; omega),
      store_ne (by clear * -; omega), store_ne (by clear * - hn32; omega)]
    rw [show T + n + 4 = E + n - 4 by clear * - hE hn32; omega]
    exact r3
  · unfold add_new_area
    rw [← hE, hstart]
    rw [add_new_area_loop_high (f + 1) s.tlsf M8 s.mp (ib + 8) 0 E (E + 16) (T + n) ib T
      (n - 6) (T + n) (by clear * -; omega) e1 e2 e3 e4 hhead eW eN]
    rw [e5, add_new_area_loop_done f _ rfl, Option.some_bind]
    unfold add_new_area_finish
    dsimp only
    have eb : buffer ib = ib + 8 := buffer_eq (by clear * - hibT hfit; omega)
    rw [eb, e4, ← hm4]

end TLSF

namespace TLSF

/-! ## The pool after `add_new_area` -/

/-- A size at or above the start of a class lies in that class or in a class above. -/
theorem cls_ge_of_clsLo_le {i j s : Nat} (hs : s < 2 ^ 30) (h : clsLo i j ≤ s) :
    i < (cls s).1 ∨ (i = (cls s).1 ∧ j ≤ (cls s).2) := by
  by_contra hc
  have h' : (cls s).1 < i ∨ ((cls s).1 = i ∧ (cls s).2 < j) := by omega
  have h1 := cls_lt_next s
  have h2 := clsLo_succ_le (cls_lt hs).2 h'
  omega

/-- A request is served when a linked block is at least as large as the size that
`MAPPING_SEARCH` rounds the request to. -/
theorem malloc_ex_succeeds {hw : Intrinsics} (hs : ScanSpec hw) {s : State}
    {B F : Finset Nat} {ib T n x : Nat} {L : List Nat} (hI : Inv s B F ib T L)
    (hn : n ≤ MAX_REQUEST) (hx : x ∈ F)
    (hfit : (MAPPING_SEARCH hw
      (if n < MIN_BLOCK_SIZE then MIN_BLOCK_SIZE else ROUNDUP_SIZE n)).1 ≤ bsz s.mem x) :
    ∃ p s', malloc_ex hw n s = some (p, s') ∧ p ≠ 0 := by
  obtain ⟨p, s', he, -, -⟩ := malloc_ex_inv hs hI hn
  obtain ⟨q8, qm, qM, qn⟩ := request_round hn
  obtain ⟨z, hz⟩ : ∃ z, z = (if n < MIN_BLOCK_SIZE then MIN_BLOCK_SIZE else ROUNDUP_SIZE n) :=
    ⟨_, rfl⟩
  rw [← hz] at q8 qm qM qn hfit
  have hms0 := MAPPING_SEARCH_eq hs z qM
  have hms : MAPPING_SEARCH hw
      (if n < MIN_BLOCK_SIZE then MIN_BLOCK_SIZE else ROUNDUP_SIZE n) =
      ((srch z).1, (((srch z).2.1 : Nat) : Int), (((srch z).2.2 : Nat) : Int)) := by
    rw [← hz]; exact hms0
  rw [hms0] at hfit
  obtain ⟨k1, k2, k3, k4, k5, k6⟩ := srch_spec q8 qm qM
  have hcl := hI.idx.cl x hx
  have hord := cls_ge_of_clsLo_le hcl (k2 ▸ hfit)
  obtain ⟨c1, c2⟩ := cls_lt hcl
  have hl := linked_complete hI.idx hI.acyc hx
  have hsb := (hI.idx.sb _ _ c1 c2).2 hl.head_ne
  have hfb := (hI.idx.fb _ c1).2 (by
    intro h0
    rw [h0] at hsb
    simp at hsb)
  refine ⟨p, s', he, ?_⟩
  rcases FIND_cases hs hI.idx.sl hI.idx.fb hI.idx.fl k3 k4 with
    ⟨k, hk, hjk, hb, hmin, hf, hne, hscan⟩ | ⟨hrow, hfl0, ⟨fl1, hf⟩, hscan⟩ |
    ⟨hrow, k, k2', hik, hk24, hk2, hb1, hminf, hb3, hmin2, hf, hne1, hne2, hscan⟩
  · exact malloc_ex_nonnull hms hf ((hI.idx.sb _ k k3 hk).1 hb) (hI.head_fits k3 hk) he
  · exfalso
    rcases hord with h | ⟨h1, h2⟩
    · rw [hfl0 _ h c1] at hfb
      exact Bool.noConfusion hfb
    · rw [← h1, hrow _ h2 c2] at hsb
      exact Bool.noConfusion hsb
  · exact malloc_ex_nonnull hms hf ((hI.idx.sb k k2' hk24 hk2).1 hb3) (hI.head_fits hk24 hk2) he

end TLSF

namespace TLSF

/-- The size word of a used block with a free predecessor. -/
theorem word_used_prev {m : Nat → Nat} {b w : Nat} (h : size m b = w + 2) (hw : w % 8 = 0)
    (hlt : w + 2 < 2 ^ 32) :
    bsz m b = w ∧ ¬ isFree m b ∧ isPrevFree m b := by
  have e : bsz m b = w := by rw [bsz_eq (by rw [h]; exact hlt), h]; omega
  refine ⟨e, ?_, ?_⟩
  · rw [isFree_iff, h]; omega
  · rw [isPrevFree_iff, h]; omega

/-- The function `add_new_area` on a fresh pool and an area of `n` bytes that starts at
the end of the terminator: the usable block of the pool grows by `n` bytes, the pool
keeps one area, whose record names the new terminator, and `n - 8` is returned. -/
theorem add_area_post {hw : Intrinsics} (hs : ScanSpec hw) {s : State} {ib S n : Nat}
    (f : Nat) (hI : Inv s {ib, ib + 16, ib + 24 + S} {ib + 16} ib (ib + 24 + S) [])
    (hfree : isFree s.mem (ib + 16)) (hS : bsz s.mem (ib + 16) = S)
    (hhead : s.tlsf.area_head = ib + 8) (hend : s.mem (ib + 8) = ib + 24 + S)
    (hnext : s.mem (ib + 12) = 0)
    (hn8 : n % 8 = 0) (hn32 : 32 ≤ n) (hfit : ib + 32 + S + n ≤ 2 ^ 32)
    (hsmall : S + n < 2 ^ 30) :
    ∃ s5, add_new_area hw (f + 2) (ib + 32 + S) n s = some (n - 8, s5) ∧
      Inv s5 {ib, ib + 16, ib + 24 + S + n} {ib + 16} ib (ib + 24 + S + n) [] ∧
      isFree s5.mem (ib + 16) ∧ bsz s5.mem (ib + 16) = S + n ∧
      s5.tlsf.area_head = ib + 8 ∧ s5.mem (ib + 8) = ib + 24 + S + n ∧
      s5.mem (ib + 12) = 0 := by
  have hP := hI.phys
  have hib := hP.ib_pos
  obtain ⟨T, hT⟩ : ∃ T, T = ib + 24 + S := ⟨_, rfl⟩
  rw [← hT] at hI hP hend
  have hmemB : ∀ x, x ∈ ({ib, ib + 16, T} : Finset Nat) ↔ x = ib ∨ x = ib + 16 ∨ x = T := by
    intro x; simp only [Finset.mem_insert, Finset.mem_singleton]
  have hbB : ib + 16 ∈ ({ib, ib + 16, T} : Finset Nat) := (hmemB _).2 (Or.inr (Or.inl rfl))
  have hbT : ib + 16 ≠ T := (hP.free_ne hfree).1
  have hS8 := (hP.nx _ hbB hbT).1
  rw [hS] at hS8
  have hnT : nxt s.mem (ib + 16) = T := by
    show ib + 16 + 8 + bsz s.mem (ib + 16) = T
    rw [hS, hT]
  have htag := (hP.tag _ hbB hbT)
  rw [hnT] at htag
  have hTpf : isPrevFree s.mem T := htag.1.2 hfree
  have hTprev : prev_hdr s.mem T = ib + 16 := htag.2 hfree
  have hTw := (hP.wd T hP.T_mem).1
  have hsT : s.mem (T + 4) = 2 := by
    have h1 := hP.tm.1
    have h2 := hP.tm.2
    rw [bsz_eq hTw] at h1
    rw [isFree_iff] at h2
    rw [isPrevFree_iff] at hTpf
    show size s.mem T = 2
    clear * - h1 h2 hTpf
    omega
  have hE : ib + 32 + S = T + 8 := by clear * - hT; omega
  rw [hE]
  obtain ⟨m4, f1, f2, f3, f4, f5, f6, hev⟩ := @add_new_area_eval hw s ib T n f hib
    (by clear * - hT; omega) (by clear * - hT hfit; omega) hn8 hn32 hhead hend hnext hsT
  rw [hev]
  obtain ⟨T', hT'⟩ : ∃ T', T' = T + n := ⟨_, rfl⟩
  rw [← hT'] at f2 f5 f6
  have hTn : ib + 24 + S + n = T' := by clear * - hT hT'; omega
  rw [hTn]
  obtain ⟨s4, hs4⟩ : ∃ s4 : State, s4 =
      { tlsf := { s.tlsf with area_head := ib + 8 }, mem := m4, mp := s.mp } := ⟨_, rfl⟩
  rw [← hs4]
  have hs4m : s4.mem = m4 := by rw [hs4]
  obtain ⟨m0, hm0⟩ : ∃ m0, m0 = store m4 (T' + 4) 0 := ⟨_, rfl⟩
  -- the words of the blocks of the pool are those before the call
  have hlow : ∀ z ∈ ({ib, ib + 16, T} : Finset Nat), z ≠ T →
      m0 z = s.mem z ∧ m0 (z + 4) = s.mem (z + 4) ∧ m4 z = s.mem z ∧
      m4 (z + 4) = s.mem (z + 4) := by
    intro z hz hzT
    have hz' : z = ib ∨ z = ib + 16 := by
      rcases (hmemB z).1 hz with h | h | h
      · exact Or.inl h
      · exact Or.inr h
      · exact absurd h hzT
    have a1 : m4 z = s.mem z :=
      f1 z (by clear * - hz' hT; omega) (by clear * - hz'; omega) (by clear * - hz'; omega)
    have a2 : m4 (z + 4) = s.mem (z + 4) :=
      f1 _ (by clear * - hz' hT; omega) (by clear * - hz'; omega) (by clear * - hz'; omega)
    rw [hm0, store_ne (by clear * - hz' hT hT'; omega), store_ne (by clear * - hz' hT hT'; omega)]
    exact ⟨a1, a2, a1, a2⟩
  have hT0 : m0 T = s.mem T := by
    rw [hm0, store_ne (by clear * - hT'; omega)]
    exact f1 T (by clear * -; omega) (by clear * - hT; omega) (by clear * - hT; omega)
  have hT4 : size m0 T = (n - 8) + 2 := by
    show m0 (T + 4) = n - 8 + 2
    rw [hm0, store_ne (by clear * - hT' hn32; omega), f4]
    clear * - hn32; omega
  obtain ⟨w1, w2, w3⟩ := word_used_prev hT4 (by clear * - hn8 hn32; omega)
    (by clear * - hfit; omega)
  have hN0 : size m0 T' = 0 := by
    show m0 (T' + 4) = 0
    rw [hm0, store_eq]
  have hP4 : PhysInv m0 (insert T' {ib, ib + 16, T}) ib T' :=
    PhysInv_extend hP (by clear * - hn32; omega) (by clear * - hn8 hn32; omega)
      (by clear * - hT' hn32; omega) (by clear * - hT' hT hfit; omega)
      (by clear * - hT' hT hsmall; omega)
      (fun z hz hzT => ⟨(hlow z hz hzT).1, (hlow z hz hzT).2.1⟩) hT0
      (by rw [hT4]; clear * - hfit; omega) w1 w2 ⟨fun _ => hTpf, fun _ => w3⟩ hN0
  obtain ⟨c1, c2, c3, c4⟩ := used_word hN0 (by norm_num) (by norm_num)
  have hmem4 : ∀ x, x ∈ insert T' ({ib, ib + 16, T} : Finset Nat) ↔
      x = T' ∨ x = ib ∨ x = ib + 16 ∨ x = T := by
    intro x; simp only [Finset.mem_insert, Finset.mem_singleton]
  have hnT4 : nxt m0 T = T' := by
    show T + 8 + bsz m0 T = T'
    rw [w1, hT']; clear * - hn32; omega
  have hfb0 : isFree m0 (ib + 16) := (hdr_same ⟨(hlow _ hbB hbT).1, (hlow _ hbB hbT).2.1⟩).2.2.2.1.2 hfree
  have hfi0 : ¬ isFree m0 ib := hP4.sn.2.1
  have hF : ∀ y ∈ ({ib + 16} : Finset Nat), y = ib + 16 := fun y hy => Finset.mem_singleton.1 hy
  have hrdF : ∀ a, a = ib + 16 + 4 ∨ a = ib + 16 + 8 ∨ a = ib + 16 + 12 → m4 a = s.mem a := by
    intro a ha
    exact f1 a (by clear * - ha hT hS8; omega) (by clear * - ha; omega) (by clear * - ha; omega)
  have hC : FreePre m0 (insert T' {ib, ib + 16, T}) {ib + 16} ib T' T s4 :=
    { phys := hP4,
      idx := by
        rw [hs4]
        refine IdxInv_frame hI.idx ?_ ?_ ?_ rfl rfl rfl
        · intro y hy; rw [hF y hy]; exact bsz_frame (hrdF _ (Or.inl rfl))
        · intro y hy; rw [hF y hy]; exact hrdF _ (Or.inr (Or.inl rfl))
        · intro y hy; rw [hF y hy]; exact hrdF _ (Or.inr (Or.inr rfl)),
      acyc := by
        rw [hs4m]
        refine Acyc_frame hI.acyc ?_
        intro y hy; rw [hF y hy]; exact hrdF _ (Or.inr (Or.inl rfl)),
      link := by
        intro x
        rw [Finset.mem_singleton]
        constructor
        · intro hx; rw [hx]; exact ⟨(hmem4 _).2 (Or.inr (Or.inr (Or.inl rfl))), hfb0⟩
        · rintro ⟨hx, hf⟩
          rcases (hmem4 x).1 hx with h | h | h | h
          · exact absurd (h ▸ hf) c2
          · exact absurd (h ▸ hf) hfi0
          · exact h
          · exact absurd (h ▸ hf) w2,
      b_mem := (hmem4 _).2 (Or.inr (Or.inr (Or.inr rfl))),
      b_ib := by clear * - hT; omega, b_T := by clear * - hT' hn32; omega,
      b_used := w2,
      same := by
        intro z hz hzN
        rw [hnT4] at hzN
        rw [hs4m, hm0]
        have hz' : z = ib ∨ z = ib + 16 ∨ z = T := by
          rcases (hmem4 z).1 hz with h | h
          · exact absurd h hzN
          · exact h
        rw [store_ne (by clear * - hz' hT hT' hn32; omega),
          store_ne (by clear * - hz' hT hT' hn32; omega)]
        exact ⟨rfl, rfl⟩,
      nn_word := by
        rw [hnT4, hs4m]
        show m4 (T' + 4) < 2 ^ 32
        rw [f6]; norm_num,
      nn_sz := by
        rw [hnT4, c1, hs4m, bsz_eq (by show m4 (T' + 4) < 2 ^ 32; rw [f6]; norm_num)]
        show m4 (T' + 4) / 4 * 4 = 0
        rw [f6],
      nn_free := by
        rw [hnT4, hs4m, isFree_iff]
        constructor
        · intro h
          exfalso
          have : m4 (T' + 4) % 2 = 1 := h
          rw [f6] at this
          exact absurd this (by norm_num)
        · intro h; exact absurd h c2,
      frame := by
        intro a ha
        have := ha T' ((hmem4 _).2 (Or.inl rfl)) (by clear * - hT hT'; omega)
        rw [hs4m, hm0, store_ne (by clear * - this; omega)] }
  obtain ⟨s5, lo, NN, hfe, hR⟩ := free_ex_core hs hC
  have hNN : NN = T' := by
    rcases hR.hi with h | h
    · rw [h.2, hnT4]
    · rw [hnT4] at h; exact absurd h.1 c2
  have hlo : lo = ib + 16 := by
    rcases hR.low with h | h
    · exact absurd w3 h.1
    · obtain ⟨-, hlf, hln⟩ := h
      rcases (hmem4 lo).1 hR.lo_mem with e | e | e | e
      · exact absurd (e ▸ hlf) c2
      · exact absurd (e ▸ hlf) hfi0
      · exact e
      · exact absurd (e ▸ hlf) w2
  have hph := hR.phys
  have hix := hR.idx
  have hac := hR.acyc
  have hsz := hR.sz
  have hfr := hR.free
  have hkeep := hR.keep
  rw [hlo, hNN] at hph hix hac hsz
  rw [hlo] at hfr
  rw [hNN] at hkeep
  have fB : (insert T' ({ib, ib + 16, T} : Finset Nat)).filter (fun z => z ≤ ib + 16 ∨ T' ≤ z) =
      {ib, ib + 16, T'} := by
    ext x
    rw [Finset.mem_filter, hmem4]
    simp only [Finset.mem_insert, Finset.mem_singleton]
    clear * - hT hT' hS8 hn32
    omega
  have fF : insert (ib + 16) (({ib + 16} : Finset Nat).filter (fun x => x < ib + 16 ∨ T' ≤ x)) =
      {ib + 16} := by
    ext x
    rw [Finset.mem_insert, Finset.mem_filter, Finset.mem_singleton]
    clear * -
    tauto
  rw [fB] at hph
  rw [fF] at hix hac
  have hmem5 : ∀ x, x ∈ ({ib, ib + 16, T'} : Finset Nat) ↔ x = ib ∨ x = ib + 16 ∨ x = T' := by
    intro x; simp only [Finset.mem_insert, Finset.mem_singleton]
  have hfar : ∀ a, a = ib + 8 ∨ a = ib + 12 → s5.mem a = m4 a := by
    intro a ha
    rw [hR.frame a]
    · rw [hm0, store_ne (by clear * - ha hT hT'; omega)]
    · intro z hz hzi
      have : ib + 16 ≤ z := by
        rcases (hmem4 z).1 hz with h | h | h | h
        · clear * - h hT hT'; omega
        · exact absurd h hzi
        · clear * - h; omega
        · clear * - h hT; omega
      clear * - this ha
      omega
  refine ⟨s5, ?_, ?_, hfr, ?_, ?_, ?_, ?_⟩
  · rw [hfe]
    show some (bsz s5.mem T, s5) = _
    rw [hkeep]
    congr 2
    clear * - hT' hn32
    omega
  · exact
      { phys := hph, idx := hix, acyc := hac,
        link := by
          intro x
          rw [Finset.mem_singleton]
          constructor
          · intro hx; rw [hx]; exact ⟨(hmem5 _).2 (Or.inr (Or.inl rfl)), hfr⟩
          · rintro ⟨hx, hf⟩
            rcases (hmem5 x).1 hx with h | h | h
            · exact absurd (h ▸ hf) hph.sn.2.1
            · exact h
            · exact absurd (h ▸ hf) hph.tm.2,
        live := by
          intro p
          constructor
          · intro h; exact absurd h (List.not_mem_nil p)
          · rintro ⟨b, hb, hbi, hbT', hbu, -⟩
            rcases (hmem5 b).1 hb with h | h | h
            · exact absurd h hbi
            · exact absurd (h ▸ hfr) hbu
            · exact absurd h hbT',
        nodup := List.nodup_nil,
        used := by rw [hR.used]; exact sub32_lt _ _ }
  · rw [hsz]; clear * - hT hT'; omega
  · rw [hR.area, hs4]
  · rw [hfar _ (Or.inl rfl)]; exact f2
  · rw [hfar _ (Or.inr rfl)]; exact f3

end TLSF

namespace TLSF

/-- C10, as stated, fails in three ways. On the fresh 64 KiB pool `add_new_area` of the
24 bytes behind the region returns 24, not `24 - BHDR_OVERHEAD`. On a pool of 65540
bytes, a size that is not a multiple of 8, `add_new_area` of the 16 KiB behind the
region returns 16352 and leaves two areas in the list: the head record
`poolBase + 65548` has the successor `poolBase + 3200`. On a pool of 3256 bytes
`add_new_area` of the 16400 bytes behind the region returns 16392 and leaves one free
block of 16432 bytes, and `malloc_ex(16392)` returns `NULL`: the search rounds the
request to 16896. -/
theorem add_new_area_no_merge :
    ((init_memory_pool specScan 65536 poolBase zeroState).bind fun i =>
      (add_new_area specScan 2 (poolBase + 65536) 24 i.2).map fun a => a.1) = some 24 ∧
    ((init_memory_pool specScan 65540 poolBase zeroState).bind fun i =>
      (add_new_area specScan 2 (poolBase + 65540) 16384 i.2).map fun a =>
        (a.1, a.2.tlsf.area_head, ai_next a.2.mem a.2.tlsf.area_head)) =
      some (16352, poolBase + 65548, poolBase + 3200) ∧
    ((init_memory_pool specScan 3256 poolBase zeroState).bind fun i =>
      (add_new_area specScan 2 (poolBase + 3256) 16400 i.2).bind fun a =>
        (malloc_ex specScan a.1 a.2).map fun p =>
          (a.1, bsz a.2.mem (poolBase + 3208), (MAPPING_SEARCH specScan a.1).1, p.1)) =
      some (16392, 16432, 16896, 0) :=
  ⟨rfl, rfl, rfl⟩

/-- C10, amended. Add-area adjacency: for a region of `M` bytes that `init_memory_pool`
accepts and formats, with `M` a multiple of 8, and a new area of `n` bytes that starts
at the end of the region, `n` a multiple of 8 and at least 32, inside the address space
and with `S0 + n < 2 ^ 30` for the usable size `S0` of the fresh pool, `add_new_area`
returns `n - BHDR_OVERHEAD`; afterwards the area list has one entry, whose end is the
terminator in the last 8 bytes of the new area; the walk from the sentinel meets the
sentinel, one free block of `S0 + n` bytes and that terminator; and `malloc_ex` of the
returned size succeeds when the size is at most `MAX_REQUEST` and the size that
`MAPPING_SEARCH` rounds it to is at most `S0 + n`. -/
theorem add_new_area_merges {hw : Intrinsics} (hs : ScanSpec hw) (M mp n f : Nat)
    (s0 : State) (h0 : InitOk M mp s0) (hM : M % 8 = 0) (hn8 : n % 8 = 0) (hn32 : 32 ≤ n)
    (hfit : mp + M + n ≤ 2 ^ 32) (hsmall : poolS0 M + n < 2 ^ 30) :
    ∃ s1 s2, init_memory_pool hw M mp s0 = some (poolS0 M, s1) ∧
      add_new_area hw (f + 2) (mp + M) n s1 = some (n - BHDR_OVERHEAD, s2) ∧
      s2.tlsf.area_head = buffer (poolIb mp) ∧ ai_next s2.mem s2.tlsf.area_head = 0 ∧
      ai_end s2.mem s2.tlsf.area_head = mp + M + n - 8 ∧
      walk s2.mem (mp + M + n - 8) 3 (poolIb mp) =
        [poolIb mp, poolIb mp + 16, mp + M + n - 8] ∧
      ¬ isFree s2.mem (poolIb mp) ∧ isFree s2.mem (poolIb mp + 16) ∧
      ¬ isFree s2.mem (mp + M + n - 8) ∧ bsz s2.mem (poolIb mp + 16) = poolS0 M + n ∧
      (n - BHDR_OVERHEAD ≤ MAX_REQUEST →
        (MAPPING_SEARCH hw (n - BHDR_OVERHEAD)).1 ≤ poolS0 M + n →
        ∃ p s3, malloc_ex hw (n - BHDR_OVERHEAD) s2 = some (p, s3) ∧ p ≠ 0) := by
  obtain ⟨n1, n2, n3⟩ := h0.nums
  have hbig : 3252 ≤ M := h0.big
  obtain ⟨s1, hi, hI1, hf1, hb1, -, -, -, a1, a2, a3, -⟩ := init_memory_pool_inv hs h0
  rw [n2] at hsmall
  rw [n1, n2]
  obtain ⟨ib, hib⟩ : ∃ ib, ib = mp + 3192 := ⟨_, rfl⟩
  obtain ⟨S, hS⟩ : ∃ S, S = (M - 3188) / 8 * 8 - 32 := ⟨_, rfl⟩
  rw [← hS] at hi hI1 hb1 a2 hsmall
  rw [← hS, ← hib]
  rw [← hib] at hI1 hf1 hb1 a1 a2 a3
  have hSM : S = M - 3224 := by clear * - hS hM hbig; omega
  have hE : mp + M = ib + 32 + S := by clear * - hib hSM hbig; omega
  obtain ⟨s5, hadd, hI5, hfr5, hsz5, b1, b2, b3⟩ := @add_area_post hw hs s1 ib S n f hI1 hf1
    hb1 a1 a2 a3 hn8 hn32 (by rw [← hE]; exact hfit) hsmall
  have hT' : mp + M + n - 8 = ib + 24 + S + n := by clear * - hE; omega
  have h8 : BHDR_OVERHEAD = 8 := rfl
  rw [hT', h8, hE]
  have hP := hI5.phys
  have hTt := hP.T_top
  have hS8 : 8 ≤ S := by clear * - hSM hbig; omega
  have hbuf : buffer ib = ib + 8 := buffer_eq (by clear * - hTt; omega)
  rw [hbuf]
  refine ⟨s1, s5, hi, hadd, b1, ?_, ?_, ?_, hP.sn.2.1, hfr5, hP.tm.2, hsz5, ?_⟩
  · unfold ai_next; rw [b1]; exact b3
  · unfold ai_end; rw [b1]; exact b2
  · have g1 : GET_NEXT_BLOCK (buffer ib) (bsz s5.mem ib) = ib + 16 := by
      rw [hP.sn.1]
      exact GET_NEXT_BLOCK_eq rfl (by clear * - hTt; omega)
    have g2 : GET_NEXT_BLOCK (buffer (ib + 16)) (bsz s5.mem (ib + 16)) = ib + 24 + S + n := by
      rw [hsz5]
      exact GET_NEXT_BLOCK_eq (by clear * -; omega) (by clear * - hTt; omega)
    rw [walk_succ, if_neg (by clear * -; omega), g1, walk_succ,
      if_neg (by clear * - hS8; omega), g2, walk_succ, if_pos (le_refl _)]
  · intro hr hfit2
    have hz : (if n - 8 < MIN_BLOCK_SIZE then MIN_BLOCK_SIZE else ROUNDUP_SIZE (n - 8)) = n - 8 := by
      rw [if_neg (by show ¬ n - 8 < 8; clear * - hn32; omega), ROUNDUP_SIZE_eq]
      clear * - hn8 hn32 hfit
      omega
    exact malloc_ex_succeeds hs hI5 hr (Finset.mem_singleton_self _)
      (by rw [hz, hsz5]; exact hfit2)

theorem add_new_area_merges_witness :
    ∃ s1 s2, init_memory_pool specScan 65536 poolBase zeroState = some (poolS0 65536, s1) ∧
      add_new_area specScan (0 + 2) (poolBase + 65536) 16384 s1 =
        some (16384 - BHDR_OVERHEAD, s2) ∧
      s2.tlsf.area_head = buffer (poolIb poolBase) ∧ ai_next s2.mem s2.tlsf.area_head = 0 ∧
      ai_end s2.mem s2.tlsf.area_head = poolBase + 65536 + 16384 - 8 ∧
      walk s2.mem (poolBase + 65536 + 16384 - 8) 3 (poolIb poolBase) =
        [poolIb poolBase, poolIb poolBase + 16, poolBase + 65536 + 16384 - 8] ∧
      ¬ isFree s2.mem (poolIb poolBase) ∧ isFree s2.mem (poolIb poolBase + 16) ∧
      ¬ isFree s2.mem (poolBase + 65536 + 16384 - 8) ∧
      bsz s2.mem (poolIb poolBase + 16) = poolS0 65536 + 16384 ∧
      (16384 - BHDR_OVERHEAD ≤ MAX_REQUEST →
        (MAPPING_SEARCH specScan (16384 - BHDR_OVERHEAD)).1 ≤ poolS0 65536 + 16384 →
        ∃ p s3, malloc_ex specScan (16384 - BHDR_OVERHEAD) s2 = some (p, s3) ∧ p ≠ 0) :=
  add_new_area_merges specScan_ok 65536 poolBase 16384 0 zeroState initOk64k (by decide)
    (by decide) (by decide) (by decide) (by decide)

end TLSF

namespace TLSF

/-! ## The extent of the area of `init_memory_pool`, and the bounds of the mappings -/

theorem initOk3252 : InitOk 3252 poolBase zeroState :=
  { nonnull := by decide, aligned := by decide, big := by decide, fits := by decide,
    small := by decide, nosig := by decide,
    clean := ⟨fun _ _ _ _ => rfl, fun _ _ => rfl, rfl⟩ }

/-- C21, on the code. For a region of `M` bytes that `init_memory_pool` accepts and
formats, with `M % 8 >= 4`, the area handed to `process_area` starts at
`ROUNDUP_SIZE(sizeof(tlsf_t))` and has `ROUNDDOWN_SIZE(M - sizeof(tlsf_t))` bytes, which
together are `M + 8 - M % 8 > M`: the terminator header that the area record names as
its end finishes `8 - M % 8` bytes behind the end of the region, and its size word,
written by `process_area` and `free_ex`, holds 2 after the call. -/
theorem init_area_beyond_region {hw : Intrinsics} (hs : ScanSpec hw) (M mp : Nat)
    (s0 : State) (h0 : InitOk M mp s0) (hM : 4 ≤ M % 8) :
    ROUNDUP_SIZE sizeof_tlsf_t + ROUNDDOWN_SIZE (M - sizeof_tlsf_t) = M + 8 - M % 8 ∧
      M < ROUNDUP_SIZE sizeof_tlsf_t + ROUNDDOWN_SIZE (M - sizeof_tlsf_t) ∧
      ∃ r s, init_memory_pool hw M mp s0 = some (r, s) ∧
        ai_end s.mem s.tlsf.area_head = poolT M mp ∧
        poolT M mp + BHDR_OVERHEAD = mp + (M + 8 - M % 8) ∧
        mp + M < poolT M mp + BHDR_OVERHEAD ∧ size s.mem (poolT M mp) = 2 := by
  obtain ⟨n1, n2, n3⟩ := h0.nums
  have hbig : 3252 ≤ M := h0.big
  have hfits := h0.fits
  have e1 : ROUNDUP_SIZE sizeof_tlsf_t = 3192 := by decide
  have e3 : sizeof_tlsf_t = 3188 := rfl
  have e8 : BHDR_OVERHEAD = 8 := rfl
  have hsum : ROUNDUP_SIZE sizeof_tlsf_t + ROUNDDOWN_SIZE (M - sizeof_tlsf_t) = M + 8 - M % 8 := by
    rw [e1, e3, ROUNDDOWN_SIZE_eq _ (by clear * - hfits; omega)]
    clear * - hbig hM
    omega
  refine ⟨hsum, by rw [hsum]; clear * - hM; omega, ?_⟩
  obtain ⟨s, hi, hI, hf, hb, -, -, -, a1, a2, -⟩ := init_memory_pool_inv hs h0
  rw [← n3] at hI a2
  have hP := hI.phys
  have hbB : mp + 3192 + 16 ∈ ({mp + 3192, mp + 3192 + 16, poolT M mp} : Finset Nat) := by
    exact Finset.mem_insert.2 (Or.inr (Finset.mem_insert.2 (Or.inl rfl)))
  have hbT := (hP.free_ne hf).1
  have hnT : nxt s.mem (mp + 3192 + 16) = poolT M mp := by
    have e : nxt s.mem (mp + 3192 + 16) = mp + 3192 + 16 + 8 + bsz s.mem (mp + 3192 + 16) :=
      rfl
    rw [e, hb]
    clear * - n3
    omega
  have htag := hP.tag _ hbB hbT
  rw [hnT] at htag
  have hTpf := htag.1.2 hf
  have hTw := (hP.wd _ hP.T_mem).1
  have hsT : size s.mem (poolT M mp) = 2 := by
    have h1 := hP.tm.1
    have h2 := hP.tm.2
    rw [bsz_eq hTw] at h1
    rw [isFree_iff] at h2
    rw [isPrevFree_iff] at hTpf
    clear * - h1 h2 hTpf
    omega
  refine ⟨_, s, hi, ?_, ?_, ?_, hsT⟩
  · unfold ai_end; rw [a1]; exact a2
  · rw [n3, e8]; clear * - hbig hM; omega
  · rw [n3, e8]; clear * - hbig hM; omega

theorem init_area_beyond_region_witness :
    ROUNDUP_SIZE sizeof_tlsf_t + ROUNDDOWN_SIZE (3252 - sizeof_tlsf_t) = 3252 + 8 - 3252 % 8 ∧
      3252 < ROUNDUP_SIZE sizeof_tlsf_t + ROUNDDOWN_SIZE (3252 - sizeof_tlsf_t) ∧
      ∃ r s, init_memory_pool specScan 3252 poolBase zeroState = some (r, s) ∧
        ai_end s.mem s.tlsf.area_head = poolT 3252 poolBase ∧
        poolT 3252 poolBase + BHDR_OVERHEAD = poolBase + (3252 + 8 - 3252 % 8) ∧
        poolBase + 3252 < poolT 3252 poolBase + BHDR_OVERHEAD ∧
        size s.mem (poolT 3252 poolBase) = 2 :=
  init_area_beyond_region specScan_ok 3252 poolBase zeroState initOk3252 (by decide)

end TLSF

namespace TLSF

end TLSF
